import Mathlib

/-!
# Persistent data structures: bit-partitioned vector, hash-array-mapped trie, queue, history

A shallow embedding of `array/vector.go`, `array/naive_array.go`, `hashmap/hashmap.go`,
`hashmap/naive_hashmap.go`, `hashmap/sharded_hashmap.go`, `queue/queue.go` and
`history/history.go`.

Conventions of the embedding.

* A Go pointer to a node is a value of the node type; the nil pointer is the
  constructor `nil` (for the root of a hash map, `none`).  Dereferencing nil, or
  indexing a slice out of range, makes the Go program stop with a run-time error; in
  the embedding every function that can do so returns an `Option`, and `none` stands
  for that run-time error.
* The zero value of the element type is `default`.
* Go's `int` and `uint` are 64 bits wide.  The length and the indices of a vector are
  natural numbers here: a length is only ever changed by `+ 1` and `- 1` starting from
  zero, and the subtractions `len - 1`, `len - 2` are only evaluated on lengths that are
  large enough, so no operation of the embedding truncates or wraps for lengths below
  `2 ^ 63`.  Signed indices appear where the program tests them (`Get`, `Set`).  The
  length of a hash map is an integer.
* In `hashmap/hashmap.go` the digest of a key is `uint32(h.Sum64())` of a seeded
  `maphash.Hash`.  The embedding takes the 64-bit sum as a parameter `H seed key` and
  truncates it to 32 bits, so the theorems hold for every hash function.  The recursive
  methods of the trie descend one level per call and the trie has a level for each of
  the shifts 0, 5, …, 30; the embedding gives them `maxDepth` units of fuel, one per
  level, and returns `none` when the fuel is used up.
* The namespaces `arrayHeap` and `hashmapHeap` hold the same methods with the memory of
  the program made explicit: a heap is a list of cells, a pointer is the address of a
  cell, `&T{…}` and `make` allocate a cell, and every assignment through a pointer or into
  a slice is a `store`.  A computation on a heap (`heap.M`) fails for a run-time error or
  returns a value and the new heap.  Recursive methods take a bound on the depth of the
  recursion as their first argument (the level they start from, or `maxDepth`).
  `arrayHeap.VecAt h v V` relates the two embeddings of the vector: the `Vector` struct at
  address `v` of heap `h` holds the value `V`; `arrayHeap.Reached h v` says that `v` was
  returned by `NewVector`, `Append`, `Set` or `Pop`, and every such `v` holds a reachable
  value.  Sharing is stated there: two pointers are the same when the addresses are equal.
* An iterator (`iter.Seq`, `iter.Seq2`) is a function of the consumer `yield`.  A consumer
  is embedded with its state: `yield x s` is the state after the call and the boolean the
  call returns, and an iterator applied to `yield` and a state returns the state in which
  the iteration ends.  `iter.feed yield l s` passes the elements of the list `l` to `yield`
  in order until it returns false.
* A Go map is the list of its key-value pairs, with distinct keys; the nil map of a bucket
  is `none`.  The order of the pairs has no meaning: the theorems speak of lookups and of
  the number of pairs only.
* In `hashmap.hashDyn` a key is the value `any(key)` together with its dynamic type, and
  `maphash` is a parameter: `sum64 seed bytes` is the sum of the bytes written.
* In `queue/queue.go` the linked list of a stack is a list, the nil pointer the empty list.
* The methods of `history/history.go` change their receiver; a method is embedded as a
  function from the state before the call to the state after it and the values returned.
  A slice is a list whose capacity is its length.
-/

namespace array

/-- Bits per level (`shiftStep`). -/
def shiftStep : Nat := 5

/-- Number of slots of a node (`nodeWidth`). -/
def nodeWidth : Nat := 32

/-- Mask extracting five bits (`indexMask`). -/
def indexMask : Nat := 31

/-- A `*vectorNode[T]`: either the nil pointer or a node with its two fixed-size
arrays `children [32]*vectorNode[T]` and `values [32]T`. -/
inductive vectorNode (T : Type) where
  | nil : vectorNode T
  | mk (children : Fin 32 → vectorNode T) (values : Fin 32 → T) : vectorNode T

/-- The test `node == nil`. -/
def vectorNode.isNil {T : Type} : vectorNode T → Bool
  | vectorNode.nil => true
  | vectorNode.mk _ _ => false

/-- The array slot `n & indexMask`. -/
def slot (n : Nat) : Fin 32 :=
  ⟨n &&& indexMask, Nat.lt_succ_of_le Nat.and_le_right⟩

/-- The children array of `&vectorNode[T]{}`: every pointer nil. -/
def noChildren {T : Type} : Fin 32 → vectorNode T := fun _ => vectorNode.nil

/-- The values array of `&vectorNode[T]{}`: every value zero. -/
def noValues {T : Type} [Inhabited T] : Fin 32 → T := fun _ => default

/-- The method `cloneInternal`: a fresh node with the children of `n`; fails on nil. -/
def cloneInternal {T : Type} [Inhabited T] : vectorNode T → Option (vectorNode T)
  | vectorNode.nil => none
  | vectorNode.mk children _ => some (vectorNode.mk children noValues)

/-- The method `cloneLeaf`: a fresh node with the values of `n`; fails on nil. -/
def cloneLeaf {T : Type} : vectorNode T → Option (vectorNode T)
  | vectorNode.nil => none
  | vectorNode.mk _ values => some (vectorNode.mk noChildren values)

/-- The struct `Vector[T]`. -/
structure Vector (T : Type) where
  root : vectorNode T
  tail : List T
  len : Nat
  shift : Nat

/-- The constructor `NewVector`. -/
def NewVector {T : Type} : Vector T :=
  { root := vectorNode.nil, tail := [], len := 0, shift := shiftStep }

/-- The method `Len`. -/
def Vector.Len {T : Type} (v : Vector T) : Nat := v.len

/-- The method `tailOffset`. -/
def Vector.tailOffset {T : Type} (v : Vector T) : Nat :=
  if v.len < nodeWidth then 0 else ((v.len - 1) >>> shiftStep) <<< shiftStep

/-- The loop of `getLeaf`: `for level > shiftStep { node = node.children[(index>>level)&indexMask] }`,
returning the node the loop ends on. -/
def descend {T : Type} : vectorNode T → Nat → Nat → Option (vectorNode T)
  | vectorNode.nil, level, _ =>
    if level > shiftStep then none else some vectorNode.nil
  | vectorNode.mk children values, level, index =>
    if level > shiftStep then
      descend (children (slot (index >>> level))) (level - shiftStep) index
    else some (vectorNode.mk children values)

/-- The method `getLeaf`. -/
def Vector.getLeaf {T : Type} (v : Vector T) (index : Nat) : Option (vectorNode T) :=
  match descend v.root v.shift index with
  | some (vectorNode.mk children _) => some (children (slot (index >>> shiftStep)))
  | _ => none

/-- The method `Get`. -/
def Vector.Get {T : Type} [Inhabited T] (v : Vector T) (index : Int) : Option (T × Bool) :=
  if index < 0 ∨ index ≥ (v.len : Int) then some (default, false)
  else if index.toNat ≥ v.tailOffset then
    match v.tail[index.toNat - v.tailOffset]? with
    | some x => some (x, true)
    | none => none
  else
    match v.getLeaf index.toNat with
    | some (vectorNode.mk _ values) => some (values (slot index.toNat), true)
    | _ => none

/-- The method `setInNode`. -/
def setInNode {T : Type} [Inhabited T] :
    vectorNode T → Nat → Nat → T → Option (vectorNode T)
  | vectorNode.nil, _, _, _ => none
  | vectorNode.mk children _, level, index, value =>
    if level = shiftStep then
      match cloneLeaf (children (slot (index >>> shiftStep))) with
      | some (vectorNode.mk lc lv) =>
        some (vectorNode.mk
          (Function.update children (slot (index >>> shiftStep))
            (vectorNode.mk lc (Function.update lv (slot index) value)))
          noValues)
      | _ => none
    else
      match setInNode (children (slot (index >>> level))) (level - shiftStep) index value with
      | some c => some (vectorNode.mk (Function.update children (slot (index >>> level)) c) noValues)
      | none => none

/-- The slice `newTail` of `Set`: a copy of the tail with one element replaced; fails
when the position is out of range. -/
def setTail {T : Type} (tail : List T) (i : Nat) (value : T) : Option (List T) :=
  if i < tail.length then some (tail.set i value) else none

/-- The method `Set`. -/
def Vector.Set {T : Type} [Inhabited T] (v : Vector T) (index : Int) (value : T) :
    Option (Vector T) :=
  if index < 0 ∨ index ≥ (v.len : Int) then some v
  else if index.toNat ≥ v.tailOffset then
    match setTail v.tail (index.toNat - v.tailOffset) value with
    | some newTail => some { root := v.root, tail := newTail, len := v.len, shift := v.shift }
    | none => none
  else
    match setInNode v.root v.shift index.toNat value with
    | some r => some { root := r, tail := v.tail, len := v.len, shift := v.shift }
    | none => none

/-- The node `tailNode` of `Append`: `copy(tailNode.values[:], v.tail)` on a fresh node. -/
def tailNode {T : Type} [Inhabited T] (tail : List T) : vectorNode T :=
  vectorNode.mk noChildren (fun i => tail.getD i.val default)

/-- A fresh node whose child 0 is `c`. -/
def singleChild {T : Type} [Inhabited T] (c : vectorNode T) : vectorNode T :=
  vectorNode.mk (Function.update noChildren 0 c) noValues

/-- The method `newPath`.  The program compares `level == shiftStep`; `level` is a
positive multiple of five at every call. -/
def newPath {T : Type} [Inhabited T] (level : Nat) (leaf : vectorNode T) : vectorNode T :=
  if level ≤ shiftStep then singleChild leaf
  else singleChild (newPath (level - shiftStep) leaf)
termination_by level
decreasing_by simp [shiftStep] at *; omega

/-- The method `pushTail`; `len` is the field `v.len` of the receiver. -/
def pushTail {T : Type} [Inhabited T] (len : Nat) :
    Nat → vectorNode T → vectorNode T → Option (vectorNode T)
  | _, vectorNode.nil, _ => none
  | level, vectorNode.mk children _, tailNode =>
    if level = shiftStep then
      some (vectorNode.mk
        (Function.update children (slot ((len - 1) >>> level)) tailNode) noValues)
    else
      if (children (slot ((len - 1) >>> level))).isNil then
        some (vectorNode.mk
          (Function.update children (slot ((len - 1) >>> level))
            (newPath (level - shiftStep) tailNode)) noValues)
      else
        match pushTail len (level - shiftStep) (children (slot ((len - 1) >>> level))) tailNode with
        | some c =>
          some (vectorNode.mk (Function.update children (slot ((len - 1) >>> level)) c) noValues)
        | none => none

/-- The method `Append`. -/
def Vector.Append {T : Type} [Inhabited T] (v : Vector T) (value : T) : Option (Vector T) :=
  if v.tail.length < nodeWidth then
    some { root := v.root, tail := v.tail ++ [value], len := v.len + 1, shift := v.shift }
  else
    match v.root with
    | vectorNode.nil =>
      some { root := singleChild (tailNode v.tail), tail := [value], len := v.len + 1,
             shift := v.shift }
    | vectorNode.mk children values =>
      if (v.len >>> shiftStep) > (1 <<< v.shift) then
        some { root := vectorNode.mk
                 (Function.update (Function.update noChildren 0 (vectorNode.mk children values)) 1
                   (newPath v.shift (tailNode v.tail))) noValues,
               tail := [value], len := v.len + 1, shift := v.shift + shiftStep }
      else
        match pushTail v.len v.shift (vectorNode.mk children values) (tailNode v.tail) with
        | some r => some { root := r, tail := [value], len := v.len + 1, shift := v.shift }
        | none => none

/-- The method `leafValuesToSlice`. -/
def Vector.leafValuesToSlice {T : Type} (v : Vector T) (index : Nat) : Option (List T) :=
  match v.getLeaf index with
  | some (vectorNode.mk _ values) => some (List.ofFn values)
  | _ => none

/-- The method `popTail`; `len` is the field `v.len` of the receiver.  The result
`some nil` is the nil pointer the program returns, `none` a run-time error. -/
def popTail {T : Type} [Inhabited T] (len : Nat) :
    Nat → vectorNode T → Option (vectorNode T)
  | level, vectorNode.nil =>
    if level > shiftStep then none
    else if slot ((len - 2) >>> level) = 0 then some vectorNode.nil
    else none
  | level, vectorNode.mk children _ =>
    if level > shiftStep then
      match popTail len (level - shiftStep) (children (slot ((len - 2) >>> level))) with
      | some newChild =>
        if newChild.isNil ∧ slot ((len - 2) >>> level) = 0 then some vectorNode.nil
        else some (vectorNode.mk
          (Function.update children (slot ((len - 2) >>> level)) newChild) noValues)
      | none => none
    else if slot ((len - 2) >>> level) = 0 then some vectorNode.nil
    else some (vectorNode.mk
      (Function.update children (slot ((len - 2) >>> level)) vectorNode.nil) noValues)

/-- The method `Pop`: the new vector, the removed value and the found flag. -/
def Vector.Pop {T : Type} [Inhabited T] (v : Vector T) : Option (Vector T × T × Bool) :=
  if v.len = 0 then some (v, default, false)
  else if v.len = 1 then
    match v.tail[0]? with
    | some value => some (NewVector, value, true)
    | none => none
  else if v.tail.length > 1 then
    match v.tail[v.tail.length - 1]? with
    | some value =>
      some ({ root := v.root, tail := v.tail.take (v.tail.length - 1), len := v.len - 1,
              shift := v.shift }, value, true)
    | none => none
  else
    match v.tail[0]?, v.leafValuesToSlice (v.len - 2), popTail v.len v.shift v.root with
    | some value, some newTail, some newRoot =>
      match newRoot with
      | vectorNode.mk children _ =>
        if (children 1).isNil ∧ v.shift > shiftStep then
          some ({ root := children 0, tail := newTail, len := v.len - 1,
                  shift := v.shift - shiftStep }, value, true)
        else
          some ({ root := newRoot, tail := newTail, len := v.len - 1, shift := v.shift },
                value, true)
      | vectorNode.nil =>
        some ({ root := newRoot, tail := newTail, len := v.len - 1, shift := v.shift },
              value, true)
    | _, _, _ => none

/-- Appending the elements of a list one after the other. -/
def appendAll {T : Type} [Inhabited T] (v : Vector T) : List T → Option (Vector T)
  | [] => some v
  | x :: xs => (v.Append x).bind (fun w => appendAll w xs)

/-- The canonical tree: the node at height `h` (a leaf at height 0) covering the
indices from `lo` on, in a tree holding the first `n` elements of `f`. -/
def sub {T : Type} [Inhabited T] (f : Nat → T) (n : Nat) : Nat → Nat → vectorNode T
  | 0, lo =>
    if n ≤ lo then vectorNode.nil
    else vectorNode.mk noChildren (fun j => if lo + j.val < n then f (lo + j.val) else default)
  | h + 1, lo =>
    if n ≤ lo then vectorNode.nil
    else vectorNode.mk (fun j => sub f n h (lo + j.val * 32 ^ (h + 1))) noValues

/-- The elements of a list as a function of the index. -/
def elems {T : Type} [Inhabited T] (xs : List T) : Nat → T := fun i => xs.getD i default

/-- The value of `tailOffset` for a vector of `n` elements. -/
def toff (n : Nat) : Nat := if n < 32 then 0 else (n - 1) / 32 * 32

/-- The representation invariant: vector `v` holds the elements `xs` in a tree of
`k` levels of internal nodes. -/
structure RepK {T : Type} [Inhabited T] (v : Vector T) (xs : List T) (k : Nat) : Prop where
  len : v.len = xs.length
  tail : v.tail = xs.drop (toff v.len)
  hk : 1 ≤ k
  shift : v.shift = 5 * k
  root : v.root = sub (elems xs) (toff v.len) k 0
  cap : toff v.len ≤ 32 ^ (k + 1)
  full : 1 < k → 32 ^ k < toff v.len

/-- Vector `v` represents the list `xs`. -/
def Rep {T : Type} [Inhabited T] (v : Vector T) (xs : List T) : Prop := ∃ k, RepK v xs k

/-- The vectors that `NewVector`, `Append`, `Set` and `Pop` produce. -/
inductive Reachable {T : Type} [Inhabited T] : Vector T → Prop where
  | new : Reachable NewVector
  | append {v w : Vector T} (x : T) : Reachable v → v.Append x = some w → Reachable w
  | set {v w : Vector T} (i : Int) (x : T) : Reachable v → v.Set i x = some w → Reachable w
  | pop {v w : Vector T} {y : T} {b : Bool} :
      Reachable v → v.Pop = some (w, y, b) → Reachable w

/-- The vector with the 32 elements 0, …, 31: its tail is full and its tree is empty. -/
def fullTailVector : Vector Nat :=
  { root := vectorNode.nil, tail := List.range 32, len := 32, shift := 5 }

/-- The vector obtained by appending 0, …, 39 to the empty vector: 32 elements in the
tree and 8 in the tail. -/
def treeVector : Vector Nat := (appendAll NewVector (List.range 40)).getD NewVector

end array

namespace iter

/-- The loop that Go runs for `for … range seq`, seen from the sequence: the elements are
passed to `yield` in order until it returns false.  A consumer `yield x s` takes the element
and its own state and returns its new state and whether it wants more. -/
def feed {α σ : Type} (yield : α → σ → σ × Bool) : List α → σ → σ
  | [], s => s
  | x :: rest, s => if (yield x s).2 then feed yield rest (yield x s).1 else (yield x s).1

/-- The consumer that records what it is given and stops after the `j`-th element. -/
def collect {α : Type} (j : Nat) : α → List α → List α × Bool :=
  fun x acc => (acc ++ [x], decide (acc.length + 1 < j))

end iter

namespace array

/-- The loop of `All`, `for i := …; i < v.len; i++`, from index `i` with `k` indices left;
`s` is the state of the consumer. -/
def allLoop {T σ : Type} [Inhabited T] (v : Vector T) (yield : Nat → T → σ → σ × Bool) :
    Nat → Nat → σ → Option σ
  | 0, _, s => some s
  | k + 1, i, s =>
    match v.Get (i : Int) with
    | none => none
    | some (value, _) =>
      if (yield i value s).2 then allLoop v yield k (i + 1) (yield i value s).1
      else some (yield i value s).1

/-- The method `All`, applied to a consumer `yield` in state `s`: the state of the consumer
when the iteration ends. -/
def Vector.All {T σ : Type} [Inhabited T] (v : Vector T) (yield : Nat → T → σ → σ × Bool)
    (s : σ) : Option σ :=
  allLoop v yield v.len 0 s

/-- The method `Values`, applied to a consumer `yield` in state `s`. -/
def Vector.Values {T σ : Type} [Inhabited T] (v : Vector T) (yield : T → σ → σ × Bool)
    (s : σ) : Option σ :=
  allLoop v (fun _ value => yield value) v.len 0 s

/-- The pairs `(i, x_i)` of a list from index `i` on. -/
def indexedFrom {T : Type} : Nat → List T → List (Nat × T)
  | _, [] => []
  | i, x :: rest => (i, x) :: indexedFrom (i + 1) rest

/-- The vector obtained by appending 0, …, 32 to the empty vector: one leaf of 32 elements in
the tree and the single element 32 in the tail. -/
def boundaryVector : Vector Nat := (appendAll NewVector (List.range 33)).getD NewVector

/-- The vector obtained by appending 0, …, 1055 to the empty vector: the tail is full and the
tree of height one is full. -/
def fullTreeVector : Vector Nat := (appendAll NewVector (List.range 1056)).getD NewVector

/-- The vector obtained by appending 0, …, 1056 to the empty vector: a tree of height two
whose second child holds one leaf, and one element in the tail. -/
def grownVector : Vector Nat := (appendAll NewVector (List.range 1057)).getD NewVector

/-- The relation between a node `old` at `h` levels above the leaves and the node `new`
that replaces it when only the path to index `i` is copied: at every level the children
in the slots other than `(i >> level) & 31` are the same, and in the leaf the values in the
slots other than `i & 31` are the same and the value in slot `i & 31` is `x`. -/
def pathCopied {T : Type} (i : Nat) (x : T) : Nat → vectorNode T → vectorNode T → Prop
  | 0, old, new =>
    ∃ c vs c' vs', old = vectorNode.mk c vs ∧ new = vectorNode.mk c' vs' ∧
      (∀ j, j ≠ slot i → vs' j = vs j) ∧ vs' (slot i) = x
  | h + 1, old, new =>
    ∃ c vs c' vs', old = vectorNode.mk c vs ∧ new = vectorNode.mk c' vs' ∧
      (∀ j, j ≠ slot (i >>> (5 * (h + 1))) → c' j = c j) ∧
      pathCopied i x h (c (slot (i >>> (5 * (h + 1))))) (c' (slot (i >>> (5 * (h + 1)))))

/-- The struct `NaiveArray[T]`. -/
structure NaiveArray (T : Type) where
  data : List T

/-- The constructor `NewNaiveArray`. -/
def NewNaiveArray {T : Type} : NaiveArray T := { data := [] }

/-- The method `Len` of `NaiveArray`. -/
def NaiveArray.Len {T : Type} (a : NaiveArray T) : Nat := a.data.length

/-- The method `Get` of `NaiveArray`; `none` is an index out of range at run time. -/
def NaiveArray.Get {T : Type} [Inhabited T] (a : NaiveArray T) (index : Int) :
    Option (T × Bool) :=
  if index < 0 ∨ index ≥ (a.data.length : Int) then some (default, false)
  else
    match a.data[index.toNat]? with
    | some x => some (x, true)
    | none => none

/-- The method `Set` of `NaiveArray`. -/
def NaiveArray.Set {T : Type} (a : NaiveArray T) (index : Int) (value : T) :
    Option (NaiveArray T) :=
  if index < 0 ∨ index ≥ (a.data.length : Int) then some a
  else if index.toNat < a.data.length then some { data := a.data.set index.toNat value }
  else none

/-- The method `Append` of `NaiveArray`. -/
def NaiveArray.Append {T : Type} (a : NaiveArray T) (value : T) : NaiveArray T :=
  { data := a.data ++ [value] }

/-- The method `Pop` of `NaiveArray`. -/
def NaiveArray.Pop {T : Type} [Inhabited T] (a : NaiveArray T) :
    Option (NaiveArray T × T × Bool) :=
  if a.data.length = 0 then some (a, default, false)
  else
    match a.data[a.data.length - 1]? with
    | some value => some ({ data := a.data.take (a.data.length - 1) }, value, true)
    | none => none

/-- A call of one of the three mutators. -/
inductive Call (T : Type) where
  | append (value : T) : Call T
  | set (index : Int) (value : T) : Call T
  | pop : Call T

/-- One call on a `Vector`: the new vector and, for `Pop`, the value and flag returned. -/
def Vector.call {T : Type} [Inhabited T] (v : Vector T) :
    Call T → Option (Vector T × Option (T × Bool))
  | Call.append x => (v.Append x).map (fun w => (w, none))
  | Call.set i x => (v.Set i x).map (fun w => (w, none))
  | Call.pop => v.Pop.map (fun r => (r.1, some r.2))

/-- One call on a `NaiveArray`. -/
def NaiveArray.call {T : Type} [Inhabited T] (a : NaiveArray T) :
    Call T → Option (NaiveArray T × Option (T × Bool))
  | Call.append x => some (a.Append x, none)
  | Call.set i x => (a.Set i x).map (fun w => (w, none))
  | Call.pop => a.Pop.map (fun r => (r.1, some r.2))

/-- A sequence of calls on a `Vector`: the last vector and what the calls returned. -/
def Vector.run {T : Type} [Inhabited T] (v : Vector T) :
    List (Call T) → Option (Vector T × List (Option (T × Bool)))
  | [] => some (v, [])
  | c :: rest =>
    match v.call c with
    | none => none
    | some (w, out) =>
      match Vector.run w rest with
      | none => none
      | some (u, outs) => some (u, out :: outs)

/-- A sequence of calls on a `NaiveArray`. -/
def NaiveArray.run {T : Type} [Inhabited T] (a : NaiveArray T) :
    List (Call T) → Option (NaiveArray T × List (Option (T × Bool)))
  | [] => some (a, [])
  | c :: rest =>
    match a.call c with
    | none => none
    | some (w, out) =>
      match NaiveArray.run w rest with
      | none => none
      | some (u, outs) => some (u, out :: outs)

end array

namespace hashmap

/-- Bits per level (`hmapShift`). -/
def hmapShift : Nat := 5

/-- Mask extracting five bits (`hmapMask`). -/
def hmapMask : Nat := 31

/-- Number of trie levels: the shifts 0, 5, …, 30. -/
def maxDepth : Nat := 7

/-- The struct `entry[K, V]`. -/
structure entry (K V : Type) where
  key : K
  value : V

mutual
/-- The struct `hmapNode[K, V]` behind a non-nil pointer. -/
inductive hmapNode (K V : Type) where
  | mk (bitmap : Nat) (children : List (child K V)) : hmapNode K V
/-- An element of `children []any`: a `*hmapNode`, an `*entry` or a `*collision`. -/
inductive child (K V : Type) where
  | node (n : hmapNode K V) : child K V
  | entry (e : entry K V) : child K V
  | collision (entries : List (hashmap.entry K V)) : child K V
end

/-- The field `bitmap`. -/
def hmapNode.bitmap {K V : Type} : hmapNode K V → Nat
  | hmapNode.mk b _ => b

/-- The field `children`. -/
def hmapNode.children {K V : Type} : hmapNode K V → List (child K V)
  | hmapNode.mk _ c => c

/-- The function `bits.OnesCount32`. -/
def onesCount32 (x : Nat) : Nat := ((List.range 32).filter (fun i => x.testBit i)).length

/-- The method `index`: `bits.OnesCount32(n.bitmap & (bit - 1))`. -/
def hmapNode.index {K V : Type} (n : hmapNode K V) (bit : Nat) : Nat :=
  onesCount32 (n.bitmap &&& (bit - 1))

/-- The expression `uint32(1) << ((hash >> shift) & hmapMask)`. -/
def bitAt (hash shift : Nat) : Nat := 1 <<< ((hash >>> shift) &&& hmapMask)

/-- The struct `HashMap[K, V]`; `root` is `none` for the nil pointer. -/
structure HashMap (K V : Type) where
  root : Option (hmapNode K V)
  len : Int
  seed : Nat

/-- The constructor `NewHashMap`, given the seed that `maphash.MakeSeed` draws. -/
def NewHashMap {K V : Type} (seed : Nat) : HashMap K V :=
  { root := some (hmapNode.mk 0 []), len := 0, seed := seed }

/-- The method `Len`. -/
def HashMap.Len {K V : Type} (m : HashMap K V) : Int := m.len

/-- The method `hash`: the sum of the seeded hash, converted to `uint32`. -/
def HashMap.hash {K V : Type} (H : Nat → K → Nat) (m : HashMap K V) (key : K) : Nat :=
  H m.seed key % 4294967296

/-- The loop `for _, e := range c.entries` of `getNode`. -/
def scanEntries {K V : Type} [DecidableEq K] [Inhabited V] :
    List (entry K V) → K → V × Bool
  | [], _ => (default, false)
  | e :: rest, key => if e.key = key then (e.value, true) else scanEntries rest key

/-- The method `getNode`. -/
def getNode {K V : Type} [DecidableEq K] [Inhabited V] :
    Nat → hmapNode K V → K → Nat → Nat → Option (V × Bool)
  | 0, _, _, _, _ => none
  | fuel + 1, node, key, hash, shift =>
    if node.bitmap &&& bitAt hash shift = 0 then some (default, false)
    else
      match node.children[node.index (bitAt hash shift)]? with
      | none => none
      | some (child.node c) => getNode fuel c key hash (shift + hmapShift)
      | some (child.entry c) =>
        if c.key = key then some (c.value, true) else some (default, false)
      | some (child.collision entries) => some (scanEntries entries key)

/-- The method `Get`. -/
def HashMap.Get {K V : Type} [DecidableEq K] [Inhabited V] (H : Nat → K → Nat)
    (m : HashMap K V) (key : K) : Option (V × Bool) :=
  match m.root with
  | none => some (default, false)
  | some root => getNode maxDepth root key (m.hash H key) 0

/-- The method `createTwoEntryNode`. -/
def createTwoEntryNode {K V : Type} :
    Nat → K → V → Nat → K → V → Nat → Nat → Option (hmapNode K V)
  | 0, _, _, _, _, _, _, _ => none
  | fuel + 1, key1, val1, hash1, key2, val2, hash2, shift =>
    if shift ≥ 30 then
      some (hmapNode.mk 1 [child.collision [⟨key1, val1⟩, ⟨key2, val2⟩]])
    else if bitAt hash1 shift = bitAt hash2 shift then
      match createTwoEntryNode fuel key1 val1 hash1 key2 val2 hash2 (shift + hmapShift) with
      | some c => some (hmapNode.mk (bitAt hash1 shift) [child.node c])
      | none => none
    else if bitAt hash1 shift < bitAt hash2 shift then
      some (hmapNode.mk (bitAt hash1 shift ||| bitAt hash2 shift)
        [child.entry ⟨key1, val1⟩, child.entry ⟨key2, val2⟩])
    else
      some (hmapNode.mk (bitAt hash1 shift ||| bitAt hash2 shift)
        [child.entry ⟨key2, val2⟩, child.entry ⟨key1, val1⟩])

/-- The loop `for i, e := range c.entries` of `setNode` and of `deleteNode`: the first
position holding `key`. -/
def findKey {K V : Type} [DecidableEq K] : List (entry K V) → K → Option Nat
  | [], _ => none
  | e :: rest, key => if e.key = key then some 0 else (findKey rest key).map (· + 1)

/-- The method `setNode`; `hashOf` is the method `hash` of the receiver. -/
def setNode {K V : Type} [DecidableEq K] (hashOf : K → Nat) :
    Nat → hmapNode K V → K → V → Nat → Nat → Option (hmapNode K V × Bool)
  | 0, _, _, _, _, _ => none
  | fuel + 1, node, key, value, hash, shift =>
    if node.bitmap &&& bitAt hash shift = 0 then
      if node.index (bitAt hash shift) ≤ node.children.length then
        some (hmapNode.mk (node.bitmap ||| bitAt hash shift)
          (node.children.take (node.index (bitAt hash shift)) ++
            child.entry ⟨key, value⟩ :: node.children.drop (node.index (bitAt hash shift))), true)
      else none
    else
      match node.children[node.index (bitAt hash shift)]? with
      | none => none
      | some (child.node c) =>
        match setNode hashOf fuel c key value hash (shift + hmapShift) with
        | some (newChild, added) =>
          some (hmapNode.mk node.bitmap
            (node.children.set (node.index (bitAt hash shift)) (child.node newChild)), added)
        | none => none
      | some (child.entry c) =>
        if c.key = key then
          some (hmapNode.mk node.bitmap
            (node.children.set (node.index (bitAt hash shift)) (child.entry ⟨key, value⟩)), false)
        else if shift ≥ 30 then
          some (hmapNode.mk node.bitmap
            (node.children.set (node.index (bitAt hash shift))
              (child.collision [⟨c.key, c.value⟩, ⟨key, value⟩])), true)
        else
          match createTwoEntryNode fuel c.key c.value (hashOf c.key) key value hash
              (shift + hmapShift) with
          | some newChild =>
            some (hmapNode.mk node.bitmap
              (node.children.set (node.index (bitAt hash shift)) (child.node newChild)), true)
          | none => none
      | some (child.collision entries) =>
        match findKey entries key with
        | some i =>
          some (hmapNode.mk node.bitmap
            (node.children.set (node.index (bitAt hash shift))
              (child.collision (entries.set i ⟨key, value⟩))), false)
        | none =>
          some (hmapNode.mk node.bitmap
            (node.children.set (node.index (bitAt hash shift))
              (child.collision (entries ++ [⟨key, value⟩]))), true)

/-- The method `Set`. -/
def HashMap.Set {K V : Type} [DecidableEq K] (H : Nat → K → Nat) (m : HashMap K V)
    (key : K) (value : V) : Option (HashMap K V) :=
  match m.root with
  | none => none
  | some root =>
    match setNode (m.hash H) maxDepth root key value (m.hash H key) 0 with
    | some (newRoot, added) =>
      some { root := some newRoot, len := if added then m.len + 1 else m.len, seed := m.seed }
    | none => none

/-- The method `deleteNode`. -/
def deleteNode {K V : Type} [DecidableEq K] :
    Nat → hmapNode K V → K → Nat → Nat → Option (hmapNode K V × Bool)
  | 0, _, _, _, _ => none
  | fuel + 1, node, key, hash, shift =>
    if node.bitmap &&& bitAt hash shift = 0 then some (node, false)
    else
      match node.children[node.index (bitAt hash shift)]? with
      | none => none
      | some (child.node c) =>
        match deleteNode fuel c key hash (shift + hmapShift) with
        | none => none
        | some (_, false) => some (node, false)
        | some (newChild, true) =>
          if newChild.bitmap = 0 then
            some (hmapNode.mk (node.bitmap &&& (4294967295 ^^^ bitAt hash shift))
              (node.children.eraseIdx (node.index (bitAt hash shift))), true)
          else if newChild.children.length = 1 then
            match newChild.children[0]? with
            | some (child.entry e) =>
              some (hmapNode.mk node.bitmap
                (node.children.set (node.index (bitAt hash shift)) (child.entry e)), true)
            | _ =>
              some (hmapNode.mk node.bitmap
                (node.children.set (node.index (bitAt hash shift)) (child.node newChild)), true)
          else
            some (hmapNode.mk node.bitmap
              (node.children.set (node.index (bitAt hash shift)) (child.node newChild)), true)
      | some (child.entry c) =>
        if c.key ≠ key then some (node, false)
        else
          some (hmapNode.mk (node.bitmap &&& (4294967295 ^^^ bitAt hash shift))
            (node.children.eraseIdx (node.index (bitAt hash shift))), true)
      | some (child.collision entries) =>
        match findKey entries key with
        | none => some (node, false)
        | some foundIdx =>
          if entries.length = 2 then
            match entries[1 - foundIdx]? with
            | some remaining =>
              some (hmapNode.mk node.bitmap
                (node.children.set (node.index (bitAt hash shift))
                  (child.entry ⟨remaining.key, remaining.value⟩)), true)
            | none => none
          else
            some (hmapNode.mk node.bitmap
              (node.children.set (node.index (bitAt hash shift))
                (child.collision (entries.eraseIdx foundIdx))), true)

/-- The method `Delete`. -/
def HashMap.Delete {K V : Type} [DecidableEq K] (H : Nat → K → Nat) (m : HashMap K V)
    (key : K) : Option (HashMap K V) :=
  match m.root with
  | none => some m
  | some root =>
    match deleteNode maxDepth root key (m.hash H key) 0 with
    | none => none
    | some (_, false) => some m
    | some (newRoot, true) => some { root := some newRoot, len := m.len - 1, seed := m.seed }

/-- The method `Contains`. -/
def HashMap.Contains {K V : Type} [DecidableEq K] [Inhabited V] (H : Nat → K → Nat)
    (m : HashMap K V) (key : K) : Option Bool :=
  (m.Get H key).map (fun r => r.2)

/-- Applying `Set` to the pairs of a list one after the other. -/
def setAll {K V : Type} [DecidableEq K] (H : Nat → K → Nat) (m : HashMap K V) :
    List (K × V) → Option (HashMap K V)
  | [] => some m
  | (k, v) :: rest => (m.Set H k v).bind (fun m1 => setAll H m1 rest)

/-- A hash function that sends every key to the digest `2 ^ 30`. -/
def constHash (_seed : Nat) (_key : Nat) : Nat := 1073741824

/-- The map `NewHashMap().Set(1, 10)` under the hash function `constHash`. -/
def oneKeyMap : Option (HashMap Nat Nat) := (NewHashMap 0).Set constHash 1 10

/-- The map `NewHashMap().Set(1, 10).Set(2, 20)` under the hash function `constHash`. -/
def twoKeyMap : Option (HashMap Nat Nat) := oneKeyMap.bind (fun m => m.Set constHash 2 20)

/-- The five bits of `hash` that select the slot at `shift`: `(hash >> shift) & hmapMask`. -/
def chunk (hash shift : Nat) : Nat := (hash >>> shift) &&& hmapMask

/-- The number of bits set in `bm` below position `c`. -/
def rank (bm c : Nat) : Nat := ((List.range c).filter (fun i => bm.testBit i)).length

/-- The loop `for _, e := range c.entries { if !yield(e.key, e.value) { return false } }` of
`iterNode`, for a consumer `yield` in state `s`: the new state of the consumer and whether
it wants more. -/
def iterEntries {K V σ : Type} (yield : K → V → σ → σ × Bool) :
    List (entry K V) → σ → σ × Bool
  | [], s => (s, true)
  | e :: rest, s =>
    if (yield e.key e.value s).2 then iterEntries yield rest (yield e.key e.value s).1
    else ((yield e.key e.value s).1, false)

/-- The loop `for _, child := range node.children` of `iterNode`; `recur` is the recursive
call `m.iterNode(c, yield)`. -/
def iterChildren {K V σ : Type} (recur : hmapNode K V → σ → Option (σ × Bool))
    (yield : K → V → σ → σ × Bool) : List (child K V) → σ → Option (σ × Bool)
  | [], s => some (s, true)
  | child.node c :: rest, s =>
    match recur c s with
    | none => none
    | some (s1, false) => some (s1, false)
    | some (s1, true) => iterChildren recur yield rest s1
  | child.entry c :: rest, s =>
    if (yield c.key c.value s).2 then iterChildren recur yield rest (yield c.key c.value s).1
    else some ((yield c.key c.value s).1, false)
  | child.collision entries :: rest, s =>
    if (iterEntries yield entries s).2 then
      iterChildren recur yield rest (iterEntries yield entries s).1
    else some ((iterEntries yield entries s).1, false)

/-- The method `iterNode`. -/
def iterNode {K V σ : Type} (yield : K → V → σ → σ × Bool) :
    Nat → hmapNode K V → σ → Option (σ × Bool)
  | 0, _, _ => none
  | fuel + 1, node, s => iterChildren (iterNode yield fuel) yield node.children s

/-- The method `All`, applied to a consumer `yield` in state `s`: the state of the consumer
when the iteration ends. -/
def HashMap.All {K V σ : Type} (m : HashMap K V) (yield : K → V → σ → σ × Bool) (s : σ) :
    Option σ :=
  match m.root with
  | none => some s
  | some root => (iterNode yield maxDepth root s).map (fun r => r.1)

/-- The method `Keys`. -/
def HashMap.Keys {K V σ : Type} (m : HashMap K V) (yield : K → σ → σ × Bool) (s : σ) :
    Option σ :=
  m.All (fun k _ => yield k) s

/-- The method `Values`. -/
def HashMap.Values {K V σ : Type} (m : HashMap K V) (yield : V → σ → σ × Bool) (s : σ) :
    Option σ :=
  m.All (fun _ v => yield v) s

/-- The maps that `NewHashMap`, `Set` and `Delete` produce, for the hash function `H`. -/
inductive Reachable {K V : Type} [DecidableEq K] (H : Nat → K → Nat) : HashMap K V → Prop where
  | new (seed : Nat) : Reachable H (NewHashMap seed)
  | set {m m' : HashMap K V} (k : K) (v : V) :
      Reachable H m → m.Set H k v = some m' → Reachable H m'
  | delete {m m' : HashMap K V} (k : K) :
      Reachable H m → m.Delete H k = some m' → Reachable H m'

/-- A node is compact: its bitmap is not empty and it is not a single plain entry. -/
def compactNode {K V : Type} (n : hmapNode K V) : Prop :=
  n.bitmap ≠ 0 ∧ ∀ e, n.children ≠ [child.entry e]

/-- What the invariant asks of an element of `children`: `P` of a sub-node, at least two
entries in a collision list, which is allowed only where `last` holds. -/
def childOK {K V : Type} (P : hmapNode K V → Prop) (last : Prop) : child K V → Prop
  | child.node n => P n
  | child.entry _ => True
  | child.collision entries => 2 ≤ entries.length ∧ last

/-- The invariant of the trie below a node with `d` levels left (`d = 7` at the root, `d = 1`
at `shift = 30`): `len(children) = popcount(bitmap)`, the bitmap is a `uint32`, every sub-node
satisfies the invariant with one level less and is compact, and a collision list holds at
least two entries and lies in a node of the last level. -/
def WF {K V : Type} : Nat → hmapNode K V → Prop
  | 0, _ => False
  | d + 1, n =>
    n.children.length = onesCount32 n.bitmap ∧ n.bitmap < 4294967296 ∧
    ∀ c ∈ n.children, childOK (fun m => WF d m ∧ compactNode m) (d = 0) c

/-- The entries an element of `children` holds; `recur` gives those of a sub-node. -/
def childEntries {K V : Type} (recur : hmapNode K V → List (entry K V)) :
    child K V → List (entry K V)
  | child.node n => recur n
  | child.entry e => [e]
  | child.collision entries => entries

/-- The entries stored below a node with `d` levels left, in the order of `iterNode`. -/
def entriesOf {K V : Type} : Nat → hmapNode K V → List (entry K V)
  | 0, _ => []
  | d + 1, n => n.children.flatMap (childEntries (entriesOf d))

/-- The entries stored in a map, in the order of `All`. -/
def HashMap.entries {K V : Type} (m : HashMap K V) : List (entry K V) :=
  match m.root with
  | none => []
  | some root => entriesOf maxDepth root

/-- The invariant of a map: the trie is well formed and `len` counts its entries. -/
def MapOK {K V : Type} (m : HashMap K V) : Prop :=
  ∃ root, m.root = some root ∧ WF maxDepth root ∧ m.len = ((entriesOf maxDepth root).length : Int)

/-- Node `n` lies in the trie below `root`, at least one level down. -/
inductive Below {K V : Type} (root : hmapNode K V) : hmapNode K V → Prop where
  | child {n : hmapNode K V} : child.node n ∈ root.children → Below root n
  | step {p n : hmapNode K V} : Below root p → child.node n ∈ p.children → Below root n

/-- A hash function under which the keys 1 and 2 agree on the low 25 bits of the digest and
differ in bit 25. -/
def chainHash (_seed : Nat) (key : Nat) : Nat := if key = 1 then 0 else 33554432

/-- The map `NewHashMap().Set(1, 10).Set(2, 20)` under `chainHash`: the two entries lie in a
node at `shift = 25`, below five nodes of one child each. -/
def chainMap : Option (HashMap Nat Nat) :=
  ((NewHashMap 0).Set chainHash 1 10).bind (fun m => m.Set chainHash 2 20)

/-- The map `NewHashMap().Set(1, 10).Set(2, 20)` under `chainHash`, as a value. -/
def chainMapValue : HashMap Nat Nat := chainMap.getD (NewHashMap 0)

/-- The map `NewHashMap().Set(1, 10)` under `chainHash`, as a value. -/
def chainMapFirst : HashMap Nat Nat := ((NewHashMap 0).Set chainHash 1 10).getD (NewHashMap 0)

/-- A hash function under which key 1 has the digest `2 ^ 30` and every other key the digest
0: the keys agree on the low 30 bits and differ in bit 30. -/
def topBitHash (_seed : Nat) (key : Nat) : Nat := if key = 1 then 1073741824 else 0

/-- The map `NewHashMap().Set(1, 10).Set(3, 30)` under the hash function `topBitHash`. -/
def topBitMap : Option (HashMap Nat Nat) :=
  ((NewHashMap 0).Set topBitHash 1 10).bind (fun m => m.Set topBitHash 3 30)

/-- The consumer that records every pair it is given and never stops. -/
def collectPairs {K V : Type} : K → V → List (K × V) → List (K × V) × Bool :=
  fun k v acc => (acc ++ [(k, v)], true)

/-- The collision lists stored in an element of `children`; `recur` gives those of a
sub-node. -/
def childCollisions {K V : Type} (recur : hmapNode K V → List (List (K × V))) :
    child K V → List (List (K × V))
  | child.node n => recur n
  | child.entry _ => []
  | child.collision entries => [entries.map (fun e => (e.key, e.value))]

/-- The collision lists stored below a node with `d` levels left. -/
def collisionsOf {K V : Type} : Nat → hmapNode K V → List (List (K × V))
  | 0, _ => []
  | d + 1, n => n.children.flatMap (childCollisions (collisionsOf d))

/-- The occupant of slot `c` of a node: the element of the compact array `children` at the
position `popcount(bitmap & (1 << c - 1))` if bit `c` of the bitmap is set. -/
def slotAt {K V : Type} (bm : Nat) (cs : List (child K V)) (c : Nat) : Option (child K V) :=
  if bm.testBit c then cs[rank bm c]? else none

/-- What `getNode` does with the occupant of the slot it selected. -/
def getChild {K V : Type} [DecidableEq K] [Inhabited V] (d : Nat) (key : K) (hash shift : Nat) :
    Option (child K V) → Option (V × Bool)
  | none => some (default, false)
  | some (child.node n) => getNode d n key hash (shift + hmapShift)
  | some (child.entry e) => if e.key = key then some (e.value, true) else some (default, false)
  | some (child.collision entries) => some (scanEntries entries key)

/-- What the path invariant asks of the occupant of a slot: `P` of a sub-node, `Q` of a plain
entry, and no collision list. -/
def childPath {K V : Type} (P : hmapNode K V → Prop) (Q : entry K V → Prop) : child K V → Prop
  | child.node n => P n
  | child.entry e => Q e
  | child.collision _ => False

/-- The path invariant of the trie below a node at `shift` with `d` levels left, reached by
the low `shift` hash bits `pre`: the entry in slot `c` has a key of the set `S` whose hash
has the low bits `pre + c * 2^shift`, the sub-node in slot `c` satisfies the invariant for
these bits, and there is no collision list. -/
def PathOK {K V : Type} (hashOf : K → Nat) (S : K → Prop) :
    Nat → Nat → Nat → hmapNode K V → Prop
  | 0, _, _, _ => False
  | d + 1, shift, pre, n =>
    ∀ c, c < 32 → ∀ ch, slotAt n.bitmap n.children c = some ch →
      childPath (fun m => PathOK hashOf S d (shift + 5) (pre + c * 2 ^ shift) m)
        (fun e => S e.key ∧ hashOf e.key % 2 ^ (shift + 5) = pre + c * 2 ^ shift) ch

/-- The lookup `m[key]` in a Go map, given as the list of its key-value pairs. -/
def mapGet {K V : Type} [DecidableEq K] : List (K × V) → K → Option V
  | [], _ => none
  | (k, v) :: rest, key => if k = key then some v else mapGet rest key

/-- A Go map without the key `key`: what the loop `for k, v := range m { if k == key
{ continue }; newData[k] = v }` builds. -/
def mapDelete {K V : Type} [DecidableEq K] : List (K × V) → K → List (K × V)
  | [], _ => []
  | (k, v) :: rest, key =>
    if k = key then mapDelete rest key else (k, v) :: mapDelete rest key

/-- A copy of a Go map with `newData[key] = value`. -/
def mapSet {K V : Type} [DecidableEq K] (m : List (K × V)) (key : K) (value : V) :
    List (K × V) :=
  (key, value) :: mapDelete m key

/-- The keys of a Go map are distinct. -/
def Distinct {K V : Type} (m : List (K × V)) : Prop := (m.map (fun p => p.1)).Nodup

/-- The struct `NaiveHashMap[K, V]`; `data` is the Go map, as the list of its pairs. -/
structure NaiveHashMap (K V : Type) where
  data : List (K × V)

/-- The constructor `NewNaiveHashMap`. -/
def NewNaiveHashMap {K V : Type} : NaiveHashMap K V := { data := [] }

/-- The method `Len` of `NaiveHashMap`. -/
def NaiveHashMap.Len {K V : Type} (m : NaiveHashMap K V) : Int := m.data.length

/-- The method `Get` of `NaiveHashMap`. -/
def NaiveHashMap.Get {K V : Type} [DecidableEq K] [Inhabited V] (m : NaiveHashMap K V)
    (key : K) : V × Bool :=
  match mapGet m.data key with
  | some v => (v, true)
  | none => (default, false)

/-- The method `Set` of `NaiveHashMap`. -/
def NaiveHashMap.Set {K V : Type} [DecidableEq K] (m : NaiveHashMap K V) (key : K)
    (value : V) : NaiveHashMap K V :=
  { data := mapSet m.data key value }

/-- The method `Delete` of `NaiveHashMap`. -/
def NaiveHashMap.Delete {K V : Type} [DecidableEq K] (m : NaiveHashMap K V) (key : K) :
    NaiveHashMap K V :=
  match mapGet m.data key with
  | none => m
  | some _ => { data := mapDelete m.data key }

/-- The method `Contains` of `NaiveHashMap`. -/
def NaiveHashMap.Contains {K V : Type} [DecidableEq K] (m : NaiveHashMap K V) (key : K) :
    Bool :=
  (mapGet m.data key).isSome

/-- A call of `Set` or of `Delete`. -/
inductive MapCall (K V : Type) where
  | set (key : K) (value : V) : MapCall K V
  | delete (key : K) : MapCall K V

/-- The key a call is about. -/
def MapCall.key {K V : Type} : MapCall K V → K
  | MapCall.set k _ => k
  | MapCall.delete k => k

/-- A sequence of calls on a `HashMap`. -/
def HashMap.run {K V : Type} [DecidableEq K] (H : Nat → K → Nat) (m : HashMap K V) :
    List (MapCall K V) → Option (HashMap K V)
  | [] => some m
  | MapCall.set k v :: rest =>
    match m.Set H k v with
    | some m1 => HashMap.run H m1 rest
    | none => none
  | MapCall.delete k :: rest =>
    match m.Delete H k with
    | some m1 => HashMap.run H m1 rest
    | none => none

/-- A sequence of calls on a `NaiveHashMap`. -/
def NaiveHashMap.run {K V : Type} [DecidableEq K] (m : NaiveHashMap K V) :
    List (MapCall K V) → NaiveHashMap K V
  | [] => m
  | MapCall.set k v :: rest => NaiveHashMap.run (m.Set k v) rest
  | MapCall.delete k :: rest => NaiveHashMap.run (m.Delete k) rest

/-- The simulation between a `HashMap` and a `NaiveHashMap` holding the same pairs, for keys
of the set `S`. -/
def Sim {K V : Type} [DecidableEq K] [Inhabited V] (H : Nat → K → Nat) (seed : Nat)
    (S : K → Prop) (m : HashMap K V) (n : NaiveHashMap K V) : Prop :=
  MapOK m ∧ m.seed = seed ∧
  (∃ root, m.root = some root ∧
    PathOK (fun k => H seed k % 4294967296) S maxDepth 0 0 root) ∧
  Distinct n.data ∧ m.Len = n.Len ∧ ∀ k, m.Get H k = some (n.Get k)

/-- The hash function that takes the key itself as digest. -/
def idHash (_seed : Nat) (key : Nat) : Nat := key

/-- The constant `defaultBuckets`. -/
def defaultBuckets : Nat := 256

/-- The struct `ShardedHashMap[K, V]`; a bucket is a Go map, `none` for the nil map. -/
structure ShardedHashMap (K V : Type) where
  buckets : List (Option (List (K × V)))
  len : Int
  seed : Nat

/-- The constructor `NewShardedHashMap`, given the seed that `maphash.MakeSeed` draws. -/
def NewShardedHashMap {K V : Type} (seed : Nat) : ShardedHashMap K V :=
  { buckets := List.replicate defaultBuckets none, len := 0, seed := seed }

/-- The method `Len` of `ShardedHashMap`. -/
def ShardedHashMap.Len {K V : Type} (m : ShardedHashMap K V) : Int := m.len

/-- The method `hash` of `ShardedHashMap`: the 64-bit sum of the seeded hash. -/
def ShardedHashMap.hash {K V : Type} (H : Nat → K → Nat) (m : ShardedHashMap K V) (key : K) :
    Nat :=
  H m.seed key % 18446744073709551616

/-- The method `bucketIndex`; `none` is the division by zero when there is no bucket. -/
def ShardedHashMap.bucketIndex {K V : Type} (H : Nat → K → Nat) (m : ShardedHashMap K V)
    (key : K) : Option Nat :=
  if m.buckets.length = 0 then none else some (m.hash H key % m.buckets.length)

/-- The lookup `b[key]` in a bucket; the nil map holds nothing. -/
def bucketGet {K V : Type} [DecidableEq K] (b : Option (List (K × V))) (key : K) : Option V :=
  match b with
  | none => none
  | some data => mapGet data key

/-- The method `Get` of `ShardedHashMap`; `none` is a run-time error. -/
def ShardedHashMap.Get {K V : Type} [DecidableEq K] [Inhabited V] (H : Nat → K → Nat)
    (m : ShardedHashMap K V) (key : K) : Option (V × Bool) :=
  if m.buckets.length = 0 then some (default, false)
  else
    match m.bucketIndex H key with
    | none => none
    | some i =>
      match m.buckets[i]? with
      | none => none
      | some none => some (default, false)
      | some (some data) =>
        match mapGet data key with
        | some v => some (v, true)
        | none => some (default, false)

/-- The method `Contains` of `ShardedHashMap`. -/
def ShardedHashMap.Contains {K V : Type} [DecidableEq K] [Inhabited V] (H : Nat → K → Nat)
    (m : ShardedHashMap K V) (key : K) : Option Bool :=
  (m.Get H key).map (fun r => r.2)

/-- The method `Set` of `ShardedHashMap`. -/
def ShardedHashMap.Set {K V : Type} [DecidableEq K] (H : Nat → K → Nat)
    (m : ShardedHashMap K V) (key : K) (value : V) : Option (ShardedHashMap K V) :=
  match m.bucketIndex H key with
  | none => none
  | some i =>
    match m.buckets[i]? with
    | none => none
    | some oldB =>
      some { buckets := m.buckets.set i (some (mapSet (oldB.getD []) key value)),
             len := if (bucketGet oldB key).isSome then m.len else m.len + 1,
             seed := m.seed }

/-- The method `Delete` of `ShardedHashMap`. -/
def ShardedHashMap.Delete {K V : Type} [DecidableEq K] (H : Nat → K → Nat)
    (m : ShardedHashMap K V) (key : K) : Option (ShardedHashMap K V) :=
  match m.bucketIndex H key with
  | none => none
  | some i =>
    match m.buckets[i]? with
    | none => none
    | some none => some m
    | some (some oldB) =>
      if (mapGet oldB key).isSome = false then some m
      else if oldB.length = 1 then
        some { buckets := m.buckets.set i none, len := m.len - 1, seed := m.seed }
      else
        some { buckets := m.buckets.set i (some (mapDelete oldB key)), len := m.len - 1,
               seed := m.seed }

/-- A sequence of calls on a `ShardedHashMap`. -/
def ShardedHashMap.run {K V : Type} [DecidableEq K] (H : Nat → K → Nat)
    (m : ShardedHashMap K V) : List (MapCall K V) → Option (ShardedHashMap K V)
  | [] => some m
  | MapCall.set k v :: rest =>
    match m.Set H k v with
    | some m1 => ShardedHashMap.run H m1 rest
    | none => none
  | MapCall.delete k :: rest =>
    match m.Delete H k with
    | some m1 => ShardedHashMap.run H m1 rest
    | none => none

/-- The invariant of a bucket at position `i`: not a non-nil empty map, distinct keys, and
every key has bucket index `i`. -/
def bucketOK {K V : Type} (H : Nat → K → Nat) (seed : Nat) (i : Nat) :
    Option (List (K × V)) → Prop
  | none => True
  | some data =>
    data ≠ [] ∧ Distinct data ∧
      ∀ k, k ∈ data.map (fun p => p.1) → H seed k % 18446744073709551616 % 256 = i

/-- The simulation between a `ShardedHashMap` and a `NaiveHashMap` holding the same pairs. -/
def ShSim {K V : Type} [DecidableEq K] [Inhabited V] (H : Nat → K → Nat) (seed : Nat)
    (m : ShardedHashMap K V) (n : NaiveHashMap K V) : Prop :=
  m.seed = seed ∧ m.buckets.length = 256 ∧
  (∀ i b, m.buckets[i]? = some b → bucketOK H seed i b) ∧
  Distinct n.data ∧ m.Len = n.Len ∧
  ∀ k, bucketGet ((m.buckets[H seed k % 18446744073709551616 % 256]?).getD none) k =
    mapGet n.data k

/-- The value `any(key)` of a key, by dynamic type: one of the seven types that the type
switch of `hash` lists, or a value of some other type. -/
inductive goKey where
  | string (bytes : List Nat) : goKey
  | int (k : Int) : goKey
  | int64 (k : Int) : goKey
  | int32 (k : Int) : goKey
  | uint (k : Nat) : goKey
  | uint64 (k : Nat) : goKey
  | uint32 (k : Nat) : goKey
  | other (typ : Nat) (val : Nat) : goKey
  deriving DecidableEq

/-- The dynamic type of the key is one of string, int, int64, int32, uint, uint64, uint32. -/
def goKey.supported : goKey → Bool
  | goKey.other _ _ => false
  | _ => true

/-- The buffer filled by `for i := 0; i < n; i++ { buf[i] = byte(k >> (i * 8)) }`. -/
def leBytes (n : Nat) (k : Int) : List Nat :=
  (List.range n).map (fun i => ((k >>> (i * 8)) % 256).toNat)

/-- The method `hash` on the value `any(key)`; `sum64 seed bytes` is `h.Sum64()` after
`h.SetSeed(seed)` and the write of `bytes`, and `none` is the panic of the type assertion
`any(key).(string)` in the default branch. -/
def hashDyn (sum64 : Nat → List Nat → Nat) (seed : Nat) : goKey → Option Nat
  | goKey.string bytes => some (sum64 seed bytes % 4294967296)
  | goKey.int k => some (sum64 seed (leBytes 8 k) % 4294967296)
  | goKey.int64 k => some (sum64 seed (leBytes 8 k) % 4294967296)
  | goKey.int32 k => some (sum64 seed (leBytes 4 k) % 4294967296)
  | goKey.uint k => some (sum64 seed (leBytes 8 (k : Int)) % 4294967296)
  | goKey.uint64 k => some (sum64 seed (leBytes 8 (k : Int)) % 4294967296)
  | goKey.uint32 k => some (sum64 seed (leBytes 4 (k : Int)) % 4294967296)
  | goKey.other _ _ => none

/-- The method `setNode` with a hash that can fail: `hashOf` is the method `hash` of the
receiver, and its failure on the key of the entry found in the slot is a failure of
`setNode`. -/
def setNodeDyn {K V : Type} [DecidableEq K] (hashOf : K → Option Nat) :
    Nat → hmapNode K V → K → V → Nat → Nat → Option (hmapNode K V × Bool)
  | 0, _, _, _, _, _ => none
  | fuel + 1, node, key, value, hash, shift =>
    if node.bitmap &&& bitAt hash shift = 0 then
      if node.index (bitAt hash shift) ≤ node.children.length then
        some (hmapNode.mk (node.bitmap ||| bitAt hash shift)
          (node.children.take (node.index (bitAt hash shift)) ++
            child.entry ⟨key, value⟩ :: node.children.drop (node.index (bitAt hash shift))), true)
      else none
    else
      match node.children[node.index (bitAt hash shift)]? with
      | none => none
      | some (child.node c) =>
        match setNodeDyn hashOf fuel c key value hash (shift + hmapShift) with
        | some (newChild, added) =>
          some (hmapNode.mk node.bitmap
            (node.children.set (node.index (bitAt hash shift)) (child.node newChild)), added)
        | none => none
      | some (child.entry c) =>
        if c.key = key then
          some (hmapNode.mk node.bitmap
            (node.children.set (node.index (bitAt hash shift)) (child.entry ⟨key, value⟩)), false)
        else
          match hashOf c.key with
          | none => none
          | some existingHash =>
            if shift ≥ 30 then
              some (hmapNode.mk node.bitmap
                (node.children.set (node.index (bitAt hash shift))
                  (child.collision [⟨c.key, c.value⟩, ⟨key, value⟩])), true)
            else
              match createTwoEntryNode fuel c.key c.value existingHash key value hash
                  (shift + hmapShift) with
              | some newChild =>
                some (hmapNode.mk node.bitmap
                  (node.children.set (node.index (bitAt hash shift)) (child.node newChild)), true)
              | none => none
      | some (child.collision entries) =>
        match findKey entries key with
        | some i =>
          some (hmapNode.mk node.bitmap
            (node.children.set (node.index (bitAt hash shift))
              (child.collision (entries.set i ⟨key, value⟩))), false)
        | none =>
          some (hmapNode.mk node.bitmap
            (node.children.set (node.index (bitAt hash shift))
              (child.collision (entries ++ [⟨key, value⟩]))), true)

/-- The method `Get` on keys given as `any(key)`: the nil test on the root comes first, then
the call of `hash`. -/
def HashMap.GetDyn {V : Type} [Inhabited V] (sum64 : Nat → List Nat → Nat)
    (m : HashMap goKey V) (key : goKey) : Option (V × Bool) :=
  match m.root with
  | none => some (default, false)
  | some root =>
    match hashDyn sum64 m.seed key with
    | none => none
    | some hash => getNode maxDepth root key hash 0

/-- The method `Set` on keys given as `any(key)`: the call of `hash` comes first. -/
def HashMap.SetDyn {V : Type} (sum64 : Nat → List Nat → Nat) (m : HashMap goKey V)
    (key : goKey) (value : V) : Option (HashMap goKey V) :=
  match hashDyn sum64 m.seed key with
  | none => none
  | some hash =>
    match m.root with
    | none => none
    | some root =>
      match setNodeDyn (hashDyn sum64 m.seed) maxDepth root key value hash 0 with
      | some (newRoot, added) =>
        some { root := some newRoot, len := if added then m.len + 1 else m.len, seed := m.seed }
      | none => none

/-- The method `Delete` on keys given as `any(key)`: the nil test on the root comes first,
then the call of `hash`. -/
def HashMap.DeleteDyn {V : Type} (sum64 : Nat → List Nat → Nat) (m : HashMap goKey V)
    (key : goKey) : Option (HashMap goKey V) :=
  match m.root with
  | none => some m
  | some root =>
    match hashDyn sum64 m.seed key with
    | none => none
    | some hash =>
      match deleteNode maxDepth root key hash 0 with
      | none => none
      | some (_, false) => some m
      | some (newRoot, true) => some { root := some newRoot, len := m.len - 1, seed := m.seed }

end hashmap

namespace heap

/-- A computation on a heap whose cells have type `C`: it stops with a run-time error
(`none`) or returns a value together with the new heap.  The address of a cell is its
position in the list. -/
def M (C α : Type) : Type := List C → Option (α × List C)

/-- Returning a value without touching the heap. -/
def ret {C α : Type} (x : α) : M C α := fun h => some (x, h)

/-- Running `m`, then `f` on its result. -/
def andThen {C α β : Type} (m : M C α) (f : α → M C β) : M C β :=
  fun h => match m h with
    | none => none
    | some (x, h1) => f x h1

instance instMonadM {C : Type} : Monad (M C) where
  pure := ret
  bind := andThen

/-- A run-time error. -/
def fail {C α : Type} : M C α := fun _ => none

/-- Allocation of a fresh cell; returns its address. -/
def alloc {C : Type} (c : C) : M C Nat := fun h => some (h.length, h ++ [c])

/-- Reading the cell at address `a`. -/
def load {C : Type} (a : Nat) : M C C := fun h =>
  match h[a]? with
  | some c => some (c, h)
  | none => none

/-- Overwriting the cell at address `a`. -/
def store {C : Type} (a : Nat) (c : C) : M C Unit := fun h =>
  if a < h.length then some ((), h.set a c) else none

/-- Every cell at an address from `n` on satisfies `G`. -/
def FreshGood {C : Type} (G : C → Prop) (n : Nat) (h : List C) : Prop :=
  ∀ a c, n ≤ a → h[a]? = some c → G c

/-- Computation `m`, started on a heap of at least `n` cells whose cells from `n` on satisfy
`G`, leaves the first `n` cells as they are, does not shrink the heap, keeps `G` on the
cells from `n` on, and returns a value satisfying `Q`. -/
def Keeps {C α : Type} (G : C → Prop) (n : Nat) (m : M C α) (Q : α → Prop) : Prop :=
  ∀ h x h1, n ≤ h.length → FreshGood G n h → m h = some (x, h1) →
    h.length ≤ h1.length ∧ h1.take n = h.take n ∧ FreshGood G n h1 ∧ Q x

/-- Computation `m` only reads: it returns the heap it was given, and gives the same
result on every extension of that heap. -/
def Reads {C α : Type} (m : M C α) : Prop :=
  ∀ h x h1, m h = some (x, h1) → h1 = h ∧ ∀ ext, m (h ++ ext) = some (x, h ++ ext)

end heap

namespace arrayHeap

open heap array

/-- The struct `vectorNode[T]` in memory: child pointers (`none` is nil) and values. -/
structure nodeCell (T : Type) where
  children : Fin 32 → Option Nat
  values : Fin 32 → T

/-- The struct `Vector[T]` in memory; `tail` is the address of the array behind the slice. -/
structure vectorCell where
  root : Option Nat
  tail : Nat
  len : Nat
  shift : Nat

/-- A heap cell: a node, the array behind a `[]T`, or a `Vector` struct. -/
inductive Cell (T : Type) where
  | node (n : nodeCell T) : Cell T
  | slice (data : List T) : Cell T
  | vector (v : vectorCell) : Cell T

/-- The node `vectorNode[T]{}`. -/
def zeroNode {T : Type} [Inhabited T] : nodeCell T :=
  { children := fun _ => none, values := fun _ => default }

/-- Dereferencing a `*vectorNode[T]`. -/
def derefNode {T : Type} (p : Option Nat) : M (Cell T) (nodeCell T) :=
  match p with
  | none => fail
  | some a => do
    let c ← load a
    match c with
    | Cell.node n => pure n
    | _ => fail

/-- Reading the array behind a slice. -/
def derefSlice {T : Type} (a : Nat) : M (Cell T) (List T) := do
  let c ← load a
  match c with
  | Cell.slice d => pure d
  | _ => fail

/-- Dereferencing a `*Vector[T]`. -/
def derefVector {T : Type} (a : Nat) : M (Cell T) vectorCell := do
  let c ← load a
  match c with
  | Cell.vector v => pure v
  | _ => fail

/-- An assignment to a field, or to an element of an array field, of the node at `a`. -/
def modifyNode {T : Type} (a : Nat) (f : nodeCell T → nodeCell T) : M (Cell T) Unit := do
  let n ← derefNode (some a)
  store a (Cell.node (f n))

/-- The statement `copy(dst, src)` for the slice whose array is at `dst`. -/
def copySlice {T : Type} (dst : Nat) (src : List T) : M (Cell T) Unit := do
  let d ← derefSlice dst
  store dst (Cell.slice (src.take d.length ++ d.drop src.length))

/-- The statement `s[i] = value` for the slice whose array is at `a`. -/
def setElem {T : Type} (a : Nat) (i : Nat) (value : T) : M (Cell T) Unit := do
  let d ← derefSlice a
  if i < d.length then store a (Cell.slice (d.set i value)) else fail

/-- The expression `make([]T, n)`. -/
def makeSlice {T : Type} [Inhabited T] (n : Nat) : M (Cell T) Nat :=
  alloc (Cell.slice (List.replicate n default))

/-- The method `cloneInternal`. -/
def cloneInternal {T : Type} [Inhabited T] (n : Option Nat) : M (Cell T) Nat := do
  let newNode ← alloc (Cell.node zeroNode)
  let src ← derefNode n
  modifyNode newNode (fun c => { c with children := src.children })
  pure newNode

/-- The method `cloneLeaf`. -/
def cloneLeaf {T : Type} [Inhabited T] (n : Option Nat) : M (Cell T) Nat := do
  let newNode ← alloc (Cell.node zeroNode)
  let src ← derefNode n
  modifyNode newNode (fun c => { c with values := src.values })
  pure newNode

/-- The constructor `NewVector`. -/
def NewVector {T : Type} : M (Cell T) Nat := do
  let tail ← alloc (Cell.slice [])
  alloc (Cell.vector { root := none, tail := tail, len := 0, shift := shiftStep })

/-- The method `Len`. -/
def Len {T : Type} (v : Nat) : M (Cell T) Nat := do
  let s ← derefVector v
  pure s.len

/-- The method `tailOffset`, from the fields of the receiver. -/
def tailOffset (s : vectorCell) : Nat :=
  if s.len < nodeWidth then 0 else ((s.len - 1) >>> shiftStep) <<< shiftStep

/-- The loop of `getLeaf`; the first argument bounds the number of iterations. -/
def descend {T : Type} : Nat → Option Nat → Nat → Nat → M (Cell T) (Option Nat)
  | 0, node, level, _ => if level > shiftStep then fail else pure node
  | fuel + 1, node, level, index =>
    if level > shiftStep then do
      let n ← derefNode node
      descend fuel (n.children (slot (index >>> level))) (level - shiftStep) index
    else pure node

/-- The method `getLeaf`. -/
def getLeaf {T : Type} (v : Nat) (index : Nat) : M (Cell T) (Option Nat) := do
  let s ← derefVector v
  let node ← descend s.shift s.root s.shift index
  let n ← derefNode node
  pure (n.children (slot (index >>> shiftStep)))

/-- The method `Get`. -/
def Get {T : Type} [Inhabited T] (v : Nat) (index : Int) : M (Cell T) (T × Bool) := do
  let s ← derefVector v
  if index < 0 ∨ index ≥ (s.len : Int) then pure (default, false)
  else if index.toNat ≥ tailOffset s then do
    let t ← derefSlice s.tail
    match t[index.toNat - tailOffset s]? with
    | some x => pure (x, true)
    | none => fail
  else do
    let leaf ← getLeaf v index.toNat
    let n ← derefNode leaf
    pure (n.values (slot index.toNat), true)

/-- The method `setInNode`; the first argument bounds the depth of the recursion. -/
def setInNode {T : Type} [Inhabited T] :
    Nat → Option Nat → Nat → Nat → T → M (Cell T) (Option Nat)
  | 0, _, _, _, _ => fail
  | fuel + 1, node, level, index, value =>
    if level = shiftStep then do
      let newNode ← cloneInternal node
      let n ← derefNode node
      let leaf ← cloneLeaf (n.children (slot (index >>> shiftStep)))
      modifyNode leaf (fun c => { c with values := Function.update c.values (slot index) value })
      modifyNode newNode (fun c =>
        { c with children := Function.update c.children (slot (index >>> shiftStep)) (some leaf) })
      pure (some newNode)
    else do
      let newNode ← cloneInternal node
      let n ← derefNode node
      let c ← setInNode fuel (n.children (slot (index >>> level))) (level - shiftStep) index value
      modifyNode newNode (fun d =>
        { d with children := Function.update d.children (slot (index >>> level)) c })
      pure (some newNode)

/-- The method `Set`; returns the address of the resulting `Vector`. -/
def Set {T : Type} [Inhabited T] (v : Nat) (index : Int) (value : T) : M (Cell T) Nat := do
  let s ← derefVector v
  if index < 0 ∨ index ≥ (s.len : Int) then pure v
  else if index.toNat ≥ tailOffset s then do
    let t ← derefSlice s.tail
    let newTail ← makeSlice t.length
    copySlice newTail t
    setElem newTail (index.toNat - tailOffset s) value
    alloc (Cell.vector { root := s.root, tail := newTail, len := s.len, shift := s.shift })
  else do
    let r ← setInNode s.shift s.root s.shift index.toNat value
    alloc (Cell.vector { root := r, tail := s.tail, len := s.len, shift := s.shift })

/-- The method `newPath`; the first argument bounds the depth of the recursion. -/
def newPath {T : Type} [Inhabited T] : Nat → Nat → Option Nat → M (Cell T) (Option Nat)
  | 0, _, _ => fail
  | fuel + 1, level, leaf =>
    if level = shiftStep then do
      let node ← alloc (Cell.node zeroNode)
      modifyNode node (fun c => { c with children := Function.update c.children 0 leaf })
      pure (some node)
    else do
      let node ← alloc (Cell.node zeroNode)
      let p ← newPath fuel (level - shiftStep) leaf
      modifyNode node (fun c => { c with children := Function.update c.children 0 p })
      pure (some node)

/-- The method `pushTail`; `len` is the field `v.len` of the receiver and the first
argument bounds the depth of the recursion. -/
def pushTail {T : Type} [Inhabited T] (len : Nat) :
    Nat → Nat → Option Nat → Option Nat → M (Cell T) (Option Nat)
  | 0, _, _, _ => fail
  | fuel + 1, level, parent, tailNode => do
    let newNode ← cloneInternal parent
    if level = shiftStep then do
      modifyNode newNode (fun c =>
        { c with children := Function.update c.children (slot ((len - 1) >>> level)) tailNode })
      pure (some newNode)
    else do
      let p ← derefNode parent
      match p.children (slot ((len - 1) >>> level)) with
      | some child => do
        let c ← pushTail len fuel (level - shiftStep) (some child) tailNode
        modifyNode newNode (fun d =>
          { d with children := Function.update d.children (slot ((len - 1) >>> level)) c })
        pure (some newNode)
      | none => do
        let c ← newPath (level - shiftStep) (level - shiftStep) tailNode
        modifyNode newNode (fun d =>
          { d with children := Function.update d.children (slot ((len - 1) >>> level)) c })
        pure (some newNode)

/-- The method `Append`; returns the address of the resulting `Vector`. -/
def Append {T : Type} [Inhabited T] (v : Nat) (value : T) : M (Cell T) Nat := do
  let s ← derefVector v
  let t ← derefSlice s.tail
  if t.length < nodeWidth then do
    let newTail ← makeSlice (t.length + 1)
    copySlice newTail t
    setElem newTail t.length value
    alloc (Cell.vector { root := s.root, tail := newTail, len := s.len + 1, shift := s.shift })
  else do
    let tailNode ← alloc (Cell.node zeroNode)
    modifyNode tailNode (fun c => { c with values := fun i => t.getD i.val (c.values i) })
    match s.root with
    | none => do
      let newRoot ← alloc (Cell.node zeroNode)
      modifyNode newRoot (fun c =>
        { c with children := Function.update c.children 0 (some tailNode) })
      let newTail ← alloc (Cell.slice [value])
      alloc (Cell.vector { root := some newRoot, tail := newTail, len := s.len + 1,
                           shift := s.shift })
    | some root =>
      if (s.len >>> shiftStep) > (1 <<< s.shift) then do
        let newRoot ← alloc (Cell.node zeroNode)
        modifyNode newRoot (fun c =>
          { c with children := Function.update c.children 0 (some root) })
        let p ← newPath s.shift s.shift (some tailNode)
        modifyNode newRoot (fun c => { c with children := Function.update c.children 1 p })
        let newTail ← alloc (Cell.slice [value])
        alloc (Cell.vector { root := some newRoot, tail := newTail, len := s.len + 1,
                             shift := s.shift + shiftStep })
      else do
        let newRoot ← pushTail s.len s.shift s.shift (some root) (some tailNode)
        let newTail ← alloc (Cell.slice [value])
        alloc (Cell.vector { root := newRoot, tail := newTail, len := s.len + 1,
                             shift := s.shift })

/-- The method `leafValuesToSlice`; returns the address of the array of the new slice. -/
def leafValuesToSlice {T : Type} [Inhabited T] (v : Nat) (index : Nat) : M (Cell T) Nat := do
  let leaf ← getLeaf v index
  let result ← makeSlice nodeWidth
  let n ← derefNode leaf
  copySlice result (List.ofFn n.values)
  pure result

/-- The method `popTail`; `len` is the field `v.len` of the receiver and the first
argument bounds the depth of the recursion. -/
def popTail {T : Type} [Inhabited T] (len : Nat) :
    Nat → Nat → Option Nat → M (Cell T) (Option Nat)
  | 0, _, _ => fail
  | fuel + 1, level, node =>
    if level > shiftStep then do
      let n ← derefNode node
      let newChild ← popTail len fuel (level - shiftStep) (n.children (slot ((len - 2) >>> level)))
      if newChild = none ∧ slot ((len - 2) >>> level) = 0 then pure none
      else do
        let newNode ← cloneInternal node
        modifyNode newNode (fun c =>
          { c with children := Function.update c.children (slot ((len - 2) >>> level)) newChild })
        pure (some newNode)
    else if slot ((len - 2) >>> level) = 0 then pure none
    else do
      let newNode ← cloneInternal node
      modifyNode newNode (fun c =>
        { c with children := Function.update c.children (slot ((len - 2) >>> level)) none })
      pure (some newNode)

/-- The method `Pop`: the address of the resulting `Vector`, the removed value and the
found flag. -/
def Pop {T : Type} [Inhabited T] (v : Nat) : M (Cell T) (Nat × T × Bool) := do
  let s ← derefVector v
  if s.len = 0 then pure (v, default, false)
  else do
    let t ← derefSlice s.tail
    if s.len = 1 then
      match t[0]? with
      | some value => do
        let w ← NewVector
        pure (w, value, true)
      | none => fail
    else if t.length > 1 then do
      let newTail ← makeSlice (t.length - 1)
      copySlice newTail (t.take (t.length - 1))
      match t[t.length - 1]? with
      | some value => do
        let w ← alloc (Cell.vector { root := s.root, tail := newTail, len := s.len - 1,
                                     shift := s.shift })
        pure (w, value, true)
      | none => fail
    else
      match t[0]? with
      | none => fail
      | some value => do
        let newTail ← leafValuesToSlice v (s.len - 2)
        let newRoot ← popTail s.len s.shift s.shift s.root
        match newRoot with
        | none => do
          let w ← alloc (Cell.vector { root := none, tail := newTail, len := s.len - 1,
                                       shift := s.shift })
          pure (w, value, true)
        | some r => do
          let n ← derefNode (some r)
          if n.children 1 = none ∧ s.shift > shiftStep then do
            let w ← alloc (Cell.vector { root := n.children 0, tail := newTail,
                                         len := s.len - 1, shift := s.shift - shiftStep })
            pure (w, value, true)
          else do
            let w ← alloc (Cell.vector { root := some r, tail := newTail, len := s.len - 1,
                                         shift := s.shift })
            pure (w, value, true)

/-- The loop of `All`: the pairs passed to `yield` from index `i` on, for a consumer
that does not stop; the first argument is the number of indices left. -/
def allFrom {T : Type} [Inhabited T] (v : Nat) : Nat → Nat → M (Cell T) (List (Nat × T))
  | 0, _ => pure []
  | k + 1, i => do
    let r ← Get v (i : Int)
    let rest ← allFrom v k (i + 1)
    pure ((i, r.1) :: rest)

/-- The method `All`: the sequence of pairs it yields. -/
def All {T : Type} [Inhabited T] (v : Nat) : M (Cell T) (List (Nat × T)) := do
  let s ← derefVector v
  allFrom v s.len 0

/-- The method `Values`: the sequence of values it yields. -/
def Values {T : Type} [Inhabited T] (v : Nat) : M (Cell T) (List T) := do
  let s ← derefVector v
  let l ← allFrom v s.len 0
  pure (l.map (fun p => p.2))

/-- No condition on the cells of a vector heap. -/
def anyCell {T : Type} : Cell T → Prop := fun _ => True

/-- The pointer `p` in heap `h` leads to the tree `t`: every node of `t` is a node cell of `h`
with the same values, at an address that satisfies `P`, and nil stands for nil. -/
inductive NodeIn {T : Type} (P : Nat → Prop) (h : List (Cell T)) :
    Option Nat → vectorNode T → Prop where
  | nil : NodeIn P h none vectorNode.nil
  | mk (a : Nat) (n : nodeCell T) (c : Fin 32 → vectorNode T) (vals : Fin 32 → T) :
      P a → h[a]? = some (Cell.node n) → n.values = vals →
      (∀ j, NodeIn P h (n.children j) (c j)) → NodeIn P h (some a) (vectorNode.mk c vals)

/-- The pointer `p` in heap `h` leads to the tree `t`. -/
def NodeAt {T : Type} (h : List (Cell T)) (p : Option Nat) (t : vectorNode T) : Prop :=
  NodeIn (fun _ => True) h p t

/-- The `Vector` struct at address `v` of heap `h` holds the vector `V`. -/
def VecAt {T : Type} (h : List (Cell T)) (v : Nat) (V : Vector T) : Prop :=
  ∃ s : vectorCell, h[v]? = some (Cell.vector s) ∧ NodeAt h s.root V.root ∧
    h[s.tail]? = some (Cell.slice V.tail) ∧ s.len = V.len ∧ s.shift = V.shift

/-- Copying only the path, by address.  Node `p1` of heap `h1` stands `d` levels above the
parents of the leaves and replaces node `p` of heap `h0`: it is a cell at an address from `m`
on, its child pointers in the slots other than the one of `index` are the pointers of `p`,
and so on down the path of `index`; the leaf at the end is a cell at an address from `m` on
whose values are those of the old leaf with `value` in slot `index & 31`. -/
def pathShared {T : Type} (h0 h1 : List (Cell T)) (m index : Nat) (value : T) :
    Nat → Option Nat → Option Nat → Prop
  | 0, p, p1 =>
    ∃ a a1 n n1, p = some a ∧ p1 = some a1 ∧ h0[a]? = some (Cell.node n) ∧
      h1[a1]? = some (Cell.node n1) ∧ m ≤ a1 ∧
      (∀ j, j ≠ slot (index >>> shiftStep) → n1.children j = n.children j) ∧
      ∃ b b1 l l1, n.children (slot (index >>> shiftStep)) = some b ∧
        n1.children (slot (index >>> shiftStep)) = some b1 ∧
        h0[b]? = some (Cell.node l) ∧ h1[b1]? = some (Cell.node l1) ∧ m ≤ b1 ∧
        l1.values = Function.update l.values (slot index) value
  | d + 1, p, p1 =>
    ∃ a a1 n n1, p = some a ∧ p1 = some a1 ∧ h0[a]? = some (Cell.node n) ∧
      h1[a1]? = some (Cell.node n1) ∧ m ≤ a1 ∧
      (∀ j, j ≠ slot (index >>> (5 * (d + 2))) → n1.children j = n.children j) ∧
      pathShared h0 h1 m index value d (n.children (slot (index >>> (5 * (d + 2)))))
        (n1.children (slot (index >>> (5 * (d + 2)))))

/-- A fresh node whose child 0 is `p`, as a cell. -/
def singleCell {T : Type} [Inhabited T] (p : Option Nat) : Cell T :=
  Cell.node { children := Function.update (fun _ => none) 0 p, values := fun _ => default }

/-- The cell of the node `tailNode` of `Append`. -/
def tailCell {T : Type} [Inhabited T] (t : List T) : Cell T :=
  Cell.node { children := fun _ => none, values := fun i => t.getD i.val default }

/-- The `Vector` structs that exist in a heap: `Reached h v` says that `v` is the address
`NewVector`, `Append`, `Set` or `Pop` returned, `h` being the heap the call left or a heap
that extends it. -/
inductive Reached {T : Type} [Inhabited T] : List (Cell T) → Nat → Prop where
  | new (h h1 : List (Cell T)) (v : Nat) : NewVector h = some (v, h1) → Reached h1 v
  | append (h h1 : List (Cell T)) (v w : Nat) (x : T) :
      Reached h v → Append v x h = some (w, h1) → Reached h1 w
  | set (h h1 : List (Cell T)) (v w : Nat) (i : Int) (x : T) :
      Reached h v → Set v i x h = some (w, h1) → Reached h1 w
  | pop (h h1 : List (Cell T)) (v w : Nat) (y : T) (b : Bool) :
      Reached h v → Pop v h = some ((w, y, b), h1) → Reached h1 w
  | later (h h1 : List (Cell T)) (v : Nat) : Reached h v → h <+: h1 → Reached h1 v

/-- Appending the elements of a list one after the other. -/
def appendEach {T : Type} [Inhabited T] (v : Nat) : List T → M (Cell T) Nat
  | [] => pure v
  | x :: xs => do
    let w ← Append v x
    appendEach w xs

/-- The run `NewVector()` followed by `Append(0)`, …, `Append(32)` on the empty heap: the
address of the last vector and the heap. -/
def sampleRun : Option (Nat × List (Cell Nat)) :=
  (NewVector >>= fun v => appendEach v (List.range 33)) []

/-- The address of the vector of `sampleRun`. -/
def sampleVector : Nat := (sampleRun.map (fun r => r.1)).getD 0

/-- The heap of `sampleRun`. -/
def sampleHeap : List (Cell Nat) := (sampleRun.map (fun r => r.2)).getD []

/-- The `Vector` struct of `sampleRun`. -/
def sampleCell : vectorCell := { root := some 67, tail := 68, len := 33, shift := 5 }

/-- The fields of the `Vector` struct at address `v` of heap `h`. -/
def vectorFields {T : Type} (h : List (Cell T)) (v : Nat) :
    Option (Option Nat × Nat × Nat × Nat) :=
  match h[v]? with
  | some (Cell.vector s) => some (s.root, s.tail, s.len, s.shift)
  | _ => none

end arrayHeap

namespace hashmapHeap

open heap hashmap

/-- A value of type `any` stored in `children`: nil, or a pointer with its dynamic type
(`*hmapNode`, `*entry` or `*collision`). -/
inductive anyPtr where
  | null : anyPtr
  | node (a : Nat) : anyPtr
  | entry (a : Nat) : anyPtr
  | collision (a : Nat) : anyPtr

/-- The struct `hmapNode` in memory; `children` is the address of the array behind the
slice, `none` for the nil slice. -/
structure hmapNodeCell where
  bitmap : Nat
  children : Option Nat

/-- The struct `HashMap` in memory. -/
structure hashMapCell where
  root : Option Nat
  len : Int
  seed : Nat

/-- A heap cell: a trie node, the array behind a `[]any`, an entry, a collision struct
(the address of the array behind its `entries`), the array behind a `[]entry`, or a
`HashMap` struct. -/
inductive Cell (K V : Type) where
  | hmapNode (n : hmapNodeCell) : Cell K V
  | anys (data : List anyPtr) : Cell K V
  | entry (e : entry K V) : Cell K V
  | collision (entries : Nat) : Cell K V
  | entries (data : List (hashmap.entry K V)) : Cell K V
  | hashMap (m : hashMapCell) : Cell K V

/-- Dereferencing a `*hmapNode`. -/
def derefHmapNode {K V : Type} (a : Nat) : M (Cell K V) hmapNodeCell := do
  let c ← load a
  match c with
  | Cell.hmapNode n => pure n
  | _ => fail

/-- Reading the array behind a `[]any`; the nil slice is empty. -/
def derefAnys {K V : Type} (s : Option Nat) : M (Cell K V) (List anyPtr) :=
  match s with
  | none => pure []
  | some a => do
    let c ← load a
    match c with
    | Cell.anys d => pure d
    | _ => fail

/-- Dereferencing an `*entry`. -/
def derefEntry {K V : Type} (a : Nat) : M (Cell K V) (entry K V) := do
  let c ← load a
  match c with
  | Cell.entry e => pure e
  | _ => fail

/-- Reading the entries of a `*collision`. -/
def derefCollision {K V : Type} (a : Nat) : M (Cell K V) (List (entry K V)) := do
  let c ← load a
  match c with
  | Cell.collision arr => do
    let d ← load arr
    match d with
    | Cell.entries es => pure es
    | _ => fail
  | _ => fail

/-- Dereferencing a `*HashMap`. -/
def derefHashMap {K V : Type} (a : Nat) : M (Cell K V) hashMapCell := do
  let c ← load a
  match c with
  | Cell.hashMap m => pure m
  | _ => fail

/-- The effect of `copy(dst[off:off+window], src)` on the elements of `dst`. -/
def blit {α : Type} (dst : List α) (off window : Nat) (src : List α) : List α :=
  dst.take off ++ src.take window ++ dst.drop (off + min window src.length)

/-- The statement `copy(dst[off:off+window], src)` for the `[]any` whose array is at `arr`. -/
def copyAnys {K V : Type} (arr off window : Nat) (src : List anyPtr) : M (Cell K V) Unit := do
  let c ← load arr
  match c with
  | Cell.anys d => store arr (Cell.anys (blit d off window src))
  | _ => fail

/-- The statement `s[i] = x` for the `[]any` whose array is at `arr`. -/
def setAny {K V : Type} (arr i : Nat) (x : anyPtr) : M (Cell K V) Unit := do
  let c ← load arr
  match c with
  | Cell.anys d => if i < d.length then store arr (Cell.anys (d.set i x)) else fail
  | _ => fail

/-- The statement `copy(dst[off:off+window], src)` for the `[]entry` whose array is at
`arr`. -/
def copyEntries {K V : Type} (arr off window : Nat) (src : List (entry K V)) :
    M (Cell K V) Unit := do
  let c ← load arr
  match c with
  | Cell.entries d => store arr (Cell.entries (blit d off window src))
  | _ => fail

/-- The statement `s[i] = e` for the `[]entry` whose array is at `arr`. -/
def setEntry {K V : Type} (arr i : Nat) (e : entry K V) : M (Cell K V) Unit := do
  let c ← load arr
  match c with
  | Cell.entries d => if i < d.length then store arr (Cell.entries (d.set i e)) else fail
  | _ => fail

/-- The statement `node.children[i] = x`. -/
def setChild {K V : Type} (node i : Nat) (x : anyPtr) : M (Cell K V) Unit := do
  let n ← derefHmapNode node
  match n.children with
  | some arr => setAny arr i x
  | none => fail

/-- An assignment to the field `bitmap` of the node at `node`. -/
def setBitmap {K V : Type} (node : Nat) (f : Nat → Nat) : M (Cell K V) Unit := do
  let n ← derefHmapNode node
  store node (Cell.hmapNode { n with bitmap := f n.bitmap })

/-- The statement `node.children = s` for the slice whose array is at `arr`. -/
def setChildren {K V : Type} (node arr : Nat) : M (Cell K V) Unit := do
  let n ← derefHmapNode node
  store node (Cell.hmapNode { n with children := some arr })

/-- The expression `make([]any, n)`. -/
def makeAnys {K V : Type} (n : Nat) : M (Cell K V) Nat :=
  alloc (Cell.anys (List.replicate n anyPtr.null))

/-- The expression `make([]entry[K, V], n)`. -/
def makeEntries {K V : Type} [Inhabited K] [Inhabited V] (n : Nat) : M (Cell K V) Nat :=
  alloc (Cell.entries (List.replicate n ⟨default, default⟩))

/-- The method `clone`. -/
def clone {K V : Type} (node : Nat) : M (Cell K V) Nat := do
  let n ← derefHmapNode node
  let cs ← derefAnys n.children
  let newChildren ← makeAnys cs.length
  copyAnys newChildren 0 cs.length cs
  alloc (Cell.hmapNode { bitmap := n.bitmap, children := some newChildren })

/-- The constructor `NewHashMap`, given the seed that `maphash.MakeSeed` draws. -/
def NewHashMap {K V : Type} (seed : Nat) : M (Cell K V) Nat := do
  let root ← alloc (Cell.hmapNode { bitmap := 0, children := none })
  alloc (Cell.hashMap { root := some root, len := 0, seed := seed })

/-- The method `Len`. -/
def Len {K V : Type} (m : Nat) : M (Cell K V) Int := do
  let mc ← derefHashMap m
  pure mc.len

/-- The method `getNode`; the first argument bounds the depth of the recursion. -/
def getNode {K V : Type} [DecidableEq K] [Inhabited V] :
    Nat → Nat → K → Nat → Nat → M (Cell K V) (V × Bool)
  | 0, _, _, _, _ => fail
  | fuel + 1, node, key, hash, shift => do
    let n ← derefHmapNode node
    if n.bitmap &&& bitAt hash shift = 0 then pure (default, false)
    else do
      let cs ← derefAnys n.children
      match cs[onesCount32 (n.bitmap &&& (bitAt hash shift - 1))]? with
      | none => fail
      | some (anyPtr.node c) => getNode fuel c key hash (shift + hmapShift)
      | some (anyPtr.entry c) => do
        let e ← derefEntry c
        if e.key = key then pure (e.value, true) else pure (default, false)
      | some (anyPtr.collision c) => do
        let es ← derefCollision c
        pure (scanEntries es key)
      | some anyPtr.null => pure (default, false)

/-- The method `Get`. -/
def Get {K V : Type} [DecidableEq K] [Inhabited V] (H : Nat → K → Nat) (m : Nat) (key : K) :
    M (Cell K V) (V × Bool) := do
  let mc ← derefHashMap m
  match mc.root with
  | none => pure (default, false)
  | some root => getNode maxDepth root key (H mc.seed key % 4294967296) 0

/-- The method `Contains`. -/
def Contains {K V : Type} [DecidableEq K] [Inhabited V] (H : Nat → K → Nat) (m : Nat)
    (key : K) : M (Cell K V) Bool := do
  let r ← Get H m key
  pure r.2

/-- A fresh node `&hmapNode{bitmap: bitmap, children: []any{…}}`. -/
def newNodeWith {K V : Type} (bitmap : Nat) (children : List anyPtr) : M (Cell K V) Nat := do
  let arr ← alloc (Cell.anys children)
  alloc (Cell.hmapNode { bitmap := bitmap, children := some arr })

/-- A fresh `&collision{entries: []entry{…}}`. -/
def newCollision {K V : Type} (es : List (entry K V)) : M (Cell K V) Nat := do
  let arr ← alloc (Cell.entries es)
  alloc (Cell.collision arr)

/-- The method `createTwoEntryNode`; the first argument bounds the depth of the recursion. -/
def createTwoEntryNode {K V : Type} :
    Nat → K → V → Nat → K → V → Nat → Nat → M (Cell K V) Nat
  | 0, _, _, _, _, _, _, _ => fail
  | fuel + 1, key1, val1, hash1, key2, val2, hash2, shift =>
    if shift ≥ 30 then do
      let col ← newCollision [⟨key1, val1⟩, ⟨key2, val2⟩]
      newNodeWith 1 [anyPtr.collision col]
    else if bitAt hash1 shift = bitAt hash2 shift then do
      let child ← createTwoEntryNode fuel key1 val1 hash1 key2 val2 hash2 (shift + hmapShift)
      newNodeWith (bitAt hash1 shift) [anyPtr.node child]
    else if bitAt hash1 shift < bitAt hash2 shift then do
      let e1 ← alloc (Cell.entry ⟨key1, val1⟩)
      let e2 ← alloc (Cell.entry ⟨key2, val2⟩)
      newNodeWith (bitAt hash1 shift ||| bitAt hash2 shift) [anyPtr.entry e1, anyPtr.entry e2]
    else do
      let e2 ← alloc (Cell.entry ⟨key2, val2⟩)
      let e1 ← alloc (Cell.entry ⟨key1, val1⟩)
      newNodeWith (bitAt hash1 shift ||| bitAt hash2 shift) [anyPtr.entry e2, anyPtr.entry e1]

/-- The method `setNode`; `hashOf` is the method `hash` of the receiver and the first
argument bounds the depth of the recursion. -/
def setNode {K V : Type} [DecidableEq K] [Inhabited K] [Inhabited V] (hashOf : K → Nat) :
    Nat → Nat → K → V → Nat → Nat → M (Cell K V) (Nat × Bool)
  | 0, _, _, _, _, _ => fail
  | fuel + 1, node, key, value, hash, shift => do
    let n ← derefHmapNode node
    let cs ← derefAnys n.children
    if n.bitmap &&& bitAt hash shift = 0 then do
      let newNode ← clone node
      setBitmap newNode (fun b => b ||| bitAt hash shift)
      let newChildren ← makeAnys (cs.length + 1)
      if onesCount32 (n.bitmap &&& (bitAt hash shift - 1)) ≤ cs.length then do
        copyAnys newChildren 0 (onesCount32 (n.bitmap &&& (bitAt hash shift - 1)))
          (cs.take (onesCount32 (n.bitmap &&& (bitAt hash shift - 1))))
        let e ← alloc (Cell.entry ⟨key, value⟩)
        setAny newChildren (onesCount32 (n.bitmap &&& (bitAt hash shift - 1))) (anyPtr.entry e)
        copyAnys newChildren (onesCount32 (n.bitmap &&& (bitAt hash shift - 1)) + 1)
          (cs.length - onesCount32 (n.bitmap &&& (bitAt hash shift - 1)))
          (cs.drop (onesCount32 (n.bitmap &&& (bitAt hash shift - 1))))
        setChildren newNode newChildren
        pure (newNode, true)
      else fail
    else
      match cs[onesCount32 (n.bitmap &&& (bitAt hash shift - 1))]? with
      | none => fail
      | some child => do
        let newNode ← clone node
        match child with
        | anyPtr.node c => do
          let r ← setNode hashOf fuel c key value hash (shift + hmapShift)
          setChild newNode (onesCount32 (n.bitmap &&& (bitAt hash shift - 1))) (anyPtr.node r.1)
          pure (newNode, r.2)
        | anyPtr.entry c => do
          let e ← derefEntry c
          if e.key = key then do
            let ne ← alloc (Cell.entry ⟨key, value⟩)
            setChild newNode (onesCount32 (n.bitmap &&& (bitAt hash shift - 1))) (anyPtr.entry ne)
            pure (newNode, false)
          else if shift ≥ 30 then do
            let col ← newCollision [⟨e.key, e.value⟩, ⟨key, value⟩]
            setChild newNode (onesCount32 (n.bitmap &&& (bitAt hash shift - 1)))
              (anyPtr.collision col)
            pure (newNode, true)
          else do
            let newChild ← createTwoEntryNode fuel e.key e.value (hashOf e.key) key value hash
              (shift + hmapShift)
            setChild newNode (onesCount32 (n.bitmap &&& (bitAt hash shift - 1)))
              (anyPtr.node newChild)
            pure (newNode, true)
        | anyPtr.collision c => do
          let es ← derefCollision c
          match findKey es key with
          | some i => do
            let newEntries ← makeEntries es.length
            copyEntries newEntries 0 es.length es
            setEntry newEntries i ⟨key, value⟩
            let col ← alloc (Cell.collision newEntries)
            setChild newNode (onesCount32 (n.bitmap &&& (bitAt hash shift - 1)))
              (anyPtr.collision col)
            pure (newNode, false)
          | none => do
            let newEntries ← makeEntries (es.length + 1)
            copyEntries newEntries 0 (es.length + 1) es
            setEntry newEntries es.length ⟨key, value⟩
            let col ← alloc (Cell.collision newEntries)
            setChild newNode (onesCount32 (n.bitmap &&& (bitAt hash shift - 1)))
              (anyPtr.collision col)
            pure (newNode, true)
        | anyPtr.null => pure (newNode, false)

/-- The method `Set`; returns the address of the resulting `HashMap`. -/
def Set {K V : Type} [DecidableEq K] [Inhabited K] [Inhabited V] (H : Nat → K → Nat) (m : Nat)
    (key : K) (value : V) : M (Cell K V) Nat := do
  let mc ← derefHashMap m
  match mc.root with
  | none => fail
  | some root => do
    let r ← setNode (fun k => H mc.seed k % 4294967296) maxDepth root key value
      (H mc.seed key % 4294967296) 0
    alloc (Cell.hashMap { root := some r.1, len := if r.2 then mc.len + 1 else mc.len,
                          seed := mc.seed })

/-- The statements that remove slot `idx` from the copy `newNode` of a node with children
`cs`: `newNode.bitmap &^= bit`, a new array one element shorter, the two `copy` calls and
`newNode.children = newChildren`. -/
def removeSlot {K V : Type} (newNode : Nat) (cs : List anyPtr) (idx bit : Nat) :
    M (Cell K V) Unit := do
  setBitmap newNode (fun b => b &&& (4294967295 ^^^ bit))
  if cs.length = 0 then fail
  else do
    let newChildren ← makeAnys (cs.length - 1)
    if idx + 1 ≤ cs.length then do
      copyAnys newChildren 0 idx (cs.take idx)
      copyAnys newChildren idx (cs.length - 1 - idx) (cs.drop (idx + 1))
      setChildren newNode newChildren
    else fail

/-- The method `deleteNode`; the first argument bounds the depth of the recursion. -/
def deleteNode {K V : Type} [DecidableEq K] [Inhabited K] [Inhabited V] :
    Nat → Nat → K → Nat → Nat → M (Cell K V) (Nat × Bool)
  | 0, _, _, _, _ => fail
  | fuel + 1, node, key, hash, shift => do
    let n ← derefHmapNode node
    if n.bitmap &&& bitAt hash shift = 0 then pure (node, false)
    else do
      let cs ← derefAnys n.children
      match cs[onesCount32 (n.bitmap &&& (bitAt hash shift - 1))]? with
      | none => fail
      | some (anyPtr.node c) => do
        let r ← deleteNode fuel c key hash (shift + hmapShift)
        if r.2 = false then pure (node, false)
        else do
          let newNode ← clone node
          let nc ← derefHmapNode r.1
          let ncs ← derefAnys nc.children
          if nc.bitmap = 0 then do
            removeSlot newNode cs (onesCount32 (n.bitmap &&& (bitAt hash shift - 1)))
              (bitAt hash shift)
            pure (newNode, true)
          else if ncs.length = 1 then
            match ncs[0]? with
            | some (anyPtr.entry e) => do
              setChild newNode (onesCount32 (n.bitmap &&& (bitAt hash shift - 1)))
                (anyPtr.entry e)
              pure (newNode, true)
            | _ => do
              setChild newNode (onesCount32 (n.bitmap &&& (bitAt hash shift - 1)))
                (anyPtr.node r.1)
              pure (newNode, true)
          else do
            setChild newNode (onesCount32 (n.bitmap &&& (bitAt hash shift - 1)))
              (anyPtr.node r.1)
            pure (newNode, true)
      | some (anyPtr.entry c) => do
        let e ← derefEntry c
        if e.key ≠ key then pure (node, false)
        else do
          let newNode ← clone node
          removeSlot newNode cs (onesCount32 (n.bitmap &&& (bitAt hash shift - 1)))
            (bitAt hash shift)
          pure (newNode, true)
      | some (anyPtr.collision c) => do
        let es ← derefCollision c
        match findKey es key with
        | none => pure (node, false)
        | some foundIdx => do
          let newNode ← clone node
          if es.length = 2 then
            match es[1 - foundIdx]? with
            | some remaining => do
              let ne ← alloc (Cell.entry ⟨remaining.key, remaining.value⟩)
              setChild newNode (onesCount32 (n.bitmap &&& (bitAt hash shift - 1)))
                (anyPtr.entry ne)
              pure (newNode, true)
            | none => fail
          else if es.length = 0 then fail
          else do
            let newEntries ← makeEntries (es.length - 1)
            copyEntries newEntries 0 foundIdx (es.take foundIdx)
            copyEntries newEntries foundIdx (es.length - 1 - foundIdx) (es.drop (foundIdx + 1))
            let col ← alloc (Cell.collision newEntries)
            setChild newNode (onesCount32 (n.bitmap &&& (bitAt hash shift - 1)))
              (anyPtr.collision col)
            pure (newNode, true)
      | some anyPtr.null => pure (node, false)

/-- The method `Delete`; returns the address of the resulting `HashMap`. -/
def Delete {K V : Type} [DecidableEq K] [Inhabited K] [Inhabited V] (H : Nat → K → Nat)
    (m : Nat) (key : K) : M (Cell K V) Nat := do
  let mc ← derefHashMap m
  match mc.root with
  | none => pure m
  | some root => do
    let r ← deleteNode maxDepth root key (H mc.seed key % 4294967296) 0
    if r.2 = false then pure m
    else alloc (Cell.hashMap { root := some r.1, len := mc.len - 1, seed := mc.seed })

/-- Running `f` on the elements of a list in order and concatenating what it returns. -/
def forEach {C α β : Type} (f : α → M C (List β)) : List α → M C (List β)
  | [] => pure []
  | x :: rest => do
    let l ← f x
    let r ← forEach f rest
    pure (l ++ r)

/-- The method `iterNode` for a consumer that does not stop: the pairs passed to `yield`,
in order; the first argument bounds the depth of the recursion. -/
def iterNode {K V : Type} : Nat → Nat → M (Cell K V) (List (K × V))
  | 0, _ => fail
  | fuel + 1, node => do
    let n ← derefHmapNode node
    let cs ← derefAnys n.children
    forEach (fun child =>
      match child with
      | anyPtr.node c => iterNode fuel c
      | anyPtr.entry c => do
        let e ← derefEntry c
        pure [(e.key, e.value)]
      | anyPtr.collision c => do
        let es ← derefCollision c
        pure (es.map (fun e => (e.key, e.value)))
      | anyPtr.null => pure []) cs

/-- The method `All`: the sequence of pairs it yields. -/
def All {K V : Type} (m : Nat) : M (Cell K V) (List (K × V)) := do
  let mc ← derefHashMap m
  match mc.root with
  | none => pure []
  | some root => iterNode maxDepth root

/-- The method `Keys`: the sequence of keys it yields. -/
def Keys {K V : Type} (m : Nat) : M (Cell K V) (List K) := do
  let l ← All m
  pure (l.map (fun p => p.1))

/-- The method `Values`: the sequence of values it yields. -/
def Values {K V : Type} (m : Nat) : M (Cell K V) (List V) := do
  let l ← All m
  pure (l.map (fun p => p.2))

/-- The condition kept on the cells allocated since the heap had `n` cells: the array
behind the children of such a node is itself one of these cells. -/
def goodCell {K V : Type} (n : Nat) : Cell K V → Prop
  | Cell.hmapNode nc => ∀ a, nc.children = some a → n ≤ a
  | _ => True

end hashmapHeap

namespace heap

/-- The value that computation `m` returns on heap `h`, if it returns. -/
def result {C α : Type} (m : M C α) (h : List C) : Option α := (m h).map (fun r => r.1)

end heap

namespace arrayHeap

open heap array

/-- Every result that `Len`, `Get`, `All` or `Values` returns for a vector on heap `h` is
returned on heap `h1` as well. -/
def SameResults {T : Type} [Inhabited T] (h h1 : List (Cell T)) : Prop :=
  ∀ u : Nat,
    (∀ r, result (Len u) h = some r → result (Len u) h1 = some r) ∧
    (∀ i r, result (Get u i) h = some r → result (Get u i) h1 = some r) ∧
    (∀ r, result (All u) h = some r → result (All u) h1 = some r) ∧
    (∀ r, result (Values u) h = some r → result (Values u) h1 = some r)

/-- The branching scenario of `TestVector_Persistence`, run on the empty heap: the results
of `base.Len()` before the branches exist, then of `A.Get(2)`, `B.Get(2)`, `A.Len()`,
`B.Len()` and `base.Len()` after both branches were created. -/
def branching : M (Cell Nat) (Nat × (Nat × Bool) × (Nat × Bool) × Nat × Nat × Nat) := do
  let v0 ← NewVector
  let v1 ← Append v0 1
  let base ← Append v1 2
  let l0 ← Len base
  let branchA ← Append base 3
  let branchB ← Append base 100
  let a ← Get branchA 2
  let b ← Get branchB 2
  let la ← Len branchA
  let lb ← Len branchB
  let l ← Len base
  pure (l0, a, b, la, lb, l)

end arrayHeap

namespace hashmapHeap

open heap hashmap

/-- Every result that `Len`, `Get`, `Contains`, `All`, `Keys` or `Values` returns for a
map on heap `h` is returned on heap `h1` as well. -/
def SameResults {K V : Type} [DecidableEq K] [Inhabited V] (H : Nat → K → Nat)
    (h h1 : List (Cell K V)) : Prop :=
  ∀ u : Nat,
    (∀ r, result (Len u) h = some r → result (Len u) h1 = some r) ∧
    (∀ k r, result (Get H u k) h = some r → result (Get H u k) h1 = some r) ∧
    (∀ k r, result (Contains H u k) h = some r → result (Contains H u k) h1 = some r) ∧
    (∀ r, result (All u) h = some r → result (All u) h1 = some r) ∧
    (∀ r, result (Keys u) h = some r → result (Keys u) h1 = some r) ∧
    (∀ r, result (Values u) h = some r → result (Values u) h1 = some r)

end hashmapHeap

namespace queue

/-- The struct `stack[T]`: `head` is the linked list of `stackNode`s (the nil pointer is the
empty list), `len` the length field. -/
structure stack (T : Type) where
  head : List T
  len : Int

/-- The constructor `newStack`. -/
def newStack {T : Type} : stack T := { head := [], len := 0 }

/-- The method `push`. -/
def stack.push {T : Type} (s : stack T) (value : T) : stack T :=
  { head := value :: s.head, len := s.len + 1 }

/-- The method `pop`. -/
def stack.pop {T : Type} [Inhabited T] (s : stack T) : stack T × T × Bool :=
  match s.head with
  | [] => (s, default, false)
  | value :: next => ({ head := next, len := s.len - 1 }, value, true)

/-- The method `peek`. -/
def stack.peek {T : Type} [Inhabited T] (s : stack T) : T × Bool :=
  match s.head with
  | [] => (default, false)
  | value :: _ => (value, true)

/-- The method `isEmpty`. -/
def stack.isEmpty {T : Type} (s : stack T) : Bool :=
  match s.head with
  | [] => true
  | _ :: _ => false

/-- The loop of `reverse`: `for !current.isEmpty() { current, value, _ = current.pop();
result = result.push(value) }`, with `current` given by its list of nodes. -/
def reverseLoop {T : Type} : List T → stack T → stack T
  | [], result => result
  | value :: next, result => reverseLoop next (result.push value)

/-- The method `reverse`. -/
def stack.reverse {T : Type} (s : stack T) : stack T := reverseLoop s.head newStack

/-- The struct `Queue[T]`. -/
structure Queue (T : Type) where
  front : stack T
  rear : stack T
  len : Int

/-- The constructor `NewQueue`. -/
def NewQueue {T : Type} : Queue T := { front := newStack, rear := newStack, len := 0 }

/-- The method `Len`. -/
def Queue.Len {T : Type} (q : Queue T) : Int := q.len

/-- The method `IsEmpty`. -/
def Queue.IsEmpty {T : Type} (q : Queue T) : Bool := decide (q.len = 0)

/-- The method `Enqueue`. -/
def Queue.Enqueue {T : Type} (q : Queue T) (value : T) : Queue T :=
  { front := q.front, rear := q.rear.push value, len := q.len + 1 }

/-- The method `Dequeue`. -/
def Queue.Dequeue {T : Type} [Inhabited T] (q : Queue T) : Queue T × T × Bool :=
  if q.len = 0 then (q, default, false)
  else if q.front.isEmpty then
    ({ front := q.rear.reverse.pop.1, rear := newStack, len := q.len - 1 },
      q.rear.reverse.pop.2.1, true)
  else
    ({ front := q.front.pop.1, rear := q.rear, len := q.len - 1 }, q.front.pop.2.1, true)

/-- The method `Peek`. -/
def Queue.Peek {T : Type} [Inhabited T] (q : Queue T) : T × Bool :=
  if q.len = 0 then (default, false)
  else if q.front.isEmpty then q.rear.reverse.peek
  else q.front.peek

/-- The loop of `All`: `for current.len > 0 { current, value, _ = current.Dequeue(); if
!yield(value) { return } }`, run for at most `fuel` rounds; `none` when the rounds do not
suffice. -/
def allLoop {T σ : Type} [Inhabited T] (yield : T → σ → σ × Bool) :
    Nat → Queue T → σ → Option σ
  | 0, current, s => if current.len > 0 then none else some s
  | fuel + 1, current, s =>
    if current.len > 0 then
      if (yield current.Dequeue.2.1 s).2 then
        allLoop yield fuel current.Dequeue.1 (yield current.Dequeue.2.1 s).1
      else some (yield current.Dequeue.2.1 s).1
    else some s

/-- The method `All`, applied to a consumer `yield` in state `s`, run for at most `fuel`
rounds of its loop. -/
def Queue.All {T σ : Type} [Inhabited T] (q : Queue T) (fuel : Nat)
    (yield : T → σ → σ × Bool) (s : σ) : Option σ :=
  allLoop yield fuel q s

/-- A call of `Enqueue` or `Dequeue`. -/
inductive Call (T : Type) where
  | enqueue (value : T) : Call T
  | dequeue : Call T

/-- A sequence of calls on a queue: the last queue and what the `Dequeue` calls returned. -/
def Queue.run {T : Type} [Inhabited T] (q : Queue T) : List (Call T) → Queue T × List (T × Bool)
  | [] => (q, [])
  | Call.enqueue x :: rest => Queue.run (q.Enqueue x) rest
  | Call.dequeue :: rest =>
    ((Queue.run q.Dequeue.1 rest).1, (q.Dequeue.2.1, q.Dequeue.2.2) :: (Queue.run q.Dequeue.1 rest).2)

/-- The FIFO discipline on a list, oldest element first: `Enqueue` adds at the end, `Dequeue`
takes the first element, or reports `found = false` on the empty list. -/
def fifoSpec {T : Type} [Inhabited T] (l : List T) : List (Call T) → List T × List (T × Bool)
  | [] => (l, [])
  | Call.enqueue x :: rest => fifoSpec (l ++ [x]) rest
  | Call.dequeue :: rest =>
    match l with
    | [] => ((fifoSpec [] rest).1, (default, false) :: (fifoSpec [] rest).2)
    | y :: l' => ((fifoSpec l' rest).1, (y, true) :: (fifoSpec l' rest).2)

/-- The number of `Enqueue` calls in a sequence. -/
def enqueued {T : Type} : List (Call T) → Nat
  | [] => 0
  | Call.enqueue _ :: rest => enqueued rest + 1
  | Call.dequeue :: rest => enqueued rest

/-- The queues that `NewQueue`, `Enqueue` and `Dequeue` produce. -/
inductive Reachable {T : Type} [Inhabited T] : Queue T → Prop where
  | new : Reachable NewQueue
  | enqueue {q : Queue T} (x : T) : Reachable q → Reachable (q.Enqueue x)
  | dequeue {q : Queue T} : Reachable q → Reachable q.Dequeue.1

/-- The elements of a queue, oldest first: `front ++ reverse(rear)`. -/
def Queue.toList {T : Type} (q : Queue T) : List T := q.front.head ++ q.rear.head.reverse

/-- The values that successive `Dequeue` calls return, until one reports `found = false` or
`n` calls have been made. -/
def dequeueAll {T : Type} [Inhabited T] : Nat → Queue T → List T
  | 0, _ => []
  | n + 1, q => if q.Dequeue.2.2 then q.Dequeue.2.1 :: dequeueAll n q.Dequeue.1 else []

/-- The queue after `Enqueue 1`, `Enqueue 2`, `Dequeue`, `Enqueue 3`: front holds 2 and rear
holds 3. -/
def sampleQueue : Queue Nat :=
  (((NewQueue.Enqueue 1).Enqueue 2).Dequeue.1).Enqueue 3

/-- The queue after `Enqueue 1`, `Enqueue 2`: front is empty and rear holds both. -/
def rearQueue : Queue Nat := (NewQueue.Enqueue 1).Enqueue 2

/-- The invariant of a queue: `len` is the number of stored elements. -/
def LenOK {T : Type} (q : Queue T) : Prop :=
  q.len = ((q.front.head.length + q.rear.head.length : Nat) : Int)

end queue

namespace history

/-- The struct `History[T]`; the methods have pointer receivers and change the struct in
place, so each of them is a function from the state before to the state after. -/
structure History (T : Type) where
  versions : List T
  current : Int

/-- The indexing `s[i]` of a slice with an `int`: `none` when `i` is out of range. -/
def index {T : Type} (s : List T) (i : Int) : Option T :=
  if i < 0 then none else s[i.toNat]?

/-- The constructor `NewHistory`. -/
def NewHistory {T : Type} (initial : T) : History T := { versions := [initial], current := 0 }

/-- The method `Current`; `none` is an index out of range at run time. -/
def History.Current {T : Type} (h : History T) : Option T := index h.versions h.current

/-- The method `Commit`; `none` when the slice expression `h.versions[:h.current+1]` is out
of range (the capacity of the slice is taken to be its length). -/
def History.Commit {T : Type} (h : History T) (newVersion : T) : Option (History T) :=
  if 0 ≤ h.current + 1 ∧ h.current + 1 ≤ (h.versions.length : Int) then
    some { versions := h.versions.take (h.current + 1).toNat ++ [newVersion],
           current := h.current + 1 }
  else none

/-- The method `Undo`: the state after, the value and the flag returned. -/
def History.Undo {T : Type} [Inhabited T] (h : History T) : Option (History T × T × Bool) :=
  if h.current > 0 then
    match index h.versions (h.current - 1) with
    | some x => some ({ versions := h.versions, current := h.current - 1 }, x, true)
    | none => none
  else some (h, default, false)

/-- The method `Redo`: the state after, the value and the flag returned. -/
def History.Redo {T : Type} [Inhabited T] (h : History T) : Option (History T × T × Bool) :=
  if h.current < (h.versions.length : Int) - 1 then
    match index h.versions (h.current + 1) with
    | some x => some ({ versions := h.versions, current := h.current + 1 }, x, true)
    | none => none
  else some (h, default, false)

/-- The method `CanUndo`. -/
def History.CanUndo {T : Type} (h : History T) : Bool := decide (h.current > 0)

/-- The method `CanRedo`. -/
def History.CanRedo {T : Type} (h : History T) : Bool :=
  decide (h.current < (h.versions.length : Int) - 1)

/-- The method `VersionCount`. -/
def History.VersionCount {T : Type} (h : History T) : Int := h.versions.length

/-- The method `CurrentIndex`. -/
def History.CurrentIndex {T : Type} (h : History T) : Int := h.current

/-- The states that `NewHistory`, `Commit`, `Undo` and `Redo` produce. -/
inductive Reachable {T : Type} [Inhabited T] : History T → Prop where
  | new (initial : T) : Reachable (NewHistory initial)
  | commit {h h' : History T} (x : T) : Reachable h → h.Commit x = some h' → Reachable h'
  | undo {h h' : History T} {x : T} {b : Bool} :
      Reachable h → h.Undo = some (h', x, b) → Reachable h'
  | redo {h h' : History T} {x : T} {b : Bool} :
      Reachable h → h.Redo = some (h', x, b) → Reachable h'

/-- The history after `NewHistory(1)`, `Commit(2)`, `Commit(3)`. -/
def sampleHistory : History Nat := { versions := [1, 2, 3], current := 2 }

/-- The history after `NewHistory(1)`, `Commit(2)`, `Commit(3)`, `Undo()`. -/
def undoneHistory : History Nat := { versions := [1, 2, 3], current := 1 }

end history

namespace array

theorem slot_val (n : Nat) : (slot n).val = n % 32 := by
  show n &&& indexMask = n % 32
  have h := Nat.and_pow_two_sub_one_eq_mod n 5
  simpa [indexMask] using h

theorem slot_shift (i k : Nat) : (slot (i >>> (5 * k))).val = (i / 32 ^ k) % 32 := by
  rw [slot_val, Nat.shiftRight_eq_div_pow, Nat.pow_mul]

theorem slot_shift_one (i : Nat) : (slot (i >>> shiftStep)).val = (i / 32) % 32 := by
  have h := slot_shift i 1
  simpa [shiftStep] using h

theorem sub_isNil {T : Type} [Inhabited T] (f : Nat → T) (n h lo : Nat) :
    (sub f n h lo).isNil = decide (n ≤ lo) := by
  cases h <;> by_cases hn : n ≤ lo <;> simp [sub, hn, vectorNode.isNil]

theorem sub_nil {T : Type} [Inhabited T] (f : Nat → T) (n h lo : Nat) (hn : n ≤ lo) :
    sub f n h lo = vectorNode.nil := by
  cases h <;> simp [sub, hn]

theorem sub_congr {T : Type} [Inhabited T] (f g : Nat → T) (n m : Nat) :
    ∀ (h lo : Nat),
      (∀ i, lo ≤ i → i < lo + 32 ^ (h + 1) → ((i < n ↔ i < m) ∧ (i < n → f i = g i))) →
      sub f n h lo = sub g m h lo := by
  intro h
  induction h with
  | zero =>
    intro lo hyp
    have h0 := hyp lo (le_refl _) (by simp)
    by_cases hn : n ≤ lo
    · have hm : m ≤ lo := by omega
      simp [sub, hn, hm]
    · have hm : ¬ m ≤ lo := by omega
      simp only [sub, hn, hm, if_false]
      congr 1
      funext j
      have hj := hyp (lo + j.val) (by omega) (by have := j.isLt; simp only [zero_add, pow_one]; omega)
      by_cases hlt : lo + j.val < n
      · have hlt2 : lo + j.val < m := hj.1.mp hlt
        simp [hlt, hlt2, hj.2 hlt]
      · have hlt2 : ¬ lo + j.val < m := fun h => hlt (hj.1.mpr h)
        simp [hlt, hlt2]
  | succ h ih =>
    intro lo hyp
    have hpos : 0 < 32 ^ (h + 1) := pow_pos (by decide) _
    have hpow : 32 ^ (h + 1 + 1) = 32 * 32 ^ (h + 1) := by rw [Nat.pow_succ]; omega
    have h0 := hyp lo (le_refl _) (by omega)
    by_cases hn : n ≤ lo
    · have hm : m ≤ lo := by omega
      simp [sub, hn, hm]
    · have hm : ¬ m ≤ lo := by omega
      simp only [sub, hn, hm, if_false]
      congr 1
      funext j
      apply ih
      intro i hi1 hi2
      have hj : j.val * 32 ^ (h + 1) + 32 ^ (h + 1) ≤ 32 * 32 ^ (h + 1) := by
        have : (j.val + 1) * 32 ^ (h + 1) ≤ 32 * 32 ^ (h + 1) :=
          Nat.mul_le_mul_right _ (by have := j.isLt; omega)
        calc j.val * 32 ^ (h + 1) + 32 ^ (h + 1) = (j.val + 1) * 32 ^ (h + 1) := by ring
          _ ≤ _ := this
      exact hyp i (by omega) (by omega)

theorem align_step (i C : Nat) : i / (32 * C) * (32 * C) + (i / C % 32) * C = i / C * C := by
  have h1 : i / (32 * C) = i / C / 32 := by rw [Nat.mul_comm, Nat.div_div_eq_div_mul]
  rw [h1]
  have h2 := Nat.div_add_mod (i / C) 32
  calc i / C / 32 * (32 * C) + (i / C % 32) * C
      = (32 * (i / C / 32) + i / C % 32) * C := by ring
    _ = i / C * C := by rw [h2]

theorem div_mul_le_self_lt (i C : Nat) (hC : 0 < C) : i / C * C ≤ i ∧ i < i / C * C + C := by
  have h1 := Nat.div_add_mod i C
  have h2 := Nat.mod_lt i hC
  have h3 : C * (i / C) = i / C * C := Nat.mul_comm _ _
  omega

theorem sub_mk_children {T : Type} [Inhabited T] (f : Nat → T) (n h lo : Nat) (hn : lo < n) :
    sub f n (h + 1) lo =
      vectorNode.mk (fun j => sub f n h (lo + j.val * 32 ^ (h + 1))) noValues := by
  have : ¬ n ≤ lo := by omega
  simp [sub, this]

theorem sub_mk_leaf {T : Type} [Inhabited T] (f : Nat → T) (n lo : Nat) (hn : lo < n) :
    sub f n 0 lo =
      vectorNode.mk noChildren (fun j => if lo + j.val < n then f (lo + j.val) else default) := by
  have : ¬ n ≤ lo := by omega
  simp [sub, this]

theorem descend_sub {T : Type} [Inhabited T] (f : Nat → T) (n : Nat) :
    ∀ (h lo i : Nat), i < n → lo = i / 32 ^ (h + 2) * 32 ^ (h + 2) →
      descend (sub f n (h + 1) lo) (5 * (h + 1)) i = some (sub f n 1 (i / 1024 * 1024)) := by
  intro h
  induction h with
  | zero =>
    intro lo i hi hlo
    have hle : lo ≤ i := by
      have := (div_mul_le_self_lt i (32 ^ 2) (by decide)).1
      simp at hlo; omega
    have hlo2 : i / 1024 * 1024 = lo := by simp at hlo; omega
    rw [hlo2, sub_mk_children f n 0 lo (by omega)]
    simp [descend, shiftStep]
  | succ h ih =>
    intro lo i hi hlo
    have hpos : 0 < 32 ^ (h + 1 + 2) := pow_pos (by decide) _
    have hle : lo ≤ i := by
      have := (div_mul_le_self_lt i _ hpos).1
      omega
    rw [sub_mk_children f n (h + 1) lo (by omega)]
    have hlev : 5 * (h + 1 + 1) > shiftStep := by show 5 * (h + 1 + 1) > 5; omega
    have hlev2 : 5 * (h + 1 + 1) - shiftStep = 5 * (h + 1) := by show 5 * (h + 1 + 1) - 5 = _; omega
    rw [descend]
    simp only [hlev, if_true, hlev2]
    apply ih _ _ hi
    rw [slot_shift, hlo]
    have hp : 32 ^ (h + 1 + 2) = 32 * 32 ^ (h + 2) := by rw [Nat.pow_succ]; omega
    rw [hp]
    exact align_step i (32 ^ (h + 2))

theorem getLeaf_sub {T : Type} [Inhabited T] (f : Nat → T) (n k i : Nat) (v : Vector T)
    (hroot : v.root = sub f n k 0) (hshift : v.shift = 5 * k) (hk : 1 ≤ k)
    (hcap : n ≤ 32 ^ (k + 1)) (hi : i < n) :
    v.getLeaf i = some (sub f n 0 (i / 32 * 32)) := by
  obtain ⟨h, rfl⟩ : ∃ h, k = h + 1 := ⟨k - 1, by omega⟩
  have hlo : 0 = i / 32 ^ (h + 2) * 32 ^ (h + 2) := by
    have : i / 32 ^ (h + 2) = 0 := Nat.div_eq_of_lt (Nat.lt_of_lt_of_le hi hcap)
    simp [this]
  have hd := descend_sub f n h 0 i hi hlo
  have hle := (div_mul_le_self_lt i 1024 (by decide)).1
  unfold Vector.getLeaf
  rw [hroot, hshift, hd, sub_mk_children f n 0 _ (by omega)]
  simp only
  congr 2
  rw [slot_shift_one]
  have := align_step i 32
  simpa using this

theorem leaf_value {T : Type} [Inhabited T] (f : Nat → T) (n i : Nat) (hi : i < n) :
    ∃ c vals, sub f n 0 (i / 32 * 32) = vectorNode.mk c vals ∧ vals (slot i) = f i := by
  have hle := div_mul_le_self_lt i 32 (by decide)
  refine ⟨_, _, sub_mk_leaf f n _ (by omega), ?_⟩
  have h1 : i / 32 * 32 + (slot i).val = i := by
    rw [slot_val]
    have := Nat.div_add_mod i 32
    omega
  simp [h1, hi]

theorem update_eq_of {α : Type} (c c' : Fin 32 → α) (j : Fin 32) (a : α)
    (h1 : c' j = a) (h2 : ∀ j', j' ≠ j → c' j' = c j') : Function.update c j a = c' := by
  funext j'
  by_cases hj : j' = j
  · subst hj; simp [h1]
  · simp [Function.update_noteq hj, h2 j' hj]

theorem fin_ne_val {j j' : Fin 32} (h : j' ≠ j) : j'.val ≠ j.val :=
  fun e => h (Fin.ext e)

/-- Two different slots of a node cover disjoint index ranges. -/
theorem slot_range_disjoint (lo C i j j' : Nat) (hne : j' ≠ j)
    (h1 : lo + j * C ≤ i) (h2 : i < lo + j * C + C)
    (i' : Nat) (h3 : lo + j' * C ≤ i') (h4 : i' < lo + j' * C + C) : i' ≠ i := by
  intro e
  subst e
  rcases Nat.lt_or_gt_of_ne hne with hlt | hgt
  · have : (j' + 1) * C ≤ j * C := Nat.mul_le_mul_right _ hlt
    have e : (j' + 1) * C = j' * C + C := by ring
    omega
  · have : (j + 1) * C ≤ j' * C := Nat.mul_le_mul_right _ hgt
    have e : (j + 1) * C = j * C + C := by ring
    omega

theorem setInNode_sub {T : Type} [Inhabited T] (f : Nat → T) (n : Nat) (x : T) :
    ∀ (h lo i : Nat), i < n → lo = i / 32 ^ (h + 2) * 32 ^ (h + 2) →
      setInNode (sub f n (h + 1) lo) (5 * (h + 1)) i x =
        some (sub (Function.update f i x) n (h + 1) lo) := by
  intro h
  induction h with
  | zero =>
    intro lo i hi hlo
    have hle : lo ≤ i := by
      have := (div_mul_le_self_lt i (32 ^ 2) (by decide)).1
      simp at hlo; omega
    have hL := div_mul_le_self_lt i 32 (by decide)
    have hal : lo + (i / 32 % 32) * 32 = i / 32 * 32 := by
      have := align_step i 32
      simp at hlo this; omega
    rw [sub_mk_children f n 0 lo (by omega), sub_mk_children _ n 0 lo (by omega)]
    rw [setInNode]
    have hs : (5 * (0 + 1) = shiftStep) = True := by simp [shiftStep]
    simp only [hs, if_true, slot_shift_one, zero_add, pow_one, hal]
    rw [sub_mk_leaf f n _ (by omega)]
    simp only [cloneLeaf]
    congr 2
    apply update_eq_of
    · simp only [slot_shift_one, hal]
      rw [sub_mk_leaf _ n _ (by omega)]
      congr 1
      refine (update_eq_of _ _ _ _ ?_ ?_).symm
      · have h1 : i / 32 * 32 + (slot i).val = i := by
          rw [slot_val]; have := Nat.div_add_mod i 32; omega
        show (if i / 32 * 32 + (slot i).val < n then
          Function.update f i x (i / 32 * 32 + (slot i).val) else default) = x
        rw [h1]
        simp [hi]
      · intro j' hj'
        have h1 : i / 32 * 32 + j'.val ≠ i := by
          intro e
          apply fin_ne_val hj'
          rw [slot_val]; have := Nat.div_add_mod i 32; omega
        simp [Function.update_noteq h1]
    · intro j' hj'
      apply sub_congr
      intro i' h1 h2
      refine ⟨Iff.rfl, fun _ => ?_⟩
      have hne := fin_ne_val hj'
      rw [slot_shift_one] at hne
      have := slot_range_disjoint lo 32 i (i / 32 % 32) j'.val hne (by omega) (by omega) i'
        (by simpa using h1) (by simpa using h2)
      simp [Function.update_noteq this]
  | succ h ih =>
    intro lo i hi hlo
    have hpos : 0 < 32 ^ (h + 1 + 2) := pow_pos (by decide) _
    have hpos2 : 0 < 32 ^ (h + 2) := pow_pos (by decide) _
    have hle : lo ≤ i := by
      have := (div_mul_le_self_lt i _ hpos).1
      omega
    have hp : 32 ^ (h + 1 + 2) = 32 * 32 ^ (h + 2) := by rw [Nat.pow_succ]; omega
    have hal : lo + (i / 32 ^ (h + 2) % 32) * 32 ^ (h + 2) = i / 32 ^ (h + 2) * 32 ^ (h + 2) := by
      rw [hlo, hp]; exact align_step i (32 ^ (h + 2))
    have hL := div_mul_le_self_lt i _ hpos2
    rw [sub_mk_children f n (h + 1) lo (by omega), sub_mk_children _ n (h + 1) lo (by omega)]
    have hlev : ¬ (5 * (h + 1 + 1) = shiftStep) := by show ¬ (5 * (h + 1 + 1) = 5); omega
    have hlev2 : 5 * (h + 1 + 1) - shiftStep = 5 * (h + 1) := by
      show 5 * (h + 1 + 1) - 5 = _; omega
    rw [setInNode]
    simp only [hlev, if_false, hlev2]
    have hrec := ih (lo + (slot (i >>> (5 * (h + 1 + 1)))).val * 32 ^ (h + 1 + 1)) i hi
      (by rw [slot_shift]; exact hal)
    rw [hrec]
    simp only
    congr 2
    apply update_eq_of
    · rfl
    · intro j' hj'
      apply sub_congr
      intro i' h1 h2
      refine ⟨Iff.rfl, fun _ => ?_⟩
      have hne := fin_ne_val hj'
      rw [slot_shift] at hne
      have e : h + 1 + 1 = h + 2 := rfl
      rw [e] at hne h1 h2
      have := slot_range_disjoint lo (32 ^ (h + 2)) i _ j'.val hne (by omega) (by omega) i'
        h1 h2
      simp [Function.update_noteq this]

theorem slot_range_cases (lo C j j' i' : Nat) (hne : j' ≠ j)
    (h3 : lo + j' * C ≤ i') (h4 : i' < lo + j' * C + C) :
    i' < lo + j * C ∨ lo + j * C + C ≤ i' := by
  rcases Nat.lt_or_gt_of_ne hne with hlt | hgt
  · have : (j' + 1) * C ≤ j * C := Nat.mul_le_mul_right _ hlt
    have e : (j' + 1) * C = j' * C + C := by ring
    left; omega
  · have : (j + 1) * C ≤ j' * C := Nat.mul_le_mul_right _ hgt
    have e : (j + 1) * C = j * C + C := by ring
    right; omega

theorem pow32_dvd (h : Nat) : 32 ∣ 32 ^ (h + 1) := Dvd.intro_left _ rfl

theorem aligned_facts (n C : Nat) (hn : 32 ∣ n) (hC : 32 ∣ C) (hpos : 0 < C) :
    n / C * C ≤ n ∧ n + 32 ≤ n / C * C + C ∧ 32 ∣ n / C * C := by
  have h1 := div_mul_le_self_lt n C hpos
  have h2 : 32 ∣ n / C * C := Dvd.dvd.mul_left hC _
  refine ⟨h1.1, ?_, h2⟩
  omega

theorem div_add31 (n C : Nat) (hn : 32 ∣ n) (hC : 32 ∣ C) (hpos : 0 < C) :
    (n + 31) / C = n / C := by
  have h := aligned_facts n C hn hC hpos
  apply Nat.div_eq_of_lt_le
  · have : n / C * C ≤ n + 31 := by omega
    exact this
  · have e : (n / C + 1) * C = n / C * C + C := by ring
    show n + 31 < (n / C + 1) * C
    omega

theorem newPath_sub {T : Type} [Inhabited T] (g : Nat → T) (n : Nat) :
    ∀ h : Nat, newPath (5 * (h + 1)) (sub g (n + 32) 0 n) = sub g (n + 32) (h + 1) n := by
  intro h
  induction h with
  | zero =>
    rw [newPath, sub_mk_children g _ 0 n (by omega)]
    have hl : 5 * (0 + 1) ≤ shiftStep := by show 5 * (0 + 1) ≤ 5; omega
    simp only [hl, if_true, singleChild]
    congr 1
    apply update_eq_of
    · simp
    · intro j' hj'
      have : j'.val ≠ 0 := fun e => hj' (Fin.ext e)
      rw [sub_nil]
      · rfl
      · simp; omega
  | succ h ih =>
    rw [newPath, sub_mk_children g _ (h + 1) n (by omega)]
    have hl : ¬ 5 * (h + 1 + 1) ≤ shiftStep := by show ¬ 5 * (h + 1 + 1) ≤ 5; omega
    have hlev2 : 5 * (h + 1 + 1) - shiftStep = 5 * (h + 1) := by
      show 5 * (h + 1 + 1) - 5 = _; omega
    simp only [hl, if_false, hlev2, ih, singleChild]
    congr 1
    apply update_eq_of
    · simp
    · intro j' hj'
      have : j'.val ≠ 0 := fun e => hj' (Fin.ext e)
      have hpos : 32 ≤ 32 ^ (h + 1 + 1) := Nat.le_of_dvd (pow_pos (by decide) _) (pow32_dvd _)
      have : 1 * 32 ^ (h + 1 + 1) ≤ j'.val * 32 ^ (h + 1 + 1) :=
        Nat.mul_le_mul_right _ (by omega)
      rw [sub_nil]
      · rfl
      · omega

theorem pushTail_sub {T : Type} [Inhabited T] (f g : Nat → T) (n : Nat) (hdiv : 32 ∣ n)
    (hfg : ∀ i, i < n → f i = g i) :
    ∀ (h lo : Nat), lo = n / 32 ^ (h + 2) * 32 ^ (h + 2) → lo < n →
      pushTail (n + 32) (5 * (h + 1)) (sub f n (h + 1) lo) (sub g (n + 32) 0 n) =
        some (sub g (n + 32) (h + 1) lo) := by
  intro h
  induction h with
  | zero =>
    intro lo hlo hlt
    have hal : lo + (n / 32 % 32) * 32 = n / 32 * 32 := by
      have := align_step n 32
      simp at hlo this; omega
    have hn32 : n / 32 * 32 = n := Nat.div_mul_cancel hdiv
    rw [sub_mk_children f n 0 lo hlt, sub_mk_children g _ 0 lo (by omega)]
    rw [pushTail]
    have hs : (5 * (0 + 1) = shiftStep) = True := by simp [shiftStep]
    have hsl : (slot ((n + 32 - 1) >>> (5 * (0 + 1)))).val = n / 32 % 32 := by
      rw [slot_shift]
      have : n + 32 - 1 = n + 31 := by omega
      rw [this, div_add31 n _ hdiv (pow32_dvd 0) (by decide)]
      simp
    simp only [hs, if_true]
    congr 2
    apply update_eq_of
    · rw [hsl]; simp only [zero_add, pow_one, hal, hn32]
    · intro j' hj'
      have hne := fin_ne_val hj'
      rw [hsl] at hne
      apply sub_congr
      intro i' h1 h2
      have := slot_range_cases lo 32 (n / 32 % 32) j'.val i' hne (by simpa using h1)
        (by simpa using h2)
      refine ⟨by omega, fun hi' => (hfg i' (by omega)).symm⟩
  | succ h ih =>
    intro lo hlo hlt
    have hpos2 : 0 < 32 ^ (h + 2) := pow_pos (by decide) _
    have hp : 32 ^ (h + 1 + 2) = 32 * 32 ^ (h + 2) := by rw [Nat.pow_succ]; omega
    have hal : lo + (n / 32 ^ (h + 2) % 32) * 32 ^ (h + 2) = n / 32 ^ (h + 2) * 32 ^ (h + 2) := by
      rw [hlo, hp]; exact align_step n (32 ^ (h + 2))
    have hA := aligned_facts n (32 ^ (h + 2)) hdiv (pow32_dvd (h + 1)) hpos2
    rw [sub_mk_children f n (h + 1) lo hlt, sub_mk_children g _ (h + 1) lo (by omega)]
    have hlev : ¬ (5 * (h + 1 + 1) = shiftStep) := by show ¬ (5 * (h + 1 + 1) = 5); omega
    have hlev2 : 5 * (h + 1 + 1) - shiftStep = 5 * (h + 1) := by
      show 5 * (h + 1 + 1) - 5 = _; omega
    have hsl : (slot ((n + 32 - 1) >>> (5 * (h + 1 + 1)))).val = n / 32 ^ (h + 2) % 32 := by
      rw [slot_shift]
      have : n + 32 - 1 = n + 31 := by omega
      rw [this, div_add31 n _ hdiv (pow32_dvd (h + 1)) hpos2]
    have e : h + 1 + 1 = h + 2 := rfl
    rw [pushTail]
    simp only [hlev, if_false, hlev2, sub_isNil, hsl, e, hal]
    by_cases hnil : n ≤ n / 32 ^ (h + 2) * 32 ^ (h + 2)
    · have heq : n / 32 ^ (h + 2) * 32 ^ (h + 2) = n := by omega
      simp only [hnil, decide_True, if_true]
      congr 2
      apply update_eq_of
      · rw [hsl]; simp only [e, hal, heq]
        exact (newPath_sub g n h).symm
      · intro j' hj'
        have hne := fin_ne_val hj'
        rw [hsl] at hne
        apply sub_congr
        intro i' h1 h2
        have := slot_range_cases lo (32 ^ (h + 2)) _ j'.val i' hne h1 h2
        refine ⟨by omega, fun hi' => (hfg i' (by omega)).symm⟩
    · simp only [hnil, decide_False, Bool.false_eq_true, if_false]
      rw [ih _ rfl (by omega)]
      simp only
      congr 2
      apply update_eq_of
      · rw [hsl]; simp only [e, hal]
      · intro j' hj'
        have hne := fin_ne_val hj'
        rw [hsl] at hne
        apply sub_congr
        intro i' h1 h2
        have := slot_range_cases lo (32 ^ (h + 2)) _ j'.val i' hne h1 h2
        refine ⟨by omega, fun hi' => (hfg i' (by omega)).symm⟩

theorem popTail_sub {T : Type} [Inhabited T] (f : Nat → T) (m : Nat) (hdiv : 32 ∣ m) :
    ∀ (h lo : Nat), lo = m / 32 ^ (h + 2) * 32 ^ (h + 2) →
      popTail (m + 33) (5 * (h + 1)) (sub f (m + 32) (h + 1) lo) =
        some (sub f m (h + 1) lo) := by
  intro h
  induction h with
  | zero =>
    intro lo hlo
    have hal : lo + (m / 32 % 32) * 32 = m / 32 * 32 := by
      have := align_step m 32
      simp at hlo this; omega
    have hm32 : m / 32 * 32 = m := Nat.div_mul_cancel hdiv
    rw [sub_mk_children f _ 0 lo (by omega)]
    rw [popTail]
    have hs : ¬ (5 * (0 + 1) > shiftStep) := by simp [shiftStep]
    have hsl : (slot ((m + 33 - 2) >>> (5 * (0 + 1)))).val = m / 32 % 32 := by
      rw [slot_shift]
      have : m + 33 - 2 = m + 31 := by omega
      rw [this, div_add31 m _ hdiv (pow32_dvd 0) (by decide)]
      simp
    simp only [hs, if_false]
    by_cases hz : slot ((m + 33 - 2) >>> (5 * (0 + 1))) = 0
    · have hz2 : m / 32 % 32 = 0 := by rw [← hsl, hz]; rfl
      simp only [hz, if_true]
      rw [sub_nil]
      omega
    · have hz2 : m / 32 % 32 ≠ 0 := by
        intro e; apply hz; apply Fin.ext; rw [hsl, e]; rfl
      simp only [hz, if_false]
      rw [sub_mk_children f m 0 lo (by omega)]
      congr 2
      apply update_eq_of
      · rw [hsl]; simp only [zero_add, pow_one, hal, hm32]
        rw [sub_nil]; omega
      · intro j' hj'
        have hne := fin_ne_val hj'
        rw [hsl] at hne
        apply sub_congr
        intro i' h1 h2
        have := slot_range_cases lo 32 (m / 32 % 32) j'.val i' hne (by simpa using h1)
          (by simpa using h2)
        refine ⟨by omega, fun _ => rfl⟩
  | succ h ih =>
    intro lo hlo
    have hpos2 : 0 < 32 ^ (h + 2) := pow_pos (by decide) _
    have hp : 32 ^ (h + 1 + 2) = 32 * 32 ^ (h + 2) := by rw [Nat.pow_succ]; omega
    have hal : lo + (m / 32 ^ (h + 2) % 32) * 32 ^ (h + 2) = m / 32 ^ (h + 2) * 32 ^ (h + 2) := by
      rw [hlo, hp]; exact align_step m (32 ^ (h + 2))
    have hA := aligned_facts m (32 ^ (h + 2)) hdiv (pow32_dvd (h + 1)) hpos2
    have hle : lo ≤ m := by omega
    rw [sub_mk_children f _ (h + 1) lo (by omega)]
    have hlev : (5 * (h + 1 + 1) > shiftStep) := by show (5 * (h + 1 + 1) > 5); omega
    have hlev2 : 5 * (h + 1 + 1) - shiftStep = 5 * (h + 1) := by
      show 5 * (h + 1 + 1) - 5 = _; omega
    have hsl : (slot ((m + 33 - 2) >>> (5 * (h + 1 + 1)))).val = m / 32 ^ (h + 2) % 32 := by
      rw [slot_shift]
      have : m + 33 - 2 = m + 31 := by omega
      rw [this, div_add31 m _ hdiv (pow32_dvd (h + 1)) hpos2]
    have e : h + 1 + 1 = h + 2 := rfl
    rw [popTail]
    simp only [hlev, if_true, hlev2]
    rw [ih _ (by rw [hsl, e, hal])]
    simp only [sub_isNil, hsl, e, hal]
    by_cases hc : (decide (m ≤ m / 32 ^ (h + 2) * 32 ^ (h + 2)) = true) ∧
        slot ((m + 33 - 2) >>> (5 * (h + 2))) = 0
    · have hz2 : m / 32 ^ (h + 2) % 32 = 0 := by
        have := hsl; rw [e, hc.2] at this; exact this.symm
      have hnil : m ≤ m / 32 ^ (h + 2) * 32 ^ (h + 2) := by simpa using hc.1
      rw [if_pos hc, sub_nil]
      rw [hz2] at hal
      omega
    · rw [if_neg hc]
      have hlt : lo < m := by
        by_cases hnil : m ≤ m / 32 ^ (h + 2) * 32 ^ (h + 2)
        · have hz : m / 32 ^ (h + 2) % 32 ≠ 0 := by
            intro ez
            apply hc
            refine ⟨by simpa using hnil, ?_⟩
            apply Fin.ext
            have := hsl; rw [e] at this; rw [this, ez]; rfl
          have : 1 * 32 ^ (h + 2) ≤ (m / 32 ^ (h + 2) % 32) * 32 ^ (h + 2) :=
            Nat.mul_le_mul_right _ (by omega)
          omega
        · omega
      rw [sub_mk_children f m (h + 1) lo hlt]
      congr 2
      apply update_eq_of
      · have := hsl; rw [e] at this; rw [this]; simp only [e, hal]
      · intro j' hj'
        have hne := fin_ne_val hj'
        have := hsl; rw [e] at this
        rw [this] at hne
        apply sub_congr
        intro i' h1 h2
        have := slot_range_cases lo (32 ^ (h + 2)) _ j'.val i' hne h1 h2
        refine ⟨by omega, fun _ => rfl⟩

theorem tailOffset_eq {T : Type} (v : Vector T) : v.tailOffset = toff v.len := by
  unfold Vector.tailOffset toff nodeWidth shiftStep
  by_cases h : v.len < 32
  · simp [h]
  · simp only [h, if_false, Nat.shiftRight_eq_div_pow, Nat.shiftLeft_eq]

theorem toff_facts (n : Nat) :
    32 ∣ toff n ∧ toff n ≤ n ∧ n ≤ toff n + 32 ∧ (0 < n → toff n < n) := by
  unfold toff
  by_cases h : n < 32
  · simp [h]; omega
  · simp only [h, if_false]
    refine ⟨Dvd.intro_left _ rfl, ?_, ?_, ?_⟩ <;> omega

theorem rep_new {T : Type} [Inhabited T] : Rep (NewVector : Vector T) [] := by
  refine ⟨1, ?_⟩
  constructor <;> simp [NewVector, toff, shiftStep, sub]

theorem repK_tail_length {T : Type} [Inhabited T] {v : Vector T} {xs : List T} {k : Nat}
    (h : RepK v xs k) : v.tail.length = v.len - toff v.len := by
  rw [h.tail, List.length_drop, h.len]

theorem rep_get {T : Type} [Inhabited T] {v : Vector T} {xs : List T} (h : Rep v xs)
    (i : Int) :
    v.Get i = some (if 0 ≤ i ∧ i < xs.length then (xs.getD i.toNat default, true)
                    else (default, false)) := by
  obtain ⟨k, h⟩ := h
  have hf := toff_facts v.len
  unfold Vector.Get
  by_cases hr : i < 0 ∨ i ≥ (v.len : Int)
  · have : ¬ (0 ≤ i ∧ i < xs.length) := by rw [← h.len]; omega
    simp [hr, this]
  · have hin : 0 ≤ i ∧ i < xs.length := by rw [← h.len]; omega
    have hlt : i.toNat < xs.length := by omega
    simp only [hr, if_false, hin, and_self, if_true, tailOffset_eq]
    by_cases ht : i.toNat ≥ toff v.len
    · simp only [ht, if_true, h.tail]
      have : (List.drop (toff v.len) xs)[i.toNat - toff v.len]? = some (xs.getD i.toNat default) := by
        rw [List.getElem?_drop]
        have e : toff v.len + (i.toNat - toff v.len) = i.toNat := by omega
        rw [e, List.getD_eq_getElem?_getD, List.getElem?_eq_getElem hlt]
        rfl
      rw [this]
    · simp only [ht, if_false]
      have hi : i.toNat < toff v.len := by omega
      rw [getLeaf_sub (elems xs) (toff v.len) k i.toNat v h.root h.shift h.hk h.cap hi]
      obtain ⟨c, vals, e1, e2⟩ := leaf_value (elems xs) (toff v.len) i.toNat hi
      rw [e1]
      simp only [e2, elems]

theorem elems_set {T : Type} [Inhabited T] (xs : List T) (i : Nat) (x : T)
    (hi : i < xs.length) : elems (xs.set i x) = Function.update (elems xs) i x := by
  funext j
  unfold elems
  by_cases hj : j = i
  · subst hj
    simp [List.getD_eq_getElem?_getD, hi]
  · rw [Function.update_noteq hj]
    simp [List.getD_eq_getElem?_getD, List.getElem?_set_ne (Ne.symm hj)]

theorem rep_set {T : Type} [Inhabited T] {v : Vector T} {xs : List T} (h : Rep v xs)
    (i : Int) (x : T) (h0 : 0 ≤ i) (h1 : i < xs.length) :
    ∃ w, v.Set i x = some w ∧ Rep w (xs.set i.toNat x) := by
  obtain ⟨k, h⟩ := h
  have hf := toff_facts v.len
  have hlt : i.toNat < xs.length := by omega
  have hr : ¬ (i < 0 ∨ i ≥ (v.len : Int)) := by rw [h.len]; omega
  unfold Vector.Set
  simp only [hr, if_false, tailOffset_eq]
  by_cases ht : i.toNat ≥ toff v.len
  · have hl := repK_tail_length h
    have hlen : i.toNat - toff v.len < v.tail.length := by have := h.len; omega
    simp only [ht, if_true, setTail, hlen]
    refine ⟨_, rfl, k, ?_⟩
    constructor
    · simp [h.len]
    · show v.tail.set (i.toNat - toff v.len) x = (xs.set i.toNat x).drop (toff v.len)
      rw [h.tail, List.drop_set]
      have : ¬ i.toNat < toff v.len := by omega
      simp [this]
    · exact h.hk
    · exact h.shift
    · show v.root = _
      rw [h.root]
      apply sub_congr
      intro j _ _
      refine ⟨Iff.rfl, fun hj => ?_⟩
      rw [elems_set xs _ x hlt, Function.update_noteq (by omega)]
    · exact h.cap
    · exact h.full
  · simp only [ht, if_false]
    have hi : i.toNat < toff v.len := by omega
    obtain ⟨hh, rfl⟩ : ∃ hh, k = hh + 1 := ⟨k - 1, by have := h.hk; omega⟩
    have hlo : 0 = i.toNat / 32 ^ (hh + 2) * 32 ^ (hh + 2) := by
      have : i.toNat / 32 ^ (hh + 2) = 0 := Nat.div_eq_of_lt (Nat.lt_of_lt_of_le hi h.cap)
      simp [this]
    rw [h.root, h.shift, setInNode_sub (elems xs) (toff v.len) x hh 0 i.toNat hi hlo]
    refine ⟨_, rfl, hh + 1, ?_⟩
    constructor
    · simp [h.len]
    · show v.tail = (xs.set i.toNat x).drop (toff v.len)
      rw [h.tail, List.drop_set]
      simp [hi]
    · exact h.hk
    · rfl
    · show sub _ _ _ _ = _
      rw [elems_set xs _ x hlt]
    · exact h.cap
    · exact h.full

theorem elems_append_lt {T : Type} [Inhabited T] (xs : List T) (x : T) (i : Nat)
    (hi : i < xs.length) : elems (xs ++ [x]) i = elems xs i := by
  unfold elems
  simp [List.getD_eq_getElem?_getD, List.getElem?_append_left hi]

theorem tailNode_eq {T : Type} [Inhabited T] (xs : List T) (n : Nat) (x : T)
    (h : xs.length = n + 32) :
    tailNode (xs.drop n) = sub (elems (xs ++ [x])) (n + 32) 0 n := by
  rw [sub_mk_leaf _ _ _ (by omega)]
  unfold tailNode
  congr 1
  funext j
  have hj := j.isLt
  have h1 : n + j.val < n + 32 := by omega
  simp only [h1, if_true]
  rw [elems_append_lt xs x _ (by omega)]
  unfold elems
  simp [List.getD_eq_getElem?_getD, List.getElem?_drop]

theorem one_shiftLeft_five (k : Nat) : 1 <<< (5 * k) = 32 ^ k := by
  rw [Nat.one_shiftLeft, Nat.pow_mul]

theorem pow32_succ (k : Nat) : 32 ^ (k + 1) = 32 * 32 ^ k := by
  rw [Nat.pow_succ]; omega

theorem rep_append {T : Type} [Inhabited T] {v : Vector T} {xs : List T} (h : Rep v xs)
    (x : T) : ∃ w, v.Append x = some w ∧ Rep w (xs ++ [x]) := by
  obtain ⟨k, h⟩ := h
  have hf := toff_facts v.len
  have hl := repK_tail_length h
  have hlen := h.len
  unfold Vector.Append
  by_cases ht : v.tail.length < nodeWidth
  · have ht2 : v.len - toff v.len < 32 := by rw [← hl]; exact ht
    have hto : toff (v.len + 1) = toff v.len := by
      unfold toff at ht2 ⊢
      by_cases h32 : v.len < 32
      · by_cases h31 : v.len + 1 < 32
        · simp [h32, h31]
        · have : v.len = 31 := by omega
          simp [this]
      · have : ¬ v.len + 1 < 32 := by omega
        simp only [h32, if_false] at ht2
        simp only [h32, this, if_false]
        omega
    simp only [ht, if_true]
    refine ⟨_, rfl, k, ?_⟩
    constructor
    · simp [h.len]
    · show v.tail ++ [x] = (xs ++ [x]).drop (toff (v.len + 1))
      rw [hto, h.tail, List.drop_append_of_le_length (by omega)]
    · exact h.hk
    · exact h.shift
    · show v.root = sub _ (toff (v.len + 1)) k 0
      rw [hto, h.root]
      apply sub_congr
      intro i _ _
      refine ⟨Iff.rfl, fun hi => (elems_append_lt xs x i (by omega)).symm⟩
    · show toff (v.len + 1) ≤ _
      rw [hto]; exact h.cap
    · show _ → _ < toff (v.len + 1)
      rw [hto]; exact h.full
  · have ht2 : v.len = toff v.len + 32 := by
      have : ¬ v.tail.length < 32 := ht
      omega
    have hto : toff (v.len + 1) = toff v.len + 32 := by
      have h1 : toff (v.len + 1) = v.len / 32 * 32 := by
        unfold toff
        have : ¬ v.len + 1 < 32 := by omega
        simp [this]
      rw [h1]
      have := hf.1
      omega
    have hxs : xs.length = toff v.len + 32 := by omega
    have htn := tailNode_eq xs (toff v.len) x hxs
    rw [← h.tail] at htn
    simp only [ht, if_false]
    by_cases hz : toff v.len = 0
    · -- the tree is empty
      have hk1 : k = 1 := by
        by_contra hne
        have := h.full (by have := h.hk; omega)
        rw [hz] at this
        exact Nat.not_lt_zero _ this
      subst hk1
      have hroot : v.root = vectorNode.nil := by
        rw [h.root, sub_nil]; omega
      rw [hroot]
      refine ⟨_, rfl, 1, ?_⟩
      constructor
      · simp [h.len]
      · show [x] = (xs ++ [x]).drop (toff (v.len + 1))
        rw [hto, ← ht2, hlen]; simp
      · exact le_refl _
      · exact h.shift
      · show singleChild (tailNode v.tail) = sub _ (toff (v.len + 1)) 1 0
        rw [hto, htn]
        have := newPath_sub (elems (xs ++ [x])) (toff v.len) 0
        rw [newPath] at this
        have hl5 : 5 * (0 + 1) ≤ shiftStep := by show 5 * (0 + 1) ≤ 5; omega
        simp only [hl5, if_true] at this
        rw [this, hz]
      · show toff (v.len + 1) ≤ _
        rw [hto, hz]; decide
      · intro hc; omega
    · have hpos : 0 < toff v.len := by omega
      obtain ⟨hh, rfl⟩ : ∃ hh, k = hh + 1 := ⟨k - 1, by have := h.hk; omega⟩
      have hroot := h.root
      rw [sub_mk_children _ _ hh 0 hpos] at hroot
      rw [hroot]
      simp only
      rw [← hroot]
      have hcond : (v.len >>> shiftStep > 1 <<< v.shift) ↔ toff v.len = 32 ^ (hh + 2) := by
        rw [h.shift, one_shiftLeft_five, Nat.shiftRight_eq_div_pow]
        have hc : toff v.len ≤ 32 ^ (hh + 2) := h.cap
        have hp : 32 ^ (hh + 2) = 32 * 32 ^ (hh + 1) := pow32_succ (hh + 1)
        have hd := hf.1
        show v.len / 32 > 32 ^ (hh + 1) ↔ toff v.len = 32 ^ (hh + 2)
        rw [hp] at hc ⊢
        generalize 32 ^ (hh + 1) = P at hc ⊢
        constructor
        · intro hgt; omega
        · intro e; omega
      by_cases hg : v.len >>> shiftStep > 1 <<< v.shift
      · -- the tree is full: one more level
        have hfullv := hcond.mp hg
        simp only [hg, if_true]
        refine ⟨_, rfl, hh + 2, ?_⟩
        constructor
        · simp [h.len]
        · show [x] = (xs ++ [x]).drop (toff (v.len + 1))
          rw [hto, ← ht2, hlen]; simp
        · omega
        · show v.shift + shiftStep = 5 * (hh + 2)
          rw [h.shift]; show 5 * (hh + 1) + 5 = _; omega
        · show vectorNode.mk _ _ = sub _ (toff (v.len + 1)) (hh + 2) 0
          rw [hto, sub_mk_children _ _ (hh + 1) 0 (by omega)]
          congr 1
          apply update_eq_of
          · simp only [Fin.val_one, one_mul, zero_add]
            rw [htn, h.shift, newPath_sub, hfullv]
          · intro j' hj'
            by_cases hj0 : j' = 0
            · subst hj0
              simp only [Fin.val_zero, zero_mul, zero_add]
              rw [Function.update_same, h.root]
              apply sub_congr
              intro i _ hi2
              have hi3 : i < toff v.len := by rw [hfullv]; simpa using hi2
              refine ⟨by omega, fun _ => elems_append_lt xs x i (by omega)⟩
            · rw [Function.update_noteq hj0, sub_nil]
              · rfl
              · have h2 : 2 ≤ j'.val := by
                  have a := fin_ne_val hj'
                  have b := fin_ne_val hj0
                  simp at a b
                  omega
                have h3 : 2 * 32 ^ (hh + 2) ≤ j'.val * 32 ^ (hh + 2) :=
                  Nat.mul_le_mul_right _ h2
                have h4 : 32 ≤ 32 ^ (hh + 2) :=
                  Nat.le_of_dvd (pow_pos (by decide) _) (pow32_dvd _)
                show toff v.len + 32 ≤ 0 + j'.val * 32 ^ (hh + 2)
                rw [hfullv]
                generalize 32 ^ (hh + 2) = P at h3 h4 ⊢
                omega
        · show toff (v.len + 1) ≤ _
          rw [hto, hfullv]
          have h3 : 32 ^ (hh + 2 + 1) = 32 * 32 ^ (hh + 2) := pow32_succ (hh + 2)
          have h4 : 32 ≤ 32 ^ (hh + 2) := Nat.le_of_dvd (pow_pos (by decide) _) (pow32_dvd _)
          rw [h3]
          generalize 32 ^ (hh + 2) = P at h4 ⊢
          omega
        · intro _
          show 32 ^ (hh + 2) < toff (v.len + 1)
          rw [hto, hfullv]; exact Nat.lt_add_of_pos_right (by decide)
      · have hnf : toff v.len ≠ 32 ^ (hh + 2) := fun e => hg (hcond.mpr e)
        have hlt : toff v.len < 32 ^ (hh + 2) := lt_of_le_of_ne h.cap hnf
        simp only [hg, if_false]
        have hlo : 0 = toff v.len / 32 ^ (hh + 2) * 32 ^ (hh + 2) := by
          simp [Nat.div_eq_of_lt hlt]
        have hpt := pushTail_sub (elems xs) (elems (xs ++ [x])) (toff v.len) hf.1
          (fun i hi => (elems_append_lt xs x i (by omega)).symm) hh 0 hlo hpos
        rw [← htn, ← h.root, ← h.shift, ← ht2] at hpt
        rw [hpt]
        refine ⟨_, rfl, hh + 1, ?_⟩
        constructor
        · simp [h.len]
        · show [x] = (xs ++ [x]).drop (toff (v.len + 1))
          rw [hto, ← ht2, hlen]; simp
        · exact h.hk
        · exact h.shift
        · show sub _ _ _ _ = sub _ (toff (v.len + 1)) _ _
          rw [hto, ← ht2]
        · show toff (v.len + 1) ≤ 32 ^ (hh + 2)
          rw [hto]
          have h3 := pow32_dvd (hh + 1)
          have h4 := hf.1
          generalize 32 ^ (hh + 1 + 1) = P at hlt h3 ⊢
          omega
        · intro hc
          show 32 ^ (hh + 1) < toff (v.len + 1)
          have h3 : 32 ^ (hh + 1) < toff v.len := h.full hc
          rw [hto]
          exact Nat.lt_add_right _ h3

theorem rep_pop_empty {T : Type} [Inhabited T] {v : Vector T} (h : Rep v []) :
    v.Pop = some (v, default, false) := by
  obtain ⟨k, h⟩ := h
  have : v.len = 0 := by rw [h.len]; rfl
  simp [Vector.Pop, this]

theorem leaf_toList {T : Type} [Inhabited T] (xs : List T) (x : T) (m : Nat)
    (h : xs.length = m + 32) :
    ∃ c vals, sub (elems (xs ++ [x])) (m + 32) 0 m = vectorNode.mk c vals ∧
      List.ofFn vals = xs.drop m := by
  refine ⟨_, _, sub_mk_leaf _ _ _ (by omega), ?_⟩
  apply List.ext_getElem
  · simp [h]
  · intro j h1 h2
    have hj : j < 32 := by simpa using h1
    have h3 : m + j < m + 32 := by omega
    simp only [List.getElem_ofFn, h3, if_true, List.getElem_drop]
    rw [elems_append_lt xs x _ (by omega)]
    unfold elems
    rw [List.getD_eq_getElem?_getD, List.getElem?_eq_getElem (by omega)]
    rfl

theorem rep_pop {T : Type} [Inhabited T] {v : Vector T} {xs : List T} {x : T}
    (h : Rep v (xs ++ [x])) : ∃ w, v.Pop = some (w, x, true) ∧ Rep w xs := by
  obtain ⟨k, h⟩ := h
  have hf := toff_facts v.len
  have hl := repK_tail_length h
  have hlen : v.len = xs.length + 1 := by rw [h.len]; simp
  have hne : ¬ v.len = 0 := by omega
  unfold Vector.Pop
  simp only [hne, if_false]
  by_cases h1 : v.len = 1
  · have hxs : xs = [] := List.eq_nil_of_length_eq_zero (by omega)
    subst hxs
    have ht : v.tail = [x] := by
      rw [h.tail, h1]; simp [toff]
    simp only [h1, if_true, ht]
    exact ⟨_, rfl, rep_new⟩
  · simp only [h1, if_false]
    by_cases h2 : v.tail.length > 1
    · have h2b : v.len - toff v.len > 1 := by rw [← hl]; exact h2
      have hto : toff (v.len - 1) = toff v.len := by
        unfold toff at h2b ⊢
        by_cases h32 : v.len < 32
        · have : v.len - 1 < 32 := by omega
          simp [h32, this]
        · simp only [h32, if_false] at h2b
          by_cases h33 : v.len - 1 < 32
          · have : v.len = 32 := by omega
            simp [this]
          · simp only [h32, h33, if_false]
            omega
      have hlast : v.tail[v.tail.length - 1]? = some x := by
        rw [hl, h.tail, List.getElem?_drop]
        have : toff v.len + (v.len - toff v.len - 1) = xs.length := by omega
        rw [this]
        simp
      simp only [h2, if_true, hlast]
      refine ⟨_, rfl, k, ?_⟩
      constructor
      · show v.len - 1 = xs.length
        omega
      · show v.tail.take (v.tail.length - 1) = xs.drop (toff (v.len - 1))
        rw [hto, hl, h.tail, List.drop_append_of_le_length (by omega)]
        have : v.len - toff v.len - 1 = (xs.drop (toff v.len)).length := by
          rw [List.length_drop]; omega
        rw [this, List.take_left]
      · exact h.hk
      · exact h.shift
      · show v.root = sub _ (toff (v.len - 1)) k 0
        rw [hto, h.root]
        apply sub_congr
        intro i _ _
        refine ⟨Iff.rfl, fun hi => elems_append_lt xs x i (by omega)⟩
      · show toff (v.len - 1) ≤ _
        rw [hto]; exact h.cap
      · show _ → _ < toff (v.len - 1)
        rw [hto]; exact h.full
    · simp only [h2, if_false]
      have h3 : v.len = toff v.len + 1 := by omega
      have h32 : 32 ≤ toff v.len := by
        have := hf.1
        omega
      obtain ⟨m, hm⟩ : ∃ m, toff v.len = m + 32 := ⟨toff v.len - 32, by omega⟩
      have hmd : 32 ∣ m := by have := hf.1; omega
      have hxl : xs.length = m + 32 := by omega
      have hto : toff (v.len - 1) = m := by
        rw [h3, hm]
        unfold toff
        have : ¬ m + 32 + 1 - 1 < 32 := by omega
        simp only [this, if_false]
        omega
      obtain ⟨hh, rfl⟩ : ∃ hh, k = hh + 1 := ⟨k - 1, by have := h.hk; omega⟩
      have hcap : m + 32 ≤ 32 ^ (hh + 2) := by rw [← hm]; exact h.cap
      have hmlt : m < 32 ^ (hh + 2) := by omega
      -- the value
      have ht0 : v.tail[0]? = some x := by
        rw [h.tail, List.getElem?_drop]
        have : toff v.len + 0 = xs.length := by omega
        rw [this]; simp
      -- the new tail
      have hleaf : v.leafValuesToSlice (v.len - 2) = some (xs.drop m) := by
        unfold Vector.leafValuesToSlice
        rw [getLeaf_sub (elems (xs ++ [x])) (toff v.len) (hh + 1) (v.len - 2) v h.root h.shift
          h.hk h.cap (by omega)]
        have : (v.len - 2) / 32 * 32 = m := by omega
        rw [this, hm]
        obtain ⟨c, vals, e1, e2⟩ := leaf_toList xs x m hxl
        rw [e1]
        simp only [e2]
      -- the new root
      have hlo : 0 = m / 32 ^ (hh + 2) * 32 ^ (hh + 2) := by
        simp [Nat.div_eq_of_lt hmlt]
      have hpop : popTail v.len v.shift v.root = some (sub (elems (xs ++ [x])) m (hh + 1) 0) := by
        have := popTail_sub (elems (xs ++ [x])) m hmd hh 0 hlo
        rw [h.root, h.shift, hm]
        have e : v.len = m + 33 := by omega
        rw [e]; exact this
      have hcongr : ∀ (h' lo : Nat),
          sub (elems (xs ++ [x])) m h' lo = sub (elems xs) m h' lo := by
        intro h' lo
        apply sub_congr
        intro i _ _
        refine ⟨Iff.rfl, fun hi => elems_append_lt xs x i (by omega)⟩
      rw [ht0, hleaf, hpop]
      simp only
      by_cases hm0 : m = 0
      · have hk1 : hh = 0 := by
          by_contra hne0
          have h4 : 32 ^ (hh + 1) < toff v.len := h.full (by omega)
          have h5 : 32 ^ 1 < 32 ^ (hh + 1) := Nat.pow_lt_pow_right (by decide) (by omega)
          rw [hm, hm0] at h4
          omega
        subst hk1
        rw [sub_nil _ _ _ _ (by omega)]
        simp only
        refine ⟨_, rfl, 1, ?_⟩
        constructor
        · show v.len - 1 = xs.length
          omega
        · show xs.drop m = xs.drop (toff (v.len - 1))
          rw [hto]
        · exact le_refl _
        · exact h.shift
        · show vectorNode.nil = sub _ (toff (v.len - 1)) 1 0
          rw [hto, sub_nil]; omega
        · show toff (v.len - 1) ≤ _
          rw [hto, hm0]; decide
        · intro hc; omega
      · rw [sub_mk_children _ _ hh 0 (by omega)]
        simp only [sub_isNil]
        by_cases hs : (decide (m ≤ 0 + (1 : Fin 32).val * 32 ^ (hh + 1)) = true) ∧
            v.shift > shiftStep
        · rw [if_pos hs]
          have hs1 : m ≤ 32 ^ (hh + 1) := by simpa using hs.1
          have hs2 : 0 < hh := by
            have := hs.2
            rw [h.shift] at this
            have : 5 * (hh + 1) > 5 := this
            omega
          obtain ⟨g, rfl⟩ : ∃ g, hh = g + 1 := ⟨hh - 1, by omega⟩
          refine ⟨_, rfl, g + 1, ?_⟩
          constructor
          · show v.len - 1 = xs.length
            omega
          · show xs.drop m = xs.drop (toff (v.len - 1))
            rw [hto]
          · omega
          · show v.shift - shiftStep = 5 * (g + 1)
            rw [h.shift]; show 5 * (g + 1 + 1) - 5 = _; omega
          · show sub _ m (g + 1) (0 + (0 : Fin 32).val * 32 ^ (g + 1 + 1)) =
              sub _ (toff (v.len - 1)) (g + 1) 0
            rw [hto, hcongr]
            simp
          · show toff (v.len - 1) ≤ 32 ^ (g + 1 + 1)
            rw [hto]; exact hs1
          · intro hc
            show 32 ^ (g + 1) < toff (v.len - 1)
            rw [hto]
            have h4 : 32 ^ (g + 1 + 1) < toff v.len := h.full (by omega)
            have h5 : 32 ^ (g + 1 + 1) = 32 * 32 ^ (g + 1) := pow32_succ (g + 1)
            have h6 : 0 < 32 ^ (g + 1) := pow_pos (by decide) _
            rw [hm, h5] at h4
            generalize 32 ^ (g + 1) = P at h4 h6 ⊢
            omega
        · rw [if_neg hs]
          refine ⟨_, rfl, hh + 1, ?_⟩
          constructor
          · show v.len - 1 = xs.length
            omega
          · show xs.drop m = xs.drop (toff (v.len - 1))
            rw [hto]
          · exact h.hk
          · exact h.shift
          · show vectorNode.mk _ _ = sub _ (toff (v.len - 1)) (hh + 1) 0
            rw [hto, ← hcongr, sub_mk_children _ _ hh 0 (by omega)]
          · show toff (v.len - 1) ≤ 32 ^ (hh + 2)
            rw [hto]; omega
          · intro hc
            show 32 ^ (hh + 1) < toff (v.len - 1)
            rw [hto]
            by_contra hle
            apply hs
            refine ⟨?_, ?_⟩
            · have : m ≤ 32 ^ (hh + 1) := by omega
              simpa using this
            · rw [h.shift]
              show 5 * (hh + 1) > 5
              omega

theorem repK_unique_k {T : Type} [Inhabited T] {v w : Vector T} {xs ys : List T} {k k' : Nat}
    (h : RepK v xs k) (h' : RepK w ys k') (hl : v.len = w.len) : k = k' := by
  have aux : ∀ (n a b : Nat), 1 ≤ a → a < b → n ≤ 32 ^ (a + 1) → (1 < b → 32 ^ b < n) → False := by
    intro n a b ha hab hc hfu
    have h1 := hfu (by omega)
    have h2 : 32 ^ (a + 1) ≤ 32 ^ b := Nat.pow_le_pow_right (by decide) hab
    omega
  rcases Nat.lt_trichotomy k k' with hlt | heq | hgt
  · exact (aux (toff v.len) k k' h.hk hlt h.cap (by rw [hl]; exact h'.full)).elim
  · exact heq
  · exact (aux (toff w.len) k' k h'.hk hgt h'.cap (by rw [← hl]; exact h.full)).elim

/-- A list has one representation only. -/
theorem rep_unique {T : Type} [Inhabited T] {v w : Vector T} {xs : List T}
    (h : Rep v xs) (h' : Rep w xs) : v = w := by
  obtain ⟨k, h⟩ := h
  obtain ⟨k', h'⟩ := h'
  have hl : v.len = w.len := by rw [h.len, h'.len]
  have hk := repK_unique_k h h' hl
  subst hk
  cases v with
  | mk r t l s =>
    cases w with
    | mk r' t' l' s' =>
      have e1 : l = l' := hl
      subst e1
      have e2 : r = r' := by rw [show r = _ from h.root, show r' = _ from h'.root]
      have e3 : t = t' := by rw [show t = _ from h.tail, show t' = _ from h'.tail]
      have e4 : s = s' := by rw [show s = _ from h.shift, show s' = _ from h'.shift]
      rw [e2, e3, e4]

theorem rep_set_any {T : Type} [Inhabited T] {v : Vector T} {xs : List T} (h : Rep v xs)
    (i : Int) (x : T) : ∃ w ys, v.Set i x = some w ∧ Rep w ys := by
  by_cases hr : 0 ≤ i ∧ i < xs.length
  · obtain ⟨w, h1, h2⟩ := rep_set h i x hr.1 hr.2
    exact ⟨w, _, h1, h2⟩
  · obtain ⟨k, hk⟩ := h
    have : i < 0 ∨ i ≥ (v.len : Int) := by rw [hk.len]; omega
    exact ⟨v, xs, by simp [Vector.Set, this], k, hk⟩

theorem reachable_rep {T : Type} [Inhabited T] {v : Vector T} (h : Reachable v) :
    ∃ xs, Rep v xs := by
  induction h with
  | new => exact ⟨[], rep_new⟩
  | append x _ hw ih =>
    obtain ⟨xs, hxs⟩ := ih
    obtain ⟨w', h1, h2⟩ := rep_append hxs x
    rw [h1] at hw
    cases hw
    exact ⟨_, h2⟩
  | set i x _ hw ih =>
    obtain ⟨xs, hxs⟩ := ih
    obtain ⟨w', ys, h1, h2⟩ := rep_set_any hxs i x
    rw [h1] at hw
    cases hw
    exact ⟨_, h2⟩
  | pop _ hw ih =>
    obtain ⟨xs, hxs⟩ := ih
    rcases List.eq_nil_or_concat xs with hnil | ⟨ys, y, hy⟩
    · subst hnil
      rw [rep_pop_empty hxs] at hw
      cases hw
      exact ⟨_, hxs⟩
    · subst hy
      rw [List.concat_eq_append] at hxs
      obtain ⟨w', h1, h2⟩ := rep_pop hxs
      rw [h1] at hw
      cases hw
      exact ⟨_, h2⟩

theorem rep_appendAll {T : Type} [Inhabited T] (xs : List T) :
    ∀ (v : Vector T) (ys : List T), Rep v ys →
      ∃ w, appendAll v xs = some w ∧ Rep w (ys ++ xs) := by
  induction xs with
  | nil => intro v ys h; exact ⟨v, rfl, by simpa using h⟩
  | cons x xs ih =>
    intro v ys h
    obtain ⟨w, h1, h2⟩ := rep_append h x
    obtain ⟨u, h3, h4⟩ := ih w (ys ++ [x]) h2
    refine ⟨u, ?_, by simpa using h4⟩
    simp [appendAll, h1, h3]

theorem rep_len {T : Type} [Inhabited T] {v : Vector T} {xs : List T} (h : Rep v xs) :
    v.Len = xs.length := by
  obtain ⟨k, h⟩ := h
  exact h.len

/-- C1.  Appending `x_0 … x_{N-1}` to the empty vector succeeds and gives a vector of length
`N` in which `Get i` is `(x_i, true)` for `0 ≤ i < N` and reports absent for every other
index. -/
theorem append_get_round_trip {T : Type} [Inhabited T] (xs : List T) :
    ∃ v, appendAll NewVector xs = some v ∧ v.Len = xs.length ∧
      (∀ (i : Nat) (hi : i < xs.length), v.Get (i : Int) = some (xs[i], true)) ∧
      (∀ i : Int, i < 0 ∨ i ≥ (xs.length : Int) → v.Get i = some (default, false)) := by
  obtain ⟨v, h1, h2⟩ := rep_appendAll xs NewVector [] rep_new
  simp only [List.nil_append] at h2
  refine ⟨v, h1, rep_len h2, ?_, ?_⟩
  · intro i hi
    rw [rep_get h2]
    have : (0 : Int) ≤ (i : Int) ∧ (i : Int) < (xs.length : Int) := by omega
    simp only [this, and_self, if_true, Int.toNat_ofNat]
    rw [List.getD_eq_getElem?_getD, List.getElem?_eq_getElem hi]
    rfl
  · intro i hi
    rw [rep_get h2]
    have : ¬ ((0 : Int) ≤ i ∧ i < (xs.length : Int)) := by omega
    simp only [this, if_false]

/-- C4.  On a reachable vector `Append x` followed by `Pop` succeeds, returns `x` with
`found = true`, and gives back the vector it started from: the same root, tail, length
and shift, hence the same `Len` and the same `Get` at every index. -/
theorem pop_append_inverse {T : Type} [Inhabited T] (v : Vector T) (hv : Reachable v) (x : T) :
    ∃ w v', v.Append x = some w ∧ w.Pop = some (v', x, true) ∧ v' = v ∧
      v'.Len = v.Len ∧ ∀ i : Int, v'.Get i = v.Get i := by
  obtain ⟨xs, hxs⟩ := reachable_rep hv
  obtain ⟨w, h1, h2⟩ := rep_append hxs x
  obtain ⟨u, h3, h4⟩ := rep_pop h2
  have hu : u = v := rep_unique h4 hxs
  subst hu
  exact ⟨w, u, h1, h3, rfl, rfl, fun _ => rfl⟩

theorem reachable_appendAll {T : Type} [Inhabited T] (xs : List T) :
    ∀ (v w : Vector T), Reachable v → appendAll v xs = some w → Reachable w := by
  induction xs with
  | nil =>
    intro v w hv e
    have : v = w := by simpa [appendAll] using e
    rw [← this]; exact hv
  | cons x xs ih =>
    intro v w hv e
    unfold appendAll at e
    cases hx : v.Append x with
    | none => rw [hx] at e; cases e
    | some u =>
      rw [hx] at e
      exact ih u w (Reachable.append x hv hx) e

theorem fullTailVector_reachable : Reachable fullTailVector :=
  reachable_appendAll (List.range 32) NewVector fullTailVector Reachable.new rfl

theorem treeVector_reachable : Reachable treeVector :=
  reachable_appendAll (List.range 40) NewVector treeVector Reachable.new rfl

theorem pop_append_inverse_witness :
    Reachable fullTailVector ∧
    ∃ w v', fullTailVector.Append 7 = some w ∧ w.Pop = some (v', 7, true) ∧
      v' = fullTailVector ∧ v'.Len = fullTailVector.Len ∧
      ∀ i : Int, v'.Get i = fullTailVector.Get i :=
  ⟨fullTailVector_reachable, pop_append_inverse fullTailVector fullTailVector_reachable 7⟩

/-- C5.  On a reachable vector `Set i x` at an index `0 ≤ i < Len` succeeds, and `Get i` of
the result is `(x, true)`. -/
theorem set_get {T : Type} [Inhabited T] (v : Vector T) (hv : Reachable v) (i : Int) (x : T)
    (h0 : 0 ≤ i) (h1 : i < (v.Len : Int)) :
    ∃ w, v.Set i x = some w ∧ w.Get i = some (x, true) := by
  obtain ⟨xs, hxs⟩ := reachable_rep hv
  have hl := rep_len hxs
  rw [hl] at h1
  obtain ⟨w, h2, h3⟩ := rep_set hxs i x h0 h1
  refine ⟨w, h2, ?_⟩
  rw [rep_get h3]
  have hlt : i.toNat < xs.length := by omega
  have : 0 ≤ i ∧ i < ((xs.set i.toNat x).length : Int) := by simp; omega
  simp only [this, and_self, if_true]
  simp [List.getD_eq_getElem?_getD, hlt]

theorem set_get_witness :
    Reachable treeVector ∧ (0 : Int) ≤ 5 ∧ (5 : Int) < (treeVector.Len : Int) ∧
    ∃ w, treeVector.Set 5 99 = some w ∧ w.Get 5 = some (99, true) :=
  ⟨treeVector_reachable, by decide, by decide,
    set_get treeVector treeVector_reachable 5 99 (by decide) (by decide)⟩

/-- C6.  On a reachable vector `Set i x` at an index `0 ≤ i < Len` keeps the length and the
result of `Get j` for every `j ≠ i`. -/
theorem set_frame {T : Type} [Inhabited T] (v : Vector T) (hv : Reachable v) (i : Int) (x : T)
    (h0 : 0 ≤ i) (h1 : i < (v.Len : Int)) :
    ∃ w, v.Set i x = some w ∧ w.Len = v.Len ∧ ∀ j : Int, j ≠ i → w.Get j = v.Get j := by
  obtain ⟨xs, hxs⟩ := reachable_rep hv
  have hl := rep_len hxs
  rw [hl] at h1
  obtain ⟨w, h2, h3⟩ := rep_set hxs i x h0 h1
  refine ⟨w, h2, ?_, ?_⟩
  · rw [rep_len h3, hl]; simp
  · intro j hj
    rw [rep_get h3, rep_get hxs]
    have hne : i.toNat ≠ j.toNat ∨ j < 0 := by omega
    simp only [List.length_set]
    by_cases hin : 0 ≤ j ∧ j < (xs.length : Int)
    · have : i.toNat ≠ j.toNat := by omega
      simp [hin, List.getD_eq_getElem?_getD, List.getElem?_set_ne this]
    · simp [hin]

theorem set_frame_witness :
    Reachable treeVector ∧ (0 : Int) ≤ 5 ∧ (5 : Int) < (treeVector.Len : Int) ∧
    ∃ w, treeVector.Set 5 99 = some w ∧ w.Len = treeVector.Len ∧
      ∀ j : Int, j ≠ 5 → w.Get j = treeVector.Get j :=
  ⟨treeVector_reachable, by decide, by decide,
    set_frame treeVector treeVector_reachable 5 99 (by decide) (by decide)⟩

end array

namespace iter

theorem feed_collect_aux {α : Type} (j : Nat) :
    ∀ (l acc : List α), acc.length < j →
      feed (collect j) l acc = acc ++ l.take (j - acc.length) := by
  intro l
  induction l with
  | nil => intro acc _; simp [feed]
  | cons x rest ih =>
    intro acc hacc
    unfold feed
    by_cases hj : acc.length + 1 < j
    · have h1 : (collect j x acc).2 = true := by simp [collect, hj]
      rw [if_pos h1]
      have h2 : (collect j x acc).1 = acc ++ [x] := rfl
      rw [h2, ih (acc ++ [x]) (by simpa using hj)]
      have e : j - acc.length = (j - (acc ++ [x]).length) + 1 := by
        simp only [List.length_append, List.length_singleton]; omega
      rw [e, List.take_succ_cons]
      simp
    · have h1 : ¬ (collect j x acc).2 = true := by simp [collect, hj]
      rw [if_neg h1]
      have e : j - acc.length = 1 := by omega
      rw [e]
      simp [collect]

/-- A consumer that stops after the `j`-th element has received the first `j` elements. -/
theorem feed_collect {α : Type} (j : Nat) (hj : 1 ≤ j) (l : List α) :
    feed (collect j) l [] = l.take j := by
  have := feed_collect_aux j l [] (by simpa using hj)
  simpa using this

end iter

namespace array

theorem indexedFrom_length {T : Type} (l : List T) : ∀ i, (indexedFrom i l).length = l.length := by
  induction l with
  | nil => intro i; rfl
  | cons x rest ih => intro i; simp [indexedFrom, ih]

theorem indexedFrom_map_snd {T : Type} (l : List T) :
    ∀ i, (indexedFrom i l).map (fun p => p.2) = l := by
  induction l with
  | nil => intro i; rfl
  | cons x rest ih => intro i; simp [indexedFrom, ih]

theorem indexedFrom_getElem? {T : Type} (l : List T) :
    ∀ i j, (indexedFrom i l)[j]? = (l[j]?).map (fun x => (i + j, x)) := by
  induction l with
  | nil => intro i j; simp [indexedFrom]
  | cons x rest ih =>
    intro i j
    cases j with
    | zero => simp [indexedFrom]
    | succ j =>
      simp only [indexedFrom, List.getElem?_cons_succ, ih]
      congr 1
      funext y
      congr 1
      omega

theorem rep_allLoop {T σ : Type} [Inhabited T] {v : Vector T} {xs : List T} (h : Rep v xs)
    (yield : Nat → T → σ → σ × Bool) :
    ∀ (k i : Nat) (s : σ), i + k = xs.length →
      allLoop v yield k i s =
        some (iter.feed (fun p => yield p.1 p.2) (indexedFrom i (xs.drop i)) s) := by
  intro k
  induction k with
  | zero =>
    intro i s hi
    have : xs.drop i = [] := List.drop_eq_nil_of_le (by omega)
    simp [allLoop, this, indexedFrom, iter.feed]
  | succ k ih =>
    intro i s hi
    have hlt : i < xs.length := by omega
    have hd : xs.drop i = xs[i] :: xs.drop (i + 1) := List.drop_eq_getElem_cons hlt
    have hg : v.Get (i : Int) = some (xs[i], true) := by
      rw [rep_get h]
      have : (0 : Int) ≤ (i : Int) ∧ (i : Int) < (xs.length : Int) := by omega
      simp only [this, and_self, if_true, Int.toNat_ofNat]
      rw [List.getD_eq_getElem?_getD, List.getElem?_eq_getElem hlt]
      rfl
    unfold allLoop
    rw [hg, hd]
    simp only [indexedFrom, iter.feed]
    by_cases hc : (yield i xs[i] s).2 = true
    · rw [if_pos hc, if_pos hc]
      exact ih (i + 1) _ (by omega)
    · rw [if_neg hc, if_neg hc]

theorem feed_map {α β σ : Type} (f : α → β) (yield : β → σ → σ × Bool) :
    ∀ (l : List α) (s : σ), iter.feed (fun a => yield (f a)) l s = iter.feed yield (l.map f) s := by
  intro l
  induction l with
  | nil => intro s; rfl
  | cons x rest ih =>
    intro s
    simp only [iter.feed, List.map_cons]
    by_cases hc : (yield (f x) s).2 = true
    · rw [if_pos hc, if_pos hc]; exact ih _
    · rw [if_neg hc, if_neg hc]

theorem boundaryVector_reachable : Reachable boundaryVector :=
  reachable_appendAll (List.range 33) NewVector boundaryVector Reachable.new rfl

theorem rep_getElem {T : Type} [Inhabited T] {v : Vector T} {xs : List T} (h : Rep v xs)
    (i : Nat) (hi : i < xs.length) : v.Get (i : Int) = some (xs[i], true) := by
  rw [rep_get h]
  have : (0 : Int) ≤ (i : Int) ∧ (i : Int) < (xs.length : Int) := by omega
  simp only [this, and_self, if_true, Int.toNat_ofNat]
  rw [List.getD_eq_getElem?_getD, List.getElem?_eq_getElem hi]
  rfl

/-- C15.  On a reachable vector `Get i` returns a result for every integer `i` (no slice
access out of range, no nil node on the descent), and the result has `found = true`
exactly when `0 ≤ i < Len`. -/
theorem get_never_fails {T : Type} [Inhabited T] (v : Vector T) (hv : Reachable v) (i : Int) :
    ∃ x b, v.Get i = some (x, b) ∧ (b = true ↔ 0 ≤ i ∧ i < (v.Len : Int)) := by
  obtain ⟨xs, hxs⟩ := reachable_rep hv
  rw [rep_get hxs, rep_len hxs]
  by_cases hin : 0 ≤ i ∧ i < (xs.length : Int)
  · refine ⟨xs.getD i.toNat default, true, ?_, by simp [hin]⟩
    simp only [hin, and_self, if_true]
  · refine ⟨default, false, ?_, by simp [hin]⟩
    simp only [hin, if_false]

theorem get_never_fails_witness :
    Reachable treeVector ∧
    ∃ x b, treeVector.Get 40 = some (x, b) ∧ (b = true ↔ (0 : Int) ≤ 40 ∧ (40 : Int) < (treeVector.Len : Int)) :=
  ⟨treeVector_reachable, get_never_fails treeVector treeVector_reachable 40⟩

/-- C16.  On a reachable vector of length `n ≥ 1`, `Pop` succeeds and returns `(v', x, true)`
where `(x, true) = v.Get (n-1)`, `v'.Len = n-1` and `v'.Get i = v.Get i` for `0 ≤ i < n-1`;
and appending 0..32 to the empty vector, then popping twice, returns 32, then 31, and
leaves length 31. -/
theorem pop_nonempty {T : Type} [Inhabited T] (v : Vector T) (hv : Reachable v)
    (hn : 1 ≤ v.Len) :
    (∃ w x, v.Pop = some (w, x, true) ∧ v.Get ((v.Len : Int) - 1) = some (x, true) ∧
      w.Len = v.Len - 1 ∧ ∀ i : Int, 0 ≤ i → i < (v.Len : Int) - 1 → w.Get i = v.Get i) ∧
    (appendAll (NewVector : Vector Nat) (List.range 33)).bind (fun v0 =>
      v0.Pop.bind (fun r1 => r1.1.Pop.map (fun r2 =>
        (r1.2.1, r1.2.2, r2.2.1, r2.2.2, r2.1.Len)))) = some (32, true, 31, true, 31) := by
  refine ⟨?_, by decide⟩
  obtain ⟨xs, hxs⟩ := reachable_rep hv
  have hl := rep_len hxs
  rcases List.eq_nil_or_concat xs with hnil | ⟨ys, y, hy⟩
  · subst hnil
    simp at hl
    omega
  · subst hy
    rw [List.concat_eq_append] at hxs hl
    obtain ⟨w, h1, h2⟩ := rep_pop hxs
    have hlen : v.Len = ys.length + 1 := by rw [hl]; simp
    refine ⟨w, y, h1, ?_, ?_, ?_⟩
    · have e : ((v.Len : Int) - 1) = ((ys.length : Nat) : Int) := by omega
      rw [e, rep_getElem hxs ys.length (by simp)]
      simp
    · rw [rep_len h2, hlen]; rfl
    · intro i h0 h1'
      rw [rep_get h2, rep_get hxs]
      have hi : 0 ≤ i ∧ i < (ys.length : Int) := by omega
      have hi2 : 0 ≤ i ∧ i < ((ys ++ [y]).length : Int) := by
        simp only [List.length_append, List.length_singleton]; omega
      have hlt : i.toNat < ys.length := by omega
      simp only [hi, hi2, and_self, if_true]
      simp [List.getD_eq_getElem?_getD, List.getElem?_append_left hlt]

theorem pop_nonempty_witness :
    Reachable boundaryVector ∧ 1 ≤ boundaryVector.Len ∧
    (∃ w x, boundaryVector.Pop = some (w, x, true) ∧
      boundaryVector.Get ((boundaryVector.Len : Int) - 1) = some (x, true) ∧
      w.Len = boundaryVector.Len - 1 ∧
      ∀ i : Int, 0 ≤ i → i < (boundaryVector.Len : Int) - 1 → w.Get i = boundaryVector.Get i) ∧
    (appendAll (NewVector : Vector Nat) (List.range 33)).bind (fun v0 =>
      v0.Pop.bind (fun r1 => r1.1.Pop.map (fun r2 =>
        (r1.2.1, r1.2.2, r2.2.1, r2.2.2, r2.1.Len)))) = some (32, true, 31, true, 31) :=
  ⟨boundaryVector_reachable, by decide,
    pop_nonempty boundaryVector boundaryVector_reachable (by decide)⟩

/-- C18.  On a reachable vector there is a list `e_0 … e_{Len-1}` with `Get i = (e_i, true)`
such that `All` passes exactly the pairs `(0, e_0), (1, e_1), …` to its consumer, in this
order, and `Values` the values `e_0, e_1, …`; a consumer that stops after the `j`-th element
has received exactly the first `j` of them. -/
theorem traversal_ordered_complete {T : Type} [Inhabited T] (v : Vector T)
    (hv : Reachable v) :
    ∃ es : List T, es.length = v.Len ∧
      (∀ (i : Nat) (hi : i < es.length), v.Get (i : Int) = some (es[i], true)) ∧
      (∀ (i : Nat) (hi : i < es.length), (indexedFrom 0 es)[i]? = some (i, es[i])) ∧
      (∀ (σ : Type) (yield : Nat → T → σ → σ × Bool) (s : σ),
        v.All yield s = some (iter.feed (fun p => yield p.1 p.2) (indexedFrom 0 es) s)) ∧
      (∀ (σ : Type) (yield : T → σ → σ × Bool) (s : σ),
        v.Values yield s = some (iter.feed yield es s)) ∧
      (∀ j : Nat, 1 ≤ j →
        v.All (fun i x => iter.collect j (i, x)) [] = some ((indexedFrom 0 es).take j) ∧
        v.Values (iter.collect j) [] = some (es.take j) ∧
        ((indexedFrom 0 es).take j).length = min j v.Len) := by
  obtain ⟨xs, hxs⟩ := reachable_rep hv
  have hl := rep_len hxs
  have hlen : v.len = xs.length := hl
  have hall : ∀ (σ : Type) (yield : Nat → T → σ → σ × Bool) (s : σ),
      v.All yield s = some (iter.feed (fun p => yield p.1 p.2) (indexedFrom 0 xs) s) := by
    intro σ yield s
    unfold Vector.All
    rw [rep_allLoop hxs yield v.len 0 s (by omega)]
    simp
  have hvals : ∀ (σ : Type) (yield : T → σ → σ × Bool) (s : σ),
      v.Values yield s = some (iter.feed yield xs s) := by
    intro σ yield s
    unfold Vector.Values
    rw [rep_allLoop hxs (fun _ value => yield value) v.len 0 s (by omega)]
    simp only [List.drop_zero]
    rw [feed_map (fun p : Nat × T => p.2) yield, indexedFrom_map_snd]
  refine ⟨xs, hl.symm, fun i hi => rep_getElem hxs i hi, ?_, hall, hvals, ?_⟩
  · intro i hi
    rw [indexedFrom_getElem?, List.getElem?_eq_getElem hi]
    simp
  · intro j hj
    refine ⟨?_, ?_, ?_⟩
    · rw [hall]
      exact congrArg some (iter.feed_collect j hj _)
    · rw [hvals, iter.feed_collect j hj]
    · rw [List.length_take, indexedFrom_length, hl]

theorem traversal_ordered_complete_witness :
    Reachable treeVector ∧
    ∃ es : List Nat, es.length = treeVector.Len ∧
      (∀ (i : Nat) (hi : i < es.length), treeVector.Get (i : Int) = some (es[i], true)) ∧
      (∀ (i : Nat) (hi : i < es.length), (indexedFrom 0 es)[i]? = some (i, es[i])) ∧
      (∀ (σ : Type) (yield : Nat → Nat → σ → σ × Bool) (s : σ),
        treeVector.All yield s =
          some (iter.feed (fun p => yield p.1 p.2) (indexedFrom 0 es) s)) ∧
      (∀ (σ : Type) (yield : Nat → σ → σ × Bool) (s : σ),
        treeVector.Values yield s = some (iter.feed yield es s)) ∧
      (∀ j : Nat, 1 ≤ j →
        treeVector.All (fun i x => iter.collect j (i, x)) [] =
          some ((indexedFrom 0 es).take j) ∧
        treeVector.Values (iter.collect j) [] = some (es.take j) ∧
        ((indexedFrom 0 es).take j).length = min j treeVector.Len) :=
  ⟨treeVector_reachable, traversal_ordered_complete treeVector treeVector_reachable⟩

theorem height_unique (t a b : Nat) (ha : 1 ≤ a) (hb : 1 ≤ b)
    (hca : t ≤ 32 ^ (a + 1)) (hfa : 1 < a → 32 ^ a < t)
    (hcb : t ≤ 32 ^ (b + 1)) (hfb : 1 < b → 32 ^ b < t) : a = b := by
  have aux : ∀ (a b : Nat), 1 ≤ a → a < b → t ≤ 32 ^ (a + 1) → (1 < b → 32 ^ b < t) → False := by
    intro a b ha hab hc hfu
    have h1 := hfu (by omega)
    have h2 : 32 ^ (a + 1) ≤ 32 ^ b := Nat.pow_le_pow_right (by decide) hab
    omega
  rcases Nat.lt_trichotomy a b with hlt | heq | hgt
  · exact (aux a b ha hlt hca hfb).elim
  · exact heq
  · exact (aux b a hb hgt hcb hfa).elim

theorem repK_shift_div {T : Type} [Inhabited T] {v : Vector T} {xs : List T} {k : Nat}
    (h : RepK v xs k) : v.shift / 5 = k := by
  rw [h.shift]; omega

theorem tail_get_of_rep {T : Type} [Inhabited T] {v : Vector T} {xs : List T} {k : Nat}
    (h : RepK v xs k) (i : Nat) (h1 : toff v.len ≤ i) (h2 : i < xs.length) :
    v.tail[i - toff v.len]? = some xs[i] := by
  rw [h.tail, List.getElem?_drop]
  have e : toff v.len + (i - toff v.len) = i := by omega
  rw [e, List.getElem?_eq_getElem h2]

/-- C28.  On a reachable vector the tail holds the elements from `tailOffset` on,
`len(tail) = Len - tailOffset` (between 1 and 32 elements if the vector is not empty), the
root is nil exactly when `tailOffset = 0`, the element at an index `≥ tailOffset` is
`tail[index - tailOffset]`, the element at an index `< tailOffset` is slot `index & 31` of
the leaf `getLeaf index`, and `tailOffset` is 0 for `Len < 32` and `(Len-1)/32*32`
otherwise. -/
theorem tail_tree_partition {T : Type} [Inhabited T] (v : Vector T) (hv : Reachable v) :
    v.tail.length = v.Len - v.tailOffset ∧
    (1 ≤ v.Len → 1 ≤ v.tail.length ∧ v.tail.length ≤ 32) ∧
    (v.root.isNil = true ↔ v.tailOffset = 0) ∧
    (∀ i : Nat, v.tailOffset ≤ i → i < v.Len →
      ∃ x, v.tail[i - v.tailOffset]? = some x ∧ v.Get (i : Int) = some (x, true)) ∧
    (∀ i : Nat, i < v.tailOffset →
      ∃ children values, v.getLeaf i = some (vectorNode.mk children values) ∧
        v.Get (i : Int) = some (values (slot i), true)) ∧
    v.tailOffset = (if v.Len < 32 then 0 else (v.Len - 1) / 32 * 32) := by
  obtain ⟨xs, hxs⟩ := reachable_rep hv
  obtain ⟨k, h⟩ := hxs
  have hf := toff_facts v.len
  have hl := repK_tail_length h
  have hlen : v.len = xs.length := h.len
  rw [tailOffset_eq]
  show _ = v.len - _ ∧ (1 ≤ v.len → _) ∧ _ ∧ (∀ i : Nat, _ → i < v.len → _) ∧ _ ∧ _
  refine ⟨hl, ?_, ?_, ?_, ?_, rfl⟩
  · intro h1
    have := hf.2.2.2 (by omega)
    omega
  · rw [h.root, sub_isNil]
    simp
  · intro i h1 h2
    have hi : i < xs.length := by omega
    exact ⟨xs[i], tail_get_of_rep h i h1 hi, rep_getElem ⟨k, h⟩ i hi⟩
  · intro i hi
    have hix : i < xs.length := by omega
    obtain ⟨c, vals, e1, e2⟩ := leaf_value (elems xs) (toff v.len) i hi
    refine ⟨c, vals, ?_, ?_⟩
    · rw [getLeaf_sub (elems xs) (toff v.len) k i v h.root h.shift h.hk h.cap hi, e1]
    · rw [rep_getElem ⟨k, h⟩ i hix, e2]
      simp [elems, List.getD_eq_getElem?_getD, List.getElem?_eq_getElem hix]

theorem tail_tree_partition_witness :
    Reachable treeVector ∧
    (treeVector.tail.length = treeVector.Len - treeVector.tailOffset ∧
    (1 ≤ treeVector.Len → 1 ≤ treeVector.tail.length ∧ treeVector.tail.length ≤ 32) ∧
    (treeVector.root.isNil = true ↔ treeVector.tailOffset = 0) ∧
    (∀ i : Nat, treeVector.tailOffset ≤ i → i < treeVector.Len →
      ∃ x, treeVector.tail[i - treeVector.tailOffset]? = some x ∧
        treeVector.Get (i : Int) = some (x, true)) ∧
    (∀ i : Nat, i < treeVector.tailOffset →
      ∃ children values, treeVector.getLeaf i = some (vectorNode.mk children values) ∧
        treeVector.Get (i : Int) = some (values (slot i), true)) ∧
    treeVector.tailOffset = (if treeVector.Len < 32 then 0 else (treeVector.Len - 1) / 32 * 32)) :=
  ⟨treeVector_reachable, tail_tree_partition treeVector treeVector_reachable⟩

/-- C29.  On a reachable vector `shift` is a positive multiple of 5, `tailOffset` is at most
`32^(shift/5 + 1)`, and greater than `32^(shift/5)` if `shift > 5`; two reachable vectors
of the same length have the same `shift`. -/
theorem height_invariant {T : Type} [Inhabited T] (v : Vector T) (hv : Reachable v) :
    (∃ k, 1 ≤ k ∧ v.shift = 5 * k) ∧
    v.tailOffset ≤ 32 ^ (v.shift / 5 + 1) ∧
    (v.shift > 5 → 32 ^ (v.shift / 5) < v.tailOffset) ∧
    (∀ w : Vector T, Reachable w → w.Len = v.Len → w.shift = v.shift) := by
  obtain ⟨xs, k, h⟩ := reachable_rep hv
  rw [tailOffset_eq, repK_shift_div h]
  refine ⟨⟨k, h.hk, h.shift⟩, h.cap, ?_, ?_⟩
  · intro hs
    apply h.full
    rw [h.shift] at hs
    omega
  · intro w hw hl
    obtain ⟨ys, k', h'⟩ := reachable_rep hw
    have := repK_unique_k h' h hl
    rw [h'.shift, h.shift, this]

theorem height_invariant_witness :
    Reachable treeVector ∧
    ((∃ k, 1 ≤ k ∧ treeVector.shift = 5 * k) ∧
    treeVector.tailOffset ≤ 32 ^ (treeVector.shift / 5 + 1) ∧
    (treeVector.shift > 5 → 32 ^ (treeVector.shift / 5) < treeVector.tailOffset) ∧
    (∀ w : Vector Nat, Reachable w → w.Len = treeVector.Len → w.shift = treeVector.shift)) :=
  ⟨treeVector_reachable, height_invariant treeVector treeVector_reachable⟩

theorem toff_succ_of_room (n : Nat) (h : n - toff n < 32) : toff (n + 1) = toff n := by
  unfold toff at h ⊢
  by_cases h32 : n < 32
  · by_cases h31 : n + 1 < 32
    · simp [h32, h31]
    · have : n = 31 := by omega
      simp [this]
  · have : ¬ n + 1 < 32 := by omega
    simp only [h32, if_false] at h
    simp only [h32, this, if_false]
    omega

theorem toff_succ_of_full (n : Nat) (h : n = toff n + 32) : toff (n + 1) = toff n + 32 := by
  have hf := toff_facts n
  have h1 : toff (n + 1) = n / 32 * 32 := by
    unfold toff
    have : ¬ n + 1 < 32 := by omega
    simp [this]
  rw [h1]
  have := hf.1
  omega

theorem full_cond {T : Type} [Inhabited T] {v : Vector T} {xs : List T} {k : Nat}
    (h : RepK v xs k) (ht : v.len = toff v.len + 32) :
    (v.len >>> shiftStep > 1 <<< v.shift) ↔ toff v.len = 32 ^ (k + 1) := by
  have hf := toff_facts v.len
  rw [h.shift, one_shiftLeft_five, Nat.shiftRight_eq_div_pow]
  have hc : toff v.len ≤ 32 ^ (k + 1) := h.cap
  have hp : 32 ^ (k + 1) = 32 * 32 ^ k := pow32_succ k
  have hd := hf.1
  show v.len / 32 > 32 ^ k ↔ toff v.len = 32 ^ (k + 1)
  rw [hp] at hc ⊢
  generalize 32 ^ k = P at hc ⊢
  constructor
  · intro hgt; omega
  · intro e; omega

/-- The rule of `Append` for `shift`, on a reachable vector. -/
theorem append_shift_rule {T : Type} [Inhabited T] (v : Vector T) (hv : Reachable v)
    (x : T) :
    ∃ w, v.Append x = some w ∧
      ((v.tail.length = 32 ∧ v.tailOffset = 32 ^ (v.shift / 5 + 1)) →
        w.shift = v.shift + 5 ∧
        w.root = vectorNode.mk
          (Function.update (Function.update noChildren 0 v.root) 1
            (newPath v.shift (tailNode v.tail))) noValues) ∧
      (¬ (v.tail.length = 32 ∧ v.tailOffset = 32 ^ (v.shift / 5 + 1)) → w.shift = v.shift) ∧
      ((v.tail.length = 32 ∧ v.tailOffset = 32 ^ (v.shift / 5 + 1)) ↔
        v.Len = 32 ^ (v.shift / 5 + 1) + 32) ∧
      (v.tail.length = 32 →
        ((v.len >>> shiftStep) > (1 <<< v.shift) ↔ v.tailOffset = 32 ^ (v.shift / 5 + 1))) := by
  obtain ⟨xs, k, h⟩ := reachable_rep hv
  obtain ⟨w, hw, k', h'⟩ := rep_append ⟨k, h⟩ x
  have hf := toff_facts v.len
  have hl := repK_tail_length h
  have hwl : w.len = v.len + 1 := by rw [h'.len, h.len]; simp
  have hp : 32 ^ (k + 1) = 32 * 32 ^ k := pow32_succ k
  have hp2 : 32 ^ (k + 1 + 1) = 32 * 32 ^ (k + 1) := pow32_succ (k + 1)
  have hpos : 0 < 32 ^ k := pow_pos (by decide) _
  have hcap' := h'.cap
  have hfull' := h'.full
  have hk' := h'.hk
  rw [hwl] at hcap' hfull'
  rw [tailOffset_eq, repK_shift_div h]
  refine ⟨w, hw, ?_, ?_, ?_, ?_⟩
  · rintro ⟨ht, hfl⟩
    have ht2 : v.len = toff v.len + 32 := by omega
    have hto := toff_succ_of_full v.len ht2
    rw [hto, hfl] at hcap' hfull'
    have hkk : k + 1 = k' := by
      apply height_unique (32 ^ (k + 1) + 32) (k + 1) k' (by omega) hk' _ _ hcap' hfull'
      · rw [hp2]; generalize 32 ^ (k + 1) = P at hp ⊢; omega
      · intro _; omega
    constructor
    · rw [h'.shift, h.shift, ← hkk]; omega
    · have hroot := h.root
      have hposT : 0 < toff v.len := by rw [hfl]; exact pow_pos (by decide) _
      obtain ⟨hh, rfl⟩ : ∃ hh, k = hh + 1 := ⟨k - 1, by have := h.hk; omega⟩
      rw [sub_mk_children _ _ hh 0 hposT] at hroot
      have hg : v.len >>> shiftStep > 1 <<< v.shift := (full_cond h ht2).mpr hfl
      have hnt : ¬ v.tail.length < nodeWidth := by show ¬ v.tail.length < 32; omega
      have e : v.Append x = some
          { root := vectorNode.mk
              (Function.update (Function.update noChildren 0 v.root) 1
                (newPath v.shift (tailNode v.tail))) noValues,
            tail := [x], len := v.len + 1, shift := v.shift + shiftStep } := by
        unfold Vector.Append
        simp only [hnt, if_false]
        rw [hroot]
        simp only [hg, if_true]
      rw [e] at hw
      cases hw
      rfl
  · intro hn
    have hkk : k = k' := by
      by_cases ht : v.tail.length = 32
      · have ht2 : v.len = toff v.len + 32 := by omega
        have hto := toff_succ_of_full v.len ht2
        have hne : toff v.len ≠ 32 ^ (k + 1) := fun e => hn ⟨ht, e⟩
        have hc := h.cap
        have hfu := h.full
        have hd := hf.1
        rw [hto] at hcap' hfull'
        apply height_unique (toff v.len + 32) k k' h.hk hk' _ _ hcap' hfull'
        · rw [hp] at hc hne ⊢
          generalize 32 ^ k = P at hc hne ⊢
          omega
        · intro h1
          have := hfu h1
          omega
      · have hto := toff_succ_of_room v.len (by omega)
        rw [hto] at hcap' hfull'
        exact height_unique (toff v.len) k k' h.hk hk' h.cap h.full hcap' hfull'
    rw [h'.shift, h.shift, hkk]
  · show _ ↔ v.len = _
    constructor
    · rintro ⟨ht, hfl⟩
      omega
    · intro e
      have hd := hf.1
      have h32 : 32 ≤ 32 ^ (k + 1) := Nat.le_of_dvd (pow_pos (by decide) _) (pow32_dvd _)
      have hto : toff v.len = 32 ^ (k + 1) := by
        unfold toff
        rw [e]
        have hnl : ¬ 32 ^ (k + 1) + 32 < 32 := by omega
        simp only [hnl, if_false]
        rw [hp]
        generalize 32 ^ k = P
        omega
      exact ⟨by omega, hto⟩
  · intro ht
    exact full_cond h (by omega)

theorem appendAll_reachable {T : Type} [Inhabited T] (xs : List T) :
    Reachable ((appendAll NewVector xs).getD NewVector) := by
  obtain ⟨w, h1, _⟩ := rep_appendAll xs NewVector [] rep_new
  rw [h1]
  exact reachable_appendAll xs NewVector w Reachable.new h1

theorem fullTreeVector_reachable : Reachable fullTreeVector :=
  appendAll_reachable (List.range 1056)

theorem full_tree_shape {T : Type} [Inhabited T] (k : Nat) (hk : 1 ≤ k) (xs : List T)
    (hl : xs.length = 32 ^ (k + 1) + 32) :
    ∃ u, appendAll NewVector xs = some u ∧ Reachable u ∧ u.Len = 32 ^ (k + 1) + 32 ∧
      u.shift = 5 * k ∧ u.tail.length = 32 ∧ u.tailOffset = 32 ^ (k + 1) := by
  obtain ⟨u, h1, k', h⟩ := rep_appendAll xs NewVector [] rep_new
  rw [List.nil_append] at h
  have hlen : u.len = 32 ^ (k + 1) + 32 := by rw [h.len, hl]
  have hp : 32 ^ (k + 1) = 32 * 32 ^ k := pow32_succ k
  have hpos : 0 < 32 ^ k := pow_pos (by decide) _
  have ht : toff u.len = 32 ^ (k + 1) := by
    rw [hlen]
    unfold toff
    have hnl : ¬ 32 ^ (k + 1) + 32 < 32 := by omega
    simp only [hnl, if_false]
    rw [hp]
    generalize 32 ^ k = P
    omega
  have hkk : k' = k := by
    apply height_unique (toff u.len) k' k h.hk hk h.cap h.full
    · rw [ht]
    · intro _
      rw [ht, hp]
      generalize 32 ^ k = P at hpos
      omega
  subst hkk
  refine ⟨u, h1, reachable_appendAll xs NewVector u Reachable.new h1, hlen, h.shift, ?_, ?_⟩
  · rw [repK_tail_length h, ht, hlen]
    omega
  · rw [tailOffset_eq, ht]

/-- C30.  On a reachable vector `Append` succeeds; it adds 5 to `shift` if the tail is full
and the tree holds `32^(shift/5 + 1)` elements, which is the case exactly when
`Len = 32^(shift/5 + 1) + 32`, and then the new root has the old root as child 0 and
`newPath shift tailNode` as child 1; in every other case `shift` is unchanged.  With a
full tail the test `(len >> 5) > (1 << shift)` is true exactly when the tree holds
`32^(shift/5 + 1)` elements.  The growth occurs at every height: appending
`32^(k+1) + 32` elements to the empty vector gives a reachable vector with `shift = 5k`, a
full tail and `32^(k+1)` elements in the tree, and the next `Append` gives `shift = 5k + 5`. -/
theorem growth_exactly_when_full {T : Type} [Inhabited T] (v : Vector T) (hv : Reachable v)
    (x : T) :
    (∃ w, v.Append x = some w ∧
      ((v.tail.length = 32 ∧ v.tailOffset = 32 ^ (v.shift / 5 + 1)) →
        w.shift = v.shift + 5 ∧
        w.root = vectorNode.mk
          (Function.update (Function.update noChildren 0 v.root) 1
            (newPath v.shift (tailNode v.tail))) noValues) ∧
      (¬ (v.tail.length = 32 ∧ v.tailOffset = 32 ^ (v.shift / 5 + 1)) → w.shift = v.shift) ∧
      ((v.tail.length = 32 ∧ v.tailOffset = 32 ^ (v.shift / 5 + 1)) ↔
        v.Len = 32 ^ (v.shift / 5 + 1) + 32) ∧
      (v.tail.length = 32 →
        ((v.len >>> shiftStep) > (1 <<< v.shift) ↔ v.tailOffset = 32 ^ (v.shift / 5 + 1)))) ∧
    (∀ (k : Nat) (xs : List T), 1 ≤ k → xs.length = 32 ^ (k + 1) + 32 →
      ∃ u w, appendAll NewVector xs = some u ∧ Reachable u ∧
        u.Len = 32 ^ (k + 1) + 32 ∧ u.shift = 5 * k ∧ u.tail.length = 32 ∧
        u.tailOffset = 32 ^ (u.shift / 5 + 1) ∧
        u.Append x = some w ∧ w.shift = 5 * k + 5 ∧
        w.root = vectorNode.mk
          (Function.update (Function.update noChildren 0 u.root) 1
            (newPath u.shift (tailNode u.tail))) noValues) := by
  refine ⟨append_shift_rule v hv x, ?_⟩
  intro k xs hk hl
  obtain ⟨u, h1, hu, h2, h3, h4, h5⟩ := full_tree_shape k hk xs hl
  have hd : u.shift / 5 = k := by rw [h3]; omega
  have h6 : u.tailOffset = 32 ^ (u.shift / 5 + 1) := by rw [hd]; exact h5
  obtain ⟨w, hw, hg, _⟩ := append_shift_rule u hu x
  obtain ⟨g1, g2⟩ := hg ⟨h4, h6⟩
  exact ⟨u, w, h1, hu, h2, h3, h4, h6, hw, by rw [g1, h3], g2⟩

theorem fullTreeVector_shape :
    fullTreeVector.Len = 1056 ∧ fullTreeVector.shift = 5 ∧ fullTreeVector.tail.length = 32 ∧
    fullTreeVector.tailOffset = 1024 := by
  obtain ⟨u, h1, _, h2, h3, h4, h5⟩ :=
    full_tree_shape 1 (le_refl 1) (List.range 1056) (by rw [List.length_range]; rfl)
  have e : fullTreeVector = u := by
    unfold fullTreeVector
    rw [h1]
    rfl
  rw [e]
  exact ⟨h2, h3, h4, h5⟩

theorem growth_exactly_when_full_witness :
    Reachable fullTreeVector ∧
    fullTreeVector.Len = 1056 ∧ fullTreeVector.shift = 5 ∧
    fullTreeVector.tail.length = 32 ∧ fullTreeVector.tailOffset = 1024 ∧
    (fullTreeVector.Append 7).map (fun w => w.shift) = some 10 ∧
    boundaryVector.Len = 33 ∧ boundaryVector.shift = 5 ∧
    (boundaryVector.Append 7).map (fun w => w.shift) = some 5 ∧
    ((∃ w, fullTreeVector.Append 7 = some w ∧
      ((fullTreeVector.tail.length = 32 ∧
          fullTreeVector.tailOffset = 32 ^ (fullTreeVector.shift / 5 + 1)) →
        w.shift = fullTreeVector.shift + 5 ∧
        w.root = vectorNode.mk
          (Function.update (Function.update noChildren 0 fullTreeVector.root) 1
            (newPath fullTreeVector.shift (tailNode fullTreeVector.tail))) noValues) ∧
      (¬ (fullTreeVector.tail.length = 32 ∧
          fullTreeVector.tailOffset = 32 ^ (fullTreeVector.shift / 5 + 1)) →
        w.shift = fullTreeVector.shift) ∧
      ((fullTreeVector.tail.length = 32 ∧
          fullTreeVector.tailOffset = 32 ^ (fullTreeVector.shift / 5 + 1)) ↔
        fullTreeVector.Len = 32 ^ (fullTreeVector.shift / 5 + 1) + 32) ∧
      (fullTreeVector.tail.length = 32 →
        ((fullTreeVector.len >>> shiftStep) > (1 <<< fullTreeVector.shift) ↔
          fullTreeVector.tailOffset = 32 ^ (fullTreeVector.shift / 5 + 1)))) ∧
    (∀ (k : Nat) (xs : List Nat), 1 ≤ k → xs.length = 32 ^ (k + 1) + 32 →
      ∃ u w, appendAll NewVector xs = some u ∧ Reachable u ∧
        u.Len = 32 ^ (k + 1) + 32 ∧ u.shift = 5 * k ∧ u.tail.length = 32 ∧
        u.tailOffset = 32 ^ (u.shift / 5 + 1) ∧
        u.Append 7 = some w ∧ w.shift = 5 * k + 5 ∧
        w.root = vectorNode.mk
          (Function.update (Function.update noChildren 0 u.root) 1
            (newPath u.shift (tailNode u.tail))) noValues)) := by
  have hw := growth_exactly_when_full fullTreeVector fullTreeVector_reachable 7
  obtain ⟨s1, s2, s3, s4⟩ := fullTreeVector_shape
  refine ⟨fullTreeVector_reachable, s1, s2, s3, s4, ?_, by decide, by decide, by decide, hw⟩
  obtain ⟨⟨w, e, hg, _⟩, _⟩ := hw
  have h6 : fullTreeVector.tailOffset = 32 ^ (fullTreeVector.shift / 5 + 1) := by
    rw [s4, s2]
    rfl
  rw [e]
  show some w.shift = some 10
  rw [(hg ⟨s3, h6⟩).1, s2]

theorem grownVector_reachable : Reachable grownVector :=
  appendAll_reachable (List.range 1057)

theorem toff_pred_of_room (n : Nat) (h : n - toff n > 1) : toff (n - 1) = toff n := by
  unfold toff at h ⊢
  by_cases h32 : n < 32
  · have : n - 1 < 32 := by omega
    simp [h32, this]
  · simp only [h32, if_false] at h
    by_cases h33 : n - 1 < 32
    · have : n = 32 := by omega
      simp [this]
    · simp only [h32, h33, if_false]
      omega

theorem toff_pred_of_single (n : Nat) (h : n = toff n + 1) (h32 : 32 ≤ toff n) :
    toff (n - 1) = toff n - 32 := by
  have hf := toff_facts n
  have hd := hf.1
  unfold toff at h h32 ⊢
  by_cases hn : n < 32
  · simp [hn] at h32
  · simp only [hn, if_false] at h h32 ⊢
    have : ¬ n - 1 < 32 := by omega
    simp only [this, if_false]
    omega

/-- C31.  On a reachable vector `Pop` succeeds; it takes 5 from `shift` if `shift > 5`, the
tail holds one element and `Len = 32^(shift/5) + 33`, and then the new root is child 0 of
the old root; in every other case (the vector of one element and the empty vector
included) `shift` is unchanged. -/
theorem shrink_mirrors_growth {T : Type} [Inhabited T] (v : Vector T) (hv : Reachable v) :
    ∃ w x b, v.Pop = some (w, x, b) ∧
      ((v.shift > 5 ∧ v.tail.length = 1 ∧ v.Len = 32 ^ (v.shift / 5) + 33) →
        w.shift = v.shift - 5 ∧
        ∃ children values, v.root = vectorNode.mk children values ∧ w.root = children 0) ∧
      (¬ (v.shift > 5 ∧ v.tail.length = 1 ∧ v.Len = 32 ^ (v.shift / 5) + 33) →
        w.shift = v.shift) := by
  obtain ⟨xs, k, h⟩ := reachable_rep hv
  have hf := toff_facts v.len
  have hl := repK_tail_length h
  rw [repK_shift_div h]
  rcases List.eq_nil_or_concat xs with hnil | ⟨ys, y, hy⟩
  · subst hnil
    have hl0 : v.len = 0 := h.len
    refine ⟨v, default, false, rep_pop_empty ⟨k, h⟩, ?_, fun _ => rfl⟩
    rintro ⟨_, ht, _⟩
    omega
  · subst hy
    rw [List.concat_eq_append] at h
    obtain ⟨w, hw, k', h'⟩ := rep_pop ⟨k, h⟩
    have hvl : v.len = ys.length + 1 := by rw [h.len]; simp
    have hwl : w.len = v.len - 1 := by rw [h'.len, hvl]; rfl
    have hcap' := h'.cap
    have hfull' := h'.full
    have hk' := h'.hk
    rw [hwl] at hcap' hfull'
    have hc := h.cap
    have hfu := h.full
    have hd := hf.1
    have hp : 32 ^ (k + 1) = 32 * 32 ^ k := pow32_succ k
    have hpos : 0 < 32 ^ k := pow_pos (by decide) _
    have hkd : 32 ∣ 32 ^ k := by
      obtain ⟨g, rfl⟩ : ∃ g, k = g + 1 := ⟨k - 1, by have := h.hk; omega⟩
      exact pow32_dvd g
    refine ⟨w, y, true, hw, ?_, ?_⟩
    · rintro ⟨hs, ht, hlen⟩
      have hlen2 : v.len = 32 ^ k + 33 := hlen
      have hk2 : 1 < k := by rw [h.shift] at hs; omega
      obtain ⟨g, rfl⟩ : ∃ g, k = g + 2 := ⟨k - 2, by omega⟩
      have htv : toff v.len = 32 ^ (g + 2) + 32 := by omega
      have hto := toff_pred_of_single v.len (by omega) (by omega)
      rw [hto, htv] at hcap' hfull'
      simp only [Nat.add_sub_cancel] at hcap' hfull'
      have hq : 32 ^ (g + 2) = 32 * 32 ^ (g + 1) := pow32_succ (g + 1)
      have hq1 : 0 < 32 ^ (g + 1) := pow_pos (by decide) _
      have hkk : g + 1 = k' := by
        apply height_unique (32 ^ (g + 2)) (g + 1) k' (by omega) hk' (le_refl _) _ hcap' hfull'
        intro _
        rw [hq]; generalize 32 ^ (g + 1) = P at hq1 ⊢; omega
      constructor
      · rw [h'.shift, h.shift, ← hkk]; omega
      · have hroot := h.root
        rw [sub_mk_children _ _ (g + 1) 0 (by omega)] at hroot
        refine ⟨_, _, hroot, ?_⟩
        rw [h'.root, ← hkk, hwl, hto, htv]
        simp only [Nat.add_sub_cancel, Fin.val_zero, zero_mul, add_zero]
        apply sub_congr
        intro i _ hi
        have hi2 : i < 32 ^ (g + 2) := by simpa using hi
        have hyl : ys.length = 32 ^ (g + 2) + 32 := by omega
        refine ⟨by omega, fun _ => (elems_append_lt ys y i (by omega)).symm⟩
    · intro hn
      have hkk : k = k' := by
        by_cases ht : v.len - toff v.len > 1
        · have hto := toff_pred_of_room v.len ht
          rw [hto] at hcap' hfull'
          exact height_unique (toff v.len) k k' h.hk hk' hc hfu hcap' hfull'
        · have ht1 : v.len = toff v.len + 1 := by
            have := hf.2.2.2 (by omega)
            omega
          by_cases hz : toff v.len = 0
          · have hk1 : k = 1 := by
              by_contra hne
              have := hfu (by have := h.hk; omega)
              omega
            have hw0 : toff (v.len - 1) = 0 := by rw [ht1, hz]; rfl
            rw [hw0] at hcap' hfull'
            by_contra hne
            have := hfull' (by omega)
            omega
          · have h32 : 32 ≤ toff v.len := by omega
            have hto := toff_pred_of_single v.len ht1 h32
            rw [hto] at hcap' hfull'
            apply height_unique (toff v.len - 32) k k' h.hk hk' (by omega) _ hcap' hfull'
            intro h1
            have h2 := hfu h1
            have hne : ¬ (v.shift > 5 ∧ v.tail.length = 1 ∧ v.len = 32 ^ k + 33) := hn
            have hs : v.shift > 5 := by rw [h.shift]; omega
            have hne2 : v.len ≠ 32 ^ k + 33 := fun e => hne ⟨hs, by omega, e⟩
            generalize 32 ^ k = P at h2 hne2 hkd ⊢
            omega
      rw [h'.shift, h.shift, hkk]

theorem shrink_mirrors_growth_witness :
    Reachable grownVector ∧
    ∃ w x b, grownVector.Pop = some (w, x, b) ∧
      ((grownVector.shift > 5 ∧ grownVector.tail.length = 1 ∧
          grownVector.Len = 32 ^ (grownVector.shift / 5) + 33) →
        w.shift = grownVector.shift - 5 ∧
        ∃ children values, grownVector.root = vectorNode.mk children values ∧
          w.root = children 0) ∧
      (¬ (grownVector.shift > 5 ∧ grownVector.tail.length = 1 ∧
          grownVector.Len = 32 ^ (grownVector.shift / 5) + 33) →
        w.shift = grownVector.shift) :=
  ⟨grownVector_reachable, shrink_mirrors_growth grownVector grownVector_reachable⟩

theorem setInNode_pathCopied {T : Type} [Inhabited T] (i : Nat) (x : T) :
    ∀ (h : Nat) (node r : vectorNode T),
      setInNode node (5 * (h + 1)) i x = some r → pathCopied i x (h + 1) node r := by
  intro h
  induction h with
  | zero =>
    intro node r e
    cases node with
    | nil => simp [setInNode] at e
    | mk c vs =>
      unfold setInNode at e
      have h5 : 5 * (0 + 1) = shiftStep := rfl
      simp only [h5, if_true] at e
      cases hc : c (slot (i >>> shiftStep)) with
      | nil => rw [hc] at e; simp [cloneLeaf] at e
      | mk lc lv =>
        rw [hc] at e
        simp only [cloneLeaf, Option.some.injEq] at e
        subst e
        refine ⟨c, vs, _, _, rfl, rfl, ?_, ?_⟩
        · intro j hj
          exact Function.update_noteq hj _ _
        · show pathCopied i x 0 _ _
          rw [show (5 * (0 + 1)) = shiftStep from rfl, Function.update_same, hc]
          refine ⟨lc, lv, _, _, rfl, rfl, ?_, ?_⟩
          · intro j hj
            exact Function.update_noteq hj _ _
          · exact Function.update_same _ _ _
  | succ h ih =>
    intro node r e
    cases node with
    | nil => simp [setInNode] at e
    | mk c vs =>
      unfold setInNode at e
      have h5 : ¬ 5 * (h + 1 + 1) = shiftStep := by show ¬ 5 * (h + 1 + 1) = 5; omega
      have h6 : 5 * (h + 1 + 1) - shiftStep = 5 * (h + 1) := by
        show 5 * (h + 1 + 1) - 5 = _; omega
      simp only [h5, if_false, h6] at e
      cases hc : setInNode (c (slot (i >>> (5 * (h + 1 + 1))))) (5 * (h + 1)) i x with
      | none => rw [hc] at e; cases e
      | some c1 =>
        rw [hc] at e
        simp only [Option.some.injEq] at e
        subst e
        refine ⟨c, vs, _, _, rfl, rfl, ?_, ?_⟩
        · intro j hj
          exact Function.update_noteq hj _ _
        · rw [Function.update_same]
          exact ih _ _ hc

theorem naive_get {T : Type} [Inhabited T] (xs : List T) (i : Int) :
    NaiveArray.Get { data := xs } i =
      some (if 0 ≤ i ∧ i < xs.length then (xs.getD i.toNat default, true)
            else (default, false)) := by
  unfold NaiveArray.Get
  by_cases hr : i < 0 ∨ i ≥ (xs.length : Int)
  · have : ¬ (0 ≤ i ∧ i < (xs.length : Int)) := by omega
    simp [hr, this]
  · have hin : 0 ≤ i ∧ i < (xs.length : Int) := by omega
    have hlt : i.toNat < xs.length := by omega
    simp only [hr, if_false, hin, and_self, if_true]
    rw [List.getElem?_eq_getElem hlt]
    simp [List.getD_eq_getElem?_getD, List.getElem?_eq_getElem hlt]

theorem run_refines {T : Type} [Inhabited T] (cs : List (Call T)) :
    ∀ (v : Vector T) (xs : List T), Rep v xs →
      ∃ w ys outs, v.run cs = some (w, outs) ∧
        NaiveArray.run { data := xs } cs = some ({ data := ys }, outs) ∧ Rep w ys := by
  induction cs with
  | nil =>
    intro v xs h
    exact ⟨v, xs, [], rfl, rfl, h⟩
  | cons c rest ih =>
    intro v xs h
    cases c with
    | append x =>
      obtain ⟨w, h1, h2⟩ := rep_append h x
      obtain ⟨u, ys, outs, e1, e2, e3⟩ := ih w (xs ++ [x]) h2
      refine ⟨u, ys, none :: outs, ?_, ?_, e3⟩
      · simp [Vector.run, Vector.call, h1, e1]
      · simp [NaiveArray.run, NaiveArray.call, NaiveArray.Append, e2]
    | set i x =>
      by_cases hr : 0 ≤ i ∧ i < (xs.length : Int)
      · obtain ⟨w, h1, h2⟩ := rep_set h i x hr.1 hr.2
        obtain ⟨u, ys, outs, e1, e2, e3⟩ := ih w _ h2
        have hn : ¬ (i < 0 ∨ i ≥ (xs.length : Int)) := by omega
        have hlt : i.toNat < xs.length := by omega
        refine ⟨u, ys, none :: outs, ?_, ?_, e3⟩
        · simp [Vector.run, Vector.call, h1, e1]
        · simp [NaiveArray.run, NaiveArray.call, NaiveArray.Set, hn, hlt, e2]
      · obtain ⟨k, hk⟩ := h
        have hv : i < 0 ∨ i ≥ (v.len : Int) := by rw [hk.len]; omega
        have hn : i < 0 ∨ i ≥ (xs.length : Int) := by omega
        obtain ⟨u, ys, outs, e1, e2, e3⟩ := ih v xs ⟨k, hk⟩
        refine ⟨u, ys, none :: outs, ?_, ?_, e3⟩
        · simp [Vector.run, Vector.call, Vector.Set, hv, e1]
        · simp [NaiveArray.run, NaiveArray.call, NaiveArray.Set, hn, e2]
    | pop =>
      rcases List.eq_nil_or_concat xs with hnil | ⟨zs, z, hz⟩
      · subst hnil
        obtain ⟨u, ys, outs, e1, e2, e3⟩ := ih v [] h
        refine ⟨u, ys, some (default, false) :: outs, ?_, ?_, e3⟩
        · simp [Vector.run, Vector.call, rep_pop_empty h, e1]
        · simp [NaiveArray.run, NaiveArray.call, NaiveArray.Pop, e2]
      · subst hz
        rw [List.concat_eq_append] at h ⊢
        obtain ⟨w, h1, h2⟩ := rep_pop h
        obtain ⟨u, ys, outs, e1, e2, e3⟩ := ih w zs h2
        refine ⟨u, ys, some (z, true) :: outs, ?_, ?_, e3⟩
        · simp [Vector.run, Vector.call, h1, e1]
        · simp [NaiveArray.run, NaiveArray.call, NaiveArray.Pop, e2]

/-- C37.  Every sequence of `Append`, `Set` and `Pop` calls runs to the end on `NewVector()`
and on `NewNaiveArray()`; the calls return the same `(value, found)` results on both, and
the two structures reached have the same `Len` and the same `Get i` for every integer
`i`. -/
theorem vector_refines_naive_array {T : Type} [Inhabited T] (cs : List (Call T)) :
    ∃ (w : Vector T) (a : NaiveArray T) (outs : List (Option (T × Bool))),
      (NewVector : Vector T).run cs = some (w, outs) ∧
      (NewNaiveArray : NaiveArray T).run cs = some (a, outs) ∧
      w.Len = a.Len ∧ ∀ i : Int, w.Get i = a.Get i := by
  obtain ⟨w, ys, outs, e1, e2, e3⟩ := run_refines cs NewVector [] rep_new
  refine ⟨w, { data := ys }, outs, e1, e2, rep_len e3, ?_⟩
  intro i
  rw [rep_get e3, naive_get]

end array

namespace hashmap

/-- C2, at the failing input.  Keys 1 and 2 have the digest `2 ^ 30`; after
`NewHashMap().Set(1, 10).Set(2, 20)` the call `Get(2)` reports absent instead of
`(20, true)`. -/
theorem set_get_deep_collision :
    twoKeyMap.bind (fun m => m.Get constHash 2) = some (0, false) := by
  decide

/-- C7, at the failing input.  With `m = NewHashMap().Set(1, 10)`, which has length 1 and
does not contain key 2, the map `m.Set(2, 20).Delete(2)` has length 2 instead of 1. -/
theorem set_delete_length_deep_collision :
    oneKeyMap.map (fun m => m.Len) = some 1 ∧
    oneKeyMap.bind (fun m => m.Contains constHash 2) = some false ∧
    (twoKeyMap.bind (fun m => m.Delete constHash 2)).map (fun m => m.Len) = some 2 := by
  decide

/-- C8, at the failing input.  With `m = NewHashMap().Set(1, 10)`, the map `m.Set(2, 20)`
has length 2 and `m.Set(2, 20).Set(2, 30)` has length 3: the second `Set` of key 2 counts
it as a new key. -/
theorem overwrite_length_deep_collision :
    twoKeyMap.map (fun m => m.Len) = some 2 ∧
    (twoKeyMap.bind (fun m => m.Set constHash 2 30)).map (fun m => m.Len) = some 3 := by
  decide

/-- C9, at the failing input.  Keys 1, 2 and 3 all have the digest `2 ^ 30`; after setting
the three of them into an empty map the length is 3 and `Get(1)` reports absent instead of
`(10, true)`. -/
theorem three_colliding_keys :
    (setAll constHash (NewHashMap 0) [(1, 10), (2, 20), (3, 30)]).map (fun m => m.Len) = some 3 ∧
    (setAll constHash (NewHashMap 0) [(1, 10), (2, 20), (3, 30)]).bind
      (fun m => m.Get constHash 1) = some (0, false) := by
  decide

/-- C10, at the failing input.  After the sequence `Set(1, 10), Set(2, 20)` on an empty map,
with both keys of digest `2 ^ 30`, `Get(1)` reports absent instead of `(10, true)`. -/
theorem built_by_sets_deep_collision :
    (setAll constHash (NewHashMap 0) [(1, 10), (2, 20)]).bind
      (fun m => m.Get constHash 1) = some (0, false) := by
  decide

theorem chunk_lt (hash shift : Nat) : chunk hash shift < 32 :=
  Nat.lt_succ_of_le Nat.and_le_right

theorem bitAt_eq (hash shift : Nat) : bitAt hash shift = 2 ^ chunk hash shift := by
  unfold bitAt chunk
  rw [Nat.one_shiftLeft]

theorem and_two_pow_eq_zero (bm c : Nat) : bm &&& 2 ^ c = 0 ↔ bm.testBit c = false := by
  constructor
  · intro h
    have := congrArg (fun x => x.testBit c) h
    simpa [Nat.testBit_and, Nat.testBit_two_pow] using this
  · intro h
    apply Nat.eq_of_testBit_eq
    intro i
    rw [Nat.testBit_and, Nat.testBit_two_pow, Nat.zero_testBit]
    by_cases hc : c = i
    · subst hc; simp [h]
    · simp [hc]

theorem rank_zero (bm : Nat) : rank bm 0 = 0 := rfl

theorem rank_succ (bm c : Nat) :
    rank bm (c + 1) = rank bm c + (if bm.testBit c then 1 else 0) := by
  unfold rank
  rw [List.range_succ, List.filter_append, List.length_append]
  by_cases h : bm.testBit c <;> simp [h]

theorem rank_congr (x y : Nat) :
    ∀ c, (∀ i, i < c → x.testBit i = y.testBit i) → rank x c = rank y c := by
  intro c
  induction c with
  | zero => intro _; rfl
  | succ c ih =>
    intro h
    rw [rank_succ, rank_succ, ih (fun i hi => h i (by omega)), h c (by omega)]

theorem rank_mono (bm : Nat) : ∀ c c', c ≤ c' → rank bm c ≤ rank bm c' := by
  intro c c' h
  induction c' with
  | zero =>
    have : c = 0 := by omega
    subst this; exact le_refl _
  | succ c' ih =>
    by_cases hc : c = c' + 1
    · subst hc; exact le_refl _
    · have := ih (by omega)
      rw [rank_succ]; omega

theorem rank_lt_of_testBit (bm c c' : Nat) (h : c < c') (hb : bm.testBit c = true) :
    rank bm c < rank bm c' := by
  have h1 := rank_mono bm (c + 1) c' h
  rw [rank_succ, hb] at h1
  simp at h1
  omega

theorem onesCount32_eq_rank (bm : Nat) : onesCount32 bm = rank bm 32 := rfl

theorem index_eq_rank (bm c : Nat) (hc : c ≤ 32) :
    onesCount32 (bm &&& (2 ^ c - 1)) = rank bm c := by
  rw [onesCount32_eq_rank]
  have h1 : ∀ c', c ≤ c' → rank (bm &&& (2 ^ c - 1)) c' = rank bm c := by
    intro c' hle
    induction c' with
    | zero =>
      have : c = 0 := by omega
      subst this; rfl
    | succ c' ih =>
      by_cases hcc : c = c' + 1
      · subst hcc
        apply rank_congr
        intro i hi
        rw [Nat.testBit_and, Nat.testBit_two_pow_sub_one]
        simp [hi]
      · rw [rank_succ, ih (by omega), Nat.testBit_and, Nat.testBit_two_pow_sub_one]
        have : ¬ c' < c := by omega
        simp [this]
  exact h1 32 hc

theorem rank_or (bm c : Nat) :
    ∀ c', rank (bm ||| 2 ^ c) c' =
      rank bm c' + (if c < c' ∧ bm.testBit c = false then 1 else 0) := by
  intro c'
  induction c' with
  | zero => simp [rank_zero]
  | succ c' ih =>
    rw [rank_succ, rank_succ, ih, Nat.testBit_or, Nat.testBit_two_pow]
    by_cases h1 : c = c'
    · subst h1
      by_cases hb : bm.testBit c = true
      · simp [hb]
      · simp [hb]
    · by_cases h2 : c < c'
      · have h3 : c < c' + 1 := by omega
        simp [h1, h2, h3]
        omega
      · have h3 : ¬ c < c' + 1 := by omega
        simp [h1, h2, h3]

theorem testBit_clear (bm c i : Nat) (hi : i < 32) :
    (bm &&& (4294967295 ^^^ 2 ^ c)).testBit i = (bm.testBit i && !decide (c = i)) := by
  have h32 : (4294967295 : Nat) = 2 ^ 32 - 1 := by norm_num
  rw [Nat.testBit_and, Nat.testBit_xor, h32, Nat.testBit_two_pow_sub_one, Nat.testBit_two_pow]
  simp [hi]

theorem rank_clear (bm c : Nat) :
    ∀ c', c' ≤ 32 → rank (bm &&& (4294967295 ^^^ 2 ^ c)) c' +
      (if c < c' ∧ bm.testBit c = true then 1 else 0) = rank bm c' := by
  intro c'
  induction c' with
  | zero => intro _; simp [rank_zero]
  | succ c' ih =>
    intro hle
    have ih' := ih (by omega)
    rw [rank_succ, rank_succ, testBit_clear bm c c' (by omega)]
    by_cases h1 : c = c'
    · subst h1
      have hn : ¬ c < c := lt_irrefl _
      simp only [hn, false_and, if_false, add_zero] at ih'
      by_cases hb : bm.testBit c = true
      · simp [hb, ih']
      · simp [hb, ih']
    · by_cases h2 : c < c'
      · have h3 : c < c' + 1 := by omega
        simp only [h2, h3, true_and] at ih' ⊢
        simp only [h1, decide_False, Bool.not_false, Bool.and_true]
        omega
      · have h3 : ¬ c < c' + 1 := by omega
        simp only [h2, h3, false_and, if_false, add_zero] at ih' ⊢
        simp only [h1, decide_False, Bool.not_false, Bool.and_true]
        omega

theorem onesCount32_or (bm c : Nat) (hc : c < 32) (hb : bm.testBit c = false) :
    onesCount32 (bm ||| 2 ^ c) = onesCount32 bm + 1 := by
  rw [onesCount32_eq_rank, onesCount32_eq_rank, rank_or]
  simp [hc, hb]

theorem onesCount32_clear (bm c : Nat) (hc : c < 32) (hb : bm.testBit c = true) :
    onesCount32 (bm &&& (4294967295 ^^^ 2 ^ c)) + 1 = onesCount32 bm := by
  have := rank_clear bm c 32 (le_refl _)
  simpa [onesCount32_eq_rank, hc, hb] using this

theorem onesCount32_zero : onesCount32 0 = 0 := by decide

theorem onesCount32_two_pow (c : Nat) (hc : c < 32) : onesCount32 (2 ^ c) = 1 := by
  have := onesCount32_or 0 c hc (Nat.zero_testBit c)
  simpa [onesCount32_zero] using this

theorem onesCount32_two (c1 c2 : Nat) (h1 : c1 < 32) (h2 : c2 < 32) (hne : c1 ≠ c2) :
    onesCount32 (2 ^ c1 ||| 2 ^ c2) = 2 := by
  have hb : (2 ^ c1).testBit c2 = false := by
    rw [Nat.testBit_two_pow]; simp [hne]
  rw [onesCount32_or _ c2 h2 hb, onesCount32_two_pow c1 h1]

theorem onesCount32_pos (bm : Nat) (h0 : bm ≠ 0) (h32 : bm < 4294967296) :
    0 < onesCount32 bm := by
  obtain ⟨i, hi⟩ := Nat.ne_zero_implies_bit_true h0
  have hlt : i < 32 := by
    by_contra hge
    have h1 : bm < 2 ^ i := lt_of_lt_of_le h32
      (by
        have : (4294967296 : Nat) = 2 ^ 32 := by norm_num
        rw [this]
        exact Nat.pow_le_pow_right (by decide) (by omega))
    rw [Nat.testBit_lt_two_pow h1] at hi
    cases hi
  have := rank_lt_of_testBit bm i 32 hlt hi
  rw [onesCount32_eq_rank]
  omega

theorem two_pow_lt (c : Nat) (hc : c < 32) : 2 ^ c < 4294967296 := by
  have : (4294967296 : Nat) = 2 ^ 32 := by norm_num
  rw [this]
  exact Nat.pow_lt_pow_right (by decide) hc

theorem or_two_pow_lt (bm c : Nat) (hb : bm < 4294967296) (hc : c < 32) :
    bm ||| 2 ^ c < 4294967296 := by
  have h32 : (4294967296 : Nat) = 2 ^ 32 := by norm_num
  have := two_pow_lt c hc
  rw [h32] at hb this ⊢
  exact Nat.or_lt_two_pow hb this

theorem or_two_pow_ne_zero (bm c : Nat) : bm ||| 2 ^ c ≠ 0 := by
  intro h
  have := congrArg (fun x => x.testBit c) h
  simp [Nat.testBit_or, Nat.testBit_two_pow] at this

theorem ne_zero_of_and_ne_zero (bm b : Nat) (h : ¬ bm &&& b = 0) : bm ≠ 0 := by
  intro h0
  apply h
  rw [h0]
  exact Nat.zero_and b

theorem two_pow_inj (c1 c2 : Nat) : 2 ^ c1 = 2 ^ c2 ↔ c1 = c2 :=
  ⟨fun h => Nat.pow_right_injective (le_refl 2) h, fun h => by rw [h]⟩

theorem two_pow_lt_iff (c1 c2 : Nat) : 2 ^ c1 < 2 ^ c2 ↔ c1 < c2 :=
  Nat.pow_lt_pow_iff_right (by decide)

theorem split_at {α : Type} {l : List α} {i : Nat} {x : α} (h : l[i]? = some x) :
    l = l.take i ++ x :: l.drop (i + 1) ∧ i < l.length := by
  obtain ⟨hlt, hx⟩ := List.getElem?_eq_some.mp h
  refine ⟨?_, hlt⟩
  rw [← hx, List.getElem_cons_drop, List.take_append_drop]

theorem flatMap_insert_length {α β : Type} (f : α → List β) (cs : List α) (i : Nat) (x : α) :
    ((cs.take i ++ x :: cs.drop i).flatMap f).length = (cs.flatMap f).length + (f x).length := by
  have h := congrArg (fun l => (l.flatMap f).length) (List.take_append_drop i cs)
  simp only [List.flatMap_append, List.length_append] at h
  simp only [List.flatMap_append, List.flatMap_cons, List.length_append]
  omega

theorem flatMap_set_length {α β : Type} (f : α → List β) {cs : List α} {i : Nat} {old : α}
    (h : cs[i]? = some old) (new : α) :
    ((cs.set i new).flatMap f).length + (f old).length =
      (cs.flatMap f).length + (f new).length := by
  obtain ⟨h1, h2⟩ := split_at h
  have h3 := congrArg (fun l => (l.flatMap f).length) h1
  simp only [List.flatMap_append, List.flatMap_cons, List.length_append] at h3
  rw [List.set_eq_take_append_cons_drop, if_pos h2]
  simp only [List.flatMap_append, List.flatMap_cons, List.length_append]
  omega

theorem flatMap_eraseIdx_length {α β : Type} (f : α → List β) {cs : List α} {i : Nat} {old : α}
    (h : cs[i]? = some old) :
    ((cs.eraseIdx i).flatMap f).length + (f old).length = (cs.flatMap f).length := by
  obtain ⟨h1, h2⟩ := split_at h
  have h3 := congrArg (fun l => (l.flatMap f).length) h1
  simp only [List.flatMap_append, List.flatMap_cons, List.length_append] at h3
  rw [List.eraseIdx_eq_take_drop_succ]
  simp only [List.flatMap_append, List.length_append]
  omega

theorem mem_insert {α : Type} {cs : List α} {i : Nat} {x c : α}
    (h : c ∈ cs.take i ++ x :: cs.drop i) : c ∈ cs ∨ c = x := by
  rcases List.mem_append.mp h with h1 | h1
  · exact Or.inl (List.mem_of_mem_take h1)
  · rcases List.mem_cons.mp h1 with h2 | h2
    · exact Or.inr h2
    · exact Or.inl (List.mem_of_mem_drop h2)

theorem set_ne_singleton {α : Type} {cs : List α} {i : Nat} {x y : α} (hi : i < cs.length)
    (hne : x ≠ y) : cs.set i x ≠ [y] := by
  intro h
  have := List.mem_set cs i hi x
  rw [h] at this
  exact hne (List.mem_singleton.mp this)

theorem singleton_of_getElem? {α : Type} {cs : List α} {i : Nat} {x : α}
    (hl : cs.length = 1) (h : cs[i]? = some x) : cs = [x] := by
  cases cs with
  | nil => simp at hl
  | cons a rest =>
    have hr : rest = [] := by
      simp only [List.length_cons] at hl
      exact List.length_eq_zero.mp (by omega)
    subst hr
    cases i with
    | zero => simp at h; rw [h]
    | succ i => simp at h

theorem findKey_some {K V : Type} [DecidableEq K] [Inhabited V] (key : K) :
    ∀ (es : List (entry K V)) (i : Nat), findKey es key = some i →
      i < es.length ∧ ∃ x, scanEntries es key = (x, true) := by
  intro es
  induction es with
  | nil => intro i h; simp [findKey] at h
  | cons e rest ih =>
    intro i h
    unfold findKey at h
    by_cases hk : e.key = key
    · rw [if_pos hk] at h
      cases h
      exact ⟨by simp, e.value, by simp [scanEntries, hk]⟩
    · rw [if_neg hk] at h
      cases hf : findKey rest key with
      | none => rw [hf] at h; cases h
      | some j =>
        rw [hf] at h
        cases h
        obtain ⟨h1, x, h2⟩ := ih j hf
        exact ⟨by simp; omega, x, by simp [scanEntries, hk, h2]⟩

theorem findKey_none {K V : Type} [DecidableEq K] [Inhabited V] (key : K) :
    ∀ (es : List (entry K V)), findKey es key = none → scanEntries es key = (default, false) := by
  intro es
  induction es with
  | nil => intro _; rfl
  | cons e rest ih =>
    intro h
    unfold findKey at h
    by_cases hk : e.key = key
    · rw [if_pos hk] at h; cases h
    · rw [if_neg hk] at h
      cases hf : findKey rest key with
      | none => simp [scanEntries, hk, ih hf]
      | some j => rw [hf] at h; cases h

theorem wf_succ {K V : Type} (d bm : Nat) (cs : List (child K V)) :
    WF (d + 1) (hmapNode.mk bm cs) ↔
      (cs.length = onesCount32 bm ∧ bm < 4294967296 ∧
        ∀ c ∈ cs, childOK (fun m => WF d m ∧ compactNode m) (d = 0) c) := Iff.rfl

theorem wf_pos {K V : Type} {d : Nat} {n : hmapNode K V} (h : WF d n) : 1 ≤ d := by
  cases d with
  | zero => exact h.elim
  | succ d => omega

theorem index_lt {K V : Type} {bm : Nat} {cs : List (child K V)} {hash shift : Nat}
    (hl : cs.length = onesCount32 bm) (hb : ¬ bm &&& bitAt hash shift = 0) :
    (hmapNode.mk bm cs : hmapNode K V).index (bitAt hash shift) < cs.length := by
  rw [bitAt_eq] at hb ⊢
  have hc := chunk_lt hash shift
  have ht : bm.testBit (chunk hash shift) = true := by
    rw [and_two_pow_eq_zero] at hb
    simpa using hb
  show onesCount32 (bm &&& (2 ^ chunk hash shift - 1)) < _
  rw [index_eq_rank _ _ (by omega), hl, onesCount32_eq_rank]
  exact rank_lt_of_testBit bm _ 32 hc ht

theorem index_le {K V : Type} {bm : Nat} {cs : List (child K V)} {hash shift : Nat}
    (hl : cs.length = onesCount32 bm) :
    (hmapNode.mk bm cs : hmapNode K V).index (bitAt hash shift) ≤ cs.length := by
  rw [bitAt_eq]
  have hc := chunk_lt hash shift
  show onesCount32 (bm &&& (2 ^ chunk hash shift - 1)) ≤ _
  rw [index_eq_rank _ _ (by omega), hl, onesCount32_eq_rank]
  exact rank_mono bm _ 32 (by omega)

theorem testBit_of_and {bm hash shift : Nat} (hb : ¬ bm &&& bitAt hash shift = 0) :
    bm.testBit (chunk hash shift) = true := by
  rw [bitAt_eq, and_two_pow_eq_zero] at hb
  simpa using hb

theorem testBit_of_and_eq {bm hash shift : Nat} (hb : bm &&& bitAt hash shift = 0) :
    bm.testBit (chunk hash shift) = false := by
  rw [bitAt_eq, and_two_pow_eq_zero] at hb
  exact hb

theorem createTwoEntryNode_spec {K V : Type} (k1 : K) (v1 : V) (h1 : Nat) (k2 : K) (v2 : V)
    (h2 : Nat) :
    ∀ (f shift : Nat), shift + 5 * f = 35 → 1 ≤ f →
      ∃ n, createTwoEntryNode f k1 v1 h1 k2 v2 h2 shift = some n ∧ WF f n ∧ compactNode n ∧
        (entriesOf f n).length = 2 := by
  intro f
  induction f with
  | zero => intro shift _ h; omega
  | succ f ih =>
    intro shift hs _
    unfold createTwoEntryNode
    by_cases h30 : shift ≥ 30
    · have hf : f = 0 := by omega
      subst hf
      rw [if_pos h30]
      refine ⟨_, rfl, ?_, ?_, ?_⟩
      · rw [wf_succ]
        have h11 : onesCount32 1 = 1 := by decide
        refine ⟨by rw [h11]; rfl, by decide, ?_⟩
        intro c hc
        rw [List.mem_singleton] at hc
        subst hc
        exact ⟨by simp, rfl⟩
      · exact ⟨by simp [hmapNode.bitmap], by simp [hmapNode.children]⟩
      · simp [entriesOf, hmapNode.children, childEntries]
    · rw [if_neg h30]
      have hf : 1 ≤ f := by omega
      have hc1 := chunk_lt h1 shift
      have hc2 := chunk_lt h2 shift
      by_cases hb : bitAt h1 shift = bitAt h2 shift
      · rw [if_pos hb]
        obtain ⟨n, e1, e2, e3, e4⟩ := ih (shift + hmapShift) (by show shift + 5 + 5 * f = 35; omega) hf
        rw [e1]
        refine ⟨_, rfl, ?_, ?_, ?_⟩
        · rw [wf_succ]
          refine ⟨?_, ?_, ?_⟩
          · rw [bitAt_eq, onesCount32_two_pow _ hc1]; rfl
          · rw [bitAt_eq]; exact two_pow_lt _ hc1
          · intro c hc
            rw [List.mem_singleton] at hc
            subst hc
            exact ⟨e2, e3⟩
        · refine ⟨?_, by simp [hmapNode.children]⟩
          show bitAt h1 shift ≠ 0
          rw [bitAt_eq]
          exact Nat.pos_iff_ne_zero.mp (pow_pos (by decide) _)
        · simp [entriesOf, hmapNode.children, childEntries, e4]
      · rw [if_neg hb]
        have hne : chunk h1 shift ≠ chunk h2 shift := by
          intro e
          apply hb
          rw [bitAt_eq, bitAt_eq, e]
        have hwf : ∀ (a b : entry K V),
            WF (f + 1) (hmapNode.mk (bitAt h1 shift ||| bitAt h2 shift)
              [child.entry a, child.entry b]) := by
          intro a b
          rw [wf_succ]
          refine ⟨?_, ?_, ?_⟩
          · rw [bitAt_eq, bitAt_eq, onesCount32_two _ _ hc1 hc2 hne]; rfl
          · rw [bitAt_eq, bitAt_eq]
            exact or_two_pow_lt _ _ (two_pow_lt _ hc1) hc2
          · intro c hc
            simp only [List.mem_cons, List.mem_singleton, List.not_mem_nil, or_false] at hc
            rcases hc with hc | hc <;> subst hc <;> exact trivial
        have hcp : ∀ (a b : entry K V),
            compactNode (hmapNode.mk (bitAt h1 shift ||| bitAt h2 shift)
              [child.entry a, child.entry b]) := by
          intro a b
          refine ⟨?_, by simp [hmapNode.children]⟩
          show bitAt h1 shift ||| bitAt h2 shift ≠ 0
          rw [bitAt_eq h2]
          exact or_two_pow_ne_zero _ _
        by_cases hlt : bitAt h1 shift < bitAt h2 shift
        · rw [if_pos hlt]
          exact ⟨_, rfl, hwf _ _, hcp _ _, by simp [entriesOf, hmapNode.children, childEntries]⟩
        · rw [if_neg hlt]
          exact ⟨_, rfl, hwf _ _, hcp _ _, by simp [entriesOf, hmapNode.children, childEntries]⟩

theorem entriesOf_mk {K V : Type} (d bm : Nat) (cs : List (child K V)) :
    entriesOf (d + 1) (hmapNode.mk bm cs) = cs.flatMap (childEntries (entriesOf d)) := rfl

theorem setNode_spec {K V : Type} [DecidableEq K] [Inhabited V] (hashOf : K → Nat) (key : K)
    (value : V) (hash : Nat) :
    ∀ (d : Nat) (node : hmapNode K V) (shift : Nat), shift + 5 * (d + 1) = 35 →
      WF (d + 1) node →
      ∃ n' x b, getNode (d + 1) node key hash shift = some (x, b) ∧
        setNode hashOf (d + 1) node key value hash shift = some (n', !b) ∧
        WF (d + 1) n' ∧ (compactNode node → compactNode n') ∧
        (entriesOf (d + 1) n').length =
          (entriesOf (d + 1) node).length + (if b then 0 else 1) := by
  intro d
  induction d using Nat.strong_induction_on with
  | _ d ih =>
    intro node shift hs hwf
    cases node with
    | mk bm cs =>
      rw [wf_succ] at hwf
      obtain ⟨hl, hbd, hch⟩ := hwf
      have hc := chunk_lt hash shift
      by_cases hb : bm &&& bitAt hash shift = 0
      · -- the slot is free
        have hle := @index_le K V bm cs hash shift hl
        have htb := testBit_of_and_eq hb
        refine ⟨hmapNode.mk (bm ||| bitAt hash shift)
          (cs.take ((hmapNode.mk bm cs).index (bitAt hash shift)) ++
            child.entry ⟨key, value⟩ ::
              cs.drop ((hmapNode.mk bm cs).index (bitAt hash shift))),
          default, false, ?_, ?_, ?_, ?_, ?_⟩
        · rw [getNode]
          simp only [hmapNode.bitmap]
          rw [if_pos hb]
        · rw [setNode]
          simp only [hmapNode.bitmap, hmapNode.children]
          rw [if_pos hb, if_pos hle]
          rfl
        · rw [wf_succ]
          refine ⟨?_, ?_, ?_⟩
          · rw [bitAt_eq, onesCount32_or bm _ hc htb, ← hl]
            simp only [List.length_append, List.length_take, List.length_cons, List.length_drop]
            omega
          · rw [bitAt_eq]; exact or_two_pow_lt bm _ hbd hc
          · intro c hcm
            rcases mem_insert hcm with h1 | h1
            · exact hch c h1
            · subst h1; exact trivial
        · intro hcp
          refine ⟨?_, ?_⟩
          · show bm ||| bitAt hash shift ≠ 0
            rw [bitAt_eq]; exact or_two_pow_ne_zero _ _
          · intro e he
            have hpos := onesCount32_pos bm hcp.1 hbd
            have := congrArg List.length he
            simp only [hmapNode.children, List.length_append, List.length_take, List.length_cons,
              List.length_drop, List.length_nil] at this
            omega
        · rw [entriesOf_mk, entriesOf_mk, flatMap_insert_length]
          simp [childEntries]
      · -- the slot is taken
        have hlt := index_lt (K := K) (V := V) hl hb
        have hne0 : bm ≠ 0 := ne_zero_of_and_ne_zero _ _ hb
        obtain ⟨ch, hget⟩ : ∃ ch, cs[(hmapNode.mk bm cs).index (bitAt hash shift)]? = some ch :=
          ⟨_, List.getElem?_eq_getElem hlt⟩
        have hmem : ch ∈ cs := List.getElem?_mem hget
        have hok := hch ch hmem
        have hwfset : ∀ x : child K V, childOK (fun m => WF d m ∧ compactNode m) (d = 0) x →
            WF (d + 1) (hmapNode.mk bm (cs.set ((hmapNode.mk bm cs).index (bitAt hash shift)) x)) := by
          intro x hx
          rw [wf_succ]
          refine ⟨by rw [List.length_set]; exact hl, hbd, ?_⟩
          intro c hcm
          rcases List.mem_or_eq_of_mem_set hcm with h1 | h1
          · exact hch c h1
          · subst h1; exact hx
        cases ch with
        | node m =>
          obtain ⟨hwm, hcm⟩ := hok
          obtain ⟨d', rfl⟩ : ∃ d', d = d' + 1 := ⟨d - 1, by have := wf_pos hwm; omega⟩
          obtain ⟨m', x, b, g1, s1, w1, c1, e1⟩ :=
            ih d' (by omega) m (shift + hmapShift) (by show shift + 5 + 5 * (d' + 1) = 35; omega) hwm
          refine ⟨hmapNode.mk bm (cs.set ((hmapNode.mk bm cs).index (bitAt hash shift))
            (child.node m')), x, b, ?_, ?_, ?_, ?_, ?_⟩
          · rw [getNode]
            simp only [hmapNode.bitmap, hmapNode.children]
            rw [if_neg hb, hget]
            exact g1
          · rw [setNode]
            simp only [hmapNode.bitmap, hmapNode.children]
            rw [if_neg hb, hget]
            simp only [s1]
          · exact hwfset _ ⟨w1, c1 hcm⟩
          · intro _
            exact ⟨hne0, fun e => set_ne_singleton hlt (by simp)⟩
          · rw [entriesOf_mk, entriesOf_mk]
            have := flatMap_set_length (childEntries (entriesOf (d' + 1))) hget (child.node m')
            simp only [childEntries] at this
            omega
        | entry c =>
          by_cases hk : c.key = key
          · refine ⟨hmapNode.mk bm (cs.set ((hmapNode.mk bm cs).index (bitAt hash shift))
              (child.entry ⟨key, value⟩)), c.value, true, ?_, ?_, ?_, ?_, ?_⟩
            · rw [getNode]
              simp only [hmapNode.bitmap, hmapNode.children]
              rw [if_neg hb, hget]
              simp only [hk, if_true]
            · rw [setNode]
              simp only [hmapNode.bitmap, hmapNode.children]
              rw [if_neg hb, hget]
              simp only [hk, if_true, Bool.not_true]
            · exact hwfset _ trivial
            · intro hcp
              refine ⟨hne0, ?_⟩
              intro e he
              have hl1 : cs.length = 1 := by
                have := congrArg List.length he
                simpa [hmapNode.children] using this
              exact hcp.2 c (singleton_of_getElem? hl1 hget)
            · rw [entriesOf_mk, entriesOf_mk]
              have := flatMap_set_length (childEntries (entriesOf d)) hget
                (child.entry ⟨key, value⟩)
              simp only [childEntries, List.length_singleton] at this
              simp only [if_true]
              omega
          · by_cases h30 : shift ≥ 30
            · have hd0 : d = 0 := by omega
              refine ⟨hmapNode.mk bm (cs.set ((hmapNode.mk bm cs).index (bitAt hash shift))
                (child.collision [⟨c.key, c.value⟩, ⟨key, value⟩])), default, false,
                ?_, ?_, ?_, ?_, ?_⟩
              · rw [getNode]
                simp only [hmapNode.bitmap, hmapNode.children]
                rw [if_neg hb, hget]
                simp only [hk, if_false]
              · rw [setNode]
                simp only [hmapNode.bitmap, hmapNode.children]
                rw [if_neg hb, hget]
                simp only [hk, if_false, h30, if_true, Bool.not_false]
              · exact hwfset _ ⟨by simp, hd0⟩
              · intro _
                exact ⟨hne0, fun e => set_ne_singleton hlt (by simp)⟩
              · rw [entriesOf_mk, entriesOf_mk]
                have := flatMap_set_length (childEntries (entriesOf d)) hget
                  (child.collision [⟨c.key, c.value⟩, ⟨key, value⟩])
                simp only [childEntries, List.length_singleton, List.length_cons,
                  List.length_nil] at this
                simp only [Bool.false_eq_true, if_false]
                omega
            · have hd1 : 1 ≤ d := by omega
              obtain ⟨n, e1, e2, e3, e4⟩ := createTwoEntryNode_spec c.key c.value (hashOf c.key)
                key value hash d (shift + hmapShift) (by show shift + 5 + 5 * d = 35; omega) hd1
              refine ⟨hmapNode.mk bm (cs.set ((hmapNode.mk bm cs).index (bitAt hash shift))
                (child.node n)), default, false, ?_, ?_, ?_, ?_, ?_⟩
              · rw [getNode]
                simp only [hmapNode.bitmap, hmapNode.children]
                rw [if_neg hb, hget]
                simp only [hk, if_false]
              · rw [setNode]
                simp only [hmapNode.bitmap, hmapNode.children]
                rw [if_neg hb, hget]
                simp only [hk, if_false, h30, e1, Bool.not_false]
              · exact hwfset _ ⟨e2, e3⟩
              · intro _
                exact ⟨hne0, fun e => set_ne_singleton hlt (by simp)⟩
              · rw [entriesOf_mk, entriesOf_mk]
                have := flatMap_set_length (childEntries (entriesOf d)) hget (child.node n)
                simp only [childEntries, List.length_singleton] at this
                simp only [Bool.false_eq_true, if_false]
                omega
        | collision es =>
          obtain ⟨hes, hd0⟩ := hok
          cases hf : findKey es key with
          | some i =>
            obtain ⟨hi, x, hx⟩ := findKey_some key es i hf
            refine ⟨hmapNode.mk bm (cs.set ((hmapNode.mk bm cs).index (bitAt hash shift))
              (child.collision (es.set i ⟨key, value⟩))), x, true, ?_, ?_, ?_, ?_, ?_⟩
            · rw [getNode]
              simp only [hmapNode.bitmap, hmapNode.children]
              rw [if_neg hb, hget]
              simp only [hx]
            · rw [setNode]
              simp only [hmapNode.bitmap, hmapNode.children]
              rw [if_neg hb, hget]
              simp only [hf, Bool.not_true]
            · exact hwfset _ ⟨by rw [List.length_set]; exact hes, hd0⟩
            · intro _
              exact ⟨hne0, fun e => set_ne_singleton hlt (by simp)⟩
            · rw [entriesOf_mk, entriesOf_mk]
              have := flatMap_set_length (childEntries (entriesOf d)) hget
                (child.collision (es.set i ⟨key, value⟩))
              simp only [childEntries, List.length_set] at this
              simp only [if_true]
              omega
          | none =>
            have hx := findKey_none (V := V) key es hf
            refine ⟨hmapNode.mk bm (cs.set ((hmapNode.mk bm cs).index (bitAt hash shift))
              (child.collision (es ++ [⟨key, value⟩]))), default, false, ?_, ?_, ?_, ?_, ?_⟩
            · rw [getNode]
              simp only [hmapNode.bitmap, hmapNode.children]
              rw [if_neg hb, hget]
              simp only [hx]
            · rw [setNode]
              simp only [hmapNode.bitmap, hmapNode.children]
              rw [if_neg hb, hget]
              simp only [hf, Bool.not_false]
            · exact hwfset _ ⟨by rw [List.length_append]; omega, hd0⟩
            · intro _
              exact ⟨hne0, fun e => set_ne_singleton hlt (by simp)⟩
            · rw [entriesOf_mk, entriesOf_mk]
              have := flatMap_set_length (childEntries (entriesOf d)) hget
                (child.collision (es ++ [⟨key, value⟩]))
              simp only [childEntries, List.length_append, List.length_singleton] at this
              simp only [Bool.false_eq_true, if_false]
              omega

theorem deleteNode_spec {K V : Type} [DecidableEq K] [Inhabited V] (key : K) (hash : Nat) :
    ∀ (d : Nat) (node : hmapNode K V) (shift : Nat), shift + 5 * (d + 1) = 35 →
      WF (d + 1) node →
      ∃ n' x b, getNode (d + 1) node key hash shift = some (x, b) ∧
        deleteNode (d + 1) node key hash shift = some (n', b) ∧
        (b = false → n' = node) ∧ WF (d + 1) n' ∧
        (entriesOf (d + 1) n').length + (if b then 1 else 0) =
          (entriesOf (d + 1) node).length := by
  intro d
  induction d using Nat.strong_induction_on with
  | _ d ih =>
    intro node shift hs hwf
    have hwf0 := hwf
    cases node with
    | mk bm cs =>
      rw [wf_succ] at hwf
      obtain ⟨hl, hbd, hch⟩ := hwf
      have hc := chunk_lt hash shift
      by_cases hb : bm &&& bitAt hash shift = 0
      · refine ⟨hmapNode.mk bm cs, default, false, ?_, ?_, fun _ => rfl, hwf0, by simp⟩
        · rw [getNode]
          simp only [hmapNode.bitmap]
          rw [if_pos hb]
        · rw [deleteNode]
          simp only [hmapNode.bitmap]
          rw [if_pos hb]
      · have hlt := index_lt (K := K) (V := V) hl hb
        have htb := testBit_of_and hb
        obtain ⟨ch, hget⟩ : ∃ ch, cs[(hmapNode.mk bm cs).index (bitAt hash shift)]? = some ch :=
          ⟨_, List.getElem?_eq_getElem hlt⟩
        have hmem : ch ∈ cs := List.getElem?_mem hget
        have hok := hch ch hmem
        have hwfset : ∀ x : child K V, childOK (fun m => WF d m ∧ compactNode m) (d = 0) x →
            WF (d + 1) (hmapNode.mk bm (cs.set ((hmapNode.mk bm cs).index (bitAt hash shift)) x)) := by
          intro x hx
          rw [wf_succ]
          refine ⟨by rw [List.length_set]; exact hl, hbd, ?_⟩
          intro c hcm
          rcases List.mem_or_eq_of_mem_set hcm with h1 | h1
          · exact hch c h1
          · subst h1; exact hx
        have hwferase : WF (d + 1) (hmapNode.mk (bm &&& (4294967295 ^^^ bitAt hash shift))
            (cs.eraseIdx ((hmapNode.mk bm cs).index (bitAt hash shift)))) := by
          rw [wf_succ]
          refine ⟨?_, lt_of_le_of_lt Nat.and_le_left hbd, ?_⟩
          · have := onesCount32_clear bm _ hc htb
            rw [List.length_eraseIdx, if_pos hlt, bitAt_eq]
            omega
          · intro c hcm
            exact hch c (List.mem_of_mem_eraseIdx hcm)
        cases ch with
        | node m =>
          obtain ⟨hwm, hcm⟩ := hok
          obtain ⟨d', rfl⟩ : ∃ d', d = d' + 1 := ⟨d - 1, by have := wf_pos hwm; omega⟩
          obtain ⟨⟨bm', cs'⟩, x, b, g1, s1, u1, w1, e1⟩ :=
            ih d' (by omega) m (shift + hmapShift) (by show shift + 5 + 5 * (d' + 1) = 35; omega) hwm
          have hg : getNode (d' + 1 + 1) (hmapNode.mk bm cs) key hash shift = some (x, b) := by
            rw [getNode]
            simp only [hmapNode.bitmap, hmapNode.children]
            rw [if_neg hb, hget]
            exact g1
          cases b with
          | false =>
            refine ⟨hmapNode.mk bm cs, x, false, hg, ?_, fun _ => rfl, hwf0, by simp⟩
            rw [deleteNode]
            simp only [hmapNode.bitmap, hmapNode.children]
            rw [if_neg hb, hget]
            simp only [s1]
          | true =>
            simp only [if_true] at e1
            by_cases hz : bm' = 0
            · refine ⟨_, x, true, hg, ?_, by simp, hwferase, ?_⟩
              · rw [deleteNode]
                simp only [hmapNode.bitmap, hmapNode.children]
                rw [if_neg hb, hget]
                simp only [s1, hz, if_true]
              · rw [entriesOf_mk, entriesOf_mk]
                have := flatMap_eraseIdx_length (childEntries (entriesOf (d' + 1))) hget
                simp only [childEntries] at this
                have hm0 : (entriesOf (d' + 1) (hmapNode.mk bm' cs')).length = 0 := by
                  rw [wf_succ] at w1
                  have hl0 : cs'.length = 0 := by rw [w1.1, hz]; exact onesCount32_zero
                  rw [entriesOf_mk, List.length_eq_zero.mp hl0]
                  rfl
                simp only [if_true]
                omega
            · by_cases hl1 : cs'.length = 1
              · cases h0 : cs'[0]? with
                | none =>
                  have := List.getElem?_eq_none_iff.mp h0
                  omega
                | some c0 =>
                  have hkeep : (∀ e, c0 ≠ child.entry e) →
                      ∃ n' x b, getNode (d' + 1 + 1) (hmapNode.mk bm cs) key hash shift = some (x, b) ∧
                        deleteNode (d' + 1 + 1) (hmapNode.mk bm cs) key hash shift = some (n', b) ∧
                        (b = false → n' = hmapNode.mk bm cs) ∧ WF (d' + 1 + 1) n' ∧
                        (entriesOf (d' + 1 + 1) n').length + (if b then 1 else 0) =
                          (entriesOf (d' + 1 + 1) (hmapNode.mk bm cs)).length := by
                    intro hne
                    have hcp : compactNode (hmapNode.mk bm' cs') := by
                      refine ⟨hz, ?_⟩
                      intro e he
                      have he2 : cs' = [child.entry e] := he
                      rw [he2] at h0
                      simp at h0
                      exact hne e h0.symm
                    refine ⟨hmapNode.mk bm (cs.set ((hmapNode.mk bm cs).index (bitAt hash shift))
                      (child.node (hmapNode.mk bm' cs'))), x, true, hg, ?_, by simp, hwfset _ ⟨w1, hcp⟩, ?_⟩
                    · rw [deleteNode]
                      simp only [hmapNode.bitmap, hmapNode.children]
                      rw [if_neg hb, hget]
                      simp only [s1, hz, if_false, hl1, if_true, h0]
                      cases c0 with
                      | node n0 => rfl
                      | entry e0 => exact (hne e0 rfl).elim
                      | collision es0 => rfl
                    · rw [entriesOf_mk, entriesOf_mk]
                      have := flatMap_set_length (childEntries (entriesOf (d' + 1))) hget
                        (child.node (hmapNode.mk bm' cs'))
                      simp only [childEntries] at this
                      simp only [if_true]
                      omega
                  cases c0 with
                  | node n0 => exact hkeep (by simp)
                  | collision es0 => exact hkeep (by simp)
                  | entry e0 =>
                    refine ⟨hmapNode.mk bm (cs.set ((hmapNode.mk bm cs).index (bitAt hash shift))
                      (child.entry e0)), x, true, hg, ?_, by simp, hwfset _ trivial, ?_⟩
                    · rw [deleteNode]
                      simp only [hmapNode.bitmap, hmapNode.children]
                      rw [if_neg hb, hget]
                      simp only [s1, hz, if_false, hl1, if_true, h0]
                    · rw [entriesOf_mk, entriesOf_mk]
                      have := flatMap_set_length (childEntries (entriesOf (d' + 1))) hget
                        (child.entry e0)
                      simp only [childEntries, List.length_singleton] at this
                      have hm1 : (entriesOf (d' + 1) (hmapNode.mk bm' cs')).length = 1 := by
                        have hcs : cs' = [child.entry e0] := singleton_of_getElem? hl1 h0
                        rw [entriesOf_mk, hcs]
                        rfl
                      simp only [if_true]
                      omega
              · have hcp : compactNode (hmapNode.mk bm' cs') := by
                  refine ⟨hz, ?_⟩
                  intro e he
                  have he2 : cs' = [child.entry e] := he
                  apply hl1
                  rw [he2]; rfl
                refine ⟨hmapNode.mk bm (cs.set ((hmapNode.mk bm cs).index (bitAt hash shift))
                  (child.node (hmapNode.mk bm' cs'))), x, true, hg, ?_, by simp, hwfset _ ⟨w1, hcp⟩, ?_⟩
                · rw [deleteNode]
                  simp only [hmapNode.bitmap, hmapNode.children]
                  rw [if_neg hb, hget]
                  simp only [s1, hz, if_false, hl1]
                · rw [entriesOf_mk, entriesOf_mk]
                  have := flatMap_set_length (childEntries (entriesOf (d' + 1))) hget
                    (child.node (hmapNode.mk bm' cs'))
                  simp only [childEntries] at this
                  simp only [if_true]
                  omega
        | entry c =>
          by_cases hk : c.key = key
          · refine ⟨_, c.value, true, ?_, ?_, by simp, hwferase, ?_⟩
            · rw [getNode]
              simp only [hmapNode.bitmap, hmapNode.children]
              rw [if_neg hb, hget]
              simp only [hk, if_true]
            · rw [deleteNode]
              simp only [hmapNode.bitmap, hmapNode.children]
              rw [if_neg hb, hget]
              simp only [hk, ne_eq, not_true_eq_false, if_false]
            · rw [entriesOf_mk, entriesOf_mk]
              have := flatMap_eraseIdx_length (childEntries (entriesOf d)) hget
              simp only [childEntries, List.length_singleton] at this
              simp only [if_true]
              omega
          · refine ⟨hmapNode.mk bm cs, default, false, ?_, ?_, fun _ => rfl, hwf0, by simp⟩
            · rw [getNode]
              simp only [hmapNode.bitmap, hmapNode.children]
              rw [if_neg hb, hget]
              simp only [hk, if_false]
            · rw [deleteNode]
              simp only [hmapNode.bitmap, hmapNode.children]
              rw [if_neg hb, hget]
              simp only [ne_eq, hk, not_false_eq_true, if_true]
        | collision es =>
          obtain ⟨hes, hd0⟩ := hok
          cases hf : findKey es key with
          | none =>
            have hx := findKey_none (V := V) key es hf
            refine ⟨hmapNode.mk bm cs, default, false, ?_, ?_, fun _ => rfl, hwf0, by simp⟩
            · rw [getNode]
              simp only [hmapNode.bitmap, hmapNode.children]
              rw [if_neg hb, hget]
              simp only [hx]
            · rw [deleteNode]
              simp only [hmapNode.bitmap, hmapNode.children]
              rw [if_neg hb, hget]
              simp only [hf]
          | some i =>
            obtain ⟨hi, x, hx⟩ := findKey_some (V := V) key es i hf
            have hg : getNode (d + 1) (hmapNode.mk bm cs) key hash shift = some (x, true) := by
              rw [getNode]
              simp only [hmapNode.bitmap, hmapNode.children]
              rw [if_neg hb, hget]
              simp only [hx]
            by_cases h2 : es.length = 2
            · obtain ⟨r, hr⟩ : ∃ r, es[1 - i]? = some r :=
                ⟨_, List.getElem?_eq_getElem (by omega)⟩
              refine ⟨hmapNode.mk bm (cs.set ((hmapNode.mk bm cs).index (bitAt hash shift))
                (child.entry ⟨r.key, r.value⟩)), x, true, hg, ?_, by simp, hwfset _ trivial, ?_⟩
              · rw [deleteNode]
                simp only [hmapNode.bitmap, hmapNode.children]
                rw [if_neg hb, hget]
                simp only [hf, h2, if_true, hr]
              · rw [entriesOf_mk, entriesOf_mk]
                have := flatMap_set_length (childEntries (entriesOf d)) hget
                  (child.entry ⟨r.key, r.value⟩)
                simp only [childEntries, List.length_singleton] at this
                simp only [if_true]
                omega
            · refine ⟨hmapNode.mk bm (cs.set ((hmapNode.mk bm cs).index (bitAt hash shift))
                (child.collision (es.eraseIdx i))), x, true, hg, ?_, by simp,
                hwfset _ ⟨by rw [List.length_eraseIdx, if_pos hi]; omega, hd0⟩, ?_⟩
              · rw [deleteNode]
                simp only [hmapNode.bitmap, hmapNode.children]
                rw [if_neg hb, hget]
                simp only [hf, h2, if_false]
              · rw [entriesOf_mk, entriesOf_mk]
                have := flatMap_set_length (childEntries (entriesOf d)) hget
                  (child.collision (es.eraseIdx i))
                simp only [childEntries, List.length_eraseIdx, if_pos hi] at this
                simp only [if_true]
                omega

theorem mapOK_new {K V : Type} (seed : Nat) : MapOK (NewHashMap seed : HashMap K V) := by
  refine ⟨hmapNode.mk 0 [], rfl, ?_, rfl⟩
  show WF (6 + 1) _
  rw [wf_succ]
  refine ⟨by rw [onesCount32_zero]; rfl, by decide, ?_⟩
  intro c hc
  cases hc

theorem set_map_spec {K V : Type} [DecidableEq K] [Inhabited V] (H : Nat → K → Nat)
    {m : HashMap K V} (hm : MapOK m) (k : K) (v : V) :
    ∃ m' x b, m.Get H k = some (x, b) ∧ m.Set H k v = some m' ∧
      m'.len = (if b then m.len else m.len + 1) ∧ MapOK m' ∧ m'.seed = m.seed := by
  obtain ⟨root, hr, hwf, hlen⟩ := hm
  obtain ⟨n', x, b, g, s, w, _, e⟩ :=
    setNode_spec (m.hash H) k v (m.hash H k) 6 root 0 (by norm_num) hwf
  refine ⟨{ root := some n', len := if (!b) = true then m.len + 1 else m.len, seed := m.seed },
    x, b, ?_, ?_, ?_, ?_, rfl⟩
  · unfold HashMap.Get
    rw [hr]
    exact g
  · unfold HashMap.Set
    rw [hr]
    show (match setNode (m.hash H) (6 + 1) root k v (m.hash H k) 0 with
      | some (newRoot, added) => _ | none => none) = _
    rw [s]
  · cases b <;> simp
  · refine ⟨n', rfl, w, ?_⟩
    show (if (!b) = true then m.len + 1 else m.len) = _
    have e' : (entriesOf (6 + 1) n').length = (entriesOf (6 + 1) root).length +
        (if b = true then 0 else 1) := e
    have hlen' : m.len = ((entriesOf (6 + 1) root).length : Int) := hlen
    show _ = ((entriesOf (6 + 1) n').length : Int)
    rw [e', hlen']
    cases b <;> simp

theorem delete_map_spec {K V : Type} [DecidableEq K] [Inhabited V] (H : Nat → K → Nat)
    {m : HashMap K V} (hm : MapOK m) (k : K) :
    ∃ m' x b, m.Get H k = some (x, b) ∧ m.Delete H k = some m' ∧
      (b = false → m' = m) ∧ (b = true → m'.len = m.len - 1) ∧ MapOK m' ∧
      m'.seed = m.seed := by
  have hm0 := hm
  obtain ⟨root, hr, hwf, hlen⟩ := hm
  obtain ⟨n', x, b, g, s, u, w, e⟩ :=
    deleteNode_spec (V := V) k (m.hash H k) 6 root 0 (by norm_num) hwf
  have hg : m.Get H k = some (x, b) := by
    unfold HashMap.Get
    rw [hr]
    exact g
  cases b with
  | false =>
    refine ⟨m, x, false, hg, ?_, fun _ => rfl, by simp, hm0, rfl⟩
    unfold HashMap.Delete
    rw [hr]
    show (match deleteNode (6 + 1) root k (m.hash H k) 0 with
      | none => none | some (_, false) => some m | some (newRoot, true) => _) = _
    rw [s]
  | true =>
    refine ⟨{ root := some n', len := m.len - 1, seed := m.seed }, x, true, hg, ?_, by simp,
      fun _ => rfl, ?_, rfl⟩
    · unfold HashMap.Delete
      rw [hr]
      show (match deleteNode (6 + 1) root k (m.hash H k) 0 with
        | none => none | some (_, false) => some m | some (newRoot, true) => _) = _
      rw [s]
    · refine ⟨n', rfl, w, ?_⟩
      have e' : (entriesOf (6 + 1) n').length + 1 = (entriesOf (6 + 1) root).length := by
        simpa using e
      have hlen' : m.len = ((entriesOf (6 + 1) root).length : Int) := hlen
      show m.len - 1 = ((entriesOf (6 + 1) n').length : Int)
      rw [hlen', ← e']
      push_cast
      omega

theorem reachable_mapOK {K V : Type} [DecidableEq K] [Inhabited V] {H : Nat → K → Nat}
    {m : HashMap K V} (h : Reachable H m) : MapOK m := by
  induction h with
  | new seed => exact mapOK_new seed
  | set k v _ e ih =>
    obtain ⟨m', _, _, _, h2, _, h4, _⟩ := set_map_spec H ih k v
    rw [h2] at e
    cases e
    exact h4
  | delete k _ e ih =>
    obtain ⟨m', _, _, _, h2, _, _, h5, _⟩ := delete_map_spec H ih k
    rw [h2] at e
    cases e
    exact h5

/-- C13.  On a reachable map with `m.Contains(k) = false`, `Delete k` returns the receiver:
the same root, the same length and the same seed. -/
theorem delete_absent_noop {K V : Type} [DecidableEq K] [Inhabited V] (H : Nat → K → Nat)
    (m : HashMap K V) (hm : Reachable H m) (k : K) (hc : m.Contains H k = some false) :
    m.Delete H k = some m := by
  obtain ⟨m', x, b, h1, h2, h3, _, _, _⟩ := delete_map_spec H (reachable_mapOK hm) k
  unfold HashMap.Contains at hc
  rw [h1] at hc
  simp only [Option.map_some', Option.some.injEq] at hc
  rw [h2, h3 hc]

theorem iterEntries_append {K V σ : Type} (yield : K → V → σ → σ × Bool) :
    ∀ (l1 l2 : List (entry K V)) (s : σ),
      iterEntries yield (l1 ++ l2) s =
        if (iterEntries yield l1 s).2 then iterEntries yield l2 (iterEntries yield l1 s).1
        else iterEntries yield l1 s := by
  intro l1
  induction l1 with
  | nil => intro l2 s; simp [iterEntries]
  | cons e rest ih =>
    intro l2 s
    simp only [List.cons_append, iterEntries]
    by_cases hc : (yield e.key e.value s).2 = true
    · simp only [hc, if_true]
      exact ih l2 _
    · simp only [hc, if_false, Bool.false_eq_true]

theorem iterEntries_false {K V σ : Type} (yield : K → V → σ → σ × Bool) :
    ∀ (l : List (entry K V)) (s : σ), (iterEntries yield l s).2 = false →
      iterEntries yield l s = ((iterEntries yield l s).1, false) := by
  intro l s h
  rw [← h]

theorem iterChildren_eq {K V σ : Type} (yield : K → V → σ → σ × Bool)
    (recur : hmapNode K V → σ → Option (σ × Bool)) (E : hmapNode K V → List (entry K V)) :
    ∀ (cs : List (child K V)),
      (∀ n, child.node n ∈ cs → ∀ s, recur n s = some (iterEntries yield (E n) s)) →
      ∀ s, iterChildren recur yield cs s =
        some (iterEntries yield (cs.flatMap (childEntries E)) s) := by
  intro cs
  induction cs with
  | nil => intro _ s; rfl
  | cons c rest ih =>
    intro hrec s
    have ih' := ih (fun n hn => hrec n (List.mem_cons_of_mem _ hn))
    rw [List.flatMap_cons, iterEntries_append]
    cases c with
    | node n =>
      have h1 := hrec n (List.mem_cons_self _ _) s
      simp only [iterChildren, h1, childEntries]
      cases hb : (iterEntries yield (E n) s).2 with
      | true =>
        have : iterEntries yield (E n) s = ((iterEntries yield (E n) s).1, true) := by
          rw [← hb]
        rw [this]
        simp only [if_true]
        exact ih' _
      | false =>
        have : iterEntries yield (E n) s = ((iterEntries yield (E n) s).1, false) := by
          rw [← hb]
        rw [this]
        simp
    | entry e =>
      simp only [iterChildren, childEntries, iterEntries]
      by_cases hc : (yield e.key e.value s).2 = true
      · simp only [hc, if_true]
        exact ih' _
      · simp only [hc, if_false, Bool.false_eq_true]
    | collision es =>
      simp only [iterChildren, childEntries]
      by_cases hc : (iterEntries yield es s).2 = true
      · simp only [hc, if_true]
        exact ih' _
      · simp only [hc, if_false, Bool.false_eq_true]
        have hf : (iterEntries yield es s).2 = false := by simpa using hc
        rw [← hf]

theorem iterNode_eq {K V σ : Type} (yield : K → V → σ → σ × Bool) :
    ∀ (d : Nat) (node : hmapNode K V), WF d node →
      ∀ s, iterNode yield d node s = some (iterEntries yield (entriesOf d node) s) := by
  intro d
  induction d with
  | zero => intro node h; exact h.elim
  | succ d ih =>
    intro node h s
    cases node with
    | mk bm cs =>
      rw [wf_succ] at h
      rw [entriesOf_mk]
      show iterChildren (iterNode yield d) yield cs s = _
      apply iterChildren_eq
      intro n hn s'
      exact ih n (h.2.2 _ hn).1 s'

theorem iterEntries_feed {K V σ : Type} (yield : K → V → σ → σ × Bool) :
    ∀ (l : List (entry K V)) (s : σ),
      (iterEntries yield l s).1 =
        iter.feed (fun p : K × V => yield p.1 p.2) (l.map (fun e => (e.key, e.value))) s := by
  intro l
  induction l with
  | nil => intro s; rfl
  | cons e rest ih =>
    intro s
    simp only [iterEntries, List.map_cons, iter.feed]
    by_cases hc : (yield e.key e.value s).2 = true
    · simp only [hc, if_true]
      exact ih _
    · simp only [hc, if_false, Bool.false_eq_true]

theorem all_eq {K V σ : Type} {m : HashMap K V} (hm : MapOK m)
    (yield : K → V → σ → σ × Bool) (s : σ) :
    m.All yield s =
      some (iter.feed (fun p : K × V => yield p.1 p.2)
        (m.entries.map (fun e => (e.key, e.value))) s) := by
  obtain ⟨root, hr, hwf, _⟩ := hm
  unfold HashMap.All HashMap.entries
  rw [hr]
  simp only
  rw [iterNode_eq yield maxDepth root hwf s]
  simp only [Option.map_some', iterEntries_feed]

/-- C19.  On a reachable map there is a list of exactly `m.Len()` pairs such that `All`
passes these pairs, in this order, to its consumer, `Keys` passes their keys and `Values`
their values, in the same order. -/
theorem traversal_complete {K V : Type} [DecidableEq K] [Inhabited V] (H : Nat → K → Nat)
    (m : HashMap K V) (hm : Reachable H m) :
    ∃ es : List (K × V), (es.length : Int) = m.Len ∧
      (∀ (σ : Type) (yield : K → V → σ → σ × Bool) (s : σ),
        m.All yield s = some (iter.feed (fun p => yield p.1 p.2) es s)) ∧
      (∀ (σ : Type) (yield : K → σ → σ × Bool) (s : σ),
        m.Keys yield s = some (iter.feed yield (es.map (fun p => p.1)) s)) ∧
      (∀ (σ : Type) (yield : V → σ → σ × Bool) (s : σ),
        m.Values yield s = some (iter.feed yield (es.map (fun p => p.2)) s)) := by
  have hok := reachable_mapOK hm
  refine ⟨m.entries.map (fun e => (e.key, e.value)), ?_, ?_, ?_, ?_⟩
  · obtain ⟨root, hr, _, hlen⟩ := hok
    unfold HashMap.entries HashMap.Len
    rw [hr, hlen]
    simp
  · intro σ yield s
    exact all_eq hok yield s
  · intro σ yield s
    unfold HashMap.Keys
    rw [all_eq hok]
    exact congrArg some (array.feed_map (fun p : K × V => p.1) yield _ s)
  · intro σ yield s
    unfold HashMap.Values
    rw [all_eq hok]
    exact congrArg some (array.feed_map (fun p : K × V => p.2) yield _ s)

theorem below_wf {K V : Type} {root n : hmapNode K V} (h : Below root n) :
    ∀ d, WF d root → ∃ d', WF d' n ∧ compactNode n := by
  induction h with
  | @child n0 hc =>
    intro d hw
    cases d with
    | zero => exact hw.elim
    | succ d =>
      cases root with
      | mk bm cs =>
        rw [wf_succ] at hw
        exact ⟨d, hw.2.2 _ hc⟩
  | @step p n0 _ hc ih =>
    intro d hw
    obtain ⟨d', hp, _⟩ := ih d hw
    cases d' with
    | zero => exact hp.elim
    | succ d' =>
      cases p with
      | mk bm cs =>
        rw [wf_succ] at hp
        exact ⟨d', hp.2.2 _ hc⟩

theorem wf_node_facts {K V : Type} {d : Nat} {n : hmapNode K V} (h : WF d n) :
    n.children.length = onesCount32 n.bitmap ∧
    (∀ hash shift : Nat, n.bitmap &&& bitAt hash shift ≠ 0 →
      n.index (bitAt hash shift) < n.children.length) ∧
    (∀ entries, child.collision entries ∈ n.children → 2 ≤ entries.length) := by
  cases d with
  | zero => exact h.elim
  | succ d =>
    cases n with
    | mk bm cs =>
      rw [wf_succ] at h
      refine ⟨h.1, ?_, ?_⟩
      · intro hash shift hb
        exact index_lt h.1 hb
      · intro es hes
        exact (h.2.2 _ hes).1

/-- C32.  In a reachable map the root and every node below it satisfy
`len(children) = popcount(bitmap)`, the slot index `popcount(bitmap & (bit-1))` of every
bit `1 << ((hash >> shift) & 31)` that is set in the bitmap is less than `len(children)`,
and every collision list holds at least two entries. -/
theorem node_well_formed {K V : Type} [DecidableEq K] [Inhabited V] (H : Nat → K → Nat)
    (m : HashMap K V) (hm : Reachable H m) :
    ∃ root, m.root = some root ∧
      ∀ n, n = root ∨ Below root n →
        n.children.length = onesCount32 n.bitmap ∧
        (∀ hash shift : Nat, n.bitmap &&& bitAt hash shift ≠ 0 →
          n.index (bitAt hash shift) < n.children.length) ∧
        (∀ entries, child.collision entries ∈ n.children → 2 ≤ entries.length) := by
  obtain ⟨root, hr, hwf, _⟩ := reachable_mapOK hm
  refine ⟨root, hr, ?_⟩
  intro n hn
  rcases hn with rfl | hb
  · exact wf_node_facts hwf
  · obtain ⟨d', hw, _⟩ := below_wf hb _ hwf
    exact wf_node_facts hw

/-- C35.  In a reachable map no node below the root has an empty bitmap, and none consists
of exactly one plain entry; in the map holding keys 1 and 2 five single-child nodes deep,
`Delete(2)` leaves the entry of key 1 directly in the root. -/
theorem delete_keeps_compact {K V : Type} [DecidableEq K] [Inhabited V] (H : Nat → K → Nat)
    (m : HashMap K V) (hm : Reachable H m) :
    (∃ root, m.root = some root ∧
      ∀ n, Below root n → n.bitmap ≠ 0 ∧ ∀ e, n.children ≠ [child.entry e]) ∧
    (chainMap.bind (fun m2 => m2.root)).map (fun r => r.children.length) = some 1 ∧
    ((chainMap.bind (fun m2 => m2.root)).bind (fun r => r.children[0]?)).bind
      (fun c => match c with
        | child.node n => some n.children.length
        | _ => none) = some 1 ∧
    ((chainMap.bind (fun m2 => m2.Delete chainHash 2)).bind (fun m3 => m3.root)).bind
      (fun r => match r.children with
        | [child.entry e] => some (e.key, e.value)
        | _ => none) = some (1, 10) := by
  refine ⟨?_, by decide, by decide, by decide⟩
  obtain ⟨root, hr, hwf, _⟩ := reachable_mapOK hm
  refine ⟨root, hr, ?_⟩
  intro n hb
  obtain ⟨_, _, hc⟩ := below_wf hb _ hwf
  exact hc

theorem chainMapValue_reachable : Reachable chainHash chainMapValue :=
  Reachable.set (m := chainMapFirst) 2 20
    (Reachable.set (m := NewHashMap 0) 1 10 (Reachable.new 0) rfl) rfl

theorem delete_absent_noop_witness :
    Reachable chainHash chainMapValue ∧ chainMapValue.Contains chainHash 3 = some false ∧
    chainMapValue.Delete chainHash 3 = some chainMapValue :=
  ⟨chainMapValue_reachable, by decide,
    delete_absent_noop chainHash chainMapValue chainMapValue_reachable 3 (by decide)⟩

theorem traversal_complete_witness :
    Reachable chainHash chainMapValue ∧
    ∃ es : List (Nat × Nat), (es.length : Int) = chainMapValue.Len ∧
      (∀ (σ : Type) (yield : Nat → Nat → σ → σ × Bool) (s : σ),
        chainMapValue.All yield s = some (iter.feed (fun p => yield p.1 p.2) es s)) ∧
      (∀ (σ : Type) (yield : Nat → σ → σ × Bool) (s : σ),
        chainMapValue.Keys yield s = some (iter.feed yield (es.map (fun p => p.1)) s)) ∧
      (∀ (σ : Type) (yield : Nat → σ → σ × Bool) (s : σ),
        chainMapValue.Values yield s = some (iter.feed yield (es.map (fun p => p.2)) s)) :=
  ⟨chainMapValue_reachable, traversal_complete chainHash chainMapValue chainMapValue_reachable⟩

theorem node_well_formed_witness :
    Reachable chainHash chainMapValue ∧
    ∃ root, chainMapValue.root = some root ∧
      ∀ n, n = root ∨ Below root n →
        n.children.length = onesCount32 n.bitmap ∧
        (∀ hash shift : Nat, n.bitmap &&& bitAt hash shift ≠ 0 →
          n.index (bitAt hash shift) < n.children.length) ∧
        (∀ entries, child.collision entries ∈ n.children → 2 ≤ entries.length) :=
  ⟨chainMapValue_reachable, node_well_formed chainHash chainMapValue chainMapValue_reachable⟩

theorem delete_keeps_compact_witness :
    Reachable chainHash chainMapValue ∧
    ((∃ root, chainMapValue.root = some root ∧
      ∀ n, Below root n → n.bitmap ≠ 0 ∧ ∀ e, n.children ≠ [child.entry e]) ∧
    (chainMap.bind (fun m2 => m2.root)).map (fun r => r.children.length) = some 1 ∧
    ((chainMap.bind (fun m2 => m2.root)).bind (fun r => r.children[0]?)).bind
      (fun c => match c with
        | child.node n => some n.children.length
        | _ => none) = some 1 ∧
    ((chainMap.bind (fun m2 => m2.Delete chainHash 2)).bind (fun m3 => m3.root)).bind
      (fun r => match r.children with
        | [child.entry e] => some (e.key, e.value)
        | _ => none) = some (1, 10)) :=
  ⟨chainMapValue_reachable, delete_keeps_compact chainHash chainMapValue chainMapValue_reachable⟩

/-- C12, at the failing input.  Key 1 has the digest `2 ^ 30` and key 3 the digest 0.  In
`m = NewHashMap().Set(1, 10).Set(3, 30)`, `m.Get(1)` reports absent, and after deleting the
other key, `m.Delete(3).Get(1)` is `(10, true)`: `Delete(3)` changed the result of `Get(1)`. -/
theorem delete_changes_other_key :
    topBitMap.bind (fun m => m.Get topBitHash 1) = some (0, false) ∧
    (topBitMap.bind (fun m => m.Delete topBitHash 3)).bind (fun m => m.Get topBitHash 1) =
      some (10, true) := by
  decide

/-- C33, at the failing input.  In `m = NewHashMap().Set(1, 10).Set(3, 30)`, with digests
`2 ^ 30` for key 1 and 0 for key 3, `All` yields the pair `(1, 10)` while `m.Get(1)` reports
absent; and with every key of digest `2 ^ 30`, after `Set(1, 10)`, `Set(2, 20)`,
`Set(2, 30)` the iteration yields key 2 twice. -/
theorem all_yields_unreachable_entry :
    topBitMap.bind (fun m => m.All collectPairs []) = some [(1, 10), (3, 30)] ∧
    topBitMap.bind (fun m => m.Get topBitHash 1) = some (0, false) ∧
    (setAll constHash (NewHashMap 0) [(1, 10), (2, 20), (2, 30)]).bind
      (fun m => m.All collectPairs []) = some [(1, 10), (2, 20), (2, 30)] := by
  decide

/-- C34, at the failing input.  In `NewHashMap().Set(1, 10).Set(3, 30)`, with digests
`2 ^ 30` for key 1 and 0 for key 3, the trie holds the collision list `[(1, 10), (3, 30)]`,
whose two keys have different 32-bit hashes. -/
theorem collision_list_of_different_hashes :
    (topBitMap.bind (fun m => m.root)).map (collisionsOf maxDepth) =
      some [[(1, 10), (3, 30)]] ∧
    topBitMap.map (fun m => (m.hash topBitHash 1, m.hash topBitHash 3)) =
      some (1073741824, 0) := by
  decide

theorem index_bitAt {K V : Type} (bm : Nat) (cs : List (child K V)) (hash shift : Nat) :
    (hmapNode.mk bm cs : hmapNode K V).index (bitAt hash shift) = rank bm (chunk hash shift) := by
  have hc := chunk_lt hash shift
  rw [bitAt_eq]
  show onesCount32 (bm &&& (2 ^ chunk hash shift - 1)) = _
  exact index_eq_rank _ _ (by omega)

theorem rank_ne_of_testBit (bm c c' : Nat) (hne : c' ≠ c) (hb : bm.testBit c = true)
    (hb' : bm.testBit c' = true) : rank bm c ≠ rank bm c' := by
  rcases Nat.lt_or_gt_of_ne hne with h | h
  · have := rank_lt_of_testBit bm c' c h hb'
    omega
  · have := rank_lt_of_testBit bm c c' h hb
    omega

theorem slotAt_set {K V : Type} (bm : Nat) (cs : List (child K V)) (c c' : Nat) (x : child K V)
    (hb : bm.testBit c = true) (hlt : rank bm c < cs.length) :
    slotAt bm (cs.set (rank bm c) x) c' = if c' = c then some x else slotAt bm cs c' := by
  unfold slotAt
  by_cases hcc : c' = c
  · subst hcc
    rw [if_pos hb, if_pos rfl, List.getElem?_set_self hlt]
  · rw [if_neg hcc]
    by_cases hb' : bm.testBit c' = true
    · rw [if_pos hb', if_pos hb', List.getElem?_set_ne (rank_ne_of_testBit bm c c' hcc hb hb')]
    · rw [if_neg hb', if_neg hb']

theorem testBit_or_two_pow (bm c c' : Nat) :
    (bm ||| 2 ^ c).testBit c' = (bm.testBit c' || decide (c = c')) := by
  rw [Nat.testBit_or, Nat.testBit_two_pow]

theorem slotAt_insert {K V : Type} (bm : Nat) (cs : List (child K V)) (c c' : Nat)
    (x : child K V) (hb : bm.testBit c = false) (hle : rank bm c ≤ cs.length) :
    slotAt (bm ||| 2 ^ c) (cs.take (rank bm c) ++ x :: cs.drop (rank bm c)) c' =
      if c' = c then some x else slotAt bm cs c' := by
  unfold slotAt
  rw [testBit_or_two_pow, rank_or]
  have hlen : (cs.take (rank bm c)).length = rank bm c := by
    rw [List.length_take]; omega
  by_cases hcc : c' = c
  · subst hcc
    have hn : ¬ c' < c' := lt_irrefl _
    simp only [decide_True, Bool.or_true, if_true, hn, false_and, if_false, add_zero]
    rw [List.getElem?_append_right (by omega), hlen]
    simp
  · rw [if_neg hcc]
    have hcc2 : ¬ c = c' := fun e => hcc e.symm
    simp only [hcc2, decide_False, Bool.or_false]
    by_cases hb' : bm.testBit c' = true
    · rw [if_pos hb', if_pos hb']
      rcases Nat.lt_or_gt_of_ne hcc with h | h
      · have h1 := rank_lt_of_testBit bm c' c h hb'
        have h2 : ¬ c < c' := by omega
        simp only [h2, false_and, if_false, add_zero]
        rw [List.getElem?_append_left (by omega), List.getElem?_take_of_lt h1]
      · have h1 := rank_mono bm c c' (by omega)
        simp only [h, hb, and_self, if_true]
        rw [List.getElem?_append_right (by omega), hlen]
        have e : rank bm c' + 1 - rank bm c = (rank bm c' - rank bm c) + 1 := by omega
        rw [e, List.getElem?_cons_succ, List.getElem?_drop]
        congr 1
        omega
    · rw [if_neg hb', if_neg hb']

theorem slotAt_erase {K V : Type} (bm : Nat) (cs : List (child K V)) (c c' : Nat)
    (hc : c < 32) (hc' : c' < 32) (hb : bm.testBit c = true) :
    slotAt (bm &&& (4294967295 ^^^ 2 ^ c)) (cs.eraseIdx (rank bm c)) c' =
      if c' = c then none else slotAt bm cs c' := by
  unfold slotAt
  rw [testBit_clear bm c c' hc']
  have hr := rank_clear bm c c' (by omega)
  by_cases hcc : c' = c
  · subst hcc
    simp
  · rw [if_neg hcc]
    have hcc2 : ¬ c = c' := fun e => hcc e.symm
    simp only [hcc2, decide_False, Bool.not_false, Bool.and_true]
    by_cases hb' : bm.testBit c' = true
    · rw [if_pos hb', if_pos hb', List.getElem?_eraseIdx]
      rcases Nat.lt_or_gt_of_ne hcc with h | h
      · have h1 := rank_lt_of_testBit bm c' c h hb'
        have h2 : ¬ c < c' := by omega
        simp only [h2, false_and, if_false, add_zero] at hr
        rw [hr, if_pos h1]
      · have h1 := rank_lt_of_testBit bm c c' h hb
        simp only [h, hb, and_self, if_true] at hr
        have h2 : ¬ rank (bm &&& (4294967295 ^^^ 2 ^ c)) c' < rank bm c := by omega
        rw [if_neg h2, hr]
    · rw [if_neg hb', if_neg hb']

theorem slotAt_empty {K V : Type} (c : Nat) : slotAt (K := K) (V := V) 0 [] c = none := by
  unfold slotAt
  simp

theorem slotAt_mem {K V : Type} {bm : Nat} {cs : List (child K V)} {c : Nat} {ch : child K V}
    (h : slotAt bm cs c = some ch) : ch ∈ cs := by
  unfold slotAt at h
  by_cases hb : bm.testBit c = true
  · rw [if_pos hb] at h
    exact List.getElem?_mem h
  · rw [if_neg hb] at h
    cases h

theorem slotAt_of_get {K V : Type} {bm : Nat} {cs : List (child K V)} {hash shift : Nat}
    {ch : child K V} (hb : ¬ bm &&& bitAt hash shift = 0)
    (hget : cs[(hmapNode.mk bm cs : hmapNode K V).index (bitAt hash shift)]? = some ch) :
    slotAt bm cs (chunk hash shift) = some ch := by
  unfold slotAt
  rw [if_pos (testBit_of_and hb), ← index_bitAt bm cs hash shift, hget]

theorem slotAt_of_clear {K V : Type} {bm : Nat} {cs : List (child K V)} {hash shift : Nat}
    (hb : bm &&& bitAt hash shift = 0) : slotAt bm cs (chunk hash shift) = none := by
  unfold slotAt
  rw [testBit_of_and_eq hb]
  simp

theorem pathOK_succ {K V : Type} (hashOf : K → Nat) (S : K → Prop) (d shift pre bm : Nat)
    (cs : List (child K V)) :
    PathOK hashOf S (d + 1) shift pre (hmapNode.mk bm cs) ↔
      ∀ c, c < 32 → ∀ ch, slotAt bm cs c = some ch →
        childPath (fun m => PathOK hashOf S d (shift + 5) (pre + c * 2 ^ shift) m)
          (fun e => S e.key ∧ hashOf e.key % 2 ^ (shift + 5) = pre + c * 2 ^ shift) ch :=
  Iff.rfl

theorem chunk_eq (x s : Nat) : chunk x s = x / 2 ^ s % 32 := by
  unfold chunk hmapMask
  rw [Nat.shiftRight_eq_div_pow]
  exact Nat.and_pow_two_sub_one_eq_mod _ 5

theorem mod_step (x s : Nat) : x % 2 ^ (s + 5) = x % 2 ^ s + chunk x s * 2 ^ s := by
  rw [chunk_eq, Nat.pow_add, Nat.mod_mul, Nat.mul_comm (2 ^ s)]

theorem mod_lt_step (x s c : Nat) (hc : c < 32) : x % 2 ^ s + c * 2 ^ s < 2 ^ (s + 5) := by
  have h1 : x % 2 ^ s < 2 ^ s := Nat.mod_lt _ (pow_pos (by decide) _)
  have h2 : 2 ^ (s + 5) = 32 * 2 ^ s := by rw [Nat.pow_add]; norm_num; ring
  rw [h2]
  have h3 : c * 2 ^ s ≤ 31 * 2 ^ s := Nat.mul_le_mul_right _ (by omega)
  omega

theorem mod_of_step {x y s c : Nat}
    (h : x % 2 ^ (s + 5 + 5) = y % 2 ^ (s + 5) + c * 2 ^ (s + 5)) :
    x % 2 ^ (s + 5) = y % 2 ^ (s + 5) := by
  have h1 := mod_step x (s + 5)
  have hy : y % 2 ^ (s + 5) < 2 ^ (s + 5) := Nat.mod_lt _ (pow_pos (by decide) _)
  have hx : x % 2 ^ (s + 5) < 2 ^ (s + 5) := Nat.mod_lt _ (pow_pos (by decide) _)
  rw [h1] at h
  have hpos : 0 < 2 ^ (s + 5) := pow_pos (by decide) _
  generalize 2 ^ (s + 5) = P at h hy hx hpos
  generalize x % P = a at h hx
  generalize y % P = b at h hy
  have : a % P = b % P := by
    have e1 : (a + chunk x (s + 5) * P) % P = a % P := Nat.add_mul_mod_self_right _ _ _
    have e2 : (b + c * P) % P = b % P := Nat.add_mul_mod_self_right _ _ _
    rw [← e1, ← e2, h]
  rwa [Nat.mod_eq_of_lt hx, Nat.mod_eq_of_lt hy] at this

theorem chunk_of_mod {x s pre c : Nat} (hp : pre < 2 ^ s)
    (h : x % 2 ^ (s + 5) = pre + c * 2 ^ s) : chunk x s = c ∧ x % 2 ^ s = pre := by
  have h1 := mod_step x s
  rw [h1] at h
  have hx : x % 2 ^ s < 2 ^ s := Nat.mod_lt _ (pow_pos (by decide) _)
  generalize 2 ^ s = P at h hx hp
  generalize x % P = a at h hx
  have hq : (a + chunk x s * P) / P = (pre + c * P) / P := by rw [h]
  have hP : 0 < P := by omega
  rw [Nat.add_mul_div_right _ _ hP, Nat.add_mul_div_right _ _ hP, Nat.div_eq_of_lt hx,
    Nat.div_eq_of_lt hp] at hq
  have hcc : chunk x s = c := by omega
  refine ⟨hcc, ?_⟩
  rw [hcc] at h
  omega

theorem mod30_of_mod {x y s : Nat} (hs : 30 ≤ s) (h : x % 2 ^ s = y % 2 ^ s) :
    x % 2 ^ 30 = y % 2 ^ 30 := by
  have hd : 2 ^ 30 ∣ 2 ^ s := Nat.pow_dvd_pow 2 hs
  rw [← Nat.mod_mod_of_dvd x hd, ← Nat.mod_mod_of_dvd y hd, h]

theorem getNode_slot {K V : Type} [DecidableEq K] [Inhabited V] (d bm : Nat)
    (cs : List (child K V)) (key : K) (hash shift : Nat) (hl : cs.length = onesCount32 bm) :
    getNode (d + 1) (hmapNode.mk bm cs) key hash shift =
      getChild d key hash shift (slotAt bm cs (chunk hash shift)) := by
  rw [getNode]
  simp only [hmapNode.bitmap, hmapNode.children]
  by_cases hb : bm &&& bitAt hash shift = 0
  · rw [if_pos hb, slotAt_of_clear hb]
    rfl
  · have hlt := index_lt (K := K) (V := V) hl hb
    obtain ⟨ch, hget⟩ : ∃ ch, cs[(hmapNode.mk bm cs).index (bitAt hash shift)]? = some ch :=
      ⟨_, List.getElem?_eq_getElem hlt⟩
    rw [if_neg hb, hget, slotAt_of_get hb hget]
    cases ch <;> rfl

theorem rank_zero_bitmap (c : Nat) : rank 0 c = 0 := by
  induction c with
  | zero => rfl
  | succ c ih => rw [rank_succ, ih]; simp

theorem slotAt_single {K V : Type} (c c' : Nat) (x : child K V) :
    slotAt (2 ^ c) [x] c' = if c' = c then some x else none := by
  have h := slotAt_insert (K := K) (V := V) 0 [] c c' x (Nat.zero_testBit c)
    (by rw [rank_zero_bitmap]; exact Nat.zero_le _)
  rw [rank_zero_bitmap, Nat.zero_or] at h
  simp only [List.take_nil, List.drop_nil, List.nil_append] at h
  rw [h, slotAt_empty]

theorem rank_two_pow (c c' : Nat) : rank (2 ^ c) c' = if c < c' then 1 else 0 := by
  have h := rank_or 0 c c'
  rw [Nat.zero_or, rank_zero_bitmap] at h
  rw [h]
  simp

theorem slotAt_pair {K V : Type} (c1 c2 c' : Nat) (x1 x2 : child K V) (hlt : c1 < c2) :
    slotAt (2 ^ c1 ||| 2 ^ c2) [x1, x2] c' =
      if c' = c2 then some x2 else if c' = c1 then some x1 else none := by
  have hb : (2 ^ c1).testBit c2 = false := by
    rw [Nat.testBit_two_pow]; simp; omega
  have hr : rank (2 ^ c1) c2 = 1 := by rw [rank_two_pow]; simp [hlt]
  have h := slotAt_insert (K := K) (V := V) (2 ^ c1) [x1] c2 c' x2 hb (by rw [hr]; simp)
  rw [hr] at h
  simp only [List.take_succ_cons, List.take_nil, List.drop_succ_cons, List.drop_nil,
    List.cons_append, List.nil_append, List.take_zero, List.drop_zero] at h
  rw [h, slotAt_single]

theorem slotAt_pair_swap {K V : Type} (c1 c2 c' : Nat) (x1 x2 : child K V) (hlt : c2 < c1) :
    slotAt (2 ^ c1 ||| 2 ^ c2) [x2, x1] c' =
      if c' = c2 then some x2 else if c' = c1 then some x1 else none := by
  have hb : (2 ^ c1).testBit c2 = false := by
    rw [Nat.testBit_two_pow]; simp; omega
  have hr : rank (2 ^ c1) c2 = 0 := by
    rw [rank_two_pow]
    have : ¬ c1 < c2 := by omega
    simp [this]
  have h := slotAt_insert (K := K) (V := V) (2 ^ c1) [x1] c2 c' x2 hb (by rw [hr]; simp)
  rw [hr] at h
  simp only [List.take_zero, List.drop_zero, List.nil_append] at h
  rw [h, slotAt_single]

/-- A node with a single child has that child in exactly one slot. -/
theorem slotAt_singleton {K V : Type} (bm : Nat) (x : child K V)
    (hl : ([x] : List (child K V)).length = onesCount32 bm) :
    ∃ c0, c0 < 32 ∧ ∀ c', c' < 32 → slotAt bm [x] c' = if c' = c0 then some x else none := by
  have h1 : rank bm 32 = 1 := by rw [← onesCount32_eq_rank, ← hl]; rfl
  have hex : ∃ c0, c0 < 32 ∧ bm.testBit c0 = true := by
    by_contra hno
    have hall : ∀ i, i < 32 → bm.testBit i = (0 : Nat).testBit i := by
      intro i hi
      rw [Nat.zero_testBit]
      by_contra hne
      exact hno ⟨i, hi, by simpa using hne⟩
    have := rank_congr bm 0 32 hall
    rw [rank_zero_bitmap] at this
    omega
  obtain ⟨c0, hc0, hb0⟩ := hex
  have hr0 : rank bm c0 = 0 := by
    have := rank_lt_of_testBit bm c0 32 hc0 hb0
    omega
  refine ⟨c0, hc0, ?_⟩
  intro c' hc'
  unfold slotAt
  by_cases hcc : c' = c0
  · subst hcc
    rw [if_pos hb0, if_pos rfl, hr0]
    rfl
  · rw [if_neg hcc]
    by_cases hb' : bm.testBit c' = true
    · exfalso
      rcases Nat.lt_or_gt_of_ne hcc with h | h
      · have a := rank_lt_of_testBit bm c' c0 h hb'
        omega
      · have a := rank_lt_of_testBit bm c0 c' h hb0
        have b := rank_lt_of_testBit bm c' 32 hc' hb'
        omega
    · rw [if_neg hb']

theorem pair_path {K V : Type} [DecidableEq K] [Inhabited V] (hashOf : K → Nat) (S : K → Prop)
    (k1 : K) (v1 : V) (k2 : K) (v2 : V) (hS1 : S k1) (hS2 : S k2) (f shift pre : Nat)
    (hp1 : hashOf k1 % 2 ^ shift = pre) (hp2 : hashOf k2 % 2 ^ shift = pre)
    (hne : chunk (hashOf k1) shift ≠ chunk (hashOf k2) shift)
    (bm : Nat) (cs : List (child K V)) (hl : cs.length = onesCount32 bm)
    (hview : ∀ c', slotAt bm cs c' =
      if c' = chunk (hashOf k2) shift then some (child.entry ⟨k2, v2⟩)
      else if c' = chunk (hashOf k1) shift then some (child.entry ⟨k1, v1⟩) else none) :
    PathOK hashOf S (f + 1) shift pre (hmapNode.mk bm cs) ∧
    ∀ k', getNode (f + 1) (hmapNode.mk bm cs) k' (hashOf k') shift =
      if k' = k1 then some (v1, true) else if k' = k2 then some (v2, true)
      else some (default, false) := by
  constructor
  · rw [pathOK_succ]
    intro c' _ ch hsl
    rw [hview] at hsl
    by_cases h2 : c' = chunk (hashOf k2) shift
    · rw [if_pos h2] at hsl
      cases hsl
      exact ⟨hS2, by rw [mod_step, hp2, h2]⟩
    · rw [if_neg h2] at hsl
      by_cases h1 : c' = chunk (hashOf k1) shift
      · rw [if_pos h1] at hsl
        cases hsl
        exact ⟨hS1, by rw [mod_step, hp1, h1]⟩
      · rw [if_neg h1] at hsl
        cases hsl
  · intro k'
    rw [getNode_slot f bm cs k' (hashOf k') shift hl, hview]
    by_cases h2 : chunk (hashOf k') shift = chunk (hashOf k2) shift
    · rw [if_pos h2]
      have hk1 : ¬ k' = k1 := by
        intro e; subst e; exact hne h2
      rw [if_neg hk1]
      show (if k2 = k' then _ else _) = _
      by_cases hk2 : k2 = k'
      · rw [if_pos hk2, if_pos hk2.symm]
      · rw [if_neg hk2, if_neg (fun e => hk2 e.symm)]
    · rw [if_neg h2]
      have hk2 : ¬ k' = k2 := by
        intro e; subst e; exact h2 rfl
      by_cases h1 : chunk (hashOf k') shift = chunk (hashOf k1) shift
      · rw [if_pos h1]
        show (if k1 = k' then _ else _) = _
        by_cases hk1 : k1 = k'
        · rw [if_pos hk1, if_pos hk1.symm]
        · rw [if_neg hk1, if_neg (fun e => hk1 e.symm), if_neg hk2]
      · rw [if_neg h1]
        have hk1 : ¬ k' = k1 := by
          intro e; subst e; exact h1 rfl
        rw [if_neg hk1, if_neg hk2]
        rfl

theorem createTwoEntryNode_path {K V : Type} [DecidableEq K] [Inhabited V] (hashOf : K → Nat)
    (S : K → Prop) (k1 : K) (v1 : V) (k2 : K) (v2 : V) (hS1 : S k1) (hS2 : S k2)
    (hne30 : hashOf k1 % 2 ^ 30 ≠ hashOf k2 % 2 ^ 30) :
    ∀ (f shift pre : Nat), shift + 5 * f = 35 → 1 ≤ f →
      hashOf k1 % 2 ^ shift = pre → hashOf k2 % 2 ^ shift = pre →
      ∃ n, createTwoEntryNode f k1 v1 (hashOf k1) k2 v2 (hashOf k2) shift = some n ∧
        PathOK hashOf S f shift pre n ∧
        ∀ k', getNode f n k' (hashOf k') shift =
          if k' = k1 then some (v1, true) else if k' = k2 then some (v2, true)
          else some (default, false) := by
  intro f
  induction f with
  | zero => intro shift pre _ h; omega
  | succ f ih =>
    intro shift pre hs _ hp1 hp2
    have hc1 := chunk_lt (hashOf k1) shift
    have hc2 := chunk_lt (hashOf k2) shift
    unfold createTwoEntryNode
    by_cases h30 : shift ≥ 30
    · exact (hne30 (mod30_of_mod h30 (by rw [hp1, hp2]))).elim
    · rw [if_neg h30]
      have hf : 1 ≤ f := by omega
      rw [bitAt_eq, bitAt_eq]
      by_cases hb : 2 ^ chunk (hashOf k1) shift = 2 ^ chunk (hashOf k2) shift
      · rw [if_pos hb]
        have hcc : chunk (hashOf k1) shift = chunk (hashOf k2) shift := (two_pow_inj _ _).mp hb
        obtain ⟨n, e1, e2, e3⟩ := ih (shift + hmapShift)
          (pre + chunk (hashOf k1) shift * 2 ^ shift)
          (by show shift + 5 + 5 * f = 35; omega) hf
          (by show hashOf k1 % 2 ^ (shift + 5) = _; rw [mod_step, hp1])
          (by show hashOf k2 % 2 ^ (shift + 5) = _; rw [mod_step, hp2, hcc])
        rw [e1]
        refine ⟨_, rfl, ?_, ?_⟩
        · rw [pathOK_succ]
          intro c' _ ch hsl
          rw [slotAt_single] at hsl
          by_cases h1 : c' = chunk (hashOf k1) shift
          · rw [if_pos h1] at hsl
            cases hsl
            rw [h1]
            exact e2
          · rw [if_neg h1] at hsl
            cases hsl
        · intro k'
          have hl : ([child.node n] : List (child K V)).length =
              onesCount32 (2 ^ chunk (hashOf k1) shift) := by
            rw [onesCount32_two_pow _ hc1]; rfl
          rw [getNode_slot f _ _ k' (hashOf k') shift hl, slotAt_single]
          by_cases h1 : chunk (hashOf k') shift = chunk (hashOf k1) shift
          · rw [if_pos h1]
            exact e3 k'
          · rw [if_neg h1]
            have hk1 : ¬ k' = k1 := by
              intro e; subst e; exact h1 rfl
            have hk2 : ¬ k' = k2 := by
              intro e; subst e; exact h1 hcc.symm
            rw [if_neg hk1, if_neg hk2]
            rfl
      · rw [if_neg hb]
        have hne : chunk (hashOf k1) shift ≠ chunk (hashOf k2) shift := by
          intro e; apply hb; rw [e]
        by_cases hlt : 2 ^ chunk (hashOf k1) shift < 2 ^ chunk (hashOf k2) shift
        · rw [if_pos hlt]
          have hlt' := (two_pow_lt_iff _ _).mp hlt
          refine ⟨_, rfl, ?_⟩
          apply pair_path hashOf S k1 v1 k2 v2 hS1 hS2 f shift pre hp1 hp2 hne
          · rw [onesCount32_two _ _ hc1 hc2 hne]; rfl
          · intro c'
            exact slotAt_pair _ _ c' _ _ hlt'
        · rw [if_neg hlt]
          have hlt' : chunk (hashOf k2) shift < chunk (hashOf k1) shift := by
            have := (two_pow_lt_iff (chunk (hashOf k1) shift) (chunk (hashOf k2) shift)).not.mp hlt
            omega
          refine ⟨_, rfl, ?_⟩
          apply pair_path hashOf S k1 v1 k2 v2 hS1 hS2 f shift pre hp1 hp2 hne
          · rw [onesCount32_two _ _ hc1 hc2 hne]; rfl
          · intro c'
            exact slotAt_pair_swap _ _ c' _ _ hlt'

theorem pathOK_update {K V : Type} (hashOf : K → Nat) (S : K → Prop) (d shift pre : Nat)
    (bm bm' : Nat) (cs cs' : List (child K V)) (c : Nat) (x : Option (child K V))
    (hview : ∀ c', c' < 32 → slotAt bm' cs' c' = if c' = c then x else slotAt bm cs c')
    (hold : PathOK hashOf S (d + 1) shift pre (hmapNode.mk bm cs))
    (hx : ∀ ch, x = some ch →
      childPath (fun m => PathOK hashOf S d (shift + 5) (pre + c * 2 ^ shift) m)
        (fun e => S e.key ∧ hashOf e.key % 2 ^ (shift + 5) = pre + c * 2 ^ shift) ch) :
    PathOK hashOf S (d + 1) shift pre (hmapNode.mk bm' cs') := by
  rw [pathOK_succ] at hold ⊢
  intro c' hc' ch hsl
  rw [hview c' hc'] at hsl
  by_cases hcc : c' = c
  · rw [if_pos hcc] at hsl
    rw [hcc]
    exact hx ch hsl
  · rw [if_neg hcc] at hsl
    exact hold c' hc' ch hsl

theorem get_update {K V : Type} [DecidableEq K] [Inhabited V] (d : Nat) (bm bm' : Nat)
    (cs cs' : List (child K V)) (c : Nat) (x : Option (child K V)) (k' : K) (h' shift : Nat)
    (hl : cs.length = onesCount32 bm) (hl' : cs'.length = onesCount32 bm')
    (hview : ∀ c', c' < 32 → slotAt bm' cs' c' = if c' = c then x else slotAt bm cs c') :
    getNode (d + 1) (hmapNode.mk bm' cs') k' h' shift =
      if chunk h' shift = c then getChild d k' h' shift x
      else getNode (d + 1) (hmapNode.mk bm cs) k' h' shift := by
  rw [getNode_slot d bm' cs' k' h' shift hl', getNode_slot d bm cs k' h' shift hl,
    hview _ (chunk_lt h' shift)]
  by_cases hcc : chunk h' shift = c
  · rw [if_pos hcc, if_pos hcc]
  · rw [if_neg hcc, if_neg hcc]

theorem setNode_path {K V : Type} [DecidableEq K] [Inhabited V] (hashOf : K → Nat)
    (S : K → Prop)
    (hinj : ∀ k1 k2, S k1 → S k2 → hashOf k1 % 2 ^ 30 = hashOf k2 % 2 ^ 30 → k1 = k2)
    (key : K) (value : V) (hS : S key) :
    ∀ (d : Nat) (node : hmapNode K V) (shift pre : Nat), shift + 5 * (d + 1) = 35 →
      WF (d + 1) node → PathOK hashOf S (d + 1) shift pre node →
      hashOf key % 2 ^ shift = pre →
      ∃ n' a, setNode hashOf (d + 1) node key value (hashOf key) shift = some (n', a) ∧
        PathOK hashOf S (d + 1) shift pre n' ∧
        ∀ k', getNode (d + 1) n' k' (hashOf k') shift =
          if k' = key then some (value, true)
          else getNode (d + 1) node k' (hashOf k') shift := by
  intro d
  induction d using Nat.strong_induction_on with
  | _ d ih =>
    intro node shift pre hs hwf hpath hpre
    obtain ⟨n0, x0, b0, g0, s0, w0, _, _⟩ :=
      setNode_spec hashOf key value (hashOf key) d node shift hs hwf
    cases node with
    | mk bm cs =>
      cases n0 with
      | mk bm0 cs0 =>
      have hl0 : cs0.length = onesCount32 bm0 := ((wf_succ d bm0 cs0).mp w0).1
      have hwf' := (wf_succ d bm cs).mp hwf
      obtain ⟨hl, hbd, hch⟩ := hwf'
      have hc := chunk_lt (hashOf key) shift
      have hidx := index_bitAt bm cs (hashOf key) shift
      have hbit := bitAt_eq (hashOf key) shift
      have hmodk : hashOf key % 2 ^ (shift + 5) = pre + chunk (hashOf key) shift * 2 ^ shift := by
        rw [mod_step, hpre]
      have hprelt : pre < 2 ^ shift := by
        rw [← hpre]; exact Nat.mod_lt _ (pow_pos (by decide) _)
      -- the conclusion from a description of the new slots
      have finish : ∀ (flag : Bool) (x : child K V),
          (∀ c', c' < 32 → slotAt bm0 cs0 c' =
            if c' = chunk (hashOf key) shift then some x else slotAt bm cs c') →
          childPath
            (fun m => PathOK hashOf S d (shift + 5) (pre + chunk (hashOf key) shift * 2 ^ shift) m)
            (fun e => S e.key ∧
              hashOf e.key % 2 ^ (shift + 5) = pre + chunk (hashOf key) shift * 2 ^ shift) x →
          (∀ k', chunk (hashOf k') shift = chunk (hashOf key) shift →
            getChild d k' (hashOf k') shift (some x) =
              if k' = key then some (value, true)
              else getChild d k' (hashOf k') shift (slotAt bm cs (chunk (hashOf key) shift))) →
          setNode hashOf (d + 1) (hmapNode.mk bm cs) key value (hashOf key) shift =
            some (hmapNode.mk bm0 cs0, flag) →
          ∃ n' a, setNode hashOf (d + 1) (hmapNode.mk bm cs) key value (hashOf key) shift =
              some (n', a) ∧
            PathOK hashOf S (d + 1) shift pre n' ∧
            ∀ k', getNode (d + 1) n' k' (hashOf k') shift =
              if k' = key then some (value, true)
              else getNode (d + 1) (hmapNode.mk bm cs) k' (hashOf k') shift := by
        intro flag x hview hx hgetx e
        refine ⟨_, _, e, ?_, ?_⟩
        · exact pathOK_update hashOf S d shift pre bm bm0 cs cs0 _ (some x) hview hpath
            (fun ch hch => by cases hch; exact hx)
        · intro k'
          rw [get_update d bm bm0 cs cs0 _ (some x) k' (hashOf k') shift hl hl0 hview]
          by_cases hcc : chunk (hashOf k') shift = chunk (hashOf key) shift
          · rw [if_pos hcc, hgetx k' hcc, getNode_slot d bm cs k' (hashOf k') shift hl, hcc]
          · rw [if_neg hcc]
            have hk : ¬ k' = key := by
              intro e; subst e; exact hcc rfl
            rw [if_neg hk]
      by_cases hb : bm &&& bitAt (hashOf key) shift = 0
      · -- the slot is free
        have hle := @index_le K V bm cs (hashOf key) shift hl
        have htb := testBit_of_and_eq hb
        have e : setNode hashOf (d + 1) (hmapNode.mk bm cs) key value (hashOf key) shift =
            some (hmapNode.mk (bm ||| bitAt (hashOf key) shift)
              (cs.take ((hmapNode.mk bm cs).index (bitAt (hashOf key) shift)) ++
                child.entry ⟨key, value⟩ ::
                  cs.drop ((hmapNode.mk bm cs).index (bitAt (hashOf key) shift))), true) := by
          rw [setNode]
          simp only [hmapNode.bitmap, hmapNode.children]
          rw [if_pos hb, if_pos hle]
        have s1 := s0
        rw [e] at s1
        simp only [Option.some.injEq, Prod.mk.injEq, hmapNode.mk.injEq] at s1
        obtain ⟨⟨hbm, hcs⟩, _⟩ := s1
        rw [hidx] at hle
        apply finish true (child.entry ⟨key, value⟩) _ ⟨hS, hmodk⟩ _ (by rw [e, hbm, hcs])
        · intro c' _
          rw [← hbm, ← hcs, hidx, hbit]
          exact slotAt_insert bm cs _ c' _ htb hle
        · intro k' _
          rw [slotAt_of_clear hb]
          show (if key = k' then _ else _) = _
          by_cases hk : key = k'
          · rw [if_pos hk, if_pos hk.symm]
          · rw [if_neg hk, if_neg (fun e => hk e.symm)]
            rfl
      · -- the slot is taken
        have hlt := index_lt (K := K) (V := V) hl hb
        have htb := testBit_of_and hb
        obtain ⟨ch, hget⟩ :
            ∃ ch, cs[(hmapNode.mk bm cs).index (bitAt (hashOf key) shift)]? = some ch :=
          ⟨_, List.getElem?_eq_getElem hlt⟩
        have hslot := slotAt_of_get hb hget
        have hok := hch ch (List.getElem?_mem hget)
        have hpc := (pathOK_succ hashOf S d shift pre bm cs).mp hpath _ hc ch hslot
        have hviewset : ∀ (x : child K V),
            setNode hashOf (d + 1) (hmapNode.mk bm cs) key value (hashOf key) shift =
              some (hmapNode.mk bm
                (cs.set ((hmapNode.mk bm cs).index (bitAt (hashOf key) shift)) x), !b0) →
            ∀ c', c' < 32 → slotAt bm0 cs0 c' =
              if c' = chunk (hashOf key) shift then some x else slotAt bm cs c' := by
          intro x e c' _
          have s1 := s0
          rw [e] at s1
          simp only [Option.some.injEq, Prod.mk.injEq, hmapNode.mk.injEq] at s1
          obtain ⟨⟨hbm, hcs⟩, _⟩ := s1
          rw [hidx] at hlt
          rw [← hbm, ← hcs, hidx]
          exact slotAt_set bm cs _ c' x htb hlt
        rw [hslot] at finish
        cases ch with
        | node m =>
          obtain ⟨hwm, _⟩ := hok
          obtain ⟨d', rfl⟩ : ∃ d', d = d' + 1 := ⟨d - 1, by have := wf_pos hwm; omega⟩
          obtain ⟨m', a, s1, p1, g1⟩ :=
            ih d' (by omega) m (shift + hmapShift)
              (pre + chunk (hashOf key) shift * 2 ^ shift)
              (by show shift + 5 + 5 * (d' + 1) = 35; omega) hwm hpc hmodk
          have e : setNode hashOf (d' + 1 + 1) (hmapNode.mk bm cs) key value (hashOf key) shift =
              some (hmapNode.mk bm
                (cs.set ((hmapNode.mk bm cs).index (bitAt (hashOf key) shift))
                  (child.node m')), a) := by
            rw [setNode]
            simp only [hmapNode.bitmap, hmapNode.children]
            rw [if_neg hb, hget]
            simp only [s1]
          have ha : a = !b0 := by
            have s2 := s0
            rw [e] at s2
            simp only [Option.some.injEq, Prod.mk.injEq] at s2
            exact s2.2
          rw [ha] at e
          have e2 := e
          have s2 := s0
          rw [e] at s2
          simp only [Option.some.injEq, Prod.mk.injEq] at s2
          rw [s2.1] at e2
          exact finish (!b0) (child.node m') (hviewset _ e) p1 (fun k' _ => g1 k') e2
        | entry c =>
          obtain ⟨hSc, hmodc⟩ := hpc
          by_cases hk : c.key = key
          · have e : setNode hashOf (d + 1) (hmapNode.mk bm cs) key value (hashOf key) shift =
                some (hmapNode.mk bm
                  (cs.set ((hmapNode.mk bm cs).index (bitAt (hashOf key) shift))
                    (child.entry ⟨key, value⟩)), false) := by
              rw [setNode]
              simp only [hmapNode.bitmap, hmapNode.children]
              rw [if_neg hb, hget]
              simp only [hk, if_true]
            have hb0 : false = !b0 := by
              have s2 := s0
              rw [e] at s2
              simp only [Option.some.injEq, Prod.mk.injEq] at s2
              exact s2.2
            have e2 := e
            have s2 := s0
            rw [e] at s2
            simp only [Option.some.injEq, Prod.mk.injEq] at s2
            rw [s2.1] at e2
            refine finish false (child.entry ⟨key, value⟩) (hviewset _ (by rw [← hb0]; exact e))
              ⟨hS, hmodk⟩ ?_ e2
            intro k' _
            show (if key = k' then _ else _) = if k' = key then _ else (if c.key = k' then _ else _)
            by_cases hkk : key = k'
            · rw [if_pos hkk, if_pos hkk.symm]
            · rw [if_neg hkk, if_neg (fun e => hkk e.symm), hk, if_neg hkk]
          · have hne30 : hashOf c.key % 2 ^ 30 ≠ hashOf key % 2 ^ 30 := by
              intro e30
              exact hk (hinj _ _ hSc hS e30)
            by_cases h30 : shift ≥ 30
            · exfalso
              apply hne30
              exact mod30_of_mod (s := shift + 5) (by omega) (by rw [hmodc, hmodk])
            · have hd1 : 1 ≤ d := by omega
              obtain ⟨n, e1, e2, e3⟩ := createTwoEntryNode_path hashOf S c.key c.value key value
                hSc hS hne30 d (shift + hmapShift)
                (pre + chunk (hashOf key) shift * 2 ^ shift)
                (by show shift + 5 + 5 * d = 35; omega) hd1 hmodc hmodk
              have e : setNode hashOf (d + 1) (hmapNode.mk bm cs) key value (hashOf key) shift =
                  some (hmapNode.mk bm
                    (cs.set ((hmapNode.mk bm cs).index (bitAt (hashOf key) shift))
                      (child.node n)), true) := by
                rw [setNode]
                simp only [hmapNode.bitmap, hmapNode.children]
                rw [if_neg hb, hget]
                simp only [hk, if_false, h30, e1]
              have hb0 : true = !b0 := by
                have s2 := s0
                rw [e] at s2
                simp only [Option.some.injEq, Prod.mk.injEq] at s2
                exact s2.2
              have e4 := e
              have s2 := s0
              rw [e] at s2
              simp only [Option.some.injEq, Prod.mk.injEq] at s2
              rw [s2.1] at e4
              refine finish true (child.node n) (hviewset _ (by rw [← hb0]; exact e)) e2 ?_ e4
              intro k' _
              show getNode d n k' (hashOf k') (shift + hmapShift) =
                if k' = key then _ else (if c.key = k' then _ else _)
              rw [e3 k']
              by_cases hkk : k' = key
              · have : ¬ k' = c.key := by
                  intro e; apply hk; rw [← e, hkk]
                rw [if_neg this, if_pos hkk, if_pos hkk]
              · rw [if_neg hkk, if_neg hkk]
                by_cases hkc : k' = c.key
                · rw [if_pos hkc, if_pos hkc.symm]
                · rw [if_neg hkc, if_neg (fun e => hkc e.symm)]
        | collision es => exact hpc.elim

theorem deleteNode_path {K V : Type} [DecidableEq K] [Inhabited V] (hashOf : K → Nat)
    (S : K → Prop) (key : K) :
    ∀ (d : Nat) (node : hmapNode K V) (shift pre : Nat), shift + 5 * (d + 1) = 35 →
      WF (d + 1) node → PathOK hashOf S (d + 1) shift pre node →
      hashOf key % 2 ^ shift = pre →
      ∃ n' b, deleteNode (d + 1) node key (hashOf key) shift = some (n', b) ∧
        (b = false → n' = node) ∧ WF (d + 1) n' ∧
        PathOK hashOf S (d + 1) shift pre n' ∧
        ∀ k', getNode (d + 1) n' k' (hashOf k') shift =
          if k' = key then some (default, false)
          else getNode (d + 1) node k' (hashOf k') shift := by
  intro d
  induction d using Nat.strong_induction_on with
  | _ d ih =>
    intro node shift pre hs hwf hpath hpre
    obtain ⟨n0, x0, b0, g0, s0, u0, w0, _⟩ :=
      deleteNode_spec (V := V) key (hashOf key) d node shift hs hwf
    cases node with
    | mk bm cs =>
      cases n0 with
      | mk bm0 cs0 =>
      have hl0 : cs0.length = onesCount32 bm0 := ((wf_succ d bm0 cs0).mp w0).1
      have hwf' := (wf_succ d bm cs).mp hwf
      obtain ⟨hl, hbd, hch⟩ := hwf'
      have hc := chunk_lt (hashOf key) shift
      have hidx := index_bitAt bm cs (hashOf key) shift
      have hbit := bitAt_eq (hashOf key) shift
      have hmodk : hashOf key % 2 ^ (shift + 5) = pre + chunk (hashOf key) shift * 2 ^ shift := by
        rw [mod_step, hpre]
      have hprelt : pre < 2 ^ shift := by
        rw [← hpre]; exact Nat.mod_lt _ (pow_pos (by decide) _)
      have hgetnode : ∀ k', getNode (d + 1) (hmapNode.mk bm cs) k' (hashOf k') shift =
          getChild d k' (hashOf k') shift (slotAt bm cs (chunk (hashOf k') shift)) :=
        fun k' => getNode_slot d bm cs k' (hashOf k') shift hl
      -- the node is returned as it is
      have same : getChild d key (hashOf key) shift (slotAt bm cs (chunk (hashOf key) shift)) =
            some (default, false) →
          deleteNode (d + 1) (hmapNode.mk bm cs) key (hashOf key) shift =
            some (hmapNode.mk bm cs, false) →
          ∃ n' b, deleteNode (d + 1) (hmapNode.mk bm cs) key (hashOf key) shift = some (n', b) ∧
            (b = false → n' = hmapNode.mk bm cs) ∧ WF (d + 1) n' ∧
            PathOK hashOf S (d + 1) shift pre n' ∧
            ∀ k', getNode (d + 1) n' k' (hashOf k') shift =
              if k' = key then some (default, false)
              else getNode (d + 1) (hmapNode.mk bm cs) k' (hashOf k') shift := by
        intro hg e
        refine ⟨_, _, e, fun _ => rfl, hwf, hpath, ?_⟩
        intro k'
        by_cases hk : k' = key
        · rw [if_pos hk, hk, hgetnode, hg]
        · rw [if_neg hk]
      -- the conclusion from a description of the new slots
      have finish : ∀ (x : Option (child K V)),
          (∀ c', c' < 32 → slotAt bm0 cs0 c' =
            if c' = chunk (hashOf key) shift then x else slotAt bm cs c') →
          (∀ ch, x = some ch → childPath
            (fun m => PathOK hashOf S d (shift + 5) (pre + chunk (hashOf key) shift * 2 ^ shift) m)
            (fun e => S e.key ∧
              hashOf e.key % 2 ^ (shift + 5) = pre + chunk (hashOf key) shift * 2 ^ shift) ch) →
          (∀ k', chunk (hashOf k') shift = chunk (hashOf key) shift →
            getChild d k' (hashOf k') shift x =
              if k' = key then some (default, false)
              else getChild d k' (hashOf k') shift (slotAt bm cs (chunk (hashOf key) shift))) →
          deleteNode (d + 1) (hmapNode.mk bm cs) key (hashOf key) shift =
            some (hmapNode.mk bm0 cs0, true) →
          ∃ n' b, deleteNode (d + 1) (hmapNode.mk bm cs) key (hashOf key) shift = some (n', b) ∧
            (b = false → n' = hmapNode.mk bm cs) ∧ WF (d + 1) n' ∧
            PathOK hashOf S (d + 1) shift pre n' ∧
            ∀ k', getNode (d + 1) n' k' (hashOf k') shift =
              if k' = key then some (default, false)
              else getNode (d + 1) (hmapNode.mk bm cs) k' (hashOf k') shift := by
        intro x hview hx hgetx e
        refine ⟨_, _, e, by simp, w0, ?_, ?_⟩
        · exact pathOK_update hashOf S d shift pre bm bm0 cs cs0 _ x hview hpath hx
        · intro k'
          rw [get_update d bm bm0 cs cs0 _ x k' (hashOf k') shift hl hl0 hview]
          by_cases hcc : chunk (hashOf k') shift = chunk (hashOf key) shift
          · rw [if_pos hcc, hgetx k' hcc, hgetnode, hcc]
          · rw [if_neg hcc]
            have hk : ¬ k' = key := by
              intro e; subst e; exact hcc rfl
            rw [if_neg hk]
      -- what `s0` says once the result is computed
      have ident : ∀ (bmx : Nat) (csx : List (child K V)) (flag : Bool),
          deleteNode (d + 1) (hmapNode.mk bm cs) key (hashOf key) shift =
            some (hmapNode.mk bmx csx, flag) → bmx = bm0 ∧ csx = cs0 ∧ flag = b0 := by
        intro bmx csx flag e
        have s1 := s0
        rw [e] at s1
        simp only [Option.some.injEq, Prod.mk.injEq, hmapNode.mk.injEq] at s1
        exact ⟨s1.1.1, s1.1.2, s1.2⟩
      by_cases hb : bm &&& bitAt (hashOf key) shift = 0
      · apply same
        · rw [slotAt_of_clear hb]; rfl
        · rw [deleteNode]
          simp only [hmapNode.bitmap]
          rw [if_pos hb]
      · have hlt := index_lt (K := K) (V := V) hl hb
        have htb := testBit_of_and hb
        obtain ⟨ch, hget⟩ :
            ∃ ch, cs[(hmapNode.mk bm cs).index (bitAt (hashOf key) shift)]? = some ch :=
          ⟨_, List.getElem?_eq_getElem hlt⟩
        have hslot := slotAt_of_get hb hget
        have hok := hch ch (List.getElem?_mem hget)
        have hpc := (pathOK_succ hashOf S d shift pre bm cs).mp hpath _ hc ch hslot
        have hrlt : rank bm (chunk (hashOf key) shift) < cs.length := by rw [← hidx]; exact hlt
        have viewset : ∀ (x : child K V),
            deleteNode (d + 1) (hmapNode.mk bm cs) key (hashOf key) shift =
              some (hmapNode.mk bm
                (cs.set ((hmapNode.mk bm cs).index (bitAt (hashOf key) shift)) x), true) →
            (∀ c', c' < 32 → slotAt bm0 cs0 c' =
              if c' = chunk (hashOf key) shift then some x else slotAt bm cs c') ∧
            deleteNode (d + 1) (hmapNode.mk bm cs) key (hashOf key) shift =
              some (hmapNode.mk bm0 cs0, true) := by
          intro x e
          obtain ⟨hbm, hcs, _⟩ := ident _ _ _ e
          subst hbm
          subst hcs
          refine ⟨?_, e⟩
          intro c' _
          rw [hidx]
          exact slotAt_set bm cs _ c' x htb hrlt
        have viewerase :
            deleteNode (d + 1) (hmapNode.mk bm cs) key (hashOf key) shift =
              some (hmapNode.mk (bm &&& (4294967295 ^^^ bitAt (hashOf key) shift))
                (cs.eraseIdx ((hmapNode.mk bm cs).index (bitAt (hashOf key) shift))), true) →
            (∀ c', c' < 32 → slotAt bm0 cs0 c' =
              if c' = chunk (hashOf key) shift then none else slotAt bm cs c') ∧
            deleteNode (d + 1) (hmapNode.mk bm cs) key (hashOf key) shift =
              some (hmapNode.mk bm0 cs0, true) := by
          intro e
          obtain ⟨hbm, hcs, _⟩ := ident _ _ _ e
          subst hbm
          subst hcs
          refine ⟨?_, e⟩
          intro c' hc'
          rw [hidx, hbit]
          exact slotAt_erase bm cs _ c' hc hc' htb
        rw [hslot] at finish same
        cases ch with
        | node m =>
          obtain ⟨hwm, _⟩ := hok
          obtain ⟨d', rfl⟩ : ∃ d', d = d' + 1 := ⟨d - 1, by have := wf_pos hwm; omega⟩
          obtain ⟨m', b1, s1, u1, w1, p1, g1⟩ :=
            ih d' (by omega) m (shift + hmapShift)
              (pre + chunk (hashOf key) shift * 2 ^ shift)
              (by show shift + 5 + 5 * (d' + 1) = 35; omega) hwm hpc hmodk
          cases m' with
          | mk bm' cs' =>
          have hl' : cs'.length = onesCount32 bm' := ((wf_succ d' bm' cs').mp w1).1
          cases b1 with
          | false =>
            apply same
            · have := g1 key
              rw [if_pos rfl, u1 rfl] at this
              exact this
            · rw [deleteNode]
              simp only [hmapNode.bitmap, hmapNode.children]
              rw [if_neg hb, hget]
              simp only [s1]
          | true =>
            by_cases hz : bm' = 0
            · have e : deleteNode (d' + 1 + 1) (hmapNode.mk bm cs) key (hashOf key) shift =
                  some (hmapNode.mk (bm &&& (4294967295 ^^^ bitAt (hashOf key) shift))
                    (cs.eraseIdx ((hmapNode.mk bm cs).index (bitAt (hashOf key) shift))),
                    true) := by
                rw [deleteNode]
                simp only [hmapNode.bitmap, hmapNode.children]
                rw [if_neg hb, hget]
                simp only [s1, hz, if_true]
              obtain ⟨hv, e2⟩ := viewerase e
              refine finish none hv (fun ch hch => by cases hch) ?_ e2
              intro k' _
              have hg := g1 k'
              have hempty : getNode (d' + 1) (hmapNode.mk bm' cs') k' (hashOf k')
                  (shift + hmapShift) = some (default, false) := by
                rw [getNode]
                simp only [hmapNode.bitmap]
                rw [hz, if_pos (Nat.zero_and _)]
              rw [hempty] at hg
              show some (default, false) = if k' = key then _ else
                getNode (d' + 1) m k' (hashOf k') (shift + hmapShift)
              by_cases hk : k' = key
              · rw [if_pos hk]
              · rw [if_neg hk] at hg ⊢
                exact hg
            · have keep : (∀ e, cs' ≠ [child.entry e]) →
                  deleteNode (d' + 1 + 1) (hmapNode.mk bm cs) key (hashOf key) shift =
                    some (hmapNode.mk bm
                      (cs.set ((hmapNode.mk bm cs).index (bitAt (hashOf key) shift))
                        (child.node (hmapNode.mk bm' cs'))), true) →
                  ∃ n' b, deleteNode (d' + 1 + 1) (hmapNode.mk bm cs) key (hashOf key) shift =
                      some (n', b) ∧
                    (b = false → n' = hmapNode.mk bm cs) ∧ WF (d' + 1 + 1) n' ∧
                    PathOK hashOf S (d' + 1 + 1) shift pre n' ∧
                    ∀ k', getNode (d' + 1 + 1) n' k' (hashOf k') shift =
                      if k' = key then some (default, false)
                      else getNode (d' + 1 + 1) (hmapNode.mk bm cs) k' (hashOf k') shift := by
                intro _ e
                obtain ⟨hv, e2⟩ := viewset _ e
                refine finish (some (child.node (hmapNode.mk bm' cs'))) hv
                  (fun ch hch => by cases hch; exact p1) ?_ e2
                intro k' _
                exact g1 k'
              by_cases hl1 : cs'.length = 1
              · cases h0 : cs'[0]? with
                | none =>
                  have := List.getElem?_eq_none_iff.mp h0
                  omega
                | some c0 =>
                  cases c0 with
                  | node n1 =>
                    apply keep
                    · intro e he; rw [he] at h0; simp at h0
                    · rw [deleteNode]
                      simp only [hmapNode.bitmap, hmapNode.children]
                      rw [if_neg hb, hget]
                      simp only [s1, hz, if_false, hl1, if_true, h0]
                  | collision es1 =>
                    apply keep
                    · intro e he; rw [he] at h0; simp at h0
                    · rw [deleteNode]
                      simp only [hmapNode.bitmap, hmapNode.children]
                      rw [if_neg hb, hget]
                      simp only [s1, hz, if_false, hl1, if_true, h0]
                  | entry e0 =>
                    have hcs : cs' = [child.entry e0] := singleton_of_getElem? hl1 h0
                    subst hcs
                    have e : deleteNode (d' + 1 + 1) (hmapNode.mk bm cs) key (hashOf key) shift =
                        some (hmapNode.mk bm
                          (cs.set ((hmapNode.mk bm cs).index (bitAt (hashOf key) shift))
                            (child.entry e0)), true) := by
                      rw [deleteNode]
                      simp only [hmapNode.bitmap, hmapNode.children]
                      rw [if_neg hb, hget]
                      simp only [s1, hz, if_false, hl1, if_true, h0]
                    obtain ⟨hv, e2⟩ := viewset _ e
                    obtain ⟨c0, hc0, hsing⟩ := slotAt_singleton bm' (child.entry e0) hl'
                    have hp0 := (pathOK_succ hashOf S d' (shift + hmapShift) _ bm' _).mp p1 c0 hc0
                      (child.entry e0) (by rw [hsing c0 hc0, if_pos rfl])
                    obtain ⟨hS0, hmod0⟩ := hp0
                    have hlt5 : pre + chunk (hashOf key) shift * 2 ^ shift < 2 ^ (shift + 5) := by
                      rw [← hpre]; exact mod_lt_step _ _ _ hc
                    obtain ⟨hch0, hmod5⟩ := chunk_of_mod (s := shift + 5) hlt5 hmod0
                    refine finish (some (child.entry e0)) hv
                      (fun ch hch => by cases hch; exact ⟨hS0, hmod5⟩) ?_ e2
                    intro k' _
                    have hg := g1 k'
                    rw [getNode_slot d' bm' _ k' (hashOf k') (shift + hmapShift) hl',
                      hsing _ (chunk_lt _ _)] at hg
                    show (if e0.key = k' then _ else _) = if k' = key then _ else
                      getNode (d' + 1) m k' (hashOf k') (shift + hmapShift)
                    rw [← hg]
                    by_cases hek : e0.key = k'
                    · have : chunk (hashOf k') (shift + hmapShift) = c0 := by
                        rw [← hek]; exact hch0
                      rw [if_pos hek, if_pos this]
                      show _ = if e0.key = k' then _ else _
                      rw [if_pos hek]
                    · rw [if_neg hek]
                      by_cases hcc : chunk (hashOf k') (shift + hmapShift) = c0
                      · rw [if_pos hcc]
                        show _ = if e0.key = k' then _ else _
                        rw [if_neg hek]
                      · rw [if_neg hcc]
                        rfl
              · apply keep
                · intro e he; apply hl1; rw [he]; rfl
                · rw [deleteNode]
                  simp only [hmapNode.bitmap, hmapNode.children]
                  rw [if_neg hb, hget]
                  simp only [s1, hz, if_false, hl1]
        | entry c =>
          by_cases hk : c.key = key
          · have e : deleteNode (d + 1) (hmapNode.mk bm cs) key (hashOf key) shift =
                some (hmapNode.mk (bm &&& (4294967295 ^^^ bitAt (hashOf key) shift))
                  (cs.eraseIdx ((hmapNode.mk bm cs).index (bitAt (hashOf key) shift))),
                  true) := by
              rw [deleteNode]
              simp only [hmapNode.bitmap, hmapNode.children]
              rw [if_neg hb, hget]
              simp only [hk, ne_eq, not_true_eq_false, if_false]
            obtain ⟨hv, e2⟩ := viewerase e
            refine finish none hv (fun ch hch => by cases hch) ?_ e2
            intro k' _
            show some (default, false) = if k' = key then _ else (if c.key = k' then _ else _)
            by_cases hkk : k' = key
            · rw [if_pos hkk]
            · rw [if_neg hkk, hk, if_neg (fun e => hkk e.symm)]
          · apply same
            · show (if c.key = key then _ else _) = _
              rw [if_neg hk]
            · rw [deleteNode]
              simp only [hmapNode.bitmap, hmapNode.children]
              rw [if_neg hb, hget]
              simp only [ne_eq, hk, not_false_eq_true, if_true]
        | collision es => exact hpc.elim

theorem mapGet_cons {K V : Type} [DecidableEq K] (k : K) (v : V) (rest : List (K × V))
    (key : K) : mapGet ((k, v) :: rest) key = if k = key then some v else mapGet rest key := rfl

theorem mapDelete_cons {K V : Type} [DecidableEq K] (k : K) (v : V) (rest : List (K × V))
    (key : K) :
    mapDelete ((k, v) :: rest) key =
      if k = key then mapDelete rest key else (k, v) :: mapDelete rest key := rfl

theorem mapGet_delete {K V : Type} [DecidableEq K] (key k' : K) :
    ∀ m : List (K × V), mapGet (mapDelete m key) k' = if k' = key then none else mapGet m k' := by
  intro m
  induction m with
  | nil => simp [mapDelete, mapGet]
  | cons p rest ih =>
    obtain ⟨k, v⟩ := p
    rw [mapDelete_cons]
    by_cases hk : k = key
    · rw [if_pos hk, ih]
      by_cases hkk : k' = key
      · rw [if_pos hkk, if_pos hkk]
      · rw [if_neg hkk, if_neg hkk, mapGet_cons]
        have : ¬ k = k' := by rw [hk]; exact fun e => hkk e.symm
        rw [if_neg this]
    · rw [if_neg hk, mapGet_cons, mapGet_cons]
      by_cases hkk : k = k'
      · have : ¬ k' = key := by rw [← hkk]; exact hk
        rw [if_pos hkk, if_pos hkk, if_neg this]
      · rw [if_neg hkk, if_neg hkk, ih]

theorem mapGet_set {K V : Type} [DecidableEq K] (m : List (K × V)) (key k' : K) (value : V) :
    mapGet (mapSet m key value) k' = if k' = key then some value else mapGet m k' := by
  unfold mapSet
  rw [mapGet_cons]
  by_cases hk : key = k'
  · rw [if_pos hk, if_pos hk.symm]
  · rw [if_neg hk, if_neg (fun e => hk e.symm), mapGet_delete, if_neg (fun e => hk e.symm)]

theorem mapGet_none_iff {K V : Type} [DecidableEq K] (key : K) :
    ∀ m : List (K × V), mapGet m key = none ↔ key ∉ m.map (fun p => p.1) := by
  intro m
  induction m with
  | nil => simp [mapGet]
  | cons p rest ih =>
    obtain ⟨k, v⟩ := p
    rw [mapGet_cons]
    by_cases hk : k = key
    · rw [if_pos hk]
      simp [hk]
    · rw [if_neg hk, ih]
      simp only [List.map_cons, List.mem_cons, not_or]
      constructor
      · intro h; exact ⟨fun e => hk e.symm, h⟩
      · intro h; exact h.2

theorem mapDelete_keys {K V : Type} [DecidableEq K] (key k' : K) :
    ∀ m : List (K × V), k' ∈ (mapDelete m key).map (fun p => p.1) →
      k' ∈ m.map (fun p => p.1) ∧ k' ≠ key := by
  intro m h
  have h1 : mapGet (mapDelete m key) k' ≠ none := by
    intro e; exact (mapGet_none_iff k' _).mp e h
  rw [mapGet_delete] at h1
  by_cases hk : k' = key
  · rw [if_pos hk] at h1; exact (h1 rfl).elim
  · rw [if_neg hk] at h1
    refine ⟨?_, hk⟩
    by_contra hn
    exact h1 ((mapGet_none_iff k' m).mpr hn)

theorem distinct_delete {K V : Type} [DecidableEq K] (key : K) :
    ∀ m : List (K × V), Distinct m → Distinct (mapDelete m key) := by
  intro m
  induction m with
  | nil => intro h; exact h
  | cons p rest ih =>
    obtain ⟨k, v⟩ := p
    intro h
    unfold Distinct at h ih ⊢
    simp only [List.map_cons, List.nodup_cons] at h
    rw [mapDelete_cons]
    by_cases hk : k = key
    · rw [if_pos hk]; exact ih h.2
    · rw [if_neg hk]
      simp only [List.map_cons, List.nodup_cons]
      exact ⟨fun hm => h.1 (mapDelete_keys key k rest hm).1, ih h.2⟩

theorem distinct_set {K V : Type} [DecidableEq K] (m : List (K × V)) (key : K) (value : V)
    (h : Distinct m) : Distinct (mapSet m key value) := by
  unfold Distinct mapSet
  simp only [List.map_cons, List.nodup_cons]
  exact ⟨fun hm => (mapDelete_keys key key m hm).2 rfl, distinct_delete key m h⟩

theorem length_delete {K V : Type} [DecidableEq K] (key : K) :
    ∀ m : List (K × V), Distinct m →
      (mapDelete m key).length + (if (mapGet m key).isSome then 1 else 0) = m.length := by
  intro m
  induction m with
  | nil => intro _; simp [mapDelete, mapGet]
  | cons p rest ih =>
    obtain ⟨k, v⟩ := p
    intro h
    unfold Distinct at h ih
    simp only [List.map_cons, List.nodup_cons] at h
    have ih' := ih h.2
    rw [mapDelete_cons, mapGet_cons]
    by_cases hk : k = key
    · rw [if_pos hk, if_pos hk]
      have hn : mapGet rest key = none := by
        rw [mapGet_none_iff, ← hk]; exact h.1
      rw [hn] at ih'
      simp only [Option.isSome_none, Bool.false_eq_true, if_false, add_zero] at ih'
      simp [ih']
    · rw [if_neg hk, if_neg hk]
      simp only [List.length_cons]
      omega

theorem naive_get_set {K V : Type} [DecidableEq K] [Inhabited V] (n : NaiveHashMap K V)
    (key k' : K) (value : V) :
    (n.Set key value).Get k' = if k' = key then (value, true) else n.Get k' := by
  unfold NaiveHashMap.Get NaiveHashMap.Set
  simp only
  rw [mapGet_set]
  by_cases hk : k' = key
  · rw [if_pos hk, if_pos hk]
  · rw [if_neg hk, if_neg hk]

theorem naive_get_found {K V : Type} [DecidableEq K] [Inhabited V] (n : NaiveHashMap K V)
    (key : K) : (n.Get key).2 = (mapGet n.data key).isSome := by
  unfold NaiveHashMap.Get
  cases mapGet n.data key <;> rfl

theorem hash_eq {K V : Type} (H : Nat → K → Nat) (m : HashMap K V) (seed : Nat)
    (hs : m.seed = seed) : m.hash H = fun k => H seed k % 4294967296 := by
  funext k
  unfold HashMap.hash
  rw [hs]

theorem sim_new {K V : Type} [DecidableEq K] [Inhabited V] (H : Nat → K → Nat) (seed : Nat)
    (S : K → Prop) : Sim H seed S (NewHashMap seed : HashMap K V) NewNaiveHashMap := by
  refine ⟨mapOK_new seed, rfl, ⟨_, rfl, ?_⟩, ?_, rfl, ?_⟩
  · show PathOK _ S (6 + 1) 0 0 (hmapNode.mk 0 [])
    rw [pathOK_succ]
    intro c _ ch hsl
    rw [slotAt_empty] at hsl
    cases hsl
  · exact List.nodup_nil
  · intro k
    show getNode (6 + 1) (hmapNode.mk 0 []) k _ 0 = _
    rw [getNode]
    simp only [hmapNode.bitmap]
    rw [if_pos (Nat.zero_and _)]
    rfl

theorem sim_set {K V : Type} [DecidableEq K] [Inhabited V] (H : Nat → K → Nat) (seed : Nat)
    (S : K → Prop)
    (hinj : ∀ k1 k2, S k1 → S k2 →
      (H seed k1 % 4294967296) % 2 ^ 30 = (H seed k2 % 4294967296) % 2 ^ 30 → k1 = k2)
    {m : HashMap K V} {n : NaiveHashMap K V} (h : Sim H seed S m n) (key : K) (value : V)
    (hS : S key) :
    ∃ m', m.Set H key value = some m' ∧ Sim H seed S m' (n.Set key value) := by
  obtain ⟨hok, hseed, ⟨root, hr, hpath⟩, hdist, hlen, hget⟩ := h
  obtain ⟨m', x, b, g1, s1, l1, ok1, sd1⟩ := set_map_spec H hok key value
  obtain ⟨root0, hr0, hwf, _⟩ := hok
  have hroot : root0 = root := by rw [hr0] at hr; cases hr; rfl
  subst hroot
  have hh := hash_eq H m seed hseed
  obtain ⟨n', a, e, p1, gg⟩ := setNode_path (fun k => H seed k % 4294967296) S hinj key value hS
    6 root0 0 0 (by norm_num) hwf hpath
    (by show (H seed key % 4294967296) % 2 ^ 0 = 0; rw [pow_zero, Nat.mod_one])
  have hset : m.Set H key value =
      some { root := some n', len := if a then m.len + 1 else m.len, seed := m.seed } := by
    unfold HashMap.Set
    rw [hr0, hh]
    show (match setNode _ (6 + 1) root0 key value _ 0 with
      | some (newRoot, added) => _ | none => none) = _
    rw [e]
  rw [hset] at s1
  simp only [Option.some.injEq] at s1
  subst s1
  refine ⟨_, hset, ok1, hseed, ⟨n', rfl, p1⟩, distinct_set _ _ _ hdist, ?_, ?_⟩
  · show (if a = true then m.len + 1 else m.len) = (((mapSet n.data key value).length : Nat) : Int)
    have l2 : (if a = true then m.len + 1 else m.len) = if b = true then m.len else m.len + 1 := l1
    rw [l2]
    have hb : b = (mapGet n.data key).isSome := by
      have := hget key
      rw [g1] at this
      simp only [Option.some.injEq] at this
      rw [← naive_get_found, ← this]
    have hl := length_delete key n.data hdist
    have hlen' : m.len = ((n.data.length : Nat) : Int) := hlen
    unfold mapSet
    rw [List.length_cons, hb, hlen']
    cases hsome : (mapGet n.data key).isSome
    · rw [hsome] at hl
      simp only [Bool.false_eq_true, if_false, add_zero] at hl ⊢
      rw [hl]
      push_cast
      rfl
    · rw [hsome] at hl
      simp only [if_true] at hl ⊢
      rw [← hl]
  · intro k'
    rw [naive_get_set]
    have := gg k'
    unfold HashMap.Get
    simp only
    show getNode (6 + 1) n' k' (H m.seed k' % 4294967296) 0 = _
    rw [hseed, this]
    by_cases hk : k' = key
    · rw [if_pos hk, if_pos hk]
    · rw [if_neg hk, if_neg hk]
      have h2 := hget k'
      unfold HashMap.Get at h2
      rw [hr0] at h2
      simp only at h2
      rw [← h2]
      show _ = getNode (6 + 1) root0 k' (H m.seed k' % 4294967296) 0
      rw [hseed]

theorem sim_delete {K V : Type} [DecidableEq K] [Inhabited V] (H : Nat → K → Nat) (seed : Nat)
    (S : K → Prop) {m : HashMap K V} {n : NaiveHashMap K V} (h : Sim H seed S m n) (key : K) :
    ∃ m', m.Delete H key = some m' ∧ Sim H seed S m' (n.Delete key) := by
  have h0 := h
  obtain ⟨hok, hseed, ⟨root, hr, hpath⟩, hdist, hlen, hget⟩ := h
  obtain ⟨m', x, b, g1, s1, u1, l1, ok1, sd1⟩ := delete_map_spec H hok key
  have hb : b = (mapGet n.data key).isSome := by
    have := hget key
    rw [g1] at this
    simp only [Option.some.injEq] at this
    rw [← naive_get_found, ← this]
  cases b with
  | false =>
    have := u1 rfl
    subst this
    refine ⟨m', s1, ?_⟩
    have hn : mapGet n.data key = none := by
      cases hg : mapGet n.data key with
      | none => rfl
      | some v => rw [hg] at hb; cases hb
    have : n.Delete key = n := by
      unfold NaiveHashMap.Delete
      rw [hn]
    rw [this]
    exact h0
  | true =>
    obtain ⟨v, hv⟩ : ∃ v, mapGet n.data key = some v := by
      cases hg : mapGet n.data key with
      | none => rw [hg] at hb; cases hb
      | some v => exact ⟨v, rfl⟩
    have hnd : n.Delete key = { data := mapDelete n.data key } := by
      unfold NaiveHashMap.Delete
      rw [hv]
    obtain ⟨root0, hr0, hwf, _⟩ := hok
    have hroot : root0 = root := by rw [hr0] at hr; cases hr; rfl
    subst hroot
    have hh := hash_eq H m seed hseed
    obtain ⟨n', b', e, _, _, p1, gg⟩ := deleteNode_path (fun k => H seed k % 4294967296) S key
      6 root0 0 0 (by norm_num) hwf hpath
      (by show (H seed key % 4294967296) % 2 ^ 0 = 0; rw [pow_zero, Nat.mod_one])
    have hb' : b' = true := by
      cases b' with
      | true => rfl
      | false =>
        exfalso
        have hdel : m.Delete H key = some m := by
          unfold HashMap.Delete
          rw [hr0, hh]
          show (match deleteNode (6 + 1) root0 key _ 0 with
            | none => none | some (_, false) => some m | some (newRoot, true) => _) = _
          rw [e]
        rw [hdel] at s1
        simp only [Option.some.injEq] at s1
        have := l1 rfl
        rw [← s1] at this
        omega
    subst hb'
    have hdel : m.Delete H key =
        some { root := some n', len := m.len - 1, seed := m.seed } := by
      unfold HashMap.Delete
      rw [hr0, hh]
      show (match deleteNode (6 + 1) root0 key _ 0 with
        | none => none | some (_, false) => some m | some (newRoot, true) => _) = _
      rw [e]
    rw [hdel] at s1
    simp only [Option.some.injEq] at s1
    subst s1
    rw [hnd]
    refine ⟨_, hdel, ok1, hseed, ⟨n', rfl, p1⟩, distinct_delete _ _ hdist, ?_, ?_⟩
    · show m.len - 1 = (((mapDelete n.data key).length : Nat) : Int)
      have hl := length_delete key n.data hdist
      rw [hv] at hl
      simp only [Option.isSome_some, if_true] at hl
      have hlen' : m.len = ((n.data.length : Nat) : Int) := hlen
      rw [hlen', ← hl]
      push_cast
      omega
    · intro k'
      have := gg k'
      unfold HashMap.Get
      simp only
      show getNode (6 + 1) n' k' (H m.seed k' % 4294967296) 0 = _
      rw [hseed, this]
      unfold NaiveHashMap.Get
      simp only
      rw [mapGet_delete]
      by_cases hk : k' = key
      · rw [if_pos hk, if_pos hk]
      · rw [if_neg hk, if_neg hk]
        have h2 := hget k'
        unfold HashMap.Get NaiveHashMap.Get at h2
        rw [hr0] at h2
        simp only at h2
        rw [← h2]
        show _ = getNode (6 + 1) root0 k' (H m.seed k' % 4294967296) 0
        rw [hseed]

theorem sim_run {K V : Type} [DecidableEq K] [Inhabited V] (H : Nat → K → Nat) (seed : Nat)
    (S : K → Prop)
    (hinj : ∀ k1 k2, S k1 → S k2 →
      (H seed k1 % 4294967296) % 2 ^ 30 = (H seed k2 % 4294967296) % 2 ^ 30 → k1 = k2) :
    ∀ (calls : List (MapCall K V)), (∀ c ∈ calls, S c.key) →
      ∀ (m : HashMap K V) (n : NaiveHashMap K V), Sim H seed S m n →
        ∃ m', m.run H calls = some m' ∧ Sim H seed S m' (n.run calls) := by
  intro calls
  induction calls with
  | nil => intro _ m n h; exact ⟨m, rfl, h⟩
  | cons c rest ih =>
    intro hc m n h
    have hrest : ∀ c ∈ rest, S c.key := fun c' hc' => hc c' (List.mem_cons_of_mem _ hc')
    cases c with
    | set k v =>
      have hS : S k := hc (MapCall.set k v) (List.mem_cons_self _ _)
      obtain ⟨m1, e1, h1⟩ := sim_set H seed S hinj h k v hS
      obtain ⟨m2, e2, h2⟩ := ih hrest m1 _ h1
      refine ⟨m2, ?_, h2⟩
      simp only [HashMap.run, e1, e2]
    | delete k =>
      obtain ⟨m1, e1, h1⟩ := sim_delete H seed S h k
      obtain ⟨m2, e2, h2⟩ := ih hrest m1 _ h1
      refine ⟨m2, ?_, h2⟩
      simp only [HashMap.run, e1, e2]

/-- C38.  For a hash function whose 32-bit digests have pairwise distinct low 30 bits on a set
of keys, every sequence of `Set` and `Delete` calls on keys of the set runs to the end on
`NewHashMap()`, and the map reached agrees with the `NaiveHashMap` reached by the same calls
on `Len()`, on `Get(k)` and on `Contains(k)`, for every key `k`. -/
theorem hashmap_refines_naive {K V : Type} [DecidableEq K] [Inhabited V] (H : Nat → K → Nat)
    (seed : Nat) (S : K → Prop)
    (hinj : ∀ k1 k2, S k1 → S k2 →
      (H seed k1 % 4294967296) % 2 ^ 30 = (H seed k2 % 4294967296) % 2 ^ 30 → k1 = k2)
    (calls : List (MapCall K V)) (hcalls : ∀ c ∈ calls, S c.key) :
    ∃ m, (NewHashMap seed : HashMap K V).run H calls = some m ∧
      m.Len = ((NewNaiveHashMap : NaiveHashMap K V).run calls).Len ∧
      ∀ k, m.Get H k = some (((NewNaiveHashMap : NaiveHashMap K V).run calls).Get k) ∧
        m.Contains H k = some (((NewNaiveHashMap : NaiveHashMap K V).run calls).Contains k) := by
  obtain ⟨m, e, _, _, _, _, hlen, hget⟩ :=
    sim_run H seed S hinj calls hcalls _ _ (sim_new H seed S)
  refine ⟨m, e, hlen, fun k => ⟨hget k, ?_⟩⟩
  unfold HashMap.Contains
  rw [hget k]
  simp only [Option.map_some', Option.some.injEq]
  rw [naive_get_found]
  rfl

theorem hashmap_refines_naive_witness :
    (∀ k1 k2 : Nat, k1 < 1000 → k2 < 1000 →
      (idHash 0 k1 % 4294967296) % 2 ^ 30 = (idHash 0 k2 % 4294967296) % 2 ^ 30 → k1 = k2) ∧
    (∀ c ∈ [MapCall.set 1 10, MapCall.set 33 20, MapCall.delete 1, MapCall.set 65 (30 : Nat)],
      c.key < 1000) ∧
    ∃ m, (NewHashMap 0 : HashMap Nat Nat).run idHash
        [MapCall.set 1 10, MapCall.set 33 20, MapCall.delete 1, MapCall.set 65 30] = some m ∧
      m.Len = ((NewNaiveHashMap : NaiveHashMap Nat Nat).run
        [MapCall.set 1 10, MapCall.set 33 20, MapCall.delete 1, MapCall.set 65 30]).Len ∧
      ∀ k, m.Get idHash k = some (((NewNaiveHashMap : NaiveHashMap Nat Nat).run
          [MapCall.set 1 10, MapCall.set 33 20, MapCall.delete 1, MapCall.set 65 30]).Get k) ∧
        m.Contains idHash k = some (((NewNaiveHashMap : NaiveHashMap Nat Nat).run
          [MapCall.set 1 10, MapCall.set 33 20, MapCall.delete 1, MapCall.set 65 30]).Contains k) :=
  ⟨by intro k1 k2 h1 h2 h; unfold idHash at h; norm_num at h; omega,
   by intro c hc; simp only [List.mem_cons, List.mem_singleton, List.not_mem_nil, or_false] at hc
      rcases hc with rfl | rfl | rfl | rfl <;> simp [MapCall.key],
   hashmap_refines_naive idHash 0 (fun k => k < 1000)
    (by intro k1 k2 h1 h2 h; unfold idHash at h; norm_num at h; omega)
    [MapCall.set 1 10, MapCall.set 33 20, MapCall.delete 1, MapCall.set 65 30]
    (by intro c hc; simp only [List.mem_cons, List.mem_singleton, List.not_mem_nil, or_false] at hc
        rcases hc with rfl | rfl | rfl | rfl <;> simp [MapCall.key])⟩

/-- Both cases of the length rule occur, for every hash function and every key: on
`NewHashMap()` the key is absent and `Set` gives a map of length 1; in that map the key is
present and a second `Set` of the key gives a map of length 1 again. -/
theorem set_twice_length {K V : Type} [DecidableEq K] [Inhabited V] (H : Nat → K → Nat)
    (seed : Nat) (k : K) (u v : V) :
    (NewHashMap seed : HashMap K V).Contains H k = some false ∧
    (NewHashMap seed : HashMap K V).Len = 0 ∧
    ∃ m1 m2, (NewHashMap seed : HashMap K V).Set H k u = some m1 ∧ Reachable H m1 ∧
      m1.Len = 1 ∧ m1.Contains H k = some true ∧ m1.Set H k v = some m2 ∧ m2.Len = 1 := by
  have hinj : ∀ k1 k2 : K, k1 = k → k2 = k →
      (H seed k1 % 4294967296) % 2 ^ 30 = (H seed k2 % 4294967296) % 2 ^ 30 → k1 = k2 := by
    intro k1 k2 h1 h2 _
    rw [h1, h2]
  have h0 := sim_new (V := V) H seed (fun k' => k' = k)
  obtain ⟨m1, e1, s1⟩ := sim_set H seed (fun k' => k' = k) hinj h0 k u rfl
  obtain ⟨m2, e2, s2⟩ := sim_set H seed (fun k' => k' = k) hinj s1 k v rfl
  refine ⟨?_, rfl, m1, m2, e1, Reachable.set k u (Reachable.new seed) e1, ?_, ?_, e2, ?_⟩
  · obtain ⟨_, _, _, _, _, hget⟩ := h0
    unfold HashMap.Contains
    rw [hget k]
    rfl
  · obtain ⟨_, _, _, _, hlen, _⟩ := s1
    rw [hlen]
    rfl
  · obtain ⟨_, _, _, _, _, hget⟩ := s1
    unfold HashMap.Contains
    rw [hget k, naive_get_set, if_pos rfl]
    rfl
  · obtain ⟨_, _, _, _, hlen, _⟩ := s2
    rw [hlen]
    show (((mapSet (mapSet ([] : List (K × V)) k u) k v).length : Nat) : Int) = 1
    simp [mapSet, mapDelete]

/-- C11.  On a reachable map `Set k v` succeeds, and the length of the result is `m.Len()` if
`m.Contains(k)` and `m.Len() + 1` otherwise.  Both cases occur for every hash function and
every key: `NewHashMap()` does not contain `k` and `Set k u` takes its length from 0 to 1;
the map so obtained is reachable, contains `k`, and `Set k v` leaves its length at 1. -/
theorem set_length_rule {K V : Type} [DecidableEq K] [Inhabited V] (H : Nat → K → Nat)
    (m : HashMap K V) (hm : Reachable H m) (k : K) (v : V) :
    (∃ m' b, m.Set H k v = some m' ∧ m.Contains H k = some b ∧
      m'.Len = if b then m.Len else m.Len + 1) ∧
    (∀ (seed : Nat) (u : V),
      (NewHashMap seed : HashMap K V).Contains H k = some false ∧
      (NewHashMap seed : HashMap K V).Len = 0 ∧
      ∃ m1 m2, (NewHashMap seed : HashMap K V).Set H k u = some m1 ∧ Reachable H m1 ∧
        m1.Len = 1 ∧ m1.Contains H k = some true ∧ m1.Set H k v = some m2 ∧ m2.Len = 1) := by
  refine ⟨?_, fun seed u => set_twice_length H seed k u v⟩
  obtain ⟨m', x, b, h1, h2, h3, _, _⟩ := set_map_spec H (reachable_mapOK hm) k v
  refine ⟨m', b, h2, ?_, h3⟩
  unfold HashMap.Contains
  rw [h1]
  rfl

theorem set_length_rule_witness :
    Reachable chainHash chainMapValue ∧
    chainMapValue.Len = 2 ∧
    chainMapValue.Contains chainHash 2 = some true ∧
    (chainMapValue.Set chainHash 2 99).map (fun m => m.Len) = some 2 ∧
    chainMapValue.Contains chainHash 3 = some false ∧
    (chainMapValue.Set chainHash 3 30).map (fun m => m.Len) = some 3 ∧
    ((∃ m' b, chainMapValue.Set chainHash 2 99 = some m' ∧
        chainMapValue.Contains chainHash 2 = some b ∧
        m'.Len = if b then chainMapValue.Len else chainMapValue.Len + 1) ∧
      (∀ (seed : Nat) (u : Nat),
        (NewHashMap seed : HashMap Nat Nat).Contains chainHash 2 = some false ∧
        (NewHashMap seed : HashMap Nat Nat).Len = 0 ∧
        ∃ m1 m2, (NewHashMap seed : HashMap Nat Nat).Set chainHash 2 u = some m1 ∧
          Reachable chainHash m1 ∧ m1.Len = 1 ∧ m1.Contains chainHash 2 = some true ∧
          m1.Set chainHash 2 99 = some m2 ∧ m2.Len = 1)) :=
  ⟨chainMapValue_reachable, by decide, by decide, by decide, by decide, by decide,
    set_length_rule chainHash chainMapValue chainMapValue_reachable 2 99⟩

theorem mapDelete_ne_nil {K V : Type} [DecidableEq K] (data : List (K × V)) (key : K)
    (hd : Distinct data) (hs : (mapGet data key).isSome = true) (hl : data.length ≠ 1) :
    mapDelete data key ≠ [] := by
  intro e
  have := length_delete key data hd
  rw [e, hs] at this
  simp at this
  omega

theorem mapGet_single {K V : Type} [DecidableEq K] (data : List (K × V)) (key k' : K)
    (hs : (mapGet data key).isSome = true) (hl : data.length = 1) (hne : k' ≠ key) :
    mapGet data k' = none := by
  cases data with
  | nil => rfl
  | cons p rest =>
    have hr : rest = [] := by
      simp only [List.length_cons] at hl
      exact List.length_eq_zero.mp (by omega)
    subst hr
    obtain ⟨k0, v0⟩ := p
    rw [mapGet_cons] at hs ⊢
    by_cases hk : k0 = key
    · have : ¬ k0 = k' := by rw [hk]; exact fun e => hne e.symm
      rw [if_neg this]; rfl
    · rw [if_neg hk] at hs
      cases hs

theorem bucketGet_getD {K V : Type} [DecidableEq K] (b : Option (List (K × V))) (k : K) :
    mapGet (b.getD []) k = bucketGet b k := by
  cases b <;> rfl

theorem sh_index {K V : Type} (H : Nat → K → Nat) (m : ShardedHashMap K V) (seed : Nat)
    (hs : m.seed = seed) (hl : m.buckets.length = 256) (k : K) :
    m.bucketIndex H k = some (H seed k % 18446744073709551616 % 256) := by
  unfold ShardedHashMap.bucketIndex ShardedHashMap.hash
  rw [hl, hs]
  rfl

theorem sh_get {K V : Type} [DecidableEq K] [Inhabited V] (H : Nat → K → Nat) (seed : Nat)
    {m : ShardedHashMap K V} {n : NaiveHashMap K V} (h : ShSim H seed m n) (k : K) :
    m.Get H k = some (n.Get k) := by
  obtain ⟨hs, hl, _, _, _, hg⟩ := h
  have hi : H seed k % 18446744073709551616 % 256 < m.buckets.length := by
    rw [hl]; exact Nat.mod_lt _ (by decide)
  have hgk := hg k
  unfold ShardedHashMap.Get NaiveHashMap.Get
  rw [if_neg (by rw [hl]; decide), sh_index H m seed hs hl k]
  simp only
  rw [List.getElem?_eq_getElem hi] at hgk ⊢
  simp only [Option.getD_some] at hgk
  rw [← hgk]
  cases m.buckets[H seed k % 18446744073709551616 % 256] with
  | none => rfl
  | some data =>
    simp only [bucketGet]
    cases mapGet data k <;> rfl

theorem shSim_new {K V : Type} [DecidableEq K] [Inhabited V] (H : Nat → K → Nat) (seed : Nat) :
    ShSim H seed (NewShardedHashMap seed : ShardedHashMap K V) NewNaiveHashMap := by
  have hlen : (NewShardedHashMap seed : ShardedHashMap K V).buckets.length = 256 := by
    show (List.replicate defaultBuckets none).length = 256
    rw [List.length_replicate]
    rfl
  refine ⟨rfl, hlen, ?_, List.nodup_nil, rfl, ?_⟩
  · intro i b hb
    have : b ∈ List.replicate defaultBuckets (none : Option (List (K × V))) :=
      List.getElem?_mem hb
    rw [(List.mem_replicate.mp this).2]
    exact trivial
  · intro k
    have hi : H seed k % 18446744073709551616 % 256 <
        (List.replicate defaultBuckets (none : Option (List (K × V)))).length := by
      rw [List.length_replicate]; exact Nat.mod_lt _ (by decide)
    show bucketGet (((List.replicate defaultBuckets none)[_]?).getD none) k = none
    rw [List.getElem?_eq_getElem hi, List.getElem_replicate]
    rfl

theorem shSim_set {K V : Type} [DecidableEq K] [Inhabited V] (H : Nat → K → Nat) (seed : Nat)
    {m : ShardedHashMap K V} {n : NaiveHashMap K V} (h : ShSim H seed m n) (key : K)
    (value : V) : ∃ m', m.Set H key value = some m' ∧ ShSim H seed m' (n.Set key value) := by
  obtain ⟨hs, hl, hb, hd, hlen, hg⟩ := h
  have hi : H seed key % 18446744073709551616 % 256 < m.buckets.length := by
    rw [hl]; exact Nat.mod_lt _ (by decide)
  obtain ⟨oldB, hold⟩ : ∃ oldB, m.buckets[H seed key % 18446744073709551616 % 256]? = some oldB :=
    ⟨_, List.getElem?_eq_getElem hi⟩
  have hgk := hg key
  rw [hold] at hgk
  simp only [Option.getD_some] at hgk
  have hokold := hb _ _ hold
  have hdold : Distinct (oldB.getD []) := by
    cases oldB with
    | none => exact List.nodup_nil
    | some data => exact hokold.2.1
  refine ⟨{ buckets := m.buckets.set (H seed key % 18446744073709551616 % 256)
              (some (mapSet (oldB.getD []) key value)),
            len := if (bucketGet oldB key).isSome then m.len else m.len + 1,
            seed := m.seed }, ?_, hs, ?_, ?_, distinct_set _ _ _ hd, ?_, ?_⟩
  · unfold ShardedHashMap.Set
    rw [sh_index H m seed hs hl key]
    simp only
    rw [hold]
  · show (m.buckets.set _ _).length = 256
    rw [List.length_set]; exact hl
  · intro i b hbi
    have hbi' : (m.buckets.set (H seed key % 18446744073709551616 % 256)
        (some (mapSet (oldB.getD []) key value)))[i]? = some b := hbi
    rw [List.getElem?_set] at hbi'
    by_cases hii : H seed key % 18446744073709551616 % 256 = i
    · rw [if_pos hii, if_pos hi] at hbi'
      cases hbi'
      refine ⟨by simp [mapSet], distinct_set _ _ _ hdold, ?_⟩
      intro k hk
      simp only [mapSet, List.map_cons, List.mem_cons] at hk
      rcases hk with hk | hk
      · rw [hk]; exact hii
      · have hk2 := (mapDelete_keys key k _ hk).1
        cases oldB with
        | none => simp at hk2
        | some data => rw [← hii]; exact hokold.2.2 k hk2
    · rw [if_neg hii] at hbi'
      exact hb i b hbi'
  · show (if (bucketGet oldB key).isSome then m.len else m.len + 1) =
      (((mapSet n.data key value).length : Nat) : Int)
    have hl2 := length_delete key n.data hd
    have hlen' : m.len = ((n.data.length : Nat) : Int) := hlen
    unfold mapSet
    rw [List.length_cons, hgk, hlen']
    cases hsome : (mapGet n.data key).isSome
    · rw [hsome] at hl2
      simp only [Bool.false_eq_true, if_false, add_zero] at hl2 ⊢
      rw [hl2]
      push_cast
      rfl
    · rw [hsome] at hl2
      simp only [if_true] at hl2 ⊢
      rw [← hl2]
  · intro k'
    show bucketGet (((m.buckets.set _ _)[_]?).getD none) k' = mapGet (mapSet n.data key value) k'
    rw [mapGet_set, List.getElem?_set]
    by_cases hii : H seed key % 18446744073709551616 % 256 =
        H seed k' % 18446744073709551616 % 256
    · rw [if_pos hii, if_pos hi]
      simp only [Option.getD_some]
      show mapGet (mapSet (oldB.getD []) key value) k' = _
      rw [mapGet_set, bucketGet_getD]
      have := hg k'
      rw [← hii, hold] at this
      simp only [Option.getD_some] at this
      rw [this]
    · rw [if_neg hii]
      have hk : ¬ k' = key := by
        intro e; apply hii; rw [e]
      rw [if_neg hk]
      exact hg k'

theorem shSim_delete {K V : Type} [DecidableEq K] [Inhabited V] (H : Nat → K → Nat)
    (seed : Nat) {m : ShardedHashMap K V} {n : NaiveHashMap K V} (h : ShSim H seed m n)
    (key : K) : ∃ m', m.Delete H key = some m' ∧ ShSim H seed m' (n.Delete key) := by
  have h0 := h
  obtain ⟨hs, hl, hb, hd, hlen, hg⟩ := h
  have hi : H seed key % 18446744073709551616 % 256 < m.buckets.length := by
    rw [hl]; exact Nat.mod_lt _ (by decide)
  obtain ⟨oldB, hold⟩ : ∃ oldB, m.buckets[H seed key % 18446744073709551616 % 256]? = some oldB :=
    ⟨_, List.getElem?_eq_getElem hi⟩
  have hgk := hg key
  rw [hold] at hgk
  simp only [Option.getD_some] at hgk
  have hokold := hb _ _ hold
  have hsame : mapGet n.data key = none → n.Delete key = n := by
    intro e
    unfold NaiveHashMap.Delete
    rw [e]
  cases oldB with
  | none =>
    refine ⟨m, ?_, ?_⟩
    · unfold ShardedHashMap.Delete
      rw [sh_index H m seed hs hl key]
      simp only
      rw [hold]
    · rw [hsame hgk.symm]; exact h0
  | some data =>
    obtain ⟨hne, hdd, hkeys⟩ := hokold
    have hgk' : mapGet data key = mapGet n.data key := hgk
    cases hsome : (mapGet data key).isSome with
    | false =>
      refine ⟨m, ?_, ?_⟩
      · unfold ShardedHashMap.Delete
        rw [sh_index H m seed hs hl key]
        simp only
        rw [hold]
        simp only [hsome, if_true]
      · have : mapGet n.data key = none := by
          rw [← hgk']
          cases hg2 : mapGet data key with
          | none => rfl
          | some v => rw [hg2] at hsome; cases hsome
        rw [hsame this]; exact h0
    | true =>
      obtain ⟨v, hv⟩ : ∃ v, mapGet n.data key = some v := by
        rw [← hgk']
        cases hg2 : mapGet data key with
        | none => rw [hg2] at hsome; cases hsome
        | some v => exact ⟨v, rfl⟩
      have hnd : n.Delete key = { data := mapDelete n.data key } := by
        unfold NaiveHashMap.Delete
        rw [hv]
      have hlenn : m.len - 1 = (((mapDelete n.data key).length : Nat) : Int) := by
        have hl2 := length_delete key n.data hd
        rw [hv] at hl2
        simp only [Option.isSome_some, if_true] at hl2
        have hlen' : m.len = ((n.data.length : Nat) : Int) := hlen
        rw [hlen', ← hl2]
        push_cast
        omega
      rw [hnd]
      by_cases hl1 : data.length = 1
      · refine ⟨{ buckets := m.buckets.set (H seed key % 18446744073709551616 % 256) none,
                  len := m.len - 1, seed := m.seed }, ?_, hs, ?_, ?_, distinct_delete _ _ hd,
                  hlenn, ?_⟩
        · unfold ShardedHashMap.Delete
          rw [sh_index H m seed hs hl key]
          simp only
          rw [hold]
          simp only [hsome, Bool.true_eq_false, if_false, hl1, if_true]
        · show (m.buckets.set _ _).length = 256
          rw [List.length_set]; exact hl
        · intro i b hbi
          have hbi' : (m.buckets.set (H seed key % 18446744073709551616 % 256) none)[i]? =
              some b := hbi
          rw [List.getElem?_set] at hbi'
          by_cases hii : H seed key % 18446744073709551616 % 256 = i
          · rw [if_pos hii, if_pos hi] at hbi'
            cases hbi'
            exact trivial
          · rw [if_neg hii] at hbi'
            exact hb i b hbi'
        · intro k'
          show bucketGet (((m.buckets.set _ _)[_]?).getD none) k' = mapGet (mapDelete n.data key) k'
          rw [mapGet_delete, List.getElem?_set]
          by_cases hii : H seed key % 18446744073709551616 % 256 =
              H seed k' % 18446744073709551616 % 256
          · rw [if_pos hii, if_pos hi]
            simp only [Option.getD_some]
            show none = _
            by_cases hk : k' = key
            · rw [if_pos hk]
            · rw [if_neg hk]
              have := hg k'
              rw [← hii, hold] at this
              simp only [Option.getD_some] at this
              rw [← this]
              exact (mapGet_single data key k' hsome hl1 hk).symm
          · rw [if_neg hii]
            have hk : ¬ k' = key := by
              intro e; apply hii; rw [e]
            rw [if_neg hk]
            exact hg k'
      · refine ⟨{ buckets := m.buckets.set (H seed key % 18446744073709551616 % 256)
                    (some (mapDelete data key)),
                  len := m.len - 1, seed := m.seed }, ?_, hs, ?_, ?_, distinct_delete _ _ hd,
                  hlenn, ?_⟩
        · unfold ShardedHashMap.Delete
          rw [sh_index H m seed hs hl key]
          simp only
          rw [hold]
          simp only [hsome, Bool.true_eq_false, if_false, hl1]
        · show (m.buckets.set _ _).length = 256
          rw [List.length_set]; exact hl
        · intro i b hbi
          have hbi' : (m.buckets.set (H seed key % 18446744073709551616 % 256)
              (some (mapDelete data key)))[i]? = some b := hbi
          rw [List.getElem?_set] at hbi'
          by_cases hii : H seed key % 18446744073709551616 % 256 = i
          · rw [if_pos hii, if_pos hi] at hbi'
            cases hbi'
            refine ⟨mapDelete_ne_nil data key hdd hsome hl1, distinct_delete _ _ hdd, ?_⟩
            intro k hk
            rw [← hii]
            exact hkeys k (mapDelete_keys key k _ hk).1
          · rw [if_neg hii] at hbi'
            exact hb i b hbi'
        · intro k'
          show bucketGet (((m.buckets.set _ _)[_]?).getD none) k' = mapGet (mapDelete n.data key) k'
          rw [mapGet_delete, List.getElem?_set]
          by_cases hii : H seed key % 18446744073709551616 % 256 =
              H seed k' % 18446744073709551616 % 256
          · rw [if_pos hii, if_pos hi]
            simp only [Option.getD_some]
            show mapGet (mapDelete data key) k' = _
            rw [mapGet_delete]
            have := hg k'
            rw [← hii, hold] at this
            simp only [Option.getD_some] at this
            by_cases hk : k' = key
            · rw [if_pos hk, if_pos hk]
            · rw [if_neg hk, if_neg hk]
              exact this
          · rw [if_neg hii]
            have hk : ¬ k' = key := by
              intro e; apply hii; rw [e]
            rw [if_neg hk]
            exact hg k'

theorem shSim_run {K V : Type} [DecidableEq K] [Inhabited V] (H : Nat → K → Nat) (seed : Nat) :
    ∀ (calls : List (MapCall K V)) (m : ShardedHashMap K V) (n : NaiveHashMap K V),
      ShSim H seed m n → ∃ m', m.run H calls = some m' ∧ ShSim H seed m' (n.run calls) := by
  intro calls
  induction calls with
  | nil => intro m n h; exact ⟨m, rfl, h⟩
  | cons c rest ih =>
    intro m n h
    cases c with
    | set k v =>
      obtain ⟨m1, e1, h1⟩ := shSim_set H seed h k v
      obtain ⟨m2, e2, h2⟩ := ih m1 _ h1
      refine ⟨m2, ?_, h2⟩
      simp only [ShardedHashMap.run, e1, e2]
    | delete k =>
      obtain ⟨m1, e1, h1⟩ := shSim_delete H seed h k
      obtain ⟨m2, e2, h2⟩ := ih m1 _ h1
      refine ⟨m2, ?_, h2⟩
      simp only [ShardedHashMap.run, e1, e2]

/-- C39.  Every sequence of `Set` and `Delete` calls runs to the end on
`NewShardedHashMap()`, and the map reached agrees with the `NaiveHashMap` reached by the same
calls on `Len()`, `Get(k)` and `Contains(k)` for every key `k`; a key is stored only in the
bucket `hash(k) mod 256`, no bucket is a non-nil empty map, and `Delete` of a key that is
not contained returns the receiver. -/
theorem sharded_refines_naive {K V : Type} [DecidableEq K] [Inhabited V] (H : Nat → K → Nat)
    (seed : Nat) (calls : List (MapCall K V)) :
    ∃ m, (NewShardedHashMap seed : ShardedHashMap K V).run H calls = some m ∧
      m.Len = ((NewNaiveHashMap : NaiveHashMap K V).run calls).Len ∧
      (∀ k, m.Get H k = some (((NewNaiveHashMap : NaiveHashMap K V).run calls).Get k) ∧
        m.Contains H k =
          some (((NewNaiveHashMap : NaiveHashMap K V).run calls).Contains k)) ∧
      (∀ (i : Nat) (data : List (K × V)) (k : K), m.buckets[i]? = some (some data) →
        k ∈ data.map (fun p => p.1) → m.hash H k % 256 = i) ∧
      (∀ i : Nat, m.buckets[i]? ≠ some (some [])) ∧
      (∀ k, m.Contains H k = some false → m.Delete H k = some m) := by
  obtain ⟨m, e, hsim⟩ := shSim_run H seed calls _ _ (shSim_new H seed)
  have hget := sh_get H seed hsim
  obtain ⟨hs, hl, hb, _, hlen, hg⟩ := hsim
  refine ⟨m, e, hlen, ?_, ?_, ?_, ?_⟩
  · intro k
    refine ⟨hget k, ?_⟩
    unfold ShardedHashMap.Contains
    rw [hget k]
    simp only [Option.map_some', Option.some.injEq]
    unfold NaiveHashMap.Get NaiveHashMap.Contains
    cases mapGet ((NewNaiveHashMap : NaiveHashMap K V).run calls).data k <;> rfl
  · intro i data k hbi hk
    have := (hb i _ hbi).2.2 k hk
    unfold ShardedHashMap.hash
    rw [hs]
    exact this
  · intro i hbi
    exact (hb i _ hbi).1 rfl
  · intro k hc
    have hi : H seed k % 18446744073709551616 % 256 < m.buckets.length := by
      rw [hl]; exact Nat.mod_lt _ (by decide)
    unfold ShardedHashMap.Contains ShardedHashMap.Get at hc
    rw [if_neg (by rw [hl]; decide), sh_index H m seed hs hl k] at hc
    simp only at hc
    unfold ShardedHashMap.Delete
    rw [sh_index H m seed hs hl k]
    simp only
    rw [List.getElem?_eq_getElem hi] at hc ⊢
    cases hbk : m.buckets[H seed k % 18446744073709551616 % 256] with
    | none => rfl
    | some data =>
      rw [hbk] at hc
      simp only at hc
      cases hmg : mapGet data k with
      | none => simp [hmg]
      | some v =>
        rw [hmg] at hc
        simp at hc

/-- C20.  For a key whose dynamic type is none of string, int, int64, int32, uint, uint64,
uint32, `hash` fails, and `Get`, `Set` and `Delete` on a map with a root fail with it; for a
key of one of the seven types `hash` returns a 32-bit digest. -/
theorem unsupported_key_fails_fast (sum64 : Nat → List Nat → Nat) (seed : Nat) (key : goKey) :
    (key.supported = false →
      hashDyn sum64 seed key = none ∧
      ∀ (V : Type) [Inhabited V] (m : HashMap goKey V) (value : V), m.root ≠ none →
        m.GetDyn sum64 key = none ∧ m.SetDyn sum64 key value = none ∧
        m.DeleteDyn sum64 key = none) ∧
    (key.supported = true → ∃ h, hashDyn sum64 seed key = some h ∧ h < 4294967296) := by
  constructor
  · intro hs
    cases key with
    | other t v =>
      refine ⟨rfl, ?_⟩
      intro V _ m value hr
      cases hroot : m.root with
      | none => exact (hr hroot).elim
      | some root =>
        refine ⟨?_, ?_, ?_⟩
        · unfold HashMap.GetDyn
          rw [hroot]
          rfl
        · unfold HashMap.SetDyn
          rfl
        · unfold HashMap.DeleteDyn
          rw [hroot]
          rfl
    | string _ => cases hs
    | int _ => cases hs
    | int64 _ => cases hs
    | int32 _ => cases hs
    | uint _ => cases hs
    | uint64 _ => cases hs
    | uint32 _ => cases hs
  · intro hs
    have hlt : ∀ x : Nat, x % 4294967296 < 4294967296 := fun x => Nat.mod_lt _ (by decide)
    cases key with
    | other t v => cases hs
    | string _ => exact ⟨_, rfl, hlt _⟩
    | int _ => exact ⟨_, rfl, hlt _⟩
    | int64 _ => exact ⟨_, rfl, hlt _⟩
    | int32 _ => exact ⟨_, rfl, hlt _⟩
    | uint _ => exact ⟨_, rfl, hlt _⟩
    | uint64 _ => exact ⟨_, rfl, hlt _⟩
    | uint32 _ => exact ⟨_, rfl, hlt _⟩

end hashmap

namespace heap

theorem keeps_ret {C α : Type} {G : C → Prop} {n : Nat} {Q : α → Prop} (x : α) (hq : Q x) :
    Keeps G n (pure x : M C α) Q := by
  intro h y h1 _ hg e
  have e2 : some (x, h) = some (y, h1) := e
  cases e2
  exact ⟨le_refl _, rfl, hg, hq⟩

theorem keeps_fail {C α : Type} {G : C → Prop} {n : Nat} {Q : α → Prop} :
    Keeps G n (fail : M C α) Q := by
  intro h y h1 _ _ e
  cases e

theorem keeps_bind {C α β : Type} {G : C → Prop} {n : Nat} {m : M C α} {f : α → M C β}
    {P : α → Prop} {Q : β → Prop} (hm : Keeps G n m P) (hf : ∀ x, P x → Keeps G n (f x) Q) :
    Keeps G n (m >>= f) Q := by
  intro h y h2 hn hg e
  have e2 : andThen m f h = some (y, h2) := e
  unfold andThen at e2
  cases hmh : m h with
  | none => rw [hmh] at e2; cases e2
  | some r =>
    obtain ⟨x, h1⟩ := r
    rw [hmh] at e2
    obtain ⟨a1, a2, a3, a4⟩ := hm h x h1 hn hg hmh
    obtain ⟨b1, b2, b3, b4⟩ := hf x a4 h1 y h2 (by omega) a3 e2
    exact ⟨by omega, by rw [b2, a2], b3, b4⟩

theorem keeps_weaken {C α : Type} {G : C → Prop} {n : Nat} {m : M C α} {P Q : α → Prop}
    (hm : Keeps G n m P) (hpq : ∀ x, P x → Q x) : Keeps G n m Q := by
  intro h x h1 hn hg e
  obtain ⟨a1, a2, a3, a4⟩ := hm h x h1 hn hg e
  exact ⟨a1, a2, a3, hpq x a4⟩

theorem keeps_alloc {C : Type} {G : C → Prop} {n : Nat} (c : C) (hc : G c) :
    Keeps G n (alloc c) (fun a => n ≤ a) := by
  intro h x h1 hn hg e
  have e2 : some (h.length, h ++ [c]) = some (x, h1) := e
  cases e2
  refine ⟨by simp, ?_, ?_, hn⟩
  · rw [List.take_append_of_le_length hn]
  · intro a d ha hd
    by_cases hlt : a < h.length
    · rw [List.getElem?_append_left hlt] at hd
      exact hg a d ha hd
    · rw [List.getElem?_append_right (by omega)] at hd
      by_cases h0 : a - h.length = 0
      · rw [h0] at hd
        have : c = d := by simpa using hd
        rw [← this]; exact hc
      · have : ([c] : List C)[a - h.length]? = none :=
          List.getElem?_eq_none (by simp; omega)
        rw [this] at hd
        cases hd

theorem keeps_load {C : Type} {G : C → Prop} {n : Nat} (a : Nat) :
    Keeps G n (load a : M C C) (fun _ => True) := by
  intro h x h1 hn hg e
  unfold load at e
  cases hc : h[a]? with
  | none => rw [hc] at e; cases e
  | some c =>
    rw [hc] at e
    cases e
    exact ⟨le_refl _, rfl, hg, trivial⟩

/-- A cell read at an address from `n` on satisfies `G`. -/
theorem keeps_load_fresh {C : Type} {G : C → Prop} {n : Nat} (a : Nat) (ha : n ≤ a) :
    Keeps G n (load a : M C C) G := by
  intro h x h1 hn hg e
  unfold load at e
  cases hc : h[a]? with
  | none => rw [hc] at e; cases e
  | some c =>
    rw [hc] at e
    cases e
    exact ⟨le_refl _, rfl, hg, hg a _ ha hc⟩

theorem keeps_store {C : Type} {G : C → Prop} {n : Nat} (a : Nat) (c : C) (ha : n ≤ a)
    (hc : G c) : Keeps G n (store a c) (fun _ => True) := by
  intro h x h1 hn hg e
  unfold store at e
  by_cases hl : a < h.length
  · rw [if_pos hl] at e
    cases e
    refine ⟨by simp, ?_, ?_, trivial⟩
    · rw [List.set_take, List.set_eq_of_length_le]
      rw [List.length_take]; omega
    · intro b d hb hd
      by_cases hab : a = b
      · subst hab
        rw [List.getElem?_set_self hl] at hd
        cases hd
        exact hc
      · rw [List.getElem?_set_ne hab] at hd
        exact hg b d hb hd
  · rw [if_neg hl] at e
    cases e

theorem reads_ret {C α : Type} (x : α) : Reads (pure x : M C α) := by
  intro h y h1 e
  have e2 : some (x, h) = some (y, h1) := e
  cases e2
  exact ⟨rfl, fun _ => rfl⟩

theorem reads_fail {C α : Type} : Reads (fail : M C α) := by
  intro h y h1 e
  cases e

theorem reads_load {C : Type} (a : Nat) : Reads (load a : M C C) := by
  intro h x h1 e
  unfold load at e
  cases hc : h[a]? with
  | none => rw [hc] at e; cases e
  | some c =>
    rw [hc] at e
    cases e
    refine ⟨rfl, fun ext => ?_⟩
    have hlt : a < h.length := by
      by_contra hge
      rw [List.getElem?_eq_none (by omega)] at hc
      cases hc
    unfold load
    rw [List.getElem?_append_left hlt, hc]

theorem reads_bind {C α β : Type} {m : M C α} {f : α → M C β}
    (hm : Reads m) (hf : ∀ x, Reads (f x)) : Reads (m >>= f) := by
  intro h y h2 e
  have e2 : andThen m f h = some (y, h2) := e
  unfold andThen at e2
  cases hmh : m h with
  | none => rw [hmh] at e2; cases e2
  | some r =>
    obtain ⟨x, h1⟩ := r
    rw [hmh] at e2
    obtain ⟨a1, a2⟩ := hm h x h1 hmh
    subst a1
    obtain ⟨b1, b2⟩ := hf x h1 y h2 e2
    subst b1
    refine ⟨rfl, fun ext => ?_⟩
    show andThen m f (h2 ++ ext) = _
    unfold andThen
    rw [a2 ext]
    exact b2 ext

/-- A computation that only reads keeps every cell. -/
theorem keeps_of_reads {C α : Type} {G : C → Prop} {n : Nat} {m : M C α} (hm : Reads m) :
    Keeps G n m (fun _ => True) := by
  intro h x h1 _ hg e
  obtain ⟨a1, _⟩ := hm h x h1 e
  subst a1
  exact ⟨le_refl _, rfl, hg, trivial⟩

/-- The conclusion of `Keeps` for the whole heap: the old heap is an initial segment of
the new one. -/
theorem prefix_of_keeps {C α : Type} {G : C → Prop} {m : M C α} {Q : α → Prop}
    (h h1 : List C) (x : α) (hm : Keeps G h.length m Q) (e : m h = some (x, h1)) :
    h <+: h1 := by
  have hg : FreshGood G h.length h := by
    intro a c ha hc
    rw [List.getElem?_eq_none ha] at hc
    cases hc
  obtain ⟨a1, a2, _⟩ := hm h x h1 (le_refl _) hg e
  rw [List.take_length] at a2
  rw [← a2]
  exact List.take_prefix _ _

end heap

namespace arrayHeap

open heap array

theorem reads_derefNode {T : Type} (p : Option Nat) : Reads (derefNode p : M (Cell T) _) := by
  unfold derefNode
  cases p with
  | none => exact reads_fail
  | some a =>
    refine reads_bind (reads_load a) (fun c => ?_)
    cases c with
    | node n => exact reads_ret n
    | slice d => exact reads_fail
    | vector v => exact reads_fail

theorem reads_derefSlice {T : Type} (a : Nat) : Reads (derefSlice a : M (Cell T) _) := by
  unfold derefSlice
  refine reads_bind (reads_load a) (fun c => ?_)
  cases c with
  | node n => exact reads_fail
  | slice d => exact reads_ret d
  | vector v => exact reads_fail

theorem reads_derefVector {T : Type} (a : Nat) : Reads (derefVector a : M (Cell T) _) := by
  unfold derefVector
  refine reads_bind (reads_load a) (fun c => ?_)
  cases c with
  | node n => exact reads_fail
  | slice d => exact reads_fail
  | vector v => exact reads_ret v

theorem keeps_modifyNode {T : Type} {n : Nat} (a : Nat) (f : nodeCell T → nodeCell T)
    (ha : n ≤ a) : Keeps anyCell n (modifyNode a f) (fun _ => True) := by
  unfold modifyNode
  exact keeps_bind (keeps_of_reads (reads_derefNode _)) (fun x _ => keeps_store a _ ha trivial)

theorem keeps_copySlice {T : Type} {n : Nat} (a : Nat) (src : List T) (ha : n ≤ a) :
    Keeps anyCell n (copySlice a src) (fun _ => True) := by
  unfold copySlice
  exact keeps_bind (keeps_of_reads (reads_derefSlice _)) (fun x _ => keeps_store a _ ha trivial)

theorem keeps_setElem {T : Type} {n : Nat} (a i : Nat) (x : T) (ha : n ≤ a) :
    Keeps anyCell n (setElem a i x) (fun _ => True) := by
  unfold setElem
  refine keeps_bind (keeps_of_reads (reads_derefSlice _)) (fun d _ => ?_)
  split
  · exact keeps_store a _ ha trivial
  · exact keeps_fail

theorem keeps_makeSlice {T : Type} [Inhabited T] {n : Nat} (k : Nat) :
    Keeps anyCell n (makeSlice k : M (Cell T) Nat) (fun a => n ≤ a) :=
  keeps_alloc _ trivial

theorem keeps_cloneInternal {T : Type} [Inhabited T] {n : Nat} (p : Option Nat) :
    Keeps anyCell n (cloneInternal p : M (Cell T) Nat) (fun a => n ≤ a) := by
  unfold cloneInternal
  refine keeps_bind (keeps_alloc _ trivial) (fun a ha => ?_)
  refine keeps_bind (keeps_of_reads (reads_derefNode _)) (fun src _ => ?_)
  refine keeps_bind (keeps_modifyNode a _ ha) (fun _ _ => ?_)
  exact keeps_ret a ha

theorem keeps_cloneLeaf {T : Type} [Inhabited T] {n : Nat} (p : Option Nat) :
    Keeps anyCell n (cloneLeaf p : M (Cell T) Nat) (fun a => n ≤ a) := by
  unfold cloneLeaf
  refine keeps_bind (keeps_alloc _ trivial) (fun a ha => ?_)
  refine keeps_bind (keeps_of_reads (reads_derefNode _)) (fun src _ => ?_)
  refine keeps_bind (keeps_modifyNode a _ ha) (fun _ _ => ?_)
  exact keeps_ret a ha

theorem keeps_setInNode {T : Type} [Inhabited T] {n : Nat} (fuel : Nat) :
    ∀ (node : Option Nat) (level index : Nat) (value : T),
      Keeps anyCell n (setInNode fuel node level index value) (fun _ => True) := by
  induction fuel with
  | zero => intro node level index value; exact keeps_fail
  | succ fuel ih =>
    intro node level index value
    unfold setInNode
    split
    · refine keeps_bind (keeps_cloneInternal _) (fun newNode hnew => ?_)
      refine keeps_bind (keeps_of_reads (reads_derefNode _)) (fun nd _ => ?_)
      refine keeps_bind (keeps_cloneLeaf _) (fun leaf hleaf => ?_)
      refine keeps_bind (keeps_modifyNode leaf _ hleaf) (fun _ _ => ?_)
      refine keeps_bind (keeps_modifyNode newNode _ hnew) (fun _ _ => ?_)
      exact keeps_ret _ trivial
    · refine keeps_bind (keeps_cloneInternal _) (fun newNode hnew => ?_)
      refine keeps_bind (keeps_of_reads (reads_derefNode _)) (fun nd _ => ?_)
      refine keeps_bind (ih _ _ _ _) (fun c _ => ?_)
      refine keeps_bind (keeps_modifyNode newNode _ hnew) (fun _ _ => ?_)
      exact keeps_ret _ trivial

theorem keeps_newPath {T : Type} [Inhabited T] {n : Nat} (fuel : Nat) :
    ∀ (level : Nat) (leaf : Option Nat),
      Keeps anyCell n (newPath fuel level leaf : M (Cell T) _) (fun _ => True) := by
  induction fuel with
  | zero => intro level leaf; exact keeps_fail
  | succ fuel ih =>
    intro level leaf
    unfold newPath
    split
    · refine keeps_bind (keeps_alloc _ trivial) (fun node hnode => ?_)
      refine keeps_bind (keeps_modifyNode node _ hnode) (fun _ _ => ?_)
      exact keeps_ret _ trivial
    · refine keeps_bind (keeps_alloc _ trivial) (fun node hnode => ?_)
      refine keeps_bind (ih _ _) (fun p _ => ?_)
      refine keeps_bind (keeps_modifyNode node _ hnode) (fun _ _ => ?_)
      exact keeps_ret _ trivial

theorem keeps_pushTail {T : Type} [Inhabited T] {n : Nat} (len fuel : Nat) :
    ∀ (level : Nat) (parent tailNode : Option Nat),
      Keeps anyCell n (pushTail len fuel level parent tailNode : M (Cell T) _) (fun _ => True) := by
  induction fuel with
  | zero => intro level parent tailNode; exact keeps_fail
  | succ fuel ih =>
    intro level parent tailNode
    unfold pushTail
    refine keeps_bind (keeps_cloneInternal _) (fun newNode hnew => ?_)
    split
    · refine keeps_bind (keeps_modifyNode newNode _ hnew) (fun _ _ => ?_)
      exact keeps_ret _ trivial
    · refine keeps_bind (keeps_of_reads (reads_derefNode _)) (fun p _ => ?_)
      split
      · refine keeps_bind (ih _ _ _) (fun c _ => ?_)
        refine keeps_bind (keeps_modifyNode newNode _ hnew) (fun _ _ => ?_)
        exact keeps_ret _ trivial
      · refine keeps_bind (keeps_newPath _ _ _) (fun c _ => ?_)
        refine keeps_bind (keeps_modifyNode newNode _ hnew) (fun _ _ => ?_)
        exact keeps_ret _ trivial

theorem keeps_Append {T : Type} [Inhabited T] {n : Nat} (v : Nat) (value : T) :
    Keeps anyCell n (Append v value) (fun _ => True) := by
  unfold Append
  refine keeps_bind (keeps_of_reads (reads_derefVector _)) (fun s _ => ?_)
  refine keeps_bind (keeps_of_reads (reads_derefSlice _)) (fun t _ => ?_)
  split
  · refine keeps_bind (keeps_makeSlice _) (fun newTail hnt => ?_)
    refine keeps_bind (keeps_copySlice newTail _ hnt) (fun _ _ => ?_)
    refine keeps_bind (keeps_setElem newTail _ _ hnt) (fun _ _ => ?_)
    exact keeps_weaken (keeps_alloc _ trivial) (fun _ _ => trivial)
  · refine keeps_bind (keeps_alloc _ trivial) (fun tailNode htn => ?_)
    refine keeps_bind (keeps_modifyNode tailNode _ htn) (fun _ _ => ?_)
    split
    · refine keeps_bind (keeps_alloc _ trivial) (fun newRoot hnr => ?_)
      refine keeps_bind (keeps_modifyNode newRoot _ hnr) (fun _ _ => ?_)
      refine keeps_bind (keeps_alloc _ trivial) (fun newTail _ => ?_)
      exact keeps_weaken (keeps_alloc _ trivial) (fun _ _ => trivial)
    · split
      · refine keeps_bind (keeps_alloc _ trivial) (fun newRoot hnr => ?_)
        refine keeps_bind (keeps_modifyNode newRoot _ hnr) (fun _ _ => ?_)
        refine keeps_bind (keeps_newPath _ _ _) (fun p _ => ?_)
        refine keeps_bind (keeps_modifyNode newRoot _ hnr) (fun _ _ => ?_)
        refine keeps_bind (keeps_alloc _ trivial) (fun newTail _ => ?_)
        exact keeps_weaken (keeps_alloc _ trivial) (fun _ _ => trivial)
      · refine keeps_bind (keeps_pushTail _ _ _ _ _) (fun newRoot _ => ?_)
        refine keeps_bind (keeps_alloc _ trivial) (fun newTail _ => ?_)
        exact keeps_weaken (keeps_alloc _ trivial) (fun _ _ => trivial)

theorem keeps_Set {T : Type} [Inhabited T] {n : Nat} (v : Nat) (index : Int) (value : T) :
    Keeps anyCell n (Set v index value) (fun _ => True) := by
  unfold Set
  refine keeps_bind (keeps_of_reads (reads_derefVector _)) (fun s _ => ?_)
  split
  · exact keeps_ret _ trivial
  · split
    · refine keeps_bind (keeps_of_reads (reads_derefSlice _)) (fun t _ => ?_)
      refine keeps_bind (keeps_makeSlice _) (fun newTail hnt => ?_)
      refine keeps_bind (keeps_copySlice newTail _ hnt) (fun _ _ => ?_)
      refine keeps_bind (keeps_setElem newTail _ _ hnt) (fun _ _ => ?_)
      exact keeps_weaken (keeps_alloc _ trivial) (fun _ _ => trivial)
    · refine keeps_bind (keeps_setInNode _ _ _ _ _) (fun r _ => ?_)
      exact keeps_weaken (keeps_alloc _ trivial) (fun _ _ => trivial)

theorem reads_descend {T : Type} (fuel : Nat) :
    ∀ (node : Option Nat) (level index : Nat),
      Reads (descend fuel node level index : M (Cell T) _) := by
  induction fuel with
  | zero =>
    intro node level index
    unfold descend
    split
    · exact reads_fail
    · exact reads_ret _
  | succ fuel ih =>
    intro node level index
    unfold descend
    split
    · exact reads_bind (reads_derefNode _) (fun nd => ih _ _ _)
    · exact reads_ret _

theorem reads_getLeaf {T : Type} (v index : Nat) : Reads (getLeaf v index : M (Cell T) _) := by
  unfold getLeaf
  refine reads_bind (reads_derefVector _) (fun s => ?_)
  refine reads_bind (reads_descend _ _ _ _) (fun node => ?_)
  exact reads_bind (reads_derefNode _) (fun nd => reads_ret _)

theorem reads_Get {T : Type} [Inhabited T] (v : Nat) (index : Int) :
    Reads (Get v index : M (Cell T) _) := by
  unfold Get
  refine reads_bind (reads_derefVector _) (fun s => ?_)
  split
  · exact reads_ret _
  · split
    · refine reads_bind (reads_derefSlice _) (fun t => ?_)
      split
      · exact reads_ret _
      · exact reads_fail
    · refine reads_bind (reads_getLeaf _ _) (fun leaf => ?_)
      exact reads_bind (reads_derefNode _) (fun nd => reads_ret _)

theorem reads_Len {T : Type} (v : Nat) : Reads (Len v : M (Cell T) _) := by
  unfold Len
  exact reads_bind (reads_derefVector _) (fun s => reads_ret _)

theorem reads_allFrom {T : Type} [Inhabited T] (v k : Nat) :
    ∀ i : Nat, Reads (allFrom v k i : M (Cell T) _) := by
  induction k with
  | zero => intro i; exact reads_ret _
  | succ k ih =>
    intro i
    unfold allFrom
    refine reads_bind (reads_Get _ _) (fun r => ?_)
    exact reads_bind (ih _) (fun rest => reads_ret _)

theorem reads_All {T : Type} [Inhabited T] (v : Nat) : Reads (All v : M (Cell T) _) := by
  unfold All
  exact reads_bind (reads_derefVector _) (fun s => reads_allFrom _ _ _)

theorem reads_Values {T : Type} [Inhabited T] (v : Nat) : Reads (Values v : M (Cell T) _) := by
  unfold Values
  refine reads_bind (reads_derefVector _) (fun s => ?_)
  exact reads_bind (reads_allFrom _ _ _) (fun l => reads_ret _)

theorem keeps_leafValuesToSlice {T : Type} [Inhabited T] {n : Nat} (v index : Nat) :
    Keeps anyCell n (leafValuesToSlice v index : M (Cell T) _) (fun _ => True) := by
  unfold leafValuesToSlice
  refine keeps_bind (keeps_of_reads (reads_getLeaf _ _)) (fun leaf _ => ?_)
  refine keeps_bind (keeps_makeSlice _) (fun result hres => ?_)
  refine keeps_bind (keeps_of_reads (reads_derefNode _)) (fun nd _ => ?_)
  refine keeps_bind (keeps_copySlice result _ hres) (fun _ _ => ?_)
  exact keeps_ret _ trivial

theorem keeps_popTail {T : Type} [Inhabited T] {n : Nat} (len fuel : Nat) :
    ∀ (level : Nat) (node : Option Nat),
      Keeps anyCell n (popTail len fuel level node : M (Cell T) _) (fun _ => True) := by
  induction fuel with
  | zero => intro level node; exact keeps_fail
  | succ fuel ih =>
    intro level node
    unfold popTail
    split
    · refine keeps_bind (keeps_of_reads (reads_derefNode _)) (fun nd _ => ?_)
      refine keeps_bind (ih _ _) (fun newChild _ => ?_)
      split
      · exact keeps_ret _ trivial
      · refine keeps_bind (keeps_cloneInternal _) (fun newNode hnew => ?_)
        refine keeps_bind (keeps_modifyNode newNode _ hnew) (fun _ _ => ?_)
        exact keeps_ret _ trivial
    · split
      · exact keeps_ret _ trivial
      · refine keeps_bind (keeps_cloneInternal _) (fun newNode hnew => ?_)
        refine keeps_bind (keeps_modifyNode newNode _ hnew) (fun _ _ => ?_)
        exact keeps_ret _ trivial

theorem keeps_NewVector {T : Type} {n : Nat} :
    Keeps anyCell n (NewVector : M (Cell T) _) (fun _ => True) := by
  unfold NewVector
  refine keeps_bind (keeps_alloc _ trivial) (fun tail _ => ?_)
  exact keeps_weaken (keeps_alloc _ trivial) (fun _ _ => trivial)

theorem keeps_Pop {T : Type} [Inhabited T] {n : Nat} (v : Nat) :
    Keeps anyCell n (Pop v : M (Cell T) _) (fun _ => True) := by
  unfold Pop
  refine keeps_bind (keeps_of_reads (reads_derefVector _)) (fun s _ => ?_)
  split
  · exact keeps_ret _ trivial
  · refine keeps_bind (keeps_of_reads (reads_derefSlice _)) (fun t _ => ?_)
    split
    · split
      · refine keeps_bind keeps_NewVector (fun w _ => ?_)
        exact keeps_ret _ trivial
      · exact keeps_fail
    · split
      · refine keeps_bind (keeps_makeSlice _) (fun newTail hnt => ?_)
        refine keeps_bind (keeps_copySlice newTail _ hnt) (fun _ _ => ?_)
        split
        · refine keeps_bind (keeps_alloc _ trivial) (fun w _ => ?_)
          exact keeps_ret _ trivial
        · exact keeps_fail
      · split
        · exact keeps_fail
        · refine keeps_bind (keeps_leafValuesToSlice _ _) (fun newTail _ => ?_)
          refine keeps_bind (keeps_popTail _ _ _ _) (fun newRoot _ => ?_)
          split
          · refine keeps_bind (keeps_alloc _ trivial) (fun w _ => ?_)
            exact keeps_ret _ trivial
          · refine keeps_bind (keeps_of_reads (reads_derefNode _)) (fun nd _ => ?_)
            split
            · refine keeps_bind (keeps_alloc _ trivial) (fun w _ => ?_)
              exact keeps_ret _ trivial
            · refine keeps_bind (keeps_alloc _ trivial) (fun w _ => ?_)
              exact keeps_ret _ trivial

end arrayHeap

namespace heap

theorem andThen_eq_some {C α β : Type} {m : M C α} {f : α → M C β} {h : List C}
    {r : β × List C} (e : (m >>= f) h = some r) :
    ∃ x h1, m h = some (x, h1) ∧ f x h1 = some r := by
  have e2 : andThen m f h = some r := e
  unfold andThen at e2
  cases hmh : m h with
  | none => rw [hmh] at e2; cases e2
  | some p =>
    obtain ⟨x, h1⟩ := p
    rw [hmh] at e2
    exact ⟨x, h1, rfl, e2⟩

theorem andThen_of_eq {C α β : Type} {m : M C α} {f : α → M C β} {h h1 : List C} {x : α}
    (e : m h = some (x, h1)) : (m >>= f) h = f x h1 := by
  show andThen m f h = _
  unfold andThen
  rw [e]

theorem ret_eq_some {C α : Type} {x y : α} {h h1 : List C}
    (e : (pure x : M C α) h = some (y, h1)) : y = x ∧ h1 = h := by
  have e2 : some (x, h) = some (y, h1) := e
  cases e2
  exact ⟨rfl, rfl⟩

end heap

namespace arrayHeap

open heap array

/-- If `Len` returns `n` on a heap, `v` is the address of a `Vector` of length `n`. -/
theorem len_eq_some {T : Type} {v n : Nat} {h h1 : List (Cell T)}
    (e : (Len v : M (Cell T) Nat) h = some (n, h1)) :
    ∃ s : vectorCell, (derefVector v : M (Cell T) _) h = some (s, h) ∧ s.len = n := by
  unfold Len at e
  obtain ⟨s, h2, e1, e2⟩ := andThen_eq_some e
  obtain ⟨a1, _⟩ := reads_derefVector v h s h2 e1
  subst a1
  obtain ⟨b1, _⟩ := ret_eq_some e2
  exact ⟨s, e1, b1.symm⟩

/-- `Set` with an index out of range returns the address it was given and leaves the heap
as it is. -/
theorem set_out_of_range_heap {T : Type} [Inhabited T] (h h1 : List (Cell T)) (v n : Nat)
    (i : Int) (x : T) (hl : (Len v : M (Cell T) Nat) h = some (n, h1))
    (hi : i < 0 ∨ i ≥ (n : Int)) : Set v i x h = some (v, h) := by
  obtain ⟨s, e1, e2⟩ := len_eq_some hl
  unfold Set
  rw [andThen_of_eq e1]
  have : i < 0 ∨ i ≥ (s.len : Int) := by rw [e2]; exact hi
  rw [if_pos this]
  rfl

/-- `Pop` on a vector of length 0 returns the address it was given, found = false, and
leaves the heap as it is. -/
theorem pop_empty_heap {T : Type} [Inhabited T] (h h1 : List (Cell T)) (v : Nat)
    (hl : (Len v : M (Cell T) Nat) h = some (0, h1)) :
    Pop v h = some ((v, default, false), h) := by
  obtain ⟨s, e1, e2⟩ := len_eq_some hl
  unfold Pop
  rw [andThen_of_eq e1, if_pos e2]
  rfl

end arrayHeap

namespace array

/-- C14.  `Set` with an index `i < 0` or `i ≥ Len` returns the receiver: on the value model
the result is the vector it was applied to, and on the heap model it is the address it was
given, with nothing allocated or stored. -/
theorem set_out_of_range {T : Type} [Inhabited T] (v : Vector T) (i : Int) (x : T)
    (hi : i < 0 ∨ i ≥ (v.Len : Int)) :
    v.Set i x = some v ∧
    ∀ (h h1 : List (arrayHeap.Cell T)) (p : Nat),
      (arrayHeap.Len p : heap.M (arrayHeap.Cell T) Nat) h = some (v.Len, h1) →
        arrayHeap.Set p i x h = some (p, h) := by
  constructor
  · have hi2 : i < 0 ∨ i ≥ (v.len : Int) := hi
    unfold Vector.Set
    rw [if_pos hi2]
  · intro h h1 p hl
    exact arrayHeap.set_out_of_range_heap h h1 p v.Len i x hl hi

theorem set_out_of_range_witness :
    ((40 : Int) < 0 ∨ (40 : Int) ≥ (treeVector.Len : Int)) ∧
    (treeVector.Set 40 7 = some treeVector ∧
    ∀ (h h1 : List (arrayHeap.Cell Nat)) (p : Nat),
      (arrayHeap.Len p : heap.M (arrayHeap.Cell Nat) Nat) h = some (treeVector.Len, h1) →
        arrayHeap.Set p 40 7 h = some (p, h)) :=
  ⟨by decide, set_out_of_range treeVector 40 7 (by decide)⟩

/-- C17.  `Pop` on a vector of length 0 returns the receiver with `found = false`: on the
value model the vector it was applied to, and on the heap model the address it was given,
with nothing allocated or stored. -/
theorem pop_empty_returns_receiver {T : Type} [Inhabited T] (v : Vector T)
    (h0 : v.Len = 0) :
    v.Pop = some (v, default, false) ∧
    ∀ (h h1 : List (arrayHeap.Cell T)) (p : Nat),
      (arrayHeap.Len p : heap.M (arrayHeap.Cell T) Nat) h = some (0, h1) →
        arrayHeap.Pop p h = some ((p, default, false), h) := by
  constructor
  · have : v.len = 0 := h0
    unfold Vector.Pop
    rw [if_pos this]
  · intro h h1 p hl
    exact arrayHeap.pop_empty_heap h h1 p hl

theorem pop_empty_returns_receiver_witness :
    (NewVector : Vector Nat).Len = 0 ∧
    ((NewVector : Vector Nat).Pop = some (NewVector, default, false) ∧
    ∀ (h h1 : List (arrayHeap.Cell Nat)) (p : Nat),
      (arrayHeap.Len p : heap.M (arrayHeap.Cell Nat) Nat) h = some (0, h1) →
        arrayHeap.Pop p h = some ((p, default, false), h)) :=
  ⟨rfl, pop_empty_returns_receiver NewVector rfl⟩

end array

namespace heap

theorem load_of_get {C : Type} {h : List C} {a : Nat} {c : C} (e : h[a]? = some c) :
    load a h = some (c, h) := by
  unfold load
  rw [e]

theorem store_of_lt {C : Type} {h : List C} {a : Nat} (hl : a < h.length) (c : C) :
    store a c h = some ((), h.set a c) := by
  unfold store
  rw [if_pos hl]

theorem lt_of_get {C : Type} {h : List C} {a : Nat} {c : C} (e : h[a]? = some c) :
    a < h.length := by
  by_contra hge
  rw [List.getElem?_eq_none (by omega)] at e
  cases e

theorem get_extend {C : Type} {h h1 : List C} (hp : h <+: h1) {a : Nat} {c : C}
    (e : h[a]? = some c) : h1[a]? = some c := by
  obtain ⟨t, rfl⟩ := hp
  rw [List.getElem?_append_left (lt_of_get e)]
  exact e

theorem get_prefix_lt {C : Type} {h h1 : List C} (hp : h <+: h1) {a : Nat}
    (hl : a < h.length) : h1[a]? = h[a]? := by
  obtain ⟨t, rfl⟩ := hp
  exact List.getElem?_append_left hl

theorem length_le_extend {C : Type} {h h1 : List C} (hp : h <+: h1) :
    h.length ≤ h1.length := by
  obtain ⟨t, rfl⟩ := hp
  simp

theorem prefix_set {C : Type} {h l : List C} (hp : h <+: l) {a : Nat} (ha : h.length ≤ a)
    (c : C) : h <+: l.set a c := by
  obtain ⟨t, rfl⟩ := hp
  rw [List.set_append_right _ _ ha]
  exact List.prefix_append _ _

theorem get_concat {C : Type} (h : List C) (c : C) : (h ++ [c])[h.length]? = some c := by
  rw [List.getElem?_append_right (le_refl _)]
  simp

theorem set_concat {C : Type} (h : List C) (c d : C) : (h ++ [c]).set h.length d = h ++ [d] := by
  rw [List.set_append_right _ _ (le_refl _)]
  simp

theorem set_concat_append {C : Type} (h l : List C) (c d : C) :
    (h ++ [c] ++ l).set h.length d = h ++ [d] ++ l := by
  rw [List.append_assoc, List.set_append_right _ _ (le_refl _)]
  simp

theorem get_concat_append {C : Type} (h l : List C) (c : C) :
    (h ++ [c] ++ l)[h.length]? = some c :=
  get_extend (List.prefix_append _ _) (get_concat h c)

theorem prefix_append2 {C : Type} (l a b : List C) : l <+: l ++ a ++ b :=
  (List.prefix_append _ _).trans (List.prefix_append _ _)

theorem prefix_append3 {C : Type} (l a b c : List C) : l <+: l ++ a ++ b ++ c :=
  (prefix_append2 _ _ _).trans (List.prefix_append _ _)

theorem prefix_append4 {C : Type} (l a b c d : List C) : l <+: l ++ a ++ b ++ c ++ d :=
  (prefix_append3 _ _ _ _).trans (List.prefix_append _ _)

theorem get_set_append {C : Type} (l : List C) (A : Nat) (c : C) (s1 s2 : List C) (a : Nat)
    (hne : A ≠ a) (hl : a < l.length) : (l.set A c ++ s1 ++ s2)[a]? = l[a]? := by
  rw [get_prefix_lt (prefix_append2 _ _ _) (by rw [List.length_set]; exact hl)]
  exact List.getElem?_set_ne hne

theorem get_concat_succ {C : Type} (h : List C) (c d : C) (k : Nat) (hk : k = h.length + 1) :
    (h ++ [c] ++ [d])[k]? = some d := by
  subst hk
  have := get_concat (h ++ [c]) d
  simpa using this

end heap

namespace arrayHeap

open heap array

theorem nodeIn_frame {T : Type} {P Q : Nat → Prop} {h h1 : List (Cell T)}
    (hq : ∀ a, P a → a < h.length → Q a ∧ h1[a]? = h[a]?) :
    ∀ {p : Option Nat} {t : vectorNode T}, NodeIn P h p t → NodeIn Q h1 p t := by
  intro p t hn
  induction hn with
  | nil => exact NodeIn.nil
  | mk a n c vals hp hc hv _ ih =>
    have hl := lt_of_get hc
    obtain ⟨q1, q2⟩ := hq a hp hl
    exact NodeIn.mk a n c vals q1 (by rw [q2]; exact hc) hv ih

theorem nodeIn_lt {T : Type} {P : Nat → Prop} {h : List (Cell T)} :
    ∀ {p : Option Nat} {t : vectorNode T}, NodeIn P h p t →
      NodeIn (fun a => P a ∧ a < h.length) h p t := by
  intro p t hn
  exact nodeIn_frame (fun a hp hl => ⟨⟨hp, hl⟩, rfl⟩) hn

theorem nodeAt_extend {T : Type} {h h1 : List (Cell T)} (hp : h <+: h1) {p : Option Nat}
    {t : vectorNode T} (hn : NodeAt h p t) : NodeAt h1 p t :=
  nodeIn_frame (fun _ _ hl => ⟨trivial, get_prefix_lt hp hl⟩) hn

theorem nodeAt_of_nodeIn {T : Type} {P : Nat → Prop} {h : List (Cell T)} {p : Option Nat}
    {t : vectorNode T} (hn : NodeIn P h p t) : NodeAt h p t :=
  nodeIn_frame (fun _ _ _ => ⟨trivial, rfl⟩) hn

theorem pathShared_frame {T : Type} {h0 h1 h2 : List (Cell T)} {m m' index : Nat} {value : T}
    (hm : m' ≤ m) (hq : ∀ a c, m ≤ a → h1[a]? = some c → h2[a]? = some c) :
    ∀ (d : Nat) (p p1 : Option Nat), pathShared h0 h1 m index value d p p1 →
      pathShared h0 h2 m' index value d p p1 := by
  intro d
  induction d with
  | zero =>
    intro p p1 hs
    obtain ⟨a, a1, n, n1, e1, e2, g1, g2, hm1, hj, b, b1, l, l1, c1, c2, g3, g4, hm2, hv⟩ := hs
    exact ⟨a, a1, n, n1, e1, e2, g1, hq a1 _ hm1 g2, by omega, hj,
      b, b1, l, l1, c1, c2, g3, hq b1 _ hm2 g4, by omega, hv⟩
  | succ d ih =>
    intro p p1 hs
    obtain ⟨a, a1, n, n1, e1, e2, g1, g2, hm1, hj, hr⟩ := hs
    exact ⟨a, a1, n, n1, e1, e2, g1, hq a1 _ hm1 g2, by omega, hj, ih _ _ hr⟩

theorem derefNode_of_get {T : Type} {h : List (Cell T)} {a : Nat} {n : nodeCell T}
    (e : h[a]? = some (Cell.node n)) : derefNode (some a) h = some (n, h) := by
  show (load a >>= fun c => _) h = _
  rw [andThen_of_eq (load_of_get e)]
  rfl

theorem derefSlice_of_get {T : Type} {h : List (Cell T)} {a : Nat} {d : List T}
    (e : h[a]? = some (Cell.slice d)) : derefSlice a h = some (d, h) := by
  show (load a >>= fun c => _) h = _
  rw [andThen_of_eq (load_of_get e)]
  rfl

theorem derefVector_of_get {T : Type} {h : List (Cell T)} {a : Nat} {s : vectorCell}
    (e : h[a]? = some (Cell.vector s)) : derefVector a h = some (s, h) := by
  show (load a >>= fun c => _) h = _
  rw [andThen_of_eq (load_of_get e)]
  rfl

theorem modifyNode_of_get {T : Type} {h : List (Cell T)} {a : Nat} {n : nodeCell T}
    (e : h[a]? = some (Cell.node n)) (f : nodeCell T → nodeCell T) :
    modifyNode a f h = some ((), h.set a (Cell.node (f n))) := by
  unfold modifyNode
  rw [andThen_of_eq (derefNode_of_get e)]
  exact store_of_lt (lt_of_get e) _

theorem cloneInternal_of_get {T : Type} [Inhabited T] {h : List (Cell T)} {a : Nat}
    {n : nodeCell T} (e : h[a]? = some (Cell.node n)) :
    cloneInternal (some a) h =
      some (h.length, h ++ [Cell.node { children := n.children, values := fun _ => default }]) := by
  unfold cloneInternal
  have e1 : (alloc (Cell.node zeroNode) : M (Cell T) Nat) h =
    some (h.length, h ++ [Cell.node zeroNode]) := rfl
  rw [andThen_of_eq e1]
  have e2 : (h ++ [Cell.node zeroNode])[a]? = some (Cell.node n) :=
    get_extend (List.prefix_append _ _) e
  rw [andThen_of_eq (derefNode_of_get e2)]
  rw [andThen_of_eq (modifyNode_of_get (get_concat h _) _)]
  rw [set_concat]
  rfl

theorem cloneLeaf_of_get {T : Type} [Inhabited T] {h : List (Cell T)} {a : Nat}
    {n : nodeCell T} (e : h[a]? = some (Cell.node n)) :
    cloneLeaf (some a) h =
      some (h.length, h ++ [Cell.node { children := fun _ => none, values := n.values }]) := by
  unfold cloneLeaf
  have e1 : (alloc (Cell.node zeroNode) : M (Cell T) Nat) h =
    some (h.length, h ++ [Cell.node zeroNode]) := rfl
  rw [andThen_of_eq e1]
  have e2 : (h ++ [Cell.node zeroNode])[a]? = some (Cell.node n) :=
    get_extend (List.prefix_append _ _) e
  rw [andThen_of_eq (derefNode_of_get e2)]
  rw [andThen_of_eq (modifyNode_of_get (get_concat h _) _)]
  rw [set_concat]
  rfl

theorem makeSlice_eq {T : Type} [Inhabited T] (n : Nat) (h : List (Cell T)) :
    makeSlice n h = some (h.length, h ++ [Cell.slice (List.replicate n default)]) := rfl

theorem alloc_eq {T : Type} (c : Cell T) (h : List (Cell T)) :
    (alloc c : M (Cell T) Nat) h = some (h.length, h ++ [c]) := rfl

theorem copySlice_fresh {T : Type} (h : List (Cell T)) (d src : List T) :
    copySlice h.length src (h ++ [Cell.slice d]) =
      some ((), h ++ [Cell.slice (src.take d.length ++ d.drop src.length)]) := by
  unfold copySlice
  rw [andThen_of_eq (derefSlice_of_get (get_concat _ _))]
  rw [store_of_lt (by simp), set_concat]

theorem setElem_fresh {T : Type} (h : List (Cell T)) (d : List T) (j : Nat) (x : T)
    (hj : j < d.length) :
    setElem h.length j x (h ++ [Cell.slice d]) = some ((), h ++ [Cell.slice (d.set j x)]) := by
  unfold setElem
  rw [andThen_of_eq (derefSlice_of_get (get_concat _ _))]
  rw [if_pos hj, store_of_lt (by simp), set_concat]

theorem tailOffset_cell {T : Type} {s : vectorCell} {V : Vector T} (hl : s.len = V.len) :
    tailOffset s = V.tailOffset := by
  unfold tailOffset Vector.tailOffset
  rw [hl]

theorem copy_all {T : Type} [Inhabited T] (t : List T) :
    t.take (List.replicate t.length (default : T)).length ++
      (List.replicate t.length (default : T)).drop t.length = t := by
  simp

theorem copy_grow {T : Type} [Inhabited T] (t : List T) (x : T) :
    (t.take (List.replicate (t.length + 1) (default : T)).length ++
      (List.replicate (t.length + 1) (default : T)).drop t.length).set t.length x = t ++ [x] := by
  simp [List.replicate_succ', List.take_of_length_le]

theorem copy_shrink {T : Type} [Inhabited T] (t : List T) :
    (t.take (t.length - 1)).take (List.replicate (t.length - 1) (default : T)).length ++
      (List.replicate (t.length - 1) (default : T)).drop (t.take (t.length - 1)).length =
      t.take (t.length - 1) := by
  simp

theorem setInNode_sim {T : Type} [Inhabited T] (i : Nat) (x : T) (h0 : List (Cell T)) :
    ∀ (d fuel : Nat) (h : List (Cell T)) (p : Option Nat) (t t' : vectorNode T),
      h0 <+: h → NodeAt h0 p t → array.setInNode t (5 * (d + 1)) i x = some t' → d < fuel →
      ∃ p1 h1, setInNode fuel p (5 * (d + 1)) i x h = some (p1, h1) ∧ h <+: h1 ∧
        h1.length = h.length + (d + 2) ∧
        NodeIn (fun a => a < h0.length ∨ h.length ≤ a) h1 p1 t' ∧
        pathShared h0 h1 h.length i x d p p1 := by
  intro d
  induction d with
  | zero =>
    intro fuel h p t t' hp hn e hf
    obtain ⟨fuel, rfl⟩ : ∃ f, fuel = f + 1 := ⟨fuel - 1, by omega⟩
    cases hn with
    | nil => simp [array.setInNode] at e
    | mk a n c vals _ hc hv hch =>
      unfold array.setInNode at e
      have h5 : 5 * (0 + 1) = shiftStep := rfl
      simp only [h5, if_true] at e
      have hl := hch (slot (i >>> shiftStep))
      generalize hq : n.children (slot (i >>> shiftStep)) = q at hl
      generalize hcs : c (slot (i >>> shiftStep)) = tc at hl e
      cases hl with
      | nil => simp [array.cloneLeaf] at e
      | mk b l lc lv _ hb hlv hlch =>
        simp only [array.cloneLeaf, Option.some.injEq] at e
        subst e
        have ea : h[a]? = some (Cell.node n) := get_extend hp hc
        have eb : h[b]? = some (Cell.node l) := get_extend hp hb
        unfold setInNode
        rw [if_pos h5]
        rw [andThen_of_eq (cloneInternal_of_get ea)]
        rw [andThen_of_eq (derefNode_of_get (get_extend (List.prefix_append _ _) ea))]
        rw [hq]
        rw [andThen_of_eq (cloneLeaf_of_get (get_extend (List.prefix_append _ _) eb))]
        rw [andThen_of_eq (modifyNode_of_get (get_concat _ _) _)]
        rw [set_concat]
        rw [andThen_of_eq (modifyNode_of_get (get_concat_append _ _ _) _)]
        rw [set_concat_append]
        refine ⟨_, _, rfl, ?_, ?_, ?_, ?_⟩
        · rw [List.append_assoc]
          exact List.prefix_append _ _
        · simp
        · refine NodeIn.mk _ _ _ _ (Or.inr (le_refl _)) (get_concat_append _ _ _) rfl ?_
          intro j
          by_cases hj : j = slot (i >>> shiftStep)
          · subst hj
            simp only [Function.update_same]
            refine NodeIn.mk _
              { children := fun _ => none, values := Function.update l.values (slot i) x } _ _
              (Or.inr (by simp)) (get_concat_succ _ _ _ _ (by simp)) (by rw [hlv]) ?_
            intro _
            exact NodeIn.nil
          · simp only [Function.update_noteq hj]
            refine nodeIn_frame ?_ (hch j)
            intro a' _ hl'
            refine ⟨Or.inl hl', ?_⟩
            rw [List.append_assoc]
            exact get_prefix_lt (hp.trans (List.prefix_append _ _)) hl'
        · refine ⟨a, h.length, n, _, rfl, rfl, hc, get_concat_append _ _ _, le_refl _, ?_,
            b, h.length + 1, l,
            { children := fun _ => none, values := Function.update l.values (slot i) x },
            hq, ?_, hb, get_concat_succ _ _ _ _ rfl, Nat.le_succ _, rfl⟩
          · intro j hj
            exact Function.update_noteq hj _ _
          · simp
  | succ d ih =>
    intro fuel h p t t' hp hn e hf
    obtain ⟨fuel, rfl⟩ : ∃ f, fuel = f + 1 := ⟨fuel - 1, by omega⟩
    cases hn with
    | nil => simp [array.setInNode] at e
    | mk a n c vals _ hc hv hch =>
      unfold array.setInNode at e
      have h5 : ¬ 5 * (d + 1 + 1) = shiftStep := by show ¬ 5 * (d + 1 + 1) = 5; omega
      have h6 : 5 * (d + 1 + 1) - shiftStep = 5 * (d + 1) := by
        show 5 * (d + 1 + 1) - 5 = _; omega
      simp only [h5, if_false, h6] at e
      cases hs : array.setInNode (c (slot (i >>> (5 * (d + 1 + 1))))) (5 * (d + 1)) i x with
      | none => rw [hs] at e; cases e
      | some c1 =>
        rw [hs] at e
        simp only [Option.some.injEq] at e
        subst e
        have ea : h[a]? = some (Cell.node n) := get_extend hp hc
        unfold setInNode
        rw [if_neg h5, h6]
        rw [andThen_of_eq (cloneInternal_of_get ea)]
        rw [andThen_of_eq (derefNode_of_get (get_extend (List.prefix_append _ _) ea))]
        obtain ⟨pc, h2, e2, hp2, hl2, hn2, hs2⟩ :=
          ih fuel (h ++ [Cell.node { children := n.children, values := fun _ => default }])
            _ _ _ (hp.trans (List.prefix_append _ _)) (hch _) hs (by omega)
        rw [andThen_of_eq e2]
        have e3 : h2[h.length]? =
            some (Cell.node { children := n.children, values := fun _ => default }) :=
          get_extend hp2 (get_concat _ _)
        rw [andThen_of_eq (modifyNode_of_get e3 _)]
        have hlt : h.length < h2.length := lt_of_get e3
        have hph : h <+: h2 := (List.prefix_append _ _).trans hp2
        have h0l : h0.length ≤ h.length := length_le_extend hp
        refine ⟨_, _, rfl, prefix_set hph (le_refl _) _, ?_, ?_, ?_⟩
        · rw [List.length_set, hl2]
          simp
          omega
        · refine NodeIn.mk _ _ _ _ (Or.inr (le_refl _)) (List.getElem?_set_self hlt) rfl ?_
          intro j
          by_cases hj : j = slot (i >>> (5 * (d + 1 + 1)))
          · subst hj
            simp only [Function.update_same]
            refine nodeIn_frame ?_ hn2
            intro a' ha' _
            have hne : h.length ≠ a' := by
              simp only [List.length_append, List.length_singleton] at ha'
              omega
            refine ⟨?_, List.getElem?_set_ne hne⟩
            simp only [List.length_append, List.length_singleton] at ha'
            omega
          · simp only [Function.update_noteq hj]
            refine nodeIn_frame ?_ (hch j)
            intro a' _ hl'
            refine ⟨Or.inl hl', ?_⟩
            rw [List.getElem?_set_ne (by omega)]
            exact get_prefix_lt (hp.trans hph) hl'
        · refine ⟨a, h.length, n, _, rfl, rfl, hc, List.getElem?_set_self hlt, le_refl _, ?_, ?_⟩
          · intro j hj
            exact Function.update_noteq hj _ _
          · simp only [Function.update_same]
            refine pathShared_frame ?_ ?_ d _ _ hs2
            · simp
            · intro a' c' ha' hc'
              simp only [List.length_append, List.length_singleton] at ha'
              rw [List.getElem?_set_ne (by omega)]
              exact hc'

theorem set_tree_sim {T : Type} [Inhabited T] {h : List (Cell T)} {v : Nat} {s : vectorCell}
    {V : Vector T} {r : vectorNode T} {d : Nat} (i : Int) (x : T)
    (hv : h[v]? = some (Cell.vector s)) (hroot : NodeAt h s.root V.root)
    (hlen : s.len = V.len) (hshift : s.shift = V.shift) (hs : V.shift = 5 * (d + 1))
    (hr : ¬ (i < 0 ∨ i ≥ (V.len : Int))) (ht : ¬ i.toNat ≥ V.tailOffset)
    (e : array.setInNode V.root V.shift i.toNat x = some r) :
    ∃ p1 h1, Set v i x h = some (h1.length, h1 ++ [Cell.vector
        { root := p1, tail := s.tail, len := s.len, shift := s.shift }]) ∧
      h <+: h1 ∧ h1.length = h.length + (d + 2) ∧ NodeAt h1 p1 r ∧
      pathShared h h1 h.length i.toNat x d s.root p1 := by
  rw [hs] at e
  obtain ⟨p1, h1, e1, hp1, hl1, hn1, hs1⟩ :=
    setInNode_sim i.toNat x h d s.shift h s.root V.root r (List.prefix_refl _) hroot e
      (by rw [hshift, hs]; omega)
  refine ⟨p1, h1, ?_, hp1, hl1, nodeAt_of_nodeIn hn1, hs1⟩
  unfold Set
  rw [andThen_of_eq (derefVector_of_get hv)]
  rw [if_neg (by rw [hlen]; exact hr), tailOffset_cell hlen, if_neg ht]
  have e2 : setInNode s.shift s.root s.shift i.toNat x h = some (p1, h1) := by
    rw [hshift, hs, ← hs, ← hshift]
    rw [hshift, hs] at e1 ⊢
    exact e1
  rw [andThen_of_eq e2]
  rfl

theorem vecAt_alloc {T : Type} {h : List (Cell T)} {s : vectorCell} {V : Vector T}
    (hroot : NodeAt h s.root V.root) (htail : h[s.tail]? = some (Cell.slice V.tail))
    (hlen : s.len = V.len) (hshift : s.shift = V.shift) :
    VecAt (h ++ [Cell.vector s]) h.length V :=
  ⟨s, get_concat _ _, nodeAt_extend (List.prefix_append _ _) hroot,
    get_extend (List.prefix_append _ _) htail, hlen, hshift⟩

theorem set_sim {T : Type} [Inhabited T] {h : List (Cell T)} {v : Nat} {V W : Vector T}
    {k : Nat} (hk : 1 ≤ k) (hs : V.shift = 5 * k) (hrep : VecAt h v V) (i : Int) (x : T)
    (e : V.Set i x = some W) : ∃ w h1, Set v i x h = some (w, h1) ∧ VecAt h1 w W := by
  obtain ⟨s, hv, hroot, htail, hlen, hshift⟩ := hrep
  unfold Vector.Set at e
  by_cases hr : i < 0 ∨ i ≥ (V.len : Int)
  · rw [if_pos hr] at e
    cases e
    refine ⟨v, h, ?_, s, hv, hroot, htail, hlen, hshift⟩
    unfold Set
    rw [andThen_of_eq (derefVector_of_get hv), if_pos (by rw [hlen]; exact hr)]
    rfl
  · rw [if_neg hr] at e
    by_cases ht : i.toNat ≥ V.tailOffset
    · rw [if_pos ht] at e
      unfold setTail at e
      by_cases hj : i.toNat - V.tailOffset < V.tail.length
      · rw [if_pos hj] at e
        simp only [Option.some.injEq] at e
        subst e
        unfold Set
        rw [andThen_of_eq (derefVector_of_get hv)]
        rw [if_neg (by rw [hlen]; exact hr), tailOffset_cell hlen, if_pos ht]
        rw [andThen_of_eq (derefSlice_of_get htail)]
        rw [andThen_of_eq (makeSlice_eq _ _)]
        rw [andThen_of_eq (copySlice_fresh _ _ _)]
        rw [copy_all]
        rw [andThen_of_eq (setElem_fresh _ _ _ _ hj)]
        refine ⟨_, _, rfl, ?_⟩
        exact ⟨_, get_concat _ _,
          nodeAt_extend ((List.prefix_append _ _).trans (List.prefix_append _ _)) hroot,
          get_concat_append _ _ _, hlen, hshift⟩
      · rw [if_neg hj] at e
        cases e
    · rw [if_neg ht] at e
      cases hsn : array.setInNode V.root V.shift i.toNat x with
      | none => rw [hsn] at e; cases e
      | some r =>
        rw [hsn] at e
        simp only [Option.some.injEq] at e
        subst e
        obtain ⟨d, rfl⟩ : ∃ d, k = d + 1 := ⟨k - 1, by omega⟩
        obtain ⟨p1, h1, e1, hp1, _, hn1, _⟩ :=
          set_tree_sim i x hv hroot hlen hshift hs hr ht hsn
        refine ⟨_, _, e1, ?_⟩
        exact ⟨_, get_concat _ _, nodeAt_extend (List.prefix_append _ _) hn1,
          get_extend (hp1.trans (List.prefix_append _ _)) htail, hlen, hshift⟩

theorem nodeIn_nil {T : Type} {P : Nat → Prop} {h : List (Cell T)} {p : Option Nat}
    (hn : NodeIn P h p vectorNode.nil) : p = none := by
  cases hn
  rfl

theorem nodeIn_mk {T : Type} {P : Nat → Prop} {h : List (Cell T)} {p : Option Nat}
    {c : Fin 32 → vectorNode T} {vals : Fin 32 → T} (hn : NodeIn P h p (vectorNode.mk c vals)) :
    ∃ a n, p = some a ∧ P a ∧ h[a]? = some (Cell.node n) ∧ n.values = vals ∧
      ∀ j, NodeIn P h (n.children j) (c j) := by
  cases hn with
  | mk a n _ _ hp hc hv hch => exact ⟨a, n, rfl, hp, hc, hv, hch⟩

theorem nodeIn_single {T : Type} [Inhabited T] {Q : Nat → Prop} {h : List (Cell T)} {a : Nat}
    {p : Option Nat} {t : vectorNode T} (hq : Q a) (hc : h[a]? = some (singleCell p))
    (hn : NodeIn Q h p t) : NodeIn Q h (some a) (singleChild t) := by
  refine NodeIn.mk a _ _ _ hq hc rfl ?_
  intro j
  by_cases hj : j = 0
  · subst hj
    simp only [Function.update_same]
    exact hn
  · simp only [Function.update_noteq hj]
    exact NodeIn.nil

theorem newPath_sim {T : Type} [Inhabited T] :
    ∀ (d fuel : Nat) (P : Nat → Prop) (h : List (Cell T)) (lp : Option Nat)
      (leaf : vectorNode T), NodeIn P h lp leaf → d < fuel →
      ∃ p1 h1, newPath fuel (5 * (d + 1)) lp h = some (p1, h1) ∧ h <+: h1 ∧
        NodeIn (fun a => (P a ∧ a < h.length) ∨ h.length ≤ a) h1 p1
          (array.newPath (5 * (d + 1)) leaf) := by
  intro d
  induction d with
  | zero =>
    intro fuel P h lp leaf hn hf
    obtain ⟨fuel, rfl⟩ : ∃ f, fuel = f + 1 := ⟨fuel - 1, by omega⟩
    have h5 : 5 * (0 + 1) = shiftStep := rfl
    unfold newPath
    rw [if_pos h5, andThen_of_eq (alloc_eq _ _)]
    rw [andThen_of_eq (modifyNode_of_get (get_concat _ _) _), set_concat]
    refine ⟨_, _, rfl, List.prefix_append _ _, ?_⟩
    rw [array.newPath, if_pos (by rw [h5])]
    refine nodeIn_single (Or.inr (le_refl _)) (get_concat _ _) ?_
    refine nodeIn_frame ?_ hn
    intro a hp hl
    exact ⟨Or.inl ⟨hp, hl⟩, get_prefix_lt (List.prefix_append _ _) hl⟩
  | succ d ih =>
    intro fuel P h lp leaf hn hf
    obtain ⟨fuel, rfl⟩ : ∃ f, fuel = f + 1 := ⟨fuel - 1, by omega⟩
    have h5 : ¬ 5 * (d + 1 + 1) = shiftStep := by show ¬ 5 * (d + 1 + 1) = 5; omega
    have h5' : ¬ 5 * (d + 1 + 1) ≤ shiftStep := by show ¬ 5 * (d + 1 + 1) ≤ 5; omega
    have h6 : 5 * (d + 1 + 1) - shiftStep = 5 * (d + 1) := by
      show 5 * (d + 1 + 1) - 5 = _; omega
    unfold newPath
    rw [if_neg h5, h6, andThen_of_eq (alloc_eq _ _)]
    have hn' : NodeIn (fun a => P a ∧ a < h.length) (h ++ [Cell.node zeroNode]) lp leaf := by
      refine nodeIn_frame ?_ hn
      intro a hp hl
      exact ⟨⟨hp, hl⟩, get_prefix_lt (List.prefix_append _ _) hl⟩
    obtain ⟨pc, h2, e2, hp2, hn2⟩ := ih fuel _ _ lp leaf hn' (by omega)
    rw [andThen_of_eq e2]
    have e3 : h2[h.length]? = some (Cell.node zeroNode) := get_extend hp2 (get_concat _ _)
    rw [andThen_of_eq (modifyNode_of_get e3 _)]
    have hlt : h.length < h2.length := lt_of_get e3
    have hph : h <+: h2 := (List.prefix_append _ _).trans hp2
    refine ⟨_, _, rfl, prefix_set hph (le_refl _) _, ?_⟩
    rw [array.newPath, if_neg h5', h6]
    refine nodeIn_single (Or.inr (le_refl _)) (List.getElem?_set_self hlt) ?_
    refine nodeIn_frame ?_ hn2
    intro a ha _
    simp only [List.length_append, List.length_singleton] at ha
    rcases ha with ⟨⟨hp, hl⟩, _⟩ | hge
    · exact ⟨Or.inl ⟨hp, hl⟩, List.getElem?_set_ne (by omega)⟩
    · exact ⟨Or.inr (by omega), List.getElem?_set_ne (by omega)⟩

theorem link_child {T : Type} [Inhabited T] (n0 : Nat) (h h2 : List (Cell T)) (n : nodeCell T)
    (c : Fin 32 → vectorNode T) (sl : Fin 32) (pc : Option Nat) (tc : vectorNode T)
    (hn0 : n0 ≤ h.length) (hch : ∀ j, NodeIn (fun a => a < n0) h (n.children j) (c j))
    (hp2 : (h ++ [Cell.node { children := n.children, values := fun _ => default }]) <+: h2)
    (hn2 : NodeIn (fun a => a < n0 ∨ h.length + 1 ≤ a) h2 pc tc) :
    ∃ h1, modifyNode h.length
        (fun d1 : nodeCell T => { d1 with children := Function.update d1.children sl pc }) h2 =
          some ((), h1) ∧ h <+: h1 ∧
      NodeIn (fun a => a < n0 ∨ h.length ≤ a) h1 (some h.length)
        (vectorNode.mk (Function.update c sl tc) noValues) := by
  have e3 : h2[h.length]? =
      some (Cell.node { children := n.children, values := fun _ => default }) :=
    get_extend hp2 (get_concat _ _)
  have hlt : h.length < h2.length := lt_of_get e3
  have hph : h <+: h2 := (List.prefix_append _ _).trans hp2
  refine ⟨_, modifyNode_of_get e3 _, prefix_set hph (le_refl _) _, ?_⟩
  refine NodeIn.mk _ _ _ _ (Or.inr (le_refl _)) (List.getElem?_set_self hlt) rfl ?_
  intro j
  by_cases hj : j = sl
  · subst hj
    simp only [Function.update_same]
    refine nodeIn_frame ?_ hn2
    intro a' ha' _
    rcases ha' with hl | hge
    · exact ⟨Or.inl hl, List.getElem?_set_ne (by omega)⟩
    · exact ⟨Or.inr (by omega), List.getElem?_set_ne (by omega)⟩
  · simp only [Function.update_noteq hj]
    refine nodeIn_frame ?_ (hch j)
    intro a' ha' hl'
    refine ⟨Or.inl ha', ?_⟩
    rw [List.getElem?_set_ne (by omega)]
    exact get_prefix_lt hph hl'

theorem pushTail_sim {T : Type} [Inhabited T] (len n0 : Nat) :
    ∀ (d fuel : Nat) (h : List (Cell T)) (parent tp : Option Nat) (t tn t' : vectorNode T),
      n0 ≤ h.length → NodeIn (fun a => a < n0) h parent t → NodeIn (fun a => a < n0) h tp tn →
      array.pushTail len (5 * (d + 1)) t tn = some t' → d < fuel →
      ∃ p1 h1, pushTail len fuel (5 * (d + 1)) parent tp h = some (p1, h1) ∧ h <+: h1 ∧
        NodeIn (fun a => a < n0 ∨ h.length ≤ a) h1 p1 t' := by
  intro d
  induction d with
  | zero =>
    intro fuel h parent tp t tn t' hn0 hn htn e hf
    obtain ⟨fuel, rfl⟩ : ∃ f, fuel = f + 1 := ⟨fuel - 1, by omega⟩
    have h5 : 5 * (0 + 1) = shiftStep := rfl
    cases t with
    | nil => simp [array.pushTail] at e
    | mk c vals =>
      obtain ⟨a, n, rfl, _, hc, _, hch⟩ := nodeIn_mk hn
      unfold array.pushTail at e
      simp only [h5, if_true, Option.some.injEq] at e
      subst e
      unfold pushTail
      rw [h5]
      rw [andThen_of_eq (cloneInternal_of_get hc), if_pos rfl]
      rw [andThen_of_eq (modifyNode_of_get (get_concat _ _) _), set_concat]
      refine ⟨_, _, rfl, List.prefix_append _ _, ?_⟩
      refine NodeIn.mk _ _ _ _ (Or.inr (le_refl _)) (get_concat _ _) rfl ?_
      intro j
      by_cases hj : j = slot ((len - 1) >>> shiftStep)
      · subst hj
        simp only [Function.update_same]
        refine nodeIn_frame ?_ htn
        intro a' ha' hl'
        exact ⟨Or.inl ha', get_prefix_lt (List.prefix_append _ _) hl'⟩
      · simp only [Function.update_noteq hj]
        refine nodeIn_frame ?_ (hch j)
        intro a' ha' hl'
        exact ⟨Or.inl ha', get_prefix_lt (List.prefix_append _ _) hl'⟩
  | succ d ih =>
    intro fuel h parent tp t tn t' hn0 hn htn e hf
    obtain ⟨fuel, rfl⟩ : ∃ f, fuel = f + 1 := ⟨fuel - 1, by omega⟩
    have h5 : ¬ 5 * (d + 1 + 1) = shiftStep := by show ¬ 5 * (d + 1 + 1) = 5; omega
    have h6 : 5 * (d + 1 + 1) - shiftStep = 5 * (d + 1) := by
      show 5 * (d + 1 + 1) - 5 = _; omega
    cases t with
    | nil => simp [array.pushTail] at e
    | mk c vals =>
      obtain ⟨a, n, rfl, _, hc, _, hch⟩ := nodeIn_mk hn
      unfold array.pushTail at e
      simp only [h5, if_false, h6] at e
      unfold pushTail
      rw [andThen_of_eq (cloneInternal_of_get hc), if_neg h5, h6]
      rw [andThen_of_eq (derefNode_of_get (get_extend (List.prefix_append _ _) hc))]
      have hfr : ∀ {q : Option Nat} {u : vectorNode T}, NodeIn (fun a => a < n0) h q u →
          NodeIn (fun a => a < n0)
            (h ++ [Cell.node { children := n.children, values := fun _ => default }]) q u := by
        intro q u hq
        refine nodeIn_frame ?_ hq
        intro a' ha' hl'
        exact ⟨ha', get_prefix_lt (List.prefix_append _ _) hl'⟩
      cases hcs : c (slot ((len - 1) >>> (5 * (d + 1 + 1)))) with
      | nil =>
        have hq := hch (slot ((len - 1) >>> (5 * (d + 1 + 1))))
        rw [hcs] at hq e
        have hq' := nodeIn_nil hq
        simp only [vectorNode.isNil, if_true, Option.some.injEq] at e
        subst e
        rw [hq']
        obtain ⟨pc, h2, e2, hp2, hn2⟩ :=
          newPath_sim d (5 * (d + 1)) (fun a => a < n0) _ tp tn (hfr htn) (by omega)
        show ∃ p1 h1, (newPath (5 * (d + 1)) (5 * (d + 1)) tp >>= _) _ = some (p1, h1) ∧ _
        rw [andThen_of_eq e2]
        have hn2' : NodeIn (fun a => a < n0 ∨ h.length + 1 ≤ a) h2 pc
            (array.newPath (5 * (d + 1)) tn) := by
          refine nodeIn_frame ?_ hn2
          intro a' ha' _
          simp only [List.length_append, List.length_singleton] at ha'
          rcases ha' with ⟨hl, _⟩ | hge
          · exact ⟨Or.inl hl, rfl⟩
          · exact ⟨Or.inr hge, rfl⟩
        obtain ⟨h1, em, hp1, hn1⟩ := link_child n0 h h2 n c _ pc _ hn0 hch hp2 hn2'
        rw [andThen_of_eq em]
        exact ⟨_, _, rfl, hp1, hn1⟩
      | mk cc cv =>
        have hq := hch (slot ((len - 1) >>> (5 * (d + 1 + 1))))
        rw [hcs] at hq e
        obtain ⟨b, nb, hb, _, _, _, _⟩ := nodeIn_mk hq
        simp only [vectorNode.isNil, Bool.false_eq_true, if_false] at e
        cases hpt : array.pushTail len (5 * (d + 1)) (vectorNode.mk cc cv) tn with
        | none => rw [hpt] at e; cases e
        | some c1 =>
          rw [hpt] at e
          simp only [Option.some.injEq] at e
          subst e
          rw [hb]
          rw [hb] at hq
          obtain ⟨pc, h2, e2, hp2, hn2⟩ :=
            ih fuel _ (some b) tp _ tn c1 (by simp; omega) (hfr hq) (hfr htn) hpt (by omega)
          show ∃ p1 h1, (pushTail len fuel (5 * (d + 1)) (some b) tp >>= _) _ = some (p1, h1) ∧ _
          rw [andThen_of_eq e2]
          have hn2' : NodeIn (fun a => a < n0 ∨ h.length + 1 ≤ a) h2 pc c1 := by
            refine nodeIn_frame ?_ hn2
            intro a' ha' _
            simp only [List.length_append, List.length_singleton] at ha'
            exact ⟨ha', rfl⟩
          obtain ⟨h1, em, hp1, hn1⟩ := link_child n0 h h2 n c _ pc _ hn0 hch hp2 hn2'
          rw [andThen_of_eq em]
          exact ⟨_, _, rfl, hp1, hn1⟩

theorem nodeIn_tailCell {T : Type} [Inhabited T] {Q : Nat → Prop} {h : List (Cell T)} {a : Nat}
    (t : List T) (hq : Q a) (hc : h[a]? = some (tailCell t)) :
    NodeIn Q h (some a) (tailNode t) :=
  NodeIn.mk a _ _ _ hq hc rfl (fun _ => NodeIn.nil)

theorem nodeAt_lt {T : Type} {h h1 : List (Cell T)} (hp : h <+: h1) {p : Option Nat}
    {t : vectorNode T} (hn : NodeAt h p t) : NodeIn (fun a => a < h.length) h1 p t :=
  nodeIn_frame (fun _ _ hl => ⟨hl, get_prefix_lt hp hl⟩) hn

theorem append_sim {T : Type} [Inhabited T] {h : List (Cell T)} {v : Nat} {V W : Vector T}
    {k : Nat} (hk : 1 ≤ k) (hs : V.shift = 5 * k) (hrep : VecAt h v V) (x : T)
    (e : V.Append x = some W) : ∃ w h1, Append v x h = some (w, h1) ∧ VecAt h1 w W := by
  obtain ⟨s, hv, hroot, htail, hlen, hshift⟩ := hrep
  unfold Vector.Append at e
  unfold Append
  rw [andThen_of_eq (derefVector_of_get hv), andThen_of_eq (derefSlice_of_get htail)]
  by_cases hl : V.tail.length < nodeWidth
  · rw [if_pos hl] at e ⊢
    simp only [Option.some.injEq] at e
    subst e
    rw [andThen_of_eq (makeSlice_eq _ _), andThen_of_eq (copySlice_fresh _ _ _)]
    rw [andThen_of_eq (setElem_fresh _ _ _ _ (by simp))]
    rw [copy_grow]
    refine ⟨_, _, rfl, ?_⟩
    exact ⟨_, get_concat _ _,
      nodeAt_extend ((List.prefix_append _ _).trans (List.prefix_append _ _)) hroot,
      get_concat_append _ _ _, by rw [← hlen], hshift⟩
  · rw [if_neg hl] at e ⊢
    rw [andThen_of_eq (alloc_eq _ _)]
    rw [andThen_of_eq (modifyNode_of_get (get_concat _ _) _), set_concat]
    have htc : (h ++ [Cell.node ((fun c : nodeCell T =>
        { c with values := fun i => V.tail.getD i.val (c.values i) }) zeroNode)]) =
        h ++ [tailCell V.tail] := rfl
    rw [htc]
    cases hr : V.root with
    | nil =>
      rw [hr] at e hroot
      simp only [Option.some.injEq] at e
      subst e
      rw [nodeIn_nil hroot]
      show ∃ w h1, ((alloc (Cell.node zeroNode) : M (Cell T) Nat) >>= _) _ = some (w, h1) ∧ _
      rw [andThen_of_eq (alloc_eq _ _)]
      rw [andThen_of_eq (modifyNode_of_get (get_concat _ _) _), set_concat]
      rw [andThen_of_eq (alloc_eq _ _)]
      refine ⟨_, _, rfl, ?_⟩
      refine ⟨_, get_concat _ _, ?_, get_concat_append _ _ _, by rw [← hlen], hshift⟩
      refine nodeIn_single trivial
        (get_extend (prefix_append2 _ _ _) (get_concat (h ++ [tailCell V.tail]) _)) ?_
      exact nodeIn_tailCell _ trivial (get_extend (prefix_append3 _ _ _ _) (get_concat _ _))
    | mk children values =>
      rw [hr] at e hroot
      obtain ⟨a, n, hsr, _, hc, _, hch⟩ := nodeIn_mk hroot
      rw [hsr] at hroot
      rw [hsr]
      obtain ⟨d, rfl⟩ : ∃ d, k = d + 1 := ⟨k - 1, by omega⟩
      have htn : NodeIn (fun a => a < h.length + 1) (h ++ [tailCell V.tail]) (some h.length)
          (tailNode V.tail) := nodeIn_tailCell _ (Nat.lt_succ_self _) (get_concat _ _)
      by_cases hg : (V.len >>> shiftStep) > (1 <<< V.shift)
      · simp only [hg, if_true, Option.some.injEq] at e
        subst e
        show ∃ w h1, ((if (s.len >>> shiftStep) > (1 <<< s.shift) then _ else _ :
          M (Cell T) Nat) _) = some (w, h1) ∧ _
        rw [if_pos (by rw [hlen, hshift]; exact hg)]
        rw [andThen_of_eq (alloc_eq _ _)]
        rw [andThen_of_eq (modifyNode_of_get (get_concat _ _) _), set_concat]
        have htn2 : NodeIn (fun a => a < h.length + 1)
            (h ++ [tailCell V.tail] ++ [Cell.node ((fun c : nodeCell T =>
              { c with children := Function.update c.children 0 (some a) }) zeroNode)])
            (some h.length) (tailNode V.tail) :=
          nodeIn_tailCell _ (Nat.lt_succ_self _)
            (get_extend (List.prefix_append _ _) (get_concat _ _))
        obtain ⟨pc, h3, e3, hp3, hn3⟩ :=
          newPath_sim d s.shift _ _ _ _ htn2 (by rw [hshift, hs]; omega)
        have e3' := e3
        rw [← hs, ← hshift] at e3'
        rw [andThen_of_eq e3']
        rw [andThen_of_eq (modifyNode_of_get (get_extend hp3 (get_concat _ _)) _)]
        rw [andThen_of_eq (alloc_eq _ _)]
        refine ⟨_, _, rfl, ?_⟩
        have hA := get_extend hp3 (get_concat (h ++ [tailCell V.tail]) _)
        have hlt := lt_of_get hA
        have hph : h <+: h3 := (prefix_append2 _ _ _).trans hp3
        refine ⟨_, get_concat _ _, ?_, get_concat_append _ _ _, by rw [← hlen], by rw [← hshift]⟩
        refine NodeIn.mk _ _ _ _ trivial
          (get_extend (prefix_append2 _ _ _) (List.getElem?_set_self hlt)) rfl ?_
        intro j
        by_cases hj1 : j = 1
        · subst hj1
          simp only [Function.update_same]
          rw [hs]
          refine nodeIn_frame ?_ hn3
          intro a' ha' hl'
          simp only [List.length_append, List.length_singleton] at ha'
          exact ⟨trivial, get_set_append _ _ _ _ _ _ (by simp; omega) hl'⟩
        · by_cases hj0 : j = 0
          · subst hj0
            simp only [Function.update_noteq hj1, Function.update_same]
            refine nodeIn_frame ?_ hroot
            intro a' _ hl'
            have hl3 : a' < h3.length := lt_of_lt_of_le hl' (length_le_extend hph)
            refine ⟨trivial, ?_⟩
            rw [get_set_append _ _ _ _ _ _ (by simp; omega) hl3]
            exact get_prefix_lt hph hl'
          · simp only [Function.update_noteq hj1, Function.update_noteq hj0]
            exact NodeIn.nil
      · simp only [hg, if_false] at e
        cases hpt : array.pushTail V.len V.shift (vectorNode.mk children values)
            (tailNode V.tail) with
        | none => rw [hpt] at e; cases e
        | some r =>
          rw [hpt] at e
          simp only [Option.some.injEq] at e
          subst e
          show ∃ w h1, ((if (s.len >>> shiftStep) > (1 <<< s.shift) then _ else _ :
            M (Cell T) Nat) _) = some (w, h1) ∧ _
          rw [if_neg (by rw [hlen, hshift]; exact hg)]
          have hpar : NodeIn (fun a => a < h.length + 1) (h ++ [tailCell V.tail]) (some a)
              (vectorNode.mk children values) := by
            refine nodeIn_frame ?_ hroot
            intro a' _ hl'
            exact ⟨Nat.lt_succ_of_lt hl', get_prefix_lt (List.prefix_append _ _) hl'⟩
          rw [hs] at hpt
          obtain ⟨p1, h2, e2, hp2, hn2⟩ :=
            pushTail_sim V.len (h.length + 1) d s.shift _ _ _ _ _ _ (by simp) hpar htn hpt
              (by rw [hshift, hs]; omega)
          rw [← hs, ← hshift, ← hlen] at e2
          rw [andThen_of_eq e2, andThen_of_eq (alloc_eq _ _)]
          refine ⟨_, _, rfl, ?_⟩
          exact ⟨_, get_concat _ _,
            nodeAt_extend (prefix_append2 _ _ _) (nodeAt_of_nodeIn hn2),
            get_concat_append _ _ _, by rw [← hlen], hshift⟩

theorem nodeIn_isNil {T : Type} {P : Nat → Prop} {h : List (Cell T)} {p : Option Nat}
    {t : vectorNode T} (hn : NodeIn P h p t) : p = none ↔ t.isNil = true := by
  cases hn with
  | nil => simp [vectorNode.isNil]
  | mk a n c vals _ _ _ _ => simp [vectorNode.isNil]

theorem descend_sim {T : Type} (index : Nat) :
    ∀ (d fuel : Nat) (h : List (Cell T)) (p : Option Nat) (t t2 : vectorNode T),
      NodeAt h p t → array.descend t (5 * (d + 1)) index = some t2 → d ≤ fuel →
      ∃ p2, descend fuel p (5 * (d + 1)) index h = some (p2, h) ∧ NodeAt h p2 t2 := by
  intro d
  induction d with
  | zero =>
    intro fuel h p t t2 hn e _
    have h5 : ¬ 5 * (0 + 1) > shiftStep := by show ¬ 5 * (0 + 1) > 5; omega
    have e2 : t2 = t := by
      cases t with
      | nil => simp only [array.descend, h5, if_false, Option.some.injEq] at e; exact e.symm
      | mk c vals => simp only [array.descend, h5, if_false, Option.some.injEq] at e; exact e.symm
    subst e2
    refine ⟨p, ?_, hn⟩
    cases fuel with
    | zero => unfold descend; rw [if_neg h5]; rfl
    | succ f => unfold descend; rw [if_neg h5]; rfl
  | succ d ih =>
    intro fuel h p t t2 hn e hf
    obtain ⟨fuel, rfl⟩ : ∃ f, fuel = f + 1 := ⟨fuel - 1, by omega⟩
    have h5 : 5 * (d + 1 + 1) > shiftStep := by show 5 * (d + 1 + 1) > 5; omega
    have h6 : 5 * (d + 1 + 1) - shiftStep = 5 * (d + 1) := by
      show 5 * (d + 1 + 1) - 5 = _; omega
    cases t with
    | nil => simp [array.descend, h5] at e
    | mk c vals =>
      obtain ⟨a, n, rfl, _, hc, _, hch⟩ := nodeIn_mk hn
      unfold array.descend at e
      rw [if_pos h5, h6] at e
      obtain ⟨p2, e2, hn2⟩ := ih fuel h _ _ t2 (hch _) e (by omega)
      refine ⟨p2, ?_, hn2⟩
      unfold descend
      rw [if_pos h5, h6, andThen_of_eq (derefNode_of_get hc)]
      exact e2

theorem getLeaf_sim {T : Type} {h : List (Cell T)} {v : Nat} {s : vectorCell} {V : Vector T}
    {d : Nat} (hv : h[v]? = some (Cell.vector s)) (hroot : NodeAt h s.root V.root)
    (hshift : s.shift = V.shift) (hs : V.shift = 5 * (d + 1)) (index : Nat)
    {t : vectorNode T} (e : V.getLeaf index = some t) :
    ∃ p, getLeaf v index h = some (p, h) ∧ NodeAt h p t := by
  unfold Vector.getLeaf at e
  cases hd : array.descend V.root V.shift index with
  | none => rw [hd] at e; cases e
  | some t2 =>
    rw [hd] at e
    cases t2 with
    | nil => cases e
    | mk c vals =>
      simp only [Option.some.injEq] at e
      subst e
      rw [hs] at hd
      obtain ⟨p2, e2, hn2⟩ := descend_sim index d s.shift h _ _ _ hroot hd
        (by rw [hshift, hs]; omega)
      obtain ⟨a, n, rfl, _, hc, _, hch⟩ := nodeIn_mk hn2
      refine ⟨_, ?_, hch _⟩
      unfold getLeaf
      rw [andThen_of_eq (derefVector_of_get hv)]
      rw [← hs, ← hshift] at e2
      rw [andThen_of_eq e2, andThen_of_eq (derefNode_of_get hc)]
      rfl

theorem copy_leaf {T : Type} [Inhabited T] (vals : Fin 32 → T) :
    (List.ofFn vals).take (List.replicate nodeWidth (default : T)).length ++
      (List.replicate nodeWidth (default : T)).drop (List.ofFn vals).length = List.ofFn vals := by
  simp [nodeWidth]

theorem leafValuesToSlice_sim {T : Type} [Inhabited T] {h : List (Cell T)} {v : Nat}
    {s : vectorCell} {V : Vector T} {d : Nat} (hv : h[v]? = some (Cell.vector s))
    (hroot : NodeAt h s.root V.root) (hshift : s.shift = V.shift) (hs : V.shift = 5 * (d + 1))
    (index : Nat) {l : List T} (e : V.leafValuesToSlice index = some l) :
    leafValuesToSlice v index h = some (h.length, h ++ [Cell.slice l]) := by
  unfold Vector.leafValuesToSlice at e
  cases hg : V.getLeaf index with
  | none => rw [hg] at e; cases e
  | some t =>
    rw [hg] at e
    cases t with
    | nil => cases e
    | mk c vals =>
      simp only [Option.some.injEq] at e
      subst e
      obtain ⟨p, e1, hn⟩ := getLeaf_sim hv hroot hshift hs index hg
      obtain ⟨a, n, rfl, _, hc, hvals, _⟩ := nodeIn_mk hn
      unfold leafValuesToSlice
      rw [andThen_of_eq e1, andThen_of_eq (makeSlice_eq _ _)]
      rw [andThen_of_eq (derefNode_of_get (get_extend (List.prefix_append _ _) hc))]
      rw [andThen_of_eq (copySlice_fresh _ _ _), hvals, copy_leaf]
      rfl

theorem clone_link {T : Type} [Inhabited T] {h0 h : List (Cell T)} {a : Nat} {n : nodeCell T}
    {c : Fin 32 → vectorNode T} (sl : Fin 32) (pc : Option Nat) (tc : vectorNode T)
    (hp : h0 <+: h) (hc : h0[a]? = some (Cell.node n))
    (hch : ∀ j, NodeAt h0 (n.children j) (c j)) (hn : NodeAt h pc tc) :
    ∃ h1, (cloneInternal (some a) >>= fun newNode =>
        modifyNode newNode
          (fun d1 : nodeCell T => { d1 with children := Function.update d1.children sl pc }) >>=
        fun _ => (pure (some newNode) : M (Cell T) (Option Nat))) h =
          some (some h.length, h1) ∧ h <+: h1 ∧
      NodeAt h1 (some h.length) (vectorNode.mk (Function.update c sl tc) noValues) := by
  rw [andThen_of_eq (cloneInternal_of_get (get_extend hp hc))]
  rw [andThen_of_eq (modifyNode_of_get (get_concat _ _) _), set_concat]
  refine ⟨_, rfl, List.prefix_append _ _, ?_⟩
  refine NodeIn.mk _ _ _ _ trivial (get_concat _ _) rfl ?_
  intro j
  by_cases hj : j = sl
  · subst hj
    simp only [Function.update_same]
    exact nodeAt_extend (List.prefix_append _ _) hn
  · simp only [Function.update_noteq hj]
    exact nodeAt_extend (hp.trans (List.prefix_append _ _)) (hch j)

theorem popTail_sim {T : Type} [Inhabited T] (len : Nat) :
    ∀ (d fuel : Nat) (h : List (Cell T)) (p : Option Nat) (t t' : vectorNode T),
      NodeAt h p t → array.popTail len (5 * (d + 1)) t = some t' → d < fuel →
      ∃ p1 h1, popTail len fuel (5 * (d + 1)) p h = some (p1, h1) ∧ h <+: h1 ∧
        NodeAt h1 p1 t' := by
  intro d
  induction d with
  | zero =>
    intro fuel h p t t' hn e hf
    obtain ⟨fuel, rfl⟩ : ∃ f, fuel = f + 1 := ⟨fuel - 1, by omega⟩
    have h5 : ¬ 5 * (0 + 1) > shiftStep := by show ¬ 5 * (0 + 1) > 5; omega
    unfold popTail
    rw [if_neg h5]
    by_cases hz : slot ((len - 2) >>> (5 * (0 + 1))) = 0
    · rw [if_pos hz]
      have e2 : t' = vectorNode.nil := by
        cases t with
        | nil => simp only [array.popTail, h5, if_false, hz, if_true, Option.some.injEq] at e
                 exact e.symm
        | mk c vals =>
          simp only [array.popTail, h5, if_false, hz, if_true, Option.some.injEq] at e
          exact e.symm
      subst e2
      exact ⟨none, h, rfl, List.prefix_refl _, NodeIn.nil⟩
    · rw [if_neg hz]
      cases t with
      | nil => simp [array.popTail, h5, hz] at e
      | mk c vals =>
        simp only [array.popTail, h5, if_false, hz, Option.some.injEq] at e
        subst e
        obtain ⟨a, n, rfl, _, hc, _, hch⟩ := nodeIn_mk hn
        obtain ⟨h1, e1, hp1, hn1⟩ := clone_link (slot ((len - 2) >>> (5 * (0 + 1)))) none
          vectorNode.nil (List.prefix_refl h) hc hch NodeIn.nil
        exact ⟨_, _, e1, hp1, hn1⟩
  | succ d ih =>
    intro fuel h p t t' hn e hf
    obtain ⟨fuel, rfl⟩ : ∃ f, fuel = f + 1 := ⟨fuel - 1, by omega⟩
    have h5 : 5 * (d + 1 + 1) > shiftStep := by show 5 * (d + 1 + 1) > 5; omega
    have h6 : 5 * (d + 1 + 1) - shiftStep = 5 * (d + 1) := by
      show 5 * (d + 1 + 1) - 5 = _; omega
    cases t with
    | nil => simp [array.popTail, h5] at e
    | mk c vals =>
      obtain ⟨a, n, rfl, _, hc, _, hch⟩ := nodeIn_mk hn
      unfold array.popTail at e
      rw [if_pos h5, h6] at e
      cases hpt : array.popTail len (5 * (d + 1)) (c (slot ((len - 2) >>> (5 * (d + 1 + 1)))))
        with
      | none => rw [hpt] at e; cases e
      | some newChild =>
        rw [hpt] at e
        obtain ⟨pc, h2, e2, hp2, hn2⟩ := ih fuel h _ _ _ (hch _) hpt (by omega)
        unfold popTail
        rw [if_pos h5, h6, andThen_of_eq (derefNode_of_get hc), andThen_of_eq e2]
        have hiff := nodeIn_isNil hn2
        by_cases hcond : newChild.isNil = true ∧ slot ((len - 2) >>> (5 * (d + 1 + 1))) = 0
        · simp only [hcond, and_self, if_true, Option.some.injEq] at e
          subst e
          rw [if_pos ⟨hiff.mpr hcond.1, hcond.2⟩]
          exact ⟨none, h2, rfl, hp2, NodeIn.nil⟩
        · have hcond' : ¬ (pc = none ∧ slot ((len - 2) >>> (5 * (d + 1 + 1))) = 0) :=
            fun hh => hcond ⟨hiff.mp hh.1, hh.2⟩
          rw [if_neg hcond'] 
          simp only [hcond, if_false, Option.some.injEq] at e
          subst e
          obtain ⟨h1, e1, hp1, hn1⟩ := clone_link (slot ((len - 2) >>> (5 * (d + 1 + 1)))) pc
            newChild hp2 hc hch hn2
          exact ⟨_, _, e1, hp2.trans hp1, hn1⟩

theorem newVector_eq {T : Type} (h : List (Cell T)) :
    NewVector h = some (h.length + 1, h ++ [Cell.slice []] ++
      [Cell.vector { root := none, tail := h.length, len := 0, shift := shiftStep }]) := by
  unfold NewVector
  rw [andThen_of_eq (alloc_eq _ _)]
  show some (_, _) = _
  simp

theorem vecAt_new {T : Type} (h : List (Cell T)) :
    VecAt (h ++ [Cell.slice []] ++
      [Cell.vector { root := none, tail := h.length, len := 0, shift := shiftStep }])
      (h.length + 1) (array.NewVector : Vector T) :=
  ⟨_, get_concat_succ _ _ _ _ rfl, NodeIn.nil, get_concat_append _ _ _, rfl, rfl⟩

theorem pop_sim {T : Type} [Inhabited T] {h : List (Cell T)} {v : Nat} {V W : Vector T}
    {k : Nat} {y : T} {b : Bool} (hk : 1 ≤ k) (hs : V.shift = 5 * k) (hrep : VecAt h v V)
    (e : V.Pop = some (W, y, b)) :
    ∃ w h1, Pop v h = some ((w, y, b), h1) ∧ VecAt h1 w W := by
  have hrep0 := hrep
  obtain ⟨s, hv, hroot, htail, hlen, hshift⟩ := hrep
  unfold Vector.Pop at e
  unfold Pop
  rw [andThen_of_eq (derefVector_of_get hv)]
  by_cases h0 : V.len = 0
  · rw [if_pos h0] at e
    simp only [Option.some.injEq, Prod.mk.injEq] at e
    obtain ⟨rfl, rfl, rfl⟩ := e
    rw [if_pos (by rw [hlen]; exact h0)]
    exact ⟨v, h, rfl, hrep0⟩
  · rw [if_neg h0] at e
    rw [if_neg (by rw [hlen]; exact h0), andThen_of_eq (derefSlice_of_get htail)]
    by_cases h1 : V.len = 1
    · rw [if_pos h1] at e
      rw [if_pos (by rw [hlen]; exact h1)]
      cases ht : V.tail[0]? with
      | none => rw [ht] at e; cases e
      | some value =>
        rw [ht] at e
        simp only [Option.some.injEq, Prod.mk.injEq] at e
        obtain ⟨rfl, rfl, rfl⟩ := e
        show ∃ w h1, (NewVector >>= _) h = some ((w, value, true), h1) ∧ _
        rw [andThen_of_eq (newVector_eq h)]
        exact ⟨_, _, rfl, vecAt_new h⟩
    · rw [if_neg h1] at e
      rw [if_neg (by rw [hlen]; exact h1)]
      by_cases h2 : V.tail.length > 1
      · rw [if_pos h2] at e ⊢
        cases ht : V.tail[V.tail.length - 1]? with
        | none => rw [ht] at e; cases e
        | some value =>
          rw [ht] at e
          simp only [Option.some.injEq, Prod.mk.injEq] at e
          obtain ⟨rfl, rfl, rfl⟩ := e
          rw [andThen_of_eq (makeSlice_eq _ _), andThen_of_eq (copySlice_fresh _ _ _)]
          rw [copy_shrink]
          show ∃ w h1, ((alloc _ : M (Cell T) Nat) >>= _) _ = some ((w, value, true), h1) ∧ _
          rw [andThen_of_eq (alloc_eq _ _)]
          refine ⟨_, _, rfl, ?_⟩
          exact ⟨_, get_concat _ _, nodeAt_extend (prefix_append2 _ _ _) hroot,
            get_concat_append _ _ _, by rw [← hlen], hshift⟩
      · rw [if_neg h2] at e ⊢
        obtain ⟨d, rfl⟩ : ∃ d, k = d + 1 := ⟨k - 1, by omega⟩
        cases ht : V.tail[0]? with
        | none => rw [ht] at e; simp at e
        | some value =>
          cases hlv : V.leafValuesToSlice (V.len - 2) with
          | none => rw [ht, hlv] at e; simp at e
          | some l =>
            cases hpt : array.popTail V.len V.shift V.root with
            | none => rw [ht, hlv, hpt] at e; simp at e
            | some newRoot =>
              rw [ht, hlv, hpt] at e
              simp only at e
              have e1 := leafValuesToSlice_sim hv hroot hshift hs (V.len - 2) hlv
              rw [← hlen] at e1
              show ∃ w h1, (leafValuesToSlice v (s.len - 2) >>= _) h =
                some ((w, y, b), h1) ∧ _
              rw [andThen_of_eq e1]
              rw [hs] at hpt
              obtain ⟨p1, h2, e2, hp2, hn2⟩ := popTail_sim V.len d s.shift
                (h ++ [Cell.slice l]) _ _ _ (nodeAt_extend (List.prefix_append _ _) hroot) hpt
                (by rw [hshift, hs]; omega)
              rw [← hs, ← hshift, ← hlen] at e2
              rw [andThen_of_eq e2]
              have htl : h2[h.length]? = some (Cell.slice l) :=
                get_extend hp2 (get_concat _ _)
              cases newRoot with
              | nil =>
                simp only [Option.some.injEq, Prod.mk.injEq] at e
                obtain ⟨rfl, rfl, rfl⟩ := e
                rw [nodeIn_nil hn2]
                show ∃ w h1, ((alloc _ : M (Cell T) Nat) >>= _) _ =
                  some ((w, value, true), h1) ∧ _
                rw [andThen_of_eq (alloc_eq _ _)]
                refine ⟨_, _, rfl, ?_⟩
                exact ⟨_, get_concat _ _, NodeIn.nil,
                  get_extend (List.prefix_append _ _) htl, by rw [← hlen], hshift⟩
              | mk c vals =>
                obtain ⟨r, n, rfl, _, hc, _, hch⟩ := nodeIn_mk hn2
                show ∃ w h1, (derefNode (some r) >>= _) _ = some ((w, y, b), h1) ∧ _
                rw [andThen_of_eq (derefNode_of_get hc)]
                have hiff := nodeIn_isNil (hch 1)
                by_cases hcond : (c 1).isNil = true ∧ V.shift > shiftStep
                · simp only [hcond, and_self, if_true, Option.some.injEq, Prod.mk.injEq] at e
                  obtain ⟨rfl, rfl, rfl⟩ := e
                  rw [if_pos ⟨hiff.mpr hcond.1, by rw [hshift]; exact hcond.2⟩]
                  rw [andThen_of_eq (alloc_eq _ _)]
                  refine ⟨_, _, rfl, ?_⟩
                  exact ⟨_, get_concat _ _, nodeAt_extend (List.prefix_append _ _) (hch 0),
                    get_extend (List.prefix_append _ _) htl, by rw [← hlen], by rw [← hshift]⟩
                · have hcond' : ¬ (n.children 1 = none ∧ s.shift > shiftStep) :=
                    fun hh => hcond ⟨hiff.mp hh.1, by rw [← hshift]; exact hh.2⟩
                  simp only [hcond, if_false, Option.some.injEq, Prod.mk.injEq] at e
                  obtain ⟨rfl, rfl, rfl⟩ := e
                  rw [if_neg hcond']
                  rw [andThen_of_eq (alloc_eq _ _)]
                  refine ⟨_, _, rfl, ?_⟩
                  exact ⟨_, get_concat _ _, nodeAt_extend (List.prefix_append _ _) hn2,
                    get_extend (List.prefix_append _ _) htl, by rw [← hlen], hshift⟩

theorem vecAt_extend {T : Type} {h h1 : List (Cell T)} (hp : h <+: h1) {v : Nat}
    {V : Vector T} (hr : VecAt h v V) : VecAt h1 v V := by
  obtain ⟨s, hv, hroot, htail, hlen, hshift⟩ := hr
  exact ⟨s, get_extend hp hv, nodeAt_extend hp hroot, get_extend hp htail, hlen, hshift⟩

theorem reached_vecAt {T : Type} [Inhabited T] {h : List (Cell T)} {v : Nat}
    (hr : Reached h v) : ∃ V : Vector T, array.Reachable V ∧ VecAt h v V := by
  induction hr with
  | new h h1 v e =>
    rw [newVector_eq] at e
    cases e
    exact ⟨array.NewVector, array.Reachable.new, vecAt_new h⟩
  | append h h1 v w x _ e ih =>
    obtain ⟨V, hV, hrep⟩ := ih
    obtain ⟨xs, k, hk⟩ := reachable_rep hV
    obtain ⟨W, eW, _⟩ := rep_append ⟨k, hk⟩ x
    obtain ⟨w', h1', e', hrep'⟩ := append_sim hk.hk hk.shift hrep x eW
    rw [e'] at e
    cases e
    exact ⟨W, array.Reachable.append x hV eW, hrep'⟩
  | set h h1 v w i x _ e ih =>
    obtain ⟨V, hV, hrep⟩ := ih
    obtain ⟨xs, k, hk⟩ := reachable_rep hV
    obtain ⟨W, _, eW, _⟩ := rep_set_any ⟨k, hk⟩ i x
    obtain ⟨w', h1', e', hrep'⟩ := set_sim hk.hk hk.shift hrep i x eW
    rw [e'] at e
    cases e
    exact ⟨W, array.Reachable.set i x hV eW, hrep'⟩
  | pop h h1 v w y b _ e ih =>
    obtain ⟨V, hV, hrep⟩ := ih
    obtain ⟨xs, k, hk⟩ := reachable_rep hV
    have hex : ∃ W y' b', V.Pop = some (W, y', b') := by
      rcases List.eq_nil_or_concat xs with hnil | ⟨ys, z, hy⟩
      · subst hnil
        exact ⟨_, _, _, rep_pop_empty ⟨k, hk⟩⟩
      · subst hy
        rw [List.concat_eq_append] at hk
        obtain ⟨W, eW, _⟩ := rep_pop ⟨k, hk⟩
        exact ⟨_, _, _, eW⟩
    obtain ⟨W, y', b', eW⟩ := hex
    obtain ⟨w', h1', e', hrep'⟩ := pop_sim hk.hk hk.shift hrep eW
    rw [e'] at e
    cases e
    exact ⟨W, array.Reachable.pop hV eW, hrep'⟩
  | later h h1 v _ hp ih =>
    obtain ⟨V, hV, hrep⟩ := ih
    exact ⟨V, hV, vecAt_extend hp hrep⟩

theorem reached_appendEach {T : Type} [Inhabited T] (xs : List T) :
    ∀ (h h1 : List (Cell T)) (v w : Nat), Reached h v → appendEach v xs h = some (w, h1) →
      Reached h1 w := by
  induction xs with
  | nil =>
    intro h h1 v w hr e
    have e2 : some (v, h) = some (w, h1) := e
    cases e2
    exact hr
  | cons x xs ih =>
    intro h h1 v w hr e
    unfold appendEach at e
    obtain ⟨u, h2, e1, e2⟩ := andThen_eq_some e
    exact ih h2 h1 u w (Reached.append h h2 v u x hr e1) e2

theorem cell_of_fields {T : Type} {h : List (Cell T)} {v : Nat} {r : Option Nat}
    {t l sh : Nat} (e : vectorFields h v = some (r, t, l, sh)) :
    h[v]? = some (Cell.vector { root := r, tail := t, len := l, shift := sh }) := by
  unfold vectorFields at e
  cases hc : h[v]? with
  | none => rw [hc] at e; cases e
  | some c =>
    rw [hc] at e
    cases c with
    | node n => cases e
    | slice d => cases e
    | vector s =>
      simp only [Option.some.injEq, Prod.mk.injEq] at e
      obtain ⟨rfl, rfl, rfl, rfl⟩ := e
      rfl

theorem sampleRun_eq : sampleRun = some (sampleVector, sampleHeap) := by
  have hsome : sampleRun.isSome = true := by decide!
  unfold sampleVector sampleHeap
  cases hr : sampleRun with
  | none => rw [hr] at hsome; cases hsome
  | some r => rfl

theorem sample_reached : Reached sampleHeap sampleVector := by
  have e := sampleRun_eq
  unfold sampleRun at e
  obtain ⟨v0, h0, e1, e2⟩ := andThen_eq_some e
  exact reached_appendEach _ _ _ _ _ (Reached.new [] h0 v0 e1) e2

/-- C36.  `Set` copies only the path, on the program with its memory made explicit.  For
the address `v` of a vector that exists in heap `h` and an index `i < tailOffset`, `Set i x`
returns; it leaves every cell of `h` as it is and allocates `shift/5 + 1` node cells and one
`Vector` struct, whose `tail` (the same array), `len` and `shift` are those of `v`.  From the
new root down to the new leaf, every node on the path of `i` is one of the new cells, and its
child pointers in the slots other than `(i >> level) & 31` are the pointers of the node of
`v` at that place: the sibling subtrees are shared, not copied.  The new leaf holds the
values of the old leaf with `x` in slot `i & 31`.  The vector `V` that `v` holds is reachable
and the vector that the result holds is `V.Set(i, x)`, which keeps `tail`, `Len` and `shift`
and has, at every level of the path, the same subtrees as `V` in the other slots. -/
theorem set_copies_only_the_path {T : Type} [Inhabited T] (h : List (Cell T)) (v : Nat)
    (hv : Reached h v) (s : vectorCell) (hs : h[v]? = some (Cell.vector s)) (i : Nat) (x : T)
    (hi : i < tailOffset s) :
    ∃ w h1 s1, Set v (i : Int) x h = some (w, h1) ∧ h <+: h1 ∧ h.length ≤ w ∧
      h1[w]? = some (Cell.vector s1) ∧
      s1.tail = s.tail ∧ s1.len = s.len ∧ s1.shift = s.shift ∧
      pathShared h h1 h.length i x (s.shift / 5 - 1) s.root s1.root ∧
      h1.length = h.length + (s.shift / 5 + 1) + 1 ∧
      ∃ V W : Vector T, array.Reachable V ∧ VecAt h v V ∧ V.Set (i : Int) x = some W ∧
        VecAt h1 w W ∧ W.tail = V.tail ∧ W.Len = V.Len ∧ W.shift = V.shift ∧
        pathCopied i x (V.shift / 5) V.root W.root := by
  obtain ⟨V, hV, hrep⟩ := reached_vecAt hv
  have hrep0 := hrep
  obtain ⟨s', hv', hroot, htail, hlen, hshift⟩ := hrep
  rw [hs] at hv'
  simp only [Option.some.injEq, Cell.vector.injEq] at hv'
  subst hv'
  obtain ⟨xs, k, hk⟩ := reachable_rep hV
  obtain ⟨d, rfl⟩ : ∃ d, k = d + 1 := ⟨k - 1, by have := hk.hk; omega⟩
  have hf := toff_facts V.len
  have hi' : i < toff V.len := by
    rw [← tailOffset_eq, ← tailOffset_cell hlen]
    exact hi
  have hxl : V.len = xs.length := hk.len
  have hr : ¬ ((i : Int) < 0 ∨ (i : Int) ≥ (V.len : Int)) := by omega
  have ht : ¬ i ≥ V.tailOffset := by rw [tailOffset_eq]; omega
  have ht' : ¬ ((i : Int).toNat ≥ V.tailOffset) := by rw [Int.toNat_ofNat]; exact ht
  obtain ⟨W, eW, _⟩ := rep_set ⟨d + 1, hk⟩ (i : Int) x (by omega) (by omega)
  have eW0 := eW
  unfold Vector.Set at eW
  simp only [hr, if_false, Int.toNat_ofNat, ht] at eW
  cases hsn : array.setInNode V.root V.shift i x with
  | none => rw [hsn] at eW; cases eW
  | some r =>
    rw [hsn] at eW
    simp only [Option.some.injEq] at eW
    subst eW
    have hsn' : array.setInNode V.root V.shift (i : Int).toNat x = some r := by
      rw [Int.toNat_ofNat]
      exact hsn
    obtain ⟨p1, h1, e1, hp1, hl1, hn1, hs1⟩ :=
      set_tree_sim (i : Int) x hs hroot hlen hshift hk.shift hr ht' hsn'
    have hsd : s.shift / 5 = d + 1 := by rw [hshift, hk.shift]; omega
    refine ⟨_, _, _, e1, hp1.trans (List.prefix_append _ _), length_le_extend hp1,
      get_concat _ _, rfl, rfl, rfl, ?_, ?_, V, _, hV, hrep0, eW0, ?_, rfl, rfl, rfl, ?_⟩
    · rw [hsd, Nat.add_sub_cancel]
      rw [Int.toNat_ofNat] at hs1
      exact pathShared_frame (le_refl _)
        (fun a c _ hc => get_extend (List.prefix_append _ _) hc) d _ _ hs1
    · rw [List.length_append, hl1, hsd]
      simp
    · exact ⟨_, get_concat _ _, nodeAt_extend (List.prefix_append _ _) hn1,
        get_extend (hp1.trans (List.prefix_append _ _)) htail, hlen, hshift⟩
    · rw [repK_shift_div hk]
      rw [hk.shift] at hsn
      exact setInNode_pathCopied i x d _ _ hsn

theorem set_copies_only_the_path_witness :
    Reached sampleHeap sampleVector ∧ sampleVector = 69 ∧ sampleHeap.length = 70 ∧
    sampleHeap[sampleVector]? = some (Cell.vector sampleCell) ∧
    5 < tailOffset sampleCell ∧
    (Set sampleVector 5 99 sampleHeap).map (fun r => (r.1, r.2.length)) = some (72, 73) ∧
    (Set sampleVector 5 99 sampleHeap).map (fun r => vectorFields r.2 r.1) =
      some (some (some 70, 68, 33, 5)) ∧
    ((Set sampleVector 5 99 >>= fun w => Get w 5 >>= fun a =>
        Get sampleVector 5 >>= fun b => pure (a, b)) sampleHeap).map (fun r => r.1) =
      some ((99, true), (5, true)) ∧
    ∃ w h1 s1, Set sampleVector ((5 : Nat) : Int) 99 sampleHeap = some (w, h1) ∧
      sampleHeap <+: h1 ∧ sampleHeap.length ≤ w ∧
      h1[w]? = some (Cell.vector s1) ∧
      s1.tail = sampleCell.tail ∧ s1.len = sampleCell.len ∧ s1.shift = sampleCell.shift ∧
      pathShared sampleHeap h1 sampleHeap.length 5 99 (sampleCell.shift / 5 - 1)
        sampleCell.root s1.root ∧
      h1.length = sampleHeap.length + (sampleCell.shift / 5 + 1) + 1 ∧
      ∃ V W : Vector Nat, array.Reachable V ∧ VecAt sampleHeap sampleVector V ∧
        V.Set ((5 : Nat) : Int) 99 = some W ∧
        VecAt h1 w W ∧ W.tail = V.tail ∧ W.Len = V.Len ∧ W.shift = V.shift ∧
        pathCopied 5 99 (V.shift / 5) V.root W.root := by
  have hc : sampleHeap[sampleVector]? = some (Cell.vector sampleCell) :=
    cell_of_fields (by decide!)
  have hi : 5 < tailOffset sampleCell := by decide
  exact ⟨sample_reached, by decide!, by decide!, hc, hi, by decide!, by decide!, by decide!,
    set_copies_only_the_path sampleHeap sampleVector sample_reached sampleCell hc 5 99 hi⟩

end arrayHeap

namespace hashmapHeap

open heap hashmap

theorem reads_derefHmapNode {K V : Type} (a : Nat) :
    Reads (derefHmapNode a : M (Cell K V) _) := by
  unfold derefHmapNode
  refine reads_bind (reads_load a) (fun c => ?_)
  cases c <;> first | exact reads_ret _ | exact reads_fail

theorem reads_derefAnys {K V : Type} (s : Option Nat) :
    Reads (derefAnys s : M (Cell K V) _) := by
  unfold derefAnys
  cases s with
  | none => exact reads_ret _
  | some a =>
    refine reads_bind (reads_load a) (fun c => ?_)
    cases c <;> first | exact reads_ret _ | exact reads_fail

theorem reads_derefEntry {K V : Type} (a : Nat) :
    Reads (derefEntry a : M (Cell K V) _) := by
  unfold derefEntry
  refine reads_bind (reads_load a) (fun c => ?_)
  cases c <;> first | exact reads_ret _ | exact reads_fail

theorem reads_derefCollision {K V : Type} (a : Nat) :
    Reads (derefCollision a : M (Cell K V) _) := by
  unfold derefCollision
  refine reads_bind (reads_load a) (fun c => ?_)
  cases c with
  | collision arr =>
    refine reads_bind (reads_load arr) (fun d => ?_)
    cases d <;> first | exact reads_ret _ | exact reads_fail
  | hmapNode _ => exact reads_fail
  | anys _ => exact reads_fail
  | entry _ => exact reads_fail
  | entries _ => exact reads_fail
  | hashMap _ => exact reads_fail

theorem reads_derefHashMap {K V : Type} (a : Nat) :
    Reads (derefHashMap a : M (Cell K V) _) := by
  unfold derefHashMap
  refine reads_bind (reads_load a) (fun c => ?_)
  cases c <;> first | exact reads_ret _ | exact reads_fail

theorem keeps_derefHmapNode_fresh {K V : Type} {n : Nat} (a : Nat) (ha : n ≤ a) :
    Keeps (goodCell n) n (derefHmapNode a : M (Cell K V) _)
      (fun nc => ∀ b, nc.children = some b → n ≤ b) := by
  unfold derefHmapNode
  refine keeps_bind (keeps_load_fresh a ha) (fun c hc => ?_)
  cases c with
  | hmapNode nc => exact keeps_ret _ hc
  | anys _ => exact keeps_fail
  | entry _ => exact keeps_fail
  | collision _ => exact keeps_fail
  | entries _ => exact keeps_fail
  | hashMap _ => exact keeps_fail

theorem keeps_copyAnys {K V : Type} {n : Nat} (arr off window : Nat) (src : List anyPtr)
    (ha : n ≤ arr) :
    Keeps (goodCell n) n (copyAnys arr off window src : M (Cell K V) _) (fun _ => True) := by
  unfold copyAnys
  refine keeps_bind (keeps_load arr) (fun c _ => ?_)
  cases c <;> first | exact keeps_store arr _ ha trivial | exact keeps_fail

theorem keeps_setAny {K V : Type} {n : Nat} (arr i : Nat) (x : anyPtr) (ha : n ≤ arr) :
    Keeps (goodCell n) n (setAny arr i x : M (Cell K V) _) (fun _ => True) := by
  unfold setAny
  refine keeps_bind (keeps_load arr) (fun c _ => ?_)
  cases c with
  | anys d =>
    show Keeps _ _ (if i < d.length then _ else _) _
    split
    · exact keeps_store arr _ ha trivial
    · exact keeps_fail
  | hmapNode _ => exact keeps_fail
  | entry _ => exact keeps_fail
  | collision _ => exact keeps_fail
  | entries _ => exact keeps_fail
  | hashMap _ => exact keeps_fail

theorem keeps_copyEntries {K V : Type} {n : Nat} (arr off window : Nat)
    (src : List (entry K V)) (ha : n ≤ arr) :
    Keeps (goodCell n) n (copyEntries arr off window src : M (Cell K V) _) (fun _ => True) := by
  unfold copyEntries
  refine keeps_bind (keeps_load arr) (fun c _ => ?_)
  cases c <;> first | exact keeps_store arr _ ha trivial | exact keeps_fail

theorem keeps_setEntry {K V : Type} {n : Nat} (arr i : Nat) (e : entry K V) (ha : n ≤ arr) :
    Keeps (goodCell n) n (setEntry arr i e : M (Cell K V) _) (fun _ => True) := by
  unfold setEntry
  refine keeps_bind (keeps_load arr) (fun c _ => ?_)
  cases c with
  | entries d =>
    show Keeps _ _ (if i < d.length then _ else _) _
    split
    · exact keeps_store arr _ ha trivial
    · exact keeps_fail
  | hmapNode _ => exact keeps_fail
  | entry _ => exact keeps_fail
  | collision _ => exact keeps_fail
  | anys _ => exact keeps_fail
  | hashMap _ => exact keeps_fail

theorem keeps_setChild {K V : Type} {n : Nat} (node i : Nat) (x : anyPtr) (ha : n ≤ node) :
    Keeps (goodCell n) n (setChild node i x : M (Cell K V) _) (fun _ => True) := by
  unfold setChild
  refine keeps_bind (keeps_derefHmapNode_fresh node ha) (fun nc hnc => ?_)
  cases hch : nc.children with
  | none => exact keeps_fail
  | some arr => exact keeps_setAny arr i x (hnc arr hch)

theorem keeps_setBitmap {K V : Type} {n : Nat} (node : Nat) (f : Nat → Nat) (ha : n ≤ node) :
    Keeps (goodCell n) n (setBitmap node f : M (Cell K V) _) (fun _ => True) := by
  unfold setBitmap
  refine keeps_bind (keeps_derefHmapNode_fresh node ha) (fun nc hnc => ?_)
  exact keeps_store node _ ha (fun b hb => hnc b hb)

theorem keeps_setChildren {K V : Type} {n : Nat} (node arr : Nat) (ha : n ≤ node)
    (hb : n ≤ arr) :
    Keeps (goodCell n) n (setChildren node arr : M (Cell K V) _) (fun _ => True) := by
  unfold setChildren
  refine keeps_bind (keeps_of_reads (reads_derefHmapNode _)) (fun nc _ => ?_)
  refine keeps_store node _ ha (fun b hb2 => ?_)
  have : arr = b := by simpa using hb2
  omega

theorem keeps_makeAnys {K V : Type} {n : Nat} (k : Nat) :
    Keeps (goodCell n) n (makeAnys k : M (Cell K V) _) (fun a => n ≤ a) :=
  keeps_alloc _ trivial

theorem keeps_makeEntries {K V : Type} [Inhabited K] [Inhabited V] {n : Nat} (k : Nat) :
    Keeps (goodCell n) n (makeEntries k : M (Cell K V) _) (fun a => n ≤ a) :=
  keeps_alloc _ trivial

theorem keeps_newNodeWith {K V : Type} {n : Nat} (bitmap : Nat) (children : List anyPtr) :
    Keeps (goodCell n) n (newNodeWith bitmap children : M (Cell K V) _) (fun a => n ≤ a) := by
  unfold newNodeWith
  refine keeps_bind (keeps_alloc _ trivial) (fun arr harr => ?_)
  refine keeps_alloc _ (fun b hb => ?_)
  have : arr = b := by simpa using hb
  omega

theorem keeps_newCollision {K V : Type} {n : Nat} (es : List (entry K V)) :
    Keeps (goodCell n) n (newCollision es : M (Cell K V) _) (fun a => n ≤ a) := by
  unfold newCollision
  refine keeps_bind (keeps_alloc _ trivial) (fun arr harr => ?_)
  exact keeps_alloc _ trivial

theorem keeps_clone {K V : Type} {n : Nat} (node : Nat) :
    Keeps (goodCell n) n (clone node : M (Cell K V) _) (fun a => n ≤ a) := by
  unfold clone
  refine keeps_bind (keeps_of_reads (reads_derefHmapNode _)) (fun nc _ => ?_)
  refine keeps_bind (keeps_of_reads (reads_derefAnys _)) (fun cs _ => ?_)
  refine keeps_bind (keeps_makeAnys _) (fun newChildren hnew => ?_)
  refine keeps_bind (keeps_copyAnys newChildren _ _ _ hnew) (fun _ _ => ?_)
  refine keeps_alloc _ (fun b hb => ?_)
  have : newChildren = b := by simpa using hb
  omega

theorem keeps_NewHashMap {K V : Type} {n : Nat} (seed : Nat) :
    Keeps (goodCell n) n (NewHashMap seed : M (Cell K V) _) (fun _ => True) := by
  unfold NewHashMap
  refine keeps_bind (keeps_alloc _ (fun b hb => by cases hb)) (fun root _ => ?_)
  exact keeps_weaken (keeps_alloc _ trivial) (fun _ _ => trivial)

theorem keeps_createTwoEntryNode {K V : Type} {n : Nat} (fuel : Nat) :
    ∀ (key1 : K) (val1 : V) (hash1 : Nat) (key2 : K) (val2 : V) (hash2 shift : Nat),
      Keeps (goodCell n) n
        (createTwoEntryNode fuel key1 val1 hash1 key2 val2 hash2 shift : M (Cell K V) _)
        (fun a => n ≤ a) := by
  induction fuel with
  | zero => intro _ _ _ _ _ _ _; exact keeps_fail
  | succ fuel ih =>
    intro key1 val1 hash1 key2 val2 hash2 shift
    unfold createTwoEntryNode
    split
    · exact keeps_bind (keeps_newCollision _) (fun col _ => keeps_newNodeWith _ _)
    · split
      · exact keeps_bind (ih _ _ _ _ _ _ _) (fun child _ => keeps_newNodeWith _ _)
      · split
        · refine keeps_bind (keeps_alloc _ trivial) (fun e1 _ => ?_)
          refine keeps_bind (keeps_alloc _ trivial) (fun e2 _ => ?_)
          exact keeps_newNodeWith _ _
        · refine keeps_bind (keeps_alloc _ trivial) (fun e2 _ => ?_)
          refine keeps_bind (keeps_alloc _ trivial) (fun e1 _ => ?_)
          exact keeps_newNodeWith _ _

theorem keeps_setNode {K V : Type} [DecidableEq K] [Inhabited K] [Inhabited V] {n : Nat}
    (hashOf : K → Nat) (fuel : Nat) :
    ∀ (node : Nat) (key : K) (value : V) (hash shift : Nat),
      Keeps (goodCell n) n (setNode hashOf fuel node key value hash shift : M (Cell K V) _)
        (fun _ => True) := by
  induction fuel with
  | zero => intro _ _ _ _ _; exact keeps_fail
  | succ fuel ih =>
    intro node key value hash shift
    unfold setNode
    refine keeps_bind (keeps_of_reads (reads_derefHmapNode _)) (fun nc _ => ?_)
    refine keeps_bind (keeps_of_reads (reads_derefAnys _)) (fun cs _ => ?_)
    split
    · refine keeps_bind (keeps_clone _) (fun newNode hnew => ?_)
      refine keeps_bind (keeps_setBitmap newNode _ hnew) (fun _ _ => ?_)
      refine keeps_bind (keeps_makeAnys _) (fun newChildren hch => ?_)
      split
      · refine keeps_bind (keeps_copyAnys newChildren _ _ _ hch) (fun _ _ => ?_)
        refine keeps_bind (keeps_alloc _ trivial) (fun e _ => ?_)
        refine keeps_bind (keeps_setAny newChildren _ _ hch) (fun _ _ => ?_)
        refine keeps_bind (keeps_copyAnys newChildren _ _ _ hch) (fun _ _ => ?_)
        refine keeps_bind (keeps_setChildren newNode newChildren hnew hch) (fun _ _ => ?_)
        exact keeps_ret _ trivial
      · exact keeps_fail
    · split
      · exact keeps_fail
      · refine keeps_bind (keeps_clone _) (fun newNode hnew => ?_)
        split
        · refine keeps_bind (ih _ _ _ _ _) (fun r _ => ?_)
          refine keeps_bind (keeps_setChild newNode _ _ hnew) (fun _ _ => ?_)
          exact keeps_ret _ trivial
        · refine keeps_bind (keeps_of_reads (reads_derefEntry _)) (fun e _ => ?_)
          split
          · refine keeps_bind (keeps_alloc _ trivial) (fun ne _ => ?_)
            refine keeps_bind (keeps_setChild newNode _ _ hnew) (fun _ _ => ?_)
            exact keeps_ret _ trivial
          · split
            · refine keeps_bind (keeps_newCollision _) (fun col _ => ?_)
              refine keeps_bind (keeps_setChild newNode _ _ hnew) (fun _ _ => ?_)
              exact keeps_ret _ trivial
            · refine keeps_bind (keeps_createTwoEntryNode _ _ _ _ _ _ _ _) (fun c _ => ?_)
              refine keeps_bind (keeps_setChild newNode _ _ hnew) (fun _ _ => ?_)
              exact keeps_ret _ trivial
        · refine keeps_bind (keeps_of_reads (reads_derefCollision _)) (fun es _ => ?_)
          split
          · refine keeps_bind (keeps_makeEntries _) (fun newEntries hne => ?_)
            refine keeps_bind (keeps_copyEntries newEntries _ _ _ hne) (fun _ _ => ?_)
            refine keeps_bind (keeps_setEntry newEntries _ _ hne) (fun _ _ => ?_)
            refine keeps_bind (keeps_alloc _ trivial) (fun col _ => ?_)
            refine keeps_bind (keeps_setChild newNode _ _ hnew) (fun _ _ => ?_)
            exact keeps_ret _ trivial
          · refine keeps_bind (keeps_makeEntries _) (fun newEntries hne => ?_)
            refine keeps_bind (keeps_copyEntries newEntries _ _ _ hne) (fun _ _ => ?_)
            refine keeps_bind (keeps_setEntry newEntries _ _ hne) (fun _ _ => ?_)
            refine keeps_bind (keeps_alloc _ trivial) (fun col _ => ?_)
            refine keeps_bind (keeps_setChild newNode _ _ hnew) (fun _ _ => ?_)
            exact keeps_ret _ trivial
        · exact keeps_ret _ trivial

theorem keeps_hmSet {K V : Type} [DecidableEq K] [Inhabited K] [Inhabited V] {n : Nat}
    (H : Nat → K → Nat) (m : Nat) (key : K) (value : V) :
    Keeps (goodCell n) n (Set H m key value : M (Cell K V) _) (fun _ => True) := by
  unfold Set
  refine keeps_bind (keeps_of_reads (reads_derefHashMap _)) (fun mc _ => ?_)
  split
  · exact keeps_fail
  · refine keeps_bind (keeps_setNode _ _ _ _ _ _ _) (fun r _ => ?_)
    exact keeps_weaken (keeps_alloc _ trivial) (fun _ _ => trivial)

theorem keeps_removeSlot {K V : Type} {n : Nat} (newNode : Nat) (cs : List anyPtr)
    (idx bit : Nat) (hnew : n ≤ newNode) :
    Keeps (goodCell n) n (removeSlot newNode cs idx bit : M (Cell K V) _) (fun _ => True) := by
  unfold removeSlot
  refine keeps_bind (keeps_setBitmap newNode _ hnew) (fun _ _ => ?_)
  split
  · exact keeps_fail
  · refine keeps_bind (keeps_makeAnys _) (fun newChildren hch => ?_)
    split
    · refine keeps_bind (keeps_copyAnys newChildren _ _ _ hch) (fun _ _ => ?_)
      refine keeps_bind (keeps_copyAnys newChildren _ _ _ hch) (fun _ _ => ?_)
      exact keeps_setChildren newNode newChildren hnew hch
    · exact keeps_fail

theorem keeps_deleteNode {K V : Type} [DecidableEq K] [Inhabited K] [Inhabited V] {n : Nat}
    (fuel : Nat) :
    ∀ (node : Nat) (key : K) (hash shift : Nat),
      Keeps (goodCell n) n (deleteNode fuel node key hash shift : M (Cell K V) _)
        (fun _ => True) := by
  induction fuel with
  | zero => intro _ _ _ _; exact keeps_fail
  | succ fuel ih =>
    intro node key hash shift
    unfold deleteNode
    refine keeps_bind (keeps_of_reads (reads_derefHmapNode _)) (fun nc _ => ?_)
    split
    · exact keeps_ret _ trivial
    · refine keeps_bind (keeps_of_reads (reads_derefAnys _)) (fun cs _ => ?_)
      split
      · exact keeps_fail
      · refine keeps_bind (ih _ _ _ _) (fun r _ => ?_)
        split
        · exact keeps_ret _ trivial
        · refine keeps_bind (keeps_clone _) (fun newNode hnew => ?_)
          refine keeps_bind (keeps_of_reads (reads_derefHmapNode _)) (fun nc2 _ => ?_)
          refine keeps_bind (keeps_of_reads (reads_derefAnys _)) (fun ncs _ => ?_)
          split
          · refine keeps_bind (keeps_removeSlot newNode _ _ _ hnew) (fun _ _ => ?_)
            exact keeps_ret _ trivial
          · split
            · split
              · refine keeps_bind (keeps_setChild newNode _ _ hnew) (fun _ _ => ?_)
                exact keeps_ret _ trivial
              · refine keeps_bind (keeps_setChild newNode _ _ hnew) (fun _ _ => ?_)
                exact keeps_ret _ trivial
            · refine keeps_bind (keeps_setChild newNode _ _ hnew) (fun _ _ => ?_)
              exact keeps_ret _ trivial
      · refine keeps_bind (keeps_of_reads (reads_derefEntry _)) (fun e _ => ?_)
        split
        · exact keeps_ret _ trivial
        · refine keeps_bind (keeps_clone _) (fun newNode hnew => ?_)
          refine keeps_bind (keeps_removeSlot newNode _ _ _ hnew) (fun _ _ => ?_)
          exact keeps_ret _ trivial
      · refine keeps_bind (keeps_of_reads (reads_derefCollision _)) (fun es _ => ?_)
        split
        · exact keeps_ret _ trivial
        · refine keeps_bind (keeps_clone _) (fun newNode hnew => ?_)
          split
          · split
            · refine keeps_bind (keeps_alloc _ trivial) (fun ne _ => ?_)
              refine keeps_bind (keeps_setChild newNode _ _ hnew) (fun _ _ => ?_)
              exact keeps_ret _ trivial
            · exact keeps_fail
          · split
            · exact keeps_fail
            · refine keeps_bind (keeps_makeEntries _) (fun newEntries hne => ?_)
              refine keeps_bind (keeps_copyEntries newEntries _ _ _ hne) (fun _ _ => ?_)
              refine keeps_bind (keeps_copyEntries newEntries _ _ _ hne) (fun _ _ => ?_)
              refine keeps_bind (keeps_alloc _ trivial) (fun col _ => ?_)
              refine keeps_bind (keeps_setChild newNode _ _ hnew) (fun _ _ => ?_)
              exact keeps_ret _ trivial
      · exact keeps_ret _ trivial

theorem keeps_Delete {K V : Type} [DecidableEq K] [Inhabited K] [Inhabited V] {n : Nat}
    (H : Nat → K → Nat) (m : Nat) (key : K) :
    Keeps (goodCell n) n (Delete H m key : M (Cell K V) _) (fun _ => True) := by
  unfold Delete
  refine keeps_bind (keeps_of_reads (reads_derefHashMap _)) (fun mc _ => ?_)
  split
  · exact keeps_ret _ trivial
  · refine keeps_bind (keeps_deleteNode _ _ _ _ _) (fun r _ => ?_)
    split
    · exact keeps_ret _ trivial
    · exact keeps_weaken (keeps_alloc _ trivial) (fun _ _ => trivial)

theorem reads_hmLen {K V : Type} (m : Nat) : Reads (Len m : M (Cell K V) _) := by
  unfold Len
  exact reads_bind (reads_derefHashMap _) (fun mc => reads_ret _)

theorem reads_getNode {K V : Type} [DecidableEq K] [Inhabited V] (fuel : Nat) :
    ∀ (node : Nat) (key : K) (hash shift : Nat),
      Reads (getNode fuel node key hash shift : M (Cell K V) _) := by
  induction fuel with
  | zero => intro _ _ _ _; exact reads_fail
  | succ fuel ih =>
    intro node key hash shift
    unfold getNode
    refine reads_bind (reads_derefHmapNode _) (fun nc => ?_)
    split
    · exact reads_ret _
    · refine reads_bind (reads_derefAnys _) (fun cs => ?_)
      split
      · exact reads_fail
      · exact ih _ _ _ _
      · refine reads_bind (reads_derefEntry _) (fun e => ?_)
        split
        · exact reads_ret _
        · exact reads_ret _
      · exact reads_bind (reads_derefCollision _) (fun es => reads_ret _)
      · exact reads_ret _

theorem reads_hmGet {K V : Type} [DecidableEq K] [Inhabited V] (H : Nat → K → Nat) (m : Nat)
    (key : K) : Reads (Get H m key : M (Cell K V) _) := by
  unfold Get
  refine reads_bind (reads_derefHashMap _) (fun mc => ?_)
  split
  · exact reads_ret _
  · exact reads_getNode _ _ _ _ _

theorem reads_Contains {K V : Type} [DecidableEq K] [Inhabited V] (H : Nat → K → Nat)
    (m : Nat) (key : K) : Reads (Contains H m key : M (Cell K V) _) := by
  unfold Contains
  exact reads_bind (reads_hmGet _ _ _) (fun r => reads_ret _)

theorem reads_forEach {C α β : Type} (f : α → M C (List β)) (hf : ∀ x, Reads (f x)) :
    ∀ l : List α, Reads (forEach f l) := by
  intro l
  induction l with
  | nil => exact reads_ret _
  | cons x rest ih =>
    unfold forEach
    refine reads_bind (hf x) (fun l1 => ?_)
    exact reads_bind ih (fun r => reads_ret _)

theorem reads_iterNode {K V : Type} (fuel : Nat) :
    ∀ node : Nat, Reads (iterNode fuel node : M (Cell K V) _) := by
  induction fuel with
  | zero => intro _; exact reads_fail
  | succ fuel ih =>
    intro node
    unfold iterNode
    refine reads_bind (reads_derefHmapNode _) (fun nc => ?_)
    refine reads_bind (reads_derefAnys _) (fun cs => ?_)
    apply reads_forEach
    intro child
    cases child with
    | null => exact reads_ret _
    | node c => exact ih c
    | entry c => exact reads_bind (reads_derefEntry _) (fun e => reads_ret _)
    | collision c => exact reads_bind (reads_derefCollision _) (fun es => reads_ret _)

theorem reads_hmAll {K V : Type} (m : Nat) : Reads (All m : M (Cell K V) _) := by
  unfold All
  refine reads_bind (reads_derefHashMap _) (fun mc => ?_)
  split
  · exact reads_ret _
  · exact reads_iterNode _ _

theorem reads_Keys {K V : Type} (m : Nat) : Reads (Keys m : M (Cell K V) _) := by
  unfold Keys
  exact reads_bind (reads_hmAll _) (fun l => reads_ret _)

theorem reads_hmValues {K V : Type} (m : Nat) : Reads (Values m : M (Cell K V) _) := by
  unfold Values
  exact reads_bind (reads_hmAll _) (fun l => reads_ret _)

end hashmapHeap

namespace heap

theorem result_of_prefix {C α : Type} {m : M C α} (hm : Reads m) {h h1 : List C}
    (hp : h <+: h1) {x : α} (e : result m h = some x) : result m h1 = some x := by
  obtain ⟨ext, rfl⟩ := hp
  unfold result at e ⊢
  cases hmh : m h with
  | none => rw [hmh] at e; cases e
  | some r =>
    obtain ⟨y, h2⟩ := r
    rw [hmh] at e
    have : y = x := by simpa using e
    subst this
    obtain ⟨_, a2⟩ := hm h y h2 hmh
    rw [a2 ext]
    rfl

end heap

namespace arrayHeap

open heap array

theorem sameResults_of_prefix {T : Type} [Inhabited T] {h h1 : List (Cell T)}
    (hp : h <+: h1) : SameResults h h1 := by
  intro u
  exact ⟨fun _ e => result_of_prefix (reads_Len u) hp e,
    fun i _ e => result_of_prefix (reads_Get u i) hp e,
    fun _ e => result_of_prefix (reads_All u) hp e,
    fun _ e => result_of_prefix (reads_Values u) hp e⟩

theorem append_keeps_heap {T : Type} [Inhabited T] (h h1 : List (Cell T)) (v w : Nat) (x : T)
    (e : Append v x h = some (w, h1)) : h <+: h1 :=
  prefix_of_keeps h h1 w (keeps_Append v x) e

theorem set_keeps_heap {T : Type} [Inhabited T] (h h1 : List (Cell T)) (v w : Nat) (i : Int)
    (x : T) (e : Set v i x h = some (w, h1)) : h <+: h1 :=
  prefix_of_keeps h h1 w (keeps_Set v i x) e

theorem pop_keeps_heap {T : Type} [Inhabited T] (h h1 : List (Cell T)) (v : Nat)
    (r : Nat × T × Bool) (e : Pop v h = some (r, h1)) : h <+: h1 :=
  prefix_of_keeps h h1 r (keeps_Pop v) e

theorem branching_run :
    result branching [] = some (2, (3, true), (100, true), 3, 3, 2) := by
  decide

end arrayHeap

namespace hashmapHeap

open heap hashmap

theorem hmSameResults_of_prefix {K V : Type} [DecidableEq K] [Inhabited V] (H : Nat → K → Nat)
    {h h1 : List (Cell K V)} (hp : h <+: h1) : SameResults H h h1 := by
  intro u
  exact ⟨fun _ e => result_of_prefix (reads_hmLen u) hp e,
    fun k _ e => result_of_prefix (reads_hmGet H u k) hp e,
    fun k _ e => result_of_prefix (reads_Contains H u k) hp e,
    fun _ e => result_of_prefix (reads_hmAll u) hp e,
    fun _ e => result_of_prefix (reads_Keys u) hp e,
    fun _ e => result_of_prefix (reads_hmValues u) hp e⟩

theorem hmSet_keeps_heap {K V : Type} [DecidableEq K] [Inhabited K] [Inhabited V]
    (H : Nat → K → Nat) (h h1 : List (Cell K V)) (m w : Nat) (k : K) (x : V)
    (e : Set H m k x h = some (w, h1)) : h <+: h1 :=
  prefix_of_keeps h h1 w (keeps_hmSet H m k x) e

theorem hmDelete_keeps_heap {K V : Type} [DecidableEq K] [Inhabited K] [Inhabited V]
    (H : Nat → K → Nat) (h h1 : List (Cell K V)) (m w : Nat) (k : K)
    (e : Delete H m k h = some (w, h1)) : h <+: h1 :=
  prefix_of_keeps h h1 w (keeps_Delete H m k) e

end hashmapHeap

namespace array

theorem branches_of_rep {T : Type} [Inhabited T] {v : Vector T} {xs : List T} (h : Rep v xs)
    (a : T) : ∃ w, v.Append a = some w ∧ w.Get (v.Len : Int) = some (a, true) ∧
      w.Len = v.Len + 1 := by
  obtain ⟨w, h1, h2⟩ := rep_append h a
  have hl := rep_len h
  refine ⟨w, h1, ?_, ?_⟩
  · rw [rep_get h2, hl]
    have : (0 : Int) ≤ (xs.length : Int) ∧ ((xs.length : Int)) < ((xs ++ [a]).length : Int) := by
      simp
    simp only [this, and_self, if_true, Int.toNat_ofNat]
    simp [List.getD_eq_getElem?_getD]
  · rw [rep_len h2, hl]; simp

end array

/-- C3.  Non-mutation, on the program with its memory made explicit.  Every Vector mutator
(`Append`, `Set`, `Pop`) and every HashMap mutator (`Set`, `Delete`) leaves every cell of
the heap it starts from as it is (the old heap is an initial segment of the new one), so
every result that `Len`, `Get`, `Contains`, `All`, `Keys` or `Values` returned on any
version before the call is returned after it.  Two `Append`s of `a` and `b` to the same
reachable vector `v` succeed and give branches `A`, `B` with `A.Get(v.Len()) = (a, true)`,
`B.Get(v.Len()) = (b, true)`, both of length `v.Len() + 1`; and in the scenario of the test
(base `[1, 2]`, branches appending 3 and 100) the base has length 2 before and after. -/
theorem non_mutation :
    (∀ (T : Type) [Inhabited T] (h h1 : List (arrayHeap.Cell T)) (v w : Nat) (x : T),
      arrayHeap.Append v x h = some (w, h1) → h <+: h1 ∧ arrayHeap.SameResults h h1) ∧
    (∀ (T : Type) [Inhabited T] (h h1 : List (arrayHeap.Cell T)) (v w : Nat) (i : Int) (x : T),
      arrayHeap.Set v i x h = some (w, h1) → h <+: h1 ∧ arrayHeap.SameResults h h1) ∧
    (∀ (T : Type) [Inhabited T] (h h1 : List (arrayHeap.Cell T)) (v : Nat) (r : Nat × T × Bool),
      arrayHeap.Pop v h = some (r, h1) → h <+: h1 ∧ arrayHeap.SameResults h h1) ∧
    (∀ (K V : Type) [DecidableEq K] [Inhabited K] [Inhabited V] (H : Nat → K → Nat)
      (h h1 : List (hashmapHeap.Cell K V)) (m w : Nat) (k : K) (x : V),
      hashmapHeap.Set H m k x h = some (w, h1) → h <+: h1 ∧ hashmapHeap.SameResults H h h1) ∧
    (∀ (K V : Type) [DecidableEq K] [Inhabited K] [Inhabited V] (H : Nat → K → Nat)
      (h h1 : List (hashmapHeap.Cell K V)) (m w : Nat) (k : K),
      hashmapHeap.Delete H m k h = some (w, h1) → h <+: h1 ∧ hashmapHeap.SameResults H h h1) ∧
    (∀ (T : Type) [Inhabited T] (v : array.Vector T), array.Reachable v → ∀ a b : T,
      ∃ A B, v.Append a = some A ∧ v.Append b = some B ∧
        A.Get (v.Len : Int) = some (a, true) ∧ B.Get (v.Len : Int) = some (b, true) ∧
        A.Len = v.Len + 1 ∧ B.Len = v.Len + 1) ∧
    heap.result arrayHeap.branching [] = some (2, (3, true), (100, true), 3, 3, 2) := by
  refine ⟨?_, ?_, ?_, ?_, ?_, ?_, arrayHeap.branching_run⟩
  · intro T _ h h1 v w x e
    have hp := arrayHeap.append_keeps_heap h h1 v w x e
    exact ⟨hp, arrayHeap.sameResults_of_prefix hp⟩
  · intro T _ h h1 v w i x e
    have hp := arrayHeap.set_keeps_heap h h1 v w i x e
    exact ⟨hp, arrayHeap.sameResults_of_prefix hp⟩
  · intro T _ h h1 v r e
    have hp := arrayHeap.pop_keeps_heap h h1 v r e
    exact ⟨hp, arrayHeap.sameResults_of_prefix hp⟩
  · intro K V _ _ _ H h h1 m w k x e
    have hp := hashmapHeap.hmSet_keeps_heap H h h1 m w k x e
    exact ⟨hp, hashmapHeap.hmSameResults_of_prefix H hp⟩
  · intro K V _ _ _ H h h1 m w k e
    have hp := hashmapHeap.hmDelete_keeps_heap H h h1 m w k e
    exact ⟨hp, hashmapHeap.hmSameResults_of_prefix H hp⟩
  · intro T _ v hv a b
    obtain ⟨xs, hxs⟩ := array.reachable_rep hv
    obtain ⟨A, a1, a2, a3⟩ := array.branches_of_rep hxs a
    obtain ⟨B, b1, b2, b3⟩ := array.branches_of_rep hxs b
    exact ⟨A, B, a1, b1, a2, b2, a3, b3⟩

namespace queue

theorem reverseLoop_head {T : Type} (l : List T) :
    ∀ result : stack T, (reverseLoop l result).head = l.reverse ++ result.head := by
  induction l with
  | nil => intro r; rfl
  | cons x rest ih =>
    intro r
    rw [reverseLoop, ih]
    simp [stack.push]

theorem reverse_head {T : Type} (s : stack T) : s.reverse.head = s.head.reverse := by
  unfold stack.reverse
  rw [reverseLoop_head]
  simp [newStack]

theorem isEmpty_iff {T : Type} (s : stack T) : s.isEmpty = true ↔ s.head = [] := by
  unfold stack.isEmpty
  cases s.head <;> simp

theorem lenOK_new {T : Type} : LenOK (NewQueue : Queue T) := by
  simp [LenOK, NewQueue, newStack]

theorem lenOK_enqueue {T : Type} {q : Queue T} (h : LenOK q) (x : T) : LenOK (q.Enqueue x) := by
  unfold LenOK at h ⊢
  simp only [Queue.Enqueue, stack.push, List.length_cons]
  omega

theorem toList_enqueue {T : Type} (q : Queue T) (x : T) :
    (q.Enqueue x).toList = q.toList ++ [x] := by
  simp [Queue.toList, Queue.Enqueue, stack.push]

theorem toList_nil_iff {T : Type} {q : Queue T} (h : LenOK q) : q.toList = [] ↔ q.len = 0 := by
  unfold LenOK at h
  unfold Queue.toList
  constructor
  · intro e
    obtain ⟨e1, e2⟩ := List.append_eq_nil.mp e
    rw [List.reverse_eq_nil_iff] at e2
    rw [h, e1, e2]
    rfl
  · intro e
    have h1 : q.front.head.length = 0 := by omega
    have h2 : q.rear.head.length = 0 := by omega
    rw [List.length_eq_zero] at h1 h2
    simp [h1, h2]

theorem dequeue_nil {T : Type} [Inhabited T] {q : Queue T} (h : LenOK q) (e : q.toList = []) :
    q.Dequeue = (q, default, false) := by
  have := (toList_nil_iff h).mp e
  simp [Queue.Dequeue, this]

theorem dequeue_cons {T : Type} [Inhabited T] {q : Queue T} (h : LenOK q) {x : T}
    {rest : List T} (e : q.toList = x :: rest) :
    q.Dequeue.2 = (x, true) ∧ q.Dequeue.1.toList = rest ∧ LenOK q.Dequeue.1 ∧
      q.Dequeue.1.len = q.len - 1 := by
  have hne : ¬ q.len = 0 := by
    intro h0
    have := (toList_nil_iff h).mpr h0
    rw [this] at e
    cases e
  unfold LenOK at h
  unfold Queue.toList at e
  cases hf : q.front.head with
  | nil =>
    have hemp : q.front.isEmpty = true := (isEmpty_iff _).mpr hf
    rw [hf] at e h
    simp only [List.nil_append] at e
    have hr : q.rear.reverse.head = x :: rest := by rw [reverse_head, e]
    have hl := congrArg List.length e
    simp only [List.length_reverse, List.length_cons] at hl
    have hd : q.Dequeue =
        ({ front := { head := rest, len := q.rear.reverse.len - 1 }, rear := newStack,
           len := q.len - 1 }, x, true) := by
      unfold Queue.Dequeue
      rw [if_neg hne, if_pos hemp]
      simp [stack.pop, hr]
    rw [hd]
    refine ⟨rfl, ?_, ?_, rfl⟩
    · simp [Queue.toList, newStack]
    · simp only [LenOK, newStack, List.length_nil, List.length_cons] at h ⊢
      omega
  | cons y ys =>
    have hemp : ¬ q.front.isEmpty = true := by
      rw [isEmpty_iff, hf]; simp
    rw [hf] at e h
    simp only [List.cons_append, List.cons.injEq] at e
    have hd : q.Dequeue =
        ({ front := { head := ys, len := q.front.len - 1 }, rear := q.rear,
           len := q.len - 1 }, x, true) := by
      unfold Queue.Dequeue
      rw [if_neg hne, if_neg hemp]
      simp [stack.pop, hf, e.1]
    rw [hd]
    refine ⟨rfl, ?_, ?_, rfl⟩
    · simp [Queue.toList, e.2]
    · simp only [LenOK, List.length_cons] at h ⊢
      omega

theorem lenOK_dequeue {T : Type} [Inhabited T] {q : Queue T} (h : LenOK q) :
    LenOK q.Dequeue.1 := by
  cases e : q.toList with
  | nil => rw [dequeue_nil h e]; exact h
  | cons x rest => exact (dequeue_cons h e).2.2.1

theorem reachable_lenOK {T : Type} [Inhabited T] {q : Queue T} (h : Reachable q) : LenOK q := by
  induction h with
  | new => exact lenOK_new
  | enqueue x _ ih => exact lenOK_enqueue ih x
  | dequeue _ ih => exact lenOK_dequeue ih

theorem run_fifo {T : Type} [Inhabited T] (cs : List (Call T)) :
    ∀ q : Queue T, LenOK q →
      (q.run cs).2 = (fifoSpec q.toList cs).2 ∧ (q.run cs).1.toList = (fifoSpec q.toList cs).1 ∧
      LenOK (q.run cs).1 := by
  induction cs with
  | nil => intro q h; exact ⟨rfl, rfl, h⟩
  | cons c rest ih =>
    intro q h
    cases c with
    | enqueue x =>
      have := ih (q.Enqueue x) (lenOK_enqueue h x)
      rw [toList_enqueue] at this
      simpa [Queue.run, fifoSpec] using this
    | dequeue =>
      cases e : q.toList with
      | nil =>
        have hd := dequeue_nil h e
        have := ih q h
        rw [e] at this
        simp only [Queue.run, fifoSpec, hd]
        exact ⟨by rw [this.1], this.2.1, this.2.2⟩
      | cons x xs =>
        obtain ⟨h1, h2, h3, _⟩ := dequeue_cons h e
        have := ih q.Dequeue.1 h3
        rw [h2] at this
        have h1a : q.Dequeue.2.1 = x := by rw [h1]
        have h1b : q.Dequeue.2.2 = true := by rw [h1]
        simp only [Queue.run, fifoSpec, h1a, h1b]
        exact ⟨by rw [this.1], this.2.1, this.2.2⟩

/-- C21.  For every sequence of `Enqueue` and `Dequeue` calls starting from `NewQueue()`, the
`Dequeue` calls return what the FIFO discipline on a list returns (the oldest value not yet
dequeued with `found = true`, or `found = false` when nothing is stored), and the queue
reached holds, as `front ++ reverse(rear)`, the list the discipline reaches; a `Dequeue` on
a reachable queue holding nothing returns the receiver with `found = false`. -/
theorem queue_is_fifo {T : Type} [Inhabited T] (cs : List (Call T)) :
    ((NewQueue : Queue T).run cs).2 = (fifoSpec [] cs).2 ∧
    ((NewQueue : Queue T).run cs).1.toList = (fifoSpec [] cs).1 ∧
    (∀ q : Queue T, Reachable q → q.toList = [] → q.Dequeue = (q, default, false)) ∧
    (∀ (q : Queue T) (x : T) (rest : List T), Reachable q → q.toList = x :: rest →
      q.Dequeue.2 = (x, true) ∧ q.Dequeue.1.toList = rest) ∧
    (∀ (q : Queue T) (x : T), (q.Enqueue x).toList = q.toList ++ [x]) := by
  have := run_fifo cs (NewQueue : Queue T) lenOK_new
  refine ⟨this.1, this.2.1, ?_, ?_, toList_enqueue⟩
  · intro q hq e
    exact dequeue_nil (reachable_lenOK hq) e
  · intro q x rest hq e
    have := dequeue_cons (reachable_lenOK hq) e
    exact ⟨this.1, this.2.1⟩

theorem peek_eq {T : Type} [Inhabited T] {q : Queue T} (h : LenOK q) :
    q.Peek = q.Dequeue.2 := by
  cases e : q.toList with
  | nil =>
    have h0 := (toList_nil_iff h).mp e
    simp [Queue.Peek, Queue.Dequeue, h0]
  | cons x rest =>
    rw [(dequeue_cons h e).1]
    have hne : ¬ q.len = 0 := by
      intro h0
      have := (toList_nil_iff h).mpr h0
      rw [this] at e
      cases e
    unfold Queue.toList at e
    unfold Queue.Peek
    simp only [hne, if_false]
    cases hf : q.front.head with
    | nil =>
      have hemp : q.front.isEmpty = true := (isEmpty_iff _).mpr hf
      rw [hf] at e
      simp only [List.nil_append] at e
      have hr : q.rear.reverse.head = x :: rest := by rw [reverse_head, e]
      simp [hemp, stack.peek, hr]
    | cons y ys =>
      have hemp : ¬ q.front.isEmpty = true := by
        rw [isEmpty_iff, hf]; simp
      rw [hf] at e
      simp only [List.cons_append, List.cons.injEq] at e
      simp [hemp, stack.peek, hf, e.1]

theorem sampleQueue_reachable : Reachable sampleQueue :=
  Reachable.enqueue 3 (Reachable.dequeue (Reachable.enqueue 2 (Reachable.enqueue 1 Reachable.new)))

theorem rearQueue_reachable : Reachable rearQueue :=
  Reachable.enqueue 2 (Reachable.enqueue 1 Reachable.new)

/-- C22.  On a reachable queue `Peek` returns the value and the flag that `Dequeue` returns:
the first element of `front ++ reverse(rear)` with `ok = true` when the queue holds
something (also when `front` is empty), and `ok = false` when it holds nothing. -/
theorem peek_agrees_with_dequeue {T : Type} [Inhabited T] (q : Queue T) (hq : Reachable q) :
    q.Peek = (q.Dequeue.2.1, q.Dequeue.2.2) ∧
    (∀ (x : T) (rest : List T), q.toList = x :: rest → q.Peek = (x, true)) ∧
    (q.toList = [] → q.Peek.2 = false) ∧
    (q.Peek.2 = true ↔ q.Len ≠ 0) := by
  have h := reachable_lenOK hq
  have hp := peek_eq h
  refine ⟨hp, ?_, ?_, ?_⟩
  · intro x rest e
    rw [hp, (dequeue_cons h e).1]
  · intro e
    rw [hp, dequeue_nil h e]
  · rw [hp]
    cases e : q.toList with
    | nil =>
      have h0 := (toList_nil_iff h).mp e
      rw [dequeue_nil h e]
      simp [Queue.Len, h0]
    | cons x rest =>
      rw [(dequeue_cons h e).1]
      have hne : ¬ q.len = 0 := by
        intro h0
        have := (toList_nil_iff h).mpr h0
        rw [this] at e
        cases e
      simp [Queue.Len, hne]

theorem peek_agrees_with_dequeue_witness :
    Reachable rearQueue ∧
    (rearQueue.Peek = (rearQueue.Dequeue.2.1, rearQueue.Dequeue.2.2) ∧
    (∀ (x : Nat) (rest : List Nat), rearQueue.toList = x :: rest → rearQueue.Peek = (x, true)) ∧
    (rearQueue.toList = [] → rearQueue.Peek.2 = false) ∧
    (rearQueue.Peek.2 = true ↔ rearQueue.Len ≠ 0)) :=
  ⟨rearQueue_reachable, peek_agrees_with_dequeue rearQueue rearQueue_reachable⟩

theorem run_len {T : Type} [Inhabited T] (cs : List (Call T)) :
    ∀ q : Queue T, LenOK q →
      (q.run cs).1.len =
        q.len + (enqueued cs : Int) - (((q.run cs).2.filter (fun r => r.2)).length : Int) := by
  induction cs with
  | nil => intro q _; simp [Queue.run, enqueued]
  | cons c rest ih =>
    intro q h
    cases c with
    | enqueue x =>
      have := ih (q.Enqueue x) (lenOK_enqueue h x)
      simp only [Queue.run, enqueued]
      rw [this]
      simp only [Queue.Enqueue]
      push_cast
      omega
    | dequeue =>
      have := ih q.Dequeue.1 (lenOK_dequeue h)
      simp only [Queue.run, enqueued]
      rw [this]
      cases e : q.toList with
      | nil =>
        rw [dequeue_nil h e]
        simp
      | cons x xs =>
        obtain ⟨h1, _, _, h4⟩ := dequeue_cons h e
        have h1b : q.Dequeue.2.2 = true := by rw [h1]
        rw [h4]
        simp only [List.filter_cons, h1b, if_true, List.length_cons]
        push_cast
        omega

/-- C23.  On a reachable queue `Len` is the number of elements in the front stack plus the
rear stack, `Enqueue` adds one to `Len`, a `Dequeue` that returns `found = true` takes one
from it, and `IsEmpty` is true exactly when no element is stored; after a sequence of calls
from `NewQueue()`, `Len` is the number of `Enqueue` calls minus the number of `Dequeue`
calls that returned `found = true`. -/
theorem length_tracking {T : Type} [Inhabited T] (q : Queue T) (hq : Reachable q) :
    q.Len = ((q.front.head.length + q.rear.head.length : Nat) : Int) ∧
    (∀ x : T, (q.Enqueue x).Len = q.Len + 1) ∧
    (q.Dequeue.2.2 = true → q.Dequeue.1.Len = q.Len - 1) ∧
    (q.IsEmpty = true ↔ q.front.head.length + q.rear.head.length = 0) ∧
    (∀ cs : List (Call T),
      ((NewQueue : Queue T).run cs).1.Len =
        (enqueued cs : Int) -
          ((((NewQueue : Queue T).run cs).2.filter (fun r => r.2)).length : Int)) := by
  have h := reachable_lenOK hq
  refine ⟨h, fun _ => rfl, ?_, ?_, ?_⟩
  · intro hd
    cases e : q.toList with
    | nil => rw [dequeue_nil h e] at hd; cases hd
    | cons x rest => exact (dequeue_cons h e).2.2.2
  · unfold LenOK at h
    simp only [Queue.IsEmpty, decide_eq_true_eq]
    omega
  · intro cs
    have := run_len cs (NewQueue : Queue T) lenOK_new
    simp only [Queue.Len]
    rw [this]
    simp [NewQueue]

theorem length_tracking_witness :
    Reachable sampleQueue ∧
    (sampleQueue.Len =
      ((sampleQueue.front.head.length + sampleQueue.rear.head.length : Nat) : Int) ∧
    (∀ x : Nat, (sampleQueue.Enqueue x).Len = sampleQueue.Len + 1) ∧
    (sampleQueue.Dequeue.2.2 = true → sampleQueue.Dequeue.1.Len = sampleQueue.Len - 1) ∧
    (sampleQueue.IsEmpty = true ↔
      sampleQueue.front.head.length + sampleQueue.rear.head.length = 0) ∧
    (∀ cs : List (Call Nat),
      ((NewQueue : Queue Nat).run cs).1.Len =
        (enqueued cs : Int) -
          ((((NewQueue : Queue Nat).run cs).2.filter (fun r => r.2)).length : Int))) :=
  ⟨sampleQueue_reachable, length_tracking sampleQueue sampleQueue_reachable⟩

theorem dequeueAll_eq {T : Type} [Inhabited T] :
    ∀ (n : Nat) (q : Queue T), LenOK q → q.toList.length ≤ n → dequeueAll n q = q.toList := by
  intro n
  induction n with
  | zero =>
    intro q _ hn
    have : q.toList = [] := List.length_eq_zero.mp (by omega)
    rw [this]; rfl
  | succ n ih =>
    intro q h hn
    cases e : q.toList with
    | nil =>
      simp [dequeueAll, dequeue_nil h e]
    | cons x rest =>
      obtain ⟨h1, h2, h3, _⟩ := dequeue_cons h e
      have h1a : q.Dequeue.2.1 = x := by rw [h1]
      have h1b : q.Dequeue.2.2 = true := by rw [h1]
      rw [e] at hn
      simp only [List.length_cons] at hn
      simp only [dequeueAll, h1a, h1b, if_true]
      rw [ih q.Dequeue.1 h3 (by rw [h2]; omega), h2]

theorem allLoop_eq {T σ : Type} [Inhabited T] (yield : T → σ → σ × Bool) :
    ∀ (fuel : Nat) (q : Queue T) (s : σ), LenOK q → q.toList.length ≤ fuel →
      allLoop yield fuel q s = some (iter.feed yield q.toList s) := by
  intro fuel
  induction fuel with
  | zero =>
    intro q s h hn
    have e : q.toList = [] := List.length_eq_zero.mp (by omega)
    have h0 := (toList_nil_iff h).mp e
    simp [allLoop, h0, e, iter.feed]
  | succ fuel ih =>
    intro q s h hn
    cases e : q.toList with
    | nil =>
      have h0 := (toList_nil_iff h).mp e
      simp [allLoop, h0, iter.feed]
    | cons x rest =>
      obtain ⟨h1, h2, h3, _⟩ := dequeue_cons h e
      have h1a : q.Dequeue.2.1 = x := by rw [h1]
      have hpos : q.len > 0 := by
        have hne : ¬ q.len = 0 := by
          intro h0
          have := (toList_nil_iff h).mpr h0
          rw [this] at e
          cases e
        unfold LenOK at h
        omega
      rw [e] at hn
      simp only [List.length_cons] at hn
      simp only [allLoop, hpos, if_true, h1a, iter.feed]
      by_cases hc : (yield x s).2 = true
      · rw [if_pos hc, if_pos hc, ih q.Dequeue.1 _ h3 (by rw [h2]; omega), h2]
      · rw [if_neg hc, if_neg hc]

/-- C24.  On a reachable queue the loop of `All` ends within `Len` rounds, and it passes to
its consumer exactly `Len` values: the values that successive `Dequeue` calls return, in
that order. -/
theorem queue_traversal {T : Type} [Inhabited T] (q : Queue T) (hq : Reachable q) :
    ∃ es : List T, (es.length : Int) = q.Len ∧ es = dequeueAll es.length q ∧
      (∀ n, es.length ≤ n → dequeueAll n q = es) ∧
      (∀ (σ : Type) (yield : T → σ → σ × Bool) (s : σ) (fuel : Nat), q.Len.toNat ≤ fuel →
        q.All fuel yield s = some (iter.feed yield es s)) := by
  have h := reachable_lenOK hq
  have hl : (q.toList.length : Int) = q.len := by
    unfold LenOK at h
    simp [Queue.toList, h]
  refine ⟨q.toList, hl, (dequeueAll_eq _ q h (le_refl _)).symm, ?_, ?_⟩
  · intro n hn
    exact dequeueAll_eq n q h hn
  · intro σ yield s fuel hf
    have : q.toList.length ≤ fuel := by
      have : q.Len = q.len := rfl
      omega
    exact allLoop_eq yield fuel q s h this

theorem queue_traversal_witness :
    Reachable sampleQueue ∧
    ∃ es : List Nat, (es.length : Int) = sampleQueue.Len ∧
      es = dequeueAll es.length sampleQueue ∧
      (∀ n, es.length ≤ n → dequeueAll n sampleQueue = es) ∧
      (∀ (σ : Type) (yield : Nat → σ → σ × Bool) (s : σ) (fuel : Nat),
        sampleQueue.Len.toNat ≤ fuel →
        sampleQueue.All fuel yield s = some (iter.feed yield es s)) :=
  ⟨sampleQueue_reachable, queue_traversal sampleQueue sampleQueue_reachable⟩

end queue

namespace history

theorem index_of_lt {T : Type} (s : List T) (i : Int) (h0 : 0 ≤ i) (h1 : i < (s.length : Int)) :
    ∃ x, index s i = some x ∧ s[i.toNat]? = some x := by
  have hlt : i.toNat < s.length := by omega
  have hn : ¬ i < 0 := by omega
  refine ⟨s[i.toNat], ?_, List.getElem?_eq_getElem hlt⟩
  unfold index
  rw [if_neg hn, List.getElem?_eq_getElem hlt]

theorem commit_eq {T : Type} (h : History T) (x : T) (h0 : 0 ≤ h.current)
    (h1 : h.current < (h.versions.length : Int)) :
    h.Commit x = some { versions := h.versions.take (h.current + 1).toNat ++ [x],
                        current := h.current + 1 } := by
  unfold History.Commit
  rw [if_pos (by omega)]

theorem undo_eq {T : Type} [Inhabited T] (h : History T) (h0 : 0 < h.current)
    (h1 : h.current < (h.versions.length : Int)) :
    ∃ x, index h.versions (h.current - 1) = some x ∧
      h.Undo = some ({ versions := h.versions, current := h.current - 1 }, x, true) := by
  obtain ⟨x, e, _⟩ := index_of_lt h.versions (h.current - 1) (by omega) (by omega)
  refine ⟨x, e, ?_⟩
  unfold History.Undo
  rw [if_pos h0, e]

theorem redo_eq {T : Type} [Inhabited T] (h : History T) (h0 : 0 ≤ h.current)
    (h1 : h.current < (h.versions.length : Int) - 1) :
    ∃ x, index h.versions (h.current + 1) = some x ∧
      h.Redo = some ({ versions := h.versions, current := h.current + 1 }, x, true) := by
  obtain ⟨x, e, _⟩ := index_of_lt h.versions (h.current + 1) (by omega) (by omega)
  refine ⟨x, e, ?_⟩
  unfold History.Redo
  rw [if_pos h1, e]

theorem reachable_index {T : Type} [Inhabited T] {h : History T} (hr : Reachable h) :
    0 ≤ h.current ∧ h.current < (h.versions.length : Int) := by
  induction hr with
  | new initial => simp [NewHistory]
  | commit x _ e ih =>
    rw [commit_eq _ x ih.1 ih.2] at e
    cases e
    simp only [List.length_append, List.length_take, List.length_singleton]
    omega
  | undo _ e ih =>
    rename_i g g' y b _
    by_cases hc : g.current > 0
    · obtain ⟨x, _, e2⟩ := undo_eq g hc ih.2
      rw [e2] at e
      cases e
      show 0 ≤ g.current - 1 ∧ g.current - 1 < (g.versions.length : Int)
      omega
    · unfold History.Undo at e
      rw [if_neg hc] at e
      cases e
      exact ih
  | redo _ e ih =>
    rename_i g g' y b _
    by_cases hc : g.current < (g.versions.length : Int) - 1
    · obtain ⟨x, _, e2⟩ := redo_eq g ih.1 hc
      rw [e2] at e
      cases e
      show 0 ≤ g.current + 1 ∧ g.current + 1 < (g.versions.length : Int)
      omega
    · unfold History.Redo at e
      rw [if_neg hc] at e
      cases e
      exact ih

theorem sampleHistory_reachable : Reachable sampleHistory :=
  Reachable.commit 3 (Reachable.commit 2 (Reachable.new 1) rfl) rfl

theorem undoneHistory_reachable : Reachable undoneHistory :=
  Reachable.undo sampleHistory_reachable rfl

/-- C25.  In a reachable state with `CanUndo() = true`, `Undo` returns the version at index
`current - 1` with `found = true`, a `Redo` after it returns the version that was current
before the `Undo` with `found = true`, and after the two calls the state is the one before
them: `Current`, `CurrentIndex` and `VersionCount` are the same. -/
theorem undo_redo_round_trip {T : Type} [Inhabited T] (h : History T) (hr : Reachable h)
    (hc : h.CanUndo = true) :
    ∃ h1 h2 x y, h.Undo = some (h1, x, true) ∧ index h.versions (h.current - 1) = some x ∧
      h1.Redo = some (h2, y, true) ∧ h.Current = some y ∧
      h2.Current = h.Current ∧ h2.CurrentIndex = h.CurrentIndex ∧
      h2.VersionCount = h.VersionCount ∧ h2 = h := by
  obtain ⟨h0, h1⟩ := reachable_index hr
  have hpos : 0 < h.current := by simpa [History.CanUndo] using hc
  obtain ⟨x, e1, e2⟩ := undo_eq h hpos h1
  obtain ⟨y, e3, e4⟩ := redo_eq { versions := h.versions, current := h.current - 1 }
    (by show 0 ≤ h.current - 1; omega) (by show h.current - 1 < (h.versions.length : Int) - 1; omega)
  have e5 : h.current - 1 + 1 = h.current := by omega
  simp only [e5] at e3 e4
  have e6 : ({ versions := h.versions, current := h.current } : History T) = h := rfl
  rw [e6] at e4
  exact ⟨_, h, x, y, e2, e1, e4, e3, rfl, rfl, rfl, rfl⟩

theorem undo_redo_round_trip_witness :
    Reachable sampleHistory ∧ sampleHistory.CanUndo = true ∧
    ∃ h1 h2 x y, sampleHistory.Undo = some (h1, x, true) ∧
      index sampleHistory.versions (sampleHistory.current - 1) = some x ∧
      h1.Redo = some (h2, y, true) ∧ sampleHistory.Current = some y ∧
      h2.Current = sampleHistory.Current ∧ h2.CurrentIndex = sampleHistory.CurrentIndex ∧
      h2.VersionCount = sampleHistory.VersionCount ∧ h2 = sampleHistory :=
  ⟨sampleHistory_reachable, by decide,
    undo_redo_round_trip sampleHistory sampleHistory_reachable (by decide)⟩

/-- C26.  In a reachable state with current index `c`, `Commit x` succeeds, and after it
`Current() = x`, `CurrentIndex() = c + 1`, `VersionCount() = c + 2`, the versions at the
indices `0..c` are the same as before, `CanRedo()` is false and `Redo()` returns
`found = false`. -/
theorem commit_discards_redo {T : Type} [Inhabited T] (h : History T) (hr : Reachable h)
    (x : T) :
    ∃ h', h.Commit x = some h' ∧ h'.Current = some x ∧
      h'.CurrentIndex = h.CurrentIndex + 1 ∧ h'.VersionCount = h.CurrentIndex + 2 ∧
      (∀ i : Int, 0 ≤ i → i ≤ h.CurrentIndex → index h'.versions i = index h.versions i) ∧
      h'.CanRedo = false ∧ h'.Redo = some (h', default, false) := by
  obtain ⟨h0, h1⟩ := reachable_index hr
  have hlen : (h.versions.take (h.current + 1).toNat ++ [x]).length = (h.current + 1).toNat + 1 := by
    simp only [List.length_append, List.length_take, List.length_singleton]
    omega
  have hcast : (((h.versions.take (h.current + 1).toNat ++ [x]).length : Nat) : Int)
      = h.current + 2 := by
    rw [hlen]; omega
  have hnr : ¬ (h.current + 1 <
      (((h.versions.take (h.current + 1).toNat ++ [x]).length : Nat) : Int) - 1) := by
    rw [hcast]; omega
  refine ⟨_, commit_eq h x h0 h1, ?_, rfl, ?_, ?_, ?_, ?_⟩
  · show index _ (h.current + 1) = some x
    unfold index
    rw [if_neg (by omega)]
    have hlt : (h.current + 1).toNat = (h.versions.take (h.current + 1).toNat).length := by
      simp only [List.length_take]; omega
    show (h.versions.take (h.current + 1).toNat ++ [x])[(h.current + 1).toNat]? = some x
    generalize h.versions.take (h.current + 1).toNat = l at hlt
    rw [hlt, List.getElem?_concat_length]
  · show (((h.versions.take (h.current + 1).toNat ++ [x]).length : Nat) : Int) = h.current + 2
    exact hcast
  · intro i hi0 hi1
    have hi2 : i ≤ h.current := hi1
    show index (h.versions.take (h.current + 1).toNat ++ [x]) i = index h.versions i
    unfold index
    rw [if_neg (by omega), if_neg (by omega)]
    have hlt : i.toNat < (h.versions.take (h.current + 1).toNat).length := by
      simp only [List.length_take]; omega
    rw [List.getElem?_append_left hlt, List.getElem?_take_of_lt (by omega)]
  · simp only [History.CanRedo, decide_eq_false_iff_not]
    exact hnr
  · unfold History.Redo
    rw [if_neg hnr]

theorem commit_discards_redo_witness :
    Reachable undoneHistory ∧
    ∃ h', undoneHistory.Commit 9 = some h' ∧ h'.Current = some 9 ∧
      h'.CurrentIndex = undoneHistory.CurrentIndex + 1 ∧
      h'.VersionCount = undoneHistory.CurrentIndex + 2 ∧
      (∀ i : Int, 0 ≤ i → i ≤ undoneHistory.CurrentIndex →
        index h'.versions i = index undoneHistory.versions i) ∧
      h'.CanRedo = false ∧ h'.Redo = some (h', default, false) :=
  ⟨undoneHistory_reachable, commit_discards_redo undoneHistory undoneHistory_reachable 9⟩

/-- C27.  In a reachable state `Undo` returns a result whose flag is `found = true` exactly
when `CanUndo()` was true (current index > 0), `Redo` one whose flag is `found = true`
exactly when `CanRedo()` was true (current index < `VersionCount() - 1`), and a call that
returns `found = false` leaves the versions and the current index as they were. -/
theorem history_limits {T : Type} [Inhabited T] (h : History T) (hr : Reachable h) :
    (∃ h1 x b, h.Undo = some (h1, x, b) ∧ (b = true ↔ h.CanUndo = true) ∧
      (h.CanUndo = true ↔ h.CurrentIndex > 0) ∧ (b = false → h1 = h)) ∧
    (∃ h2 y c, h.Redo = some (h2, y, c) ∧ (c = true ↔ h.CanRedo = true) ∧
      (h.CanRedo = true ↔ h.CurrentIndex < h.VersionCount - 1) ∧ (c = false → h2 = h)) := by
  obtain ⟨h0, h1⟩ := reachable_index hr
  constructor
  · by_cases hc : h.current > 0
    · obtain ⟨x, _, e⟩ := undo_eq h hc h1
      refine ⟨_, x, true, e, by simp [History.CanUndo, hc], by simp [History.CanUndo, History.CurrentIndex], by simp⟩
    · refine ⟨h, default, false, ?_, by simp [History.CanUndo, hc], by simp [History.CanUndo, History.CurrentIndex], fun _ => rfl⟩
      unfold History.Undo
      rw [if_neg hc]
  · by_cases hc : h.current < (h.versions.length : Int) - 1
    · obtain ⟨x, _, e⟩ := redo_eq h h0 hc
      refine ⟨_, x, true, e, by simp [History.CanRedo, hc], by simp [History.CanRedo, History.CurrentIndex, History.VersionCount], by simp⟩
    · refine ⟨h, default, false, ?_, by simp [History.CanRedo, hc], by simp [History.CanRedo, History.CurrentIndex, History.VersionCount], fun _ => rfl⟩
      unfold History.Redo
      rw [if_neg hc]

theorem history_limits_witness :
    Reachable sampleHistory ∧
    ((∃ h1 x b, sampleHistory.Undo = some (h1, x, b) ∧ (b = true ↔ sampleHistory.CanUndo = true) ∧
      (sampleHistory.CanUndo = true ↔ sampleHistory.CurrentIndex > 0) ∧
      (b = false → h1 = sampleHistory)) ∧
    (∃ h2 y c, sampleHistory.Redo = some (h2, y, c) ∧ (c = true ↔ sampleHistory.CanRedo = true) ∧
      (sampleHistory.CanRedo = true ↔
        sampleHistory.CurrentIndex < sampleHistory.VersionCount - 1) ∧
      (c = false → h2 = sampleHistory))) :=
  ⟨sampleHistory_reachable, history_limits sampleHistory sampleHistory_reachable⟩

/-- C40.  In every state reachable from `NewHistory(initial)` by `Commit`, `Undo` and `Redo`,
`0 ≤ current < len(versions)` and `len(versions) ≥ 1`; `Current()` returns a version (its
index is in range) and `Commit` succeeds (its slice expression is in range). -/
theorem index_invariant {T : Type} [Inhabited T] (h : History T) (hr : Reachable h) :
    0 ≤ h.current ∧ h.current < (h.versions.length : Int) ∧ 1 ≤ h.versions.length ∧
    (∃ x, h.Current = some x) ∧ (∀ x : T, ∃ h', h.Commit x = some h') ∧
    (∃ h1 x b, h.Undo = some (h1, x, b)) ∧ (∃ h2 y c, h.Redo = some (h2, y, c)) := by
  obtain ⟨h0, h1⟩ := reachable_index hr
  refine ⟨h0, h1, by omega, ?_, ?_, ?_, ?_⟩
  · obtain ⟨x, e, _⟩ := index_of_lt h.versions h.current h0 h1
    exact ⟨x, e⟩
  · intro x
    exact ⟨_, commit_eq h x h0 h1⟩
  · by_cases hc : h.current > 0
    · obtain ⟨x, _, e⟩ := undo_eq h hc h1
      exact ⟨_, x, true, e⟩
    · refine ⟨h, default, false, ?_⟩
      unfold History.Undo
      rw [if_neg hc]
  · by_cases hc : h.current < (h.versions.length : Int) - 1
    · obtain ⟨x, _, e⟩ := redo_eq h h0 hc
      exact ⟨_, x, true, e⟩
    · refine ⟨h, default, false, ?_⟩
      unfold History.Redo
      rw [if_neg hc]

theorem index_invariant_witness :
    Reachable undoneHistory ∧
    (0 ≤ undoneHistory.current ∧ undoneHistory.current < (undoneHistory.versions.length : Int) ∧
    1 ≤ undoneHistory.versions.length ∧
    (∃ x, undoneHistory.Current = some x) ∧ (∀ x : Nat, ∃ h', undoneHistory.Commit x = some h') ∧
    (∃ h1 x b, undoneHistory.Undo = some (h1, x, b)) ∧
    (∃ h2 y c, undoneHistory.Redo = some (h2, y, c))) :=
  ⟨undoneHistory_reachable, index_invariant undoneHistory undoneHistory_reachable⟩

end history
